import Mathlib

/-!
# Sveltia CMS: commit messages, the GitLab file fetcher, entry files and the configuration

A shallow embedding of

* `src/lib/services/backends/git/shared/commits.js` (`createCommitMessage`),
* `src/lib/services/backends/gitlab/files.js` (`fetchFileList`, `fetchBlobs`, `fetchCommits`,
  `parseFileContents`, `fetchFileContents`),
* `src/lib/services/config/deprecations.js` (`warnDeprecation`),
* the functions of `src/lib/services/contents/file/config` (`detectFileExtension`,
  `detectFileFormat`, `getFrontMatterDelimiters`, `getEntryPathRegEx`, `getFileConfig`), of
  `src/lib/services/contents/file/format` (`formatJSON`, `formatFrontMatter`,
  `formatEntryFile`) and of `src/lib/services/config/parser/fields` (`parseFields`), modelled
  from the specification and the test files since their sources are not available,

followed by theorems about them.

JavaScript strings are modelled by Lean strings (sequences of Unicode scalar values, so
well-formed UTF-16 only).  Every search pattern used by the code is ASCII, hence matching on
code points and matching on UTF-16 code units agree on such strings.
-/

set_option autoImplicit false

namespace Sveltia

/-! ## JavaScript string primitives -/

namespace JS

/-- The `GetSubstitution` operation of ECMAScript for a string pattern (no capture groups, no
named groups): in the replacement template `$$` stands for a dollar sign, `$&` for the matched
text, `` $` `` for the text before the match and `$'` for the text after it.  Every other
character, including a dollar sign followed by a digit or by `<`, stands for itself.  The flag
tells that the character just read was a dollar sign whose meaning is still open. -/
def getSubstitutionGo (matched before after : List Char) : Bool → List Char → List Char
  | false, [] => []
  | true, [] => ['$']
  | false, c :: t =>
    if c = '$' then getSubstitutionGo matched before after true t
    else c :: getSubstitutionGo matched before after false t
  | true, d :: t =>
    if d = '$' then '$' :: getSubstitutionGo matched before after false t
    else if d = '&' then matched ++ getSubstitutionGo matched before after false t
    else if d = '\x60' then before ++ getSubstitutionGo matched before after false t
    else if d = '\x27' then after ++ getSubstitutionGo matched before after false t
    else '$' :: d :: getSubstitutionGo matched before after false t

/-- The replacement text for one match (`GetSubstitution` with an empty capture list). -/
def getSubstitution (matched before after repl : List Char) : List Char :=
  getSubstitutionGo matched before after false repl

/-- The scan of `String.prototype.replaceAll(search, repl)` for a string pattern.  The first
argument is the rest of the subject, `before` the part of the subject already passed and `skip`
the number of characters of the current match still to be dropped.  Matches are found from left
to right and do not overlap; each is replaced by `getSubstitution`. -/
def replaceAllGo (search repl : List Char) : List Char → List Char → Nat → List Char
  | [], before, _ => if search = [] then getSubstitution search before [] repl else []
  | c :: cs, before, skip =>
    match skip with
    | k + 1 => replaceAllGo search repl cs (before ++ [c]) k
    | 0 =>
      if search.isPrefixOf (c :: cs) then
        getSubstitution search before ((c :: cs).drop search.length) repl ++
          (match search.length with
            | 0 => c :: replaceAllGo search repl cs (before ++ [c]) 0
            | k + 1 => replaceAllGo search repl cs (before ++ [c]) k)
      else c :: replaceAllGo search repl cs (before ++ [c]) 0

/-- Model of `subject.replaceAll(search, repl)` with a string pattern and a string replacement. -/
def replaceAll (subject search repl : String) : String :=
  ⟨replaceAllGo search.data repl.data subject.data [] 0⟩

/-- Model of `a || b` where `a` is a string or `undefined`: `a` when it is truthy (a non-empty
string), otherwise `b`. -/
def orElse (a : Option String) (b : String) : String :=
  match a with
  | some s => if s = "" then b else s
  | none => b

/-- The conversion `ToString` applied to a value that is a string or `undefined`. -/
def toStringOrUndefined : Option String → String
  | some s => s
  | none => "undefined"

end JS

/-! ## Commit messages (`commits.js`) -/

/-- The commit types, the keys of `DEFAULT_COMMIT_MESSAGES`. -/
inductive CommitType
  | create
  | update
  | delete
  | uploadMedia
  | deleteMedia
  | openAuthoring
  deriving DecidableEq, Repr

/-- The JavaScript string naming a commit type. -/
def CommitType.toString : CommitType → String
  | .create => "create"
  | .update => "update"
  | .delete => "delete"
  | .uploadMedia => "uploadMedia"
  | .deleteMedia => "deleteMedia"
  | .openAuthoring => "openAuthoring"

/-- The fields of a `FileChange` read by `createCommitMessage`. -/
structure FileChange where
  path : String
  slug : Option String
  deriving DecidableEq, Repr

/-- The `CommitOptions` argument; `none` stands for a property that is `undefined`.  The
collection type `κ` is not declared in the sources and is kept abstract. -/
structure CommitOptions (κ : Type) where
  commitType : Option CommitType
  collection : Option κ
  skipCI : Option Bool

/-- The `backend` section of the site configuration, as read by `createCommitMessage`. -/
structure BackendConfig where
  commit_messages : Option (CommitType → Option String)
  automatic_deployments : Option Bool

/-- The signed-in user, as read by `createCommitMessage`. -/
structure User where
  login : Option String
  name : Option String

/-- What `createCommitMessage` reads from its surroundings: the `siteConfig` and `user` stores
and the imported `getCollectionLabel(collection, { useSingular })`, whose source is not part of
the development and is taken as a parameter. -/
structure CommitEnv (κ : Type) where
  backend : BackendConfig
  user : User
  getCollectionLabel : κ → Bool → String

/-- Default commit message templates. -/
def DEFAULT_COMMIT_MESSAGES : CommitType → String
  | .create => "Create \x7b\x7bcollection\x7d\x7d “\x7b\x7bslug\x7d\x7d”"
  | .update => "Update \x7b\x7bcollection\x7d\x7d “\x7b\x7bslug\x7d\x7d”"
  | .delete => "Delete \x7b\x7bcollection\x7d\x7d “\x7b\x7bslug\x7d\x7d”"
  | .uploadMedia => "Upload “\x7b\x7bpath\x7d\x7d”"
  | .deleteMedia => "Delete “\x7b\x7bpath\x7d\x7d”"
  | .openAuthoring => "\x7b\x7bmessage\x7d\x7d"

/-- The value of `commitType` after the parameter default `commitType = 'update'`. -/
def commitTypeOf {κ : Type} (options : CommitOptions κ) : CommitType :=
  options.commitType.getD .update

/-- Line 47: `const [firstSlug = ''] = changes.map((item) => item.slug).filter(Boolean)`. -/
def firstSlug (changes : List FileChange) : String :=
  (((changes.map (fun item => item.slug)).filter
      (fun s => match s with
        | some v => decide (v ≠ "")
        | none => false)).head?.join).getD ""

/-- Line 48, first component: `const [firstPath, ...] = changes.map(({ path }) => path)`. -/
def firstPath (changes : List FileChange) : Option String :=
  (changes.map (fun c => c.path)).head?

/-- Line 48, rest component: `const [, ...remainingPaths] = changes.map(({ path }) => path)`. -/
def remainingPaths (changes : List FileChange) : List String :=
  (changes.map (fun c => c.path)).tail

/-- Line 49: the singular collection label, or the empty string without a collection. -/
def collectionLabel {κ : Type} (env : CommitEnv κ) (options : CommitOptions κ) : String :=
  match options.collection with
  | some c => env.getCollectionLabel c true
  | none => ""

/-- Line 51: `customCommitMessages[commitType] || DEFAULT_COMMIT_MESSAGES[commitType] || ''`. -/
def selectTemplate {κ : Type} (env : CommitEnv κ) (options : CommitOptions κ) : String :=
  let customCommitMessages := env.backend.commit_messages.getD (fun _ => none)
  JS.orElse (customCommitMessages (commitTypeOf options))
    (JS.orElse (some (DEFAULT_COMMIT_MESSAGES (commitTypeOf options))) "")

/-- Lines 46 to 78 applied to a template `message`: the substitutions made for each group of
commit types. -/
def substituteTemplate {κ : Type} (env : CommitEnv κ) (changes : List FileChange)
    (options : CommitOptions κ) (message : String) : String :=
  let commitType := commitTypeOf options
  let login := env.user.login.getD ""
  let name := env.user.name.getD ""
  let message :=
    if commitType ∈ [CommitType.create, .update, .delete] then
      JS.replaceAll
        (JS.replaceAll
          (JS.replaceAll
            (JS.replaceAll
              (JS.replaceAll message "\x7b\x7bslug\x7d\x7d" (firstSlug changes))
              "\x7b\x7bcollection\x7d\x7d" (collectionLabel env options))
            "\x7b\x7bpath\x7d\x7d" (JS.toStringOrUndefined (firstPath changes)))
          "\x7b\x7bauthor-login\x7d\x7d" login)
        "\x7b\x7bauthor-name\x7d\x7d" name
    else message
  let message :=
    if commitType ∈ [CommitType.uploadMedia, .deleteMedia] then
      let message :=
        JS.replaceAll
          (JS.replaceAll
            (JS.replaceAll message "\x7b\x7bpath\x7d\x7d"
              (JS.toStringOrUndefined (firstPath changes)))
            "\x7b\x7bauthor-login\x7d\x7d" login)
          "\x7b\x7bauthor-name\x7d\x7d" name
      if (remainingPaths changes).length ≠ 0 then
        message ++ " +" ++ toString (remainingPaths changes).length
      else message
    else message
  let message :=
    if commitType ∈ [CommitType.openAuthoring] then
      JS.replaceAll
        (JS.replaceAll
          (JS.replaceAll message "\x7b\x7bmessage\x7d\x7d" commitType.toString)
          "\x7b\x7bauthor-login\x7d\x7d" login)
        "\x7b\x7bauthor-name\x7d\x7d" name
    else message
  message

/-- The message of `createCommitMessage` before the skip-CI step (lines 39 to 78). -/
def substitutedMessage {κ : Type} (env : CommitEnv κ) (changes : List FileChange)
    (options : CommitOptions κ) : String :=
  substituteTemplate env changes options (selectTemplate env options)

/-- Lines 86 to 89: the condition under which the `[skip ci]` marker is prepended. -/
def skipCIApplies {κ : Type} (env : CommitEnv κ) (options : CommitOptions κ) : Bool :=
  !(decide (commitTypeOf options ∈ [CommitType.delete, .deleteMedia])) &&
    (match options.skipCI with
      | none => decide (env.backend.automatic_deployments = some false)
      | some b => decide (b = true))

/-- Create a Git commit message (`createCommitMessage`, lines 35 to 94). -/
def createCommitMessage {κ : Type} (env : CommitEnv κ) (changes : List FileChange)
    (options : CommitOptions κ) : String :=
  let message := substitutedMessage env changes options
  if skipCIApplies env options then "[skip ci] " ++ message else message

/-! ### Templates as pieces -/

/-- The five tokens substituted for the commit types `create`, `update` and `delete`. -/
inductive Token
  | slug
  | collection
  | path
  | authorLogin
  | authorName
  deriving DecidableEq, Repr

/-- The text of a token as it is written in a template. -/
def Token.text : Token → String
  | .slug => "\x7b\x7bslug\x7d\x7d"
  | .collection => "\x7b\x7bcollection\x7d\x7d"
  | .path => "\x7b\x7bpath\x7d\x7d"
  | .authorLogin => "\x7b\x7bauthor-login\x7d\x7d"
  | .authorName => "\x7b\x7bauthor-name\x7d\x7d"

/-- A piece of a template: literal text or a token. -/
inductive Piece
  | lit (text : String)
  | tok (t : Token)
  deriving DecidableEq, Repr

/-- The characters of a template in which each token is written out, or replaced by the value
that `val` assigns to it. -/
def renderChars (val : Token → Option String) : List Piece → List Char
  | [] => []
  | .lit s :: ps => s.data ++ renderChars val ps
  | .tok t :: ps => ((val t).getD t.text).data ++ renderChars val ps

/-- A template with each token replaced by its value under `val`, and written out as is where
`val` has none. -/
def render (val : Token → Option String) (ps : List Piece) : String :=
  ⟨renderChars val ps⟩

/-- The template itself: every token written out. -/
def templateOf (ps : List Piece) : String :=
  render (fun _ => none) ps

/-- The assignment giving each of the five tokens its value. -/
def valuesOf (slug collection path login name : String) : Token → Option String
  | .slug => some slug
  | .collection => some collection
  | .path => some path
  | .authorLogin => some login
  | .authorName => some name

/-- The assignment made for the media commit types: only the path and the author tokens have
a value, `{{slug}}` and `{{collection}}` stay as written. -/
def mediaValuesOf (path login name : String) : Token → Option String
  | .slug => none
  | .collection => none
  | .path => some path
  | .authorLogin => some login
  | .authorName => some name

/-- The string `s` is the first non-empty slug among the changes, or the empty string when no
change has a non-empty slug. -/
def IsFirstNonEmptySlug (changes : List FileChange) (s : String) : Prop :=
  (∃ before c after, changes = before ++ c :: after ∧ c.slug = some s ∧ s ≠ "" ∧
      ∀ b ∈ before, b.slug = none ∨ b.slug = some "") ∨
    (s = "" ∧ ∀ b ∈ changes, b.slug = none ∨ b.slug = some "")

/-- Two character lists agree wherever both have a character. -/
def agreeOnOverlap : List Char → List Char → Bool
  | [], _ => true
  | _, [] => true
  | a :: as, b :: bs => a == b && agreeOnOverlap as bs

/-- No suffix of `chunk` agrees with `search` on their overlap: whatever follows `chunk`, no
occurrence of `search` starts inside it. -/
def clearOf (search : List Char) : List Char → Bool
  | [] => true
  | c :: cs => !agreeOnOverlap search (c :: cs) && clearOf search cs

/-! ## JavaScript numbers used by the fetcher -/

/-- A finite non-negative IEEE 754 double, written `mant / 2 ^ shift`. -/
structure Dbl where
  mant : Nat
  shift : Nat
  deriving DecidableEq, Repr

/-- The integer nearest to `p / q`, ties going to the even neighbour (`0 < q`). -/
def roundHalfEven (p q : Nat) : Nat :=
  if 2 * (p % q) < q then p / q
  else if q < 2 * (p % q) then p / q + 1
  else if (p / q) % 2 = 0 then p / q
  else p / q + 1

/-- Bounded computation of the binary logarithm rounded down. -/
def floorLog2Go : Nat → Nat → Nat
  | 0, _ => 0
  | fuel + 1, n => if n < 2 then 0 else floorLog2Go fuel (n / 2) + 1

/-- The binary logarithm of `n` rounded down (`0` for `n = 0`). -/
def floorLog2 (n : Nat) : Nat := floorLog2Go n n

/-- The double nearest to the rational `p / q` (round to nearest, ties to even), for `0 < q` and
`p / q < 2 ^ 53` above the subnormal range, which covers every number the fetcher computes (a
quotient of two array lengths that is at most 1, and its product with 100).  The shift `s` is the
one that brings `p / q * 2 ^ s` into `[2 ^ 52, 2 ^ 53)`, so that the rounded mantissa has 53
significant bits. -/
def roundToDouble (p q : Nat) : Dbl :=
  if p = 0 then ⟨0, 0⟩
  else
    let s0 := 53 + floorLog2 q - floorLog2 p
    let s := if 2 ^ 52 * q ≤ p * 2 ^ (s0 - 1) then s0 - 1 else s0
    ⟨roundHalfEven (p * 2 ^ s) q, s⟩

/-- Model of `Math.ceil` on a finite non-negative double. -/
def Dbl.ceil (x : Dbl) : Nat :=
  (x.mant + 2 ^ x.shift - 1) / 2 ^ x.shift

/-- The numbers written to the progress store: `NaN` or a non-negative integer. -/
inductive JSNumber
  | nan
  | nat (n : Nat)
  deriving DecidableEq, Repr

/-- Line 177: `Math.ceil(((allPaths.length - paths.length) / allPaths.length) * 100)`, with
`paths.length ≤ allPaths.length`.  The division and the multiplication are each rounded to a
double; `0 / 0` is `NaN` and `Math.ceil(NaN)` is `NaN`. -/
def progressPercent (allLength restLength : Nat) : JSNumber :=
  if allLength = 0 then .nan
  else
    let ratio := roundToDouble (allLength - restLength) allLength
    let scaled := roundToDouble (ratio.mant * 100) (2 ^ ratio.shift)
    .nat scaled.ceil

/-- The value `Number(s)` of the built-in conversion of a string to a number, kept symbolic:
the conversion is not evaluated, and two values are equal when their sources are. -/
structure NumberOfString where
  source : String
  deriving DecidableEq, Repr

/-- The value `new Date(s)`, kept symbolic in the same way. -/
structure DateOfString where
  source : String
  deriving DecidableEq, Repr

/-! ## The GitLab file fetcher (`files.js`) -/

/-- An item of `FetchBlobsResponse`: `size` arrives as a string. -/
structure BlobItem where
  size : String
  rawTextBlob : String
  deriving DecidableEq, Repr

/-- The author of a commit as GitLab reports it. -/
structure GitLabUserInfo where
  id : Option String
  username : Option String
  deriving DecidableEq, Repr

/-- The last commit of a file; `author` may be `null`. -/
structure GitLabCommit where
  author : Option GitLabUserInfo
  authorName : String
  authorEmail : String
  committedDate : String
  deriving DecidableEq, Repr

/-- A node of the tree listing. -/
structure TreeNode where
  type : String
  path : String
  sha : String
  deriving DecidableEq, Repr

/-- One page of `FetchFileListResponse`. -/
structure TreePage where
  nodes : List TreeNode
  endCursor : String
  hasNextPage : Bool
  deriving DecidableEq, Repr

/-- An entry of the base file list (`BaseFileListItem`). -/
structure BaseFileListItem where
  path : String
  sha : String
  size : Nat
  name : String
  deriving DecidableEq, Repr

/-- The ways an operation of the fetcher fails: a rejected request, or a `TypeError` raised by
the code itself. -/
inductive Failure
  | rejected (reason : String)
  | typeError (message : String)
  deriving DecidableEq, Repr

/-- The outcome of an awaited call. -/
inductive Outcome (α : Type)
  | ok (value : α)
  | failed (error : Failure)
  deriving DecidableEq, Repr

/-- The imported `fetchGraphQL`, opaque to the fetcher: for each of the three queries a
function from the variables of the query and the state of the remote side to the outcome and
the next state.  The commit query is generated from the batch of paths (one aliased `tree_i`
selection per path) and is represented by that batch; its result is the object
`result.project.repository` as the list of its properties in order. -/
structure Remote (σ : Type) where
  tree : String → σ → Outcome TreePage × σ
  blobs : List String → σ → Outcome (List BlobItem) × σ
  commits : List String → σ → Outcome (List (String × GitLabCommit)) × σ

/-- A request together with its outcome. -/
inductive Exchange
  | tree (cursor : String) (result : Outcome TreePage)
  | blobs (paths : List String) (result : Outcome (List BlobItem))
  | commits (paths : List String) (result : Outcome (List (String × GitLabCommit)))
  deriving DecidableEq, Repr

/-- Something the fetcher does to the world around it: a write to the `dataLoadedProgress`
store, or a request with its outcome. -/
inductive Event
  | progress (value : Option JSNumber)
  | request (exchange : Exchange)
  deriving DecidableEq, Repr

/-- The state around the fetcher: the remote side, the `dataLoadedProgress` store (`none` is
`undefined`), and three histories kept for specification, oldest first: every value written
to the store, every request issued with its outcome, and the writes and the requests together
in the order in which they happened. -/
structure World (σ : Type) where
  remote : σ
  dataLoadedProgress : Option JSNumber
  progressWrites : List (Option JSNumber)
  exchanges : List Exchange
  events : List Event

/-- Model of `dataLoadedProgress.set(v)`. -/
def World.setProgress {σ : Type} (w : World σ) (v : Option JSNumber) : World σ :=
  { w with
    dataLoadedProgress := v
    progressWrites := w.progressWrites ++ [v]
    events := w.events ++ [.progress v] }

/-- Model of `await fetchGraphQL(FETCH_BLOBS_QUERY, { paths })`. -/
def fetchGraphQLBlobs {σ : Type} (R : Remote σ) (paths : List String) (w : World σ) :
    Outcome (List BlobItem) × World σ :=
  ((R.blobs paths w.remote).1,
    { w with
      remote := (R.blobs paths w.remote).2
      exchanges := w.exchanges ++ [.blobs paths (R.blobs paths w.remote).1]
      events := w.events ++ [.request (.blobs paths (R.blobs paths w.remote).1)] })

/-- Model of `await fetchGraphQL(query)` for the commit query generated from `paths`. -/
def fetchGraphQLCommits {σ : Type} (R : Remote σ) (paths : List String) (w : World σ) :
    Outcome (List (String × GitLabCommit)) × World σ :=
  ((R.commits paths w.remote).1,
    { w with
      remote := (R.commits paths w.remote).2
      exchanges := w.exchanges ++ [.commits paths (R.commits paths w.remote).1]
      events := w.events ++ [.request (.commits paths (R.commits paths w.remote).1)] })

/-- The loop of `fetchBlobs` (lines 169 to 182).  `paths` and `blobs` are the two mutable
arrays; `paths.splice(0, 100)` returns the first 100 paths and leaves the rest.  The first
argument bounds the number of iterations; `none` means the bound was reached. -/
def fetchBlobsLoop {σ : Type} (R : Remote σ) (allPaths : List String) :
    Nat → List String → List BlobItem → World σ → Option (Outcome (List BlobItem) × World σ)
  | 0, _, _, _ => none
  | fuel + 1, paths, blobs, w =>
    let currentPaths := paths.take 100
    let paths := paths.drop 100
    match fetchGraphQLBlobs R currentPaths w with
    | (.failed e, w) => some (.failed e, w)
    | (.ok nodes, w) =>
      let blobs := blobs ++ nodes
      let w := w.setProgress (some (progressPercent allPaths.length paths.length))
      if paths.length = 0 then some (.ok blobs, w.setProgress none)
      else fetchBlobsLoop R allPaths fuel paths blobs w

/-- Fetch the blobs for the given file paths (`fetchBlobs`, lines 158 to 187). -/
def fetchBlobs {σ : Type} (R : Remote σ) (allPaths : List String) (w : World σ) :
    Option (Outcome (List BlobItem) × World σ) :=
  fetchBlobsLoop R allPaths (allPaths.length + 1) allPaths [] (w.setProgress (some (.nat 0)))

/-- The loop of `fetchCommits` (lines 226 to 246), batches of 13 paths. -/
def fetchCommitsLoop {σ : Type} (R : Remote σ) :
    Nat → List String → List GitLabCommit → World σ →
      Option (Outcome (List GitLabCommit) × World σ)
  | 0, _, _, _ => none
  | fuel + 1, paths, commits, w =>
    let currentPaths := paths.take 13
    let paths := paths.drop 13
    match fetchGraphQLCommits R currentPaths w with
    | (.failed e, w) => some (.failed e, w)
    | (.ok repository, w) =>
      let commits := commits ++ repository.map (fun entry => entry.2)
      if paths.length = 0 then some (.ok commits, w)
      else fetchCommitsLoop R fuel paths commits w

/-- Fetch commit information for each file (`fetchCommits`, lines 220 to 249). -/
def fetchCommits {σ : Type} (R : Remote σ) (allPaths : List String) (w : World σ) :
    Option (Outcome (List GitLabCommit) × World σ) :=
  fetchCommitsLoop R (allPaths.length + 1) allPaths [] w

/-- The author recorded in `meta.commitAuthor`. -/
structure CommitAuthor where
  name : String
  email : String
  id : Option NumberOfString
  login : Option String
  deriving DecidableEq, Repr

/-- The `meta` object of an entry: `{}` has both fields `none`. -/
structure FileMeta where
  commitAuthor : Option CommitAuthor
  committedDate : Option DateOfString
  deriving DecidableEq, Repr

/-- The value stored under a path in the contents map. -/
structure FileData where
  sha : String
  size : NumberOfString
  text : String
  meta : FileMeta
  deriving DecidableEq, Repr

/-- The first match of the regular expression `\d+`: the first maximal run of the digits 0
to 9, or `none` without a digit. -/
def firstDigitRun (s : List Char) : Option (List Char) :=
  match (s.dropWhile (fun c => !(decide ('0' ≤ c) && decide (c ≤ '9')))).takeWhile
      (fun c => decide ('0' ≤ c) && decide (c ≤ '9')) with
  | [] => none
  | run => some run

/-- Lines 270 to 284: the `meta` derived from the commit at the index of a file, `{}` when
there is none. -/
def metaOf : Option GitLabCommit → FileMeta
  | none => ⟨none, none⟩
  | some commit =>
    let id := (commit.author.bind (fun a => a.id))
    let username := (commit.author.bind (fun a => a.username))
    let idMatcher := id.bind (fun s => firstDigitRun s.data)
    { commitAuthor := some
        { name := commit.authorName
          email := commit.authorEmail
          id := idMatcher.map (fun run => ⟨String.mk run⟩)
          login := username }
      committedDate := some ⟨commit.committedDate⟩ }

/-- The callback of `fetchingFiles.map` (lines 259 to 287) run from `index` on: reading
`blobs[index]` of a missing blob raises a `TypeError`. -/
def fileEntries (blobs : List BlobItem) (commits : List GitLabCommit) :
    Nat → List BaseFileListItem → Outcome (List (String × FileData))
  | _, [] => .ok []
  | index, file :: rest =>
    match blobs[index]? with
    | none => .failed (.typeError "Cannot destructure property of undefined")
    | some blob =>
      match fileEntries blobs commits (index + 1) rest with
      | .failed e => .failed e
      | .ok entries =>
        .ok ((file.path,
          { sha := file.sha
            size := ⟨blob.size⟩
            text := blob.rawTextBlob
            meta := metaOf commits[index]? }) :: entries)

/-- The contents map (`RepositoryContentsMap`): an object with string keys, as the list of its
properties.  It is read through `lookup` and `keys`; the order of enumeration is not modelled. -/
abbrev RepositoryContentsMap := List (String × FileData)

/-- Define or overwrite the property `key` of an object. -/
def setProperty (m : RepositoryContentsMap) (key : String) (value : FileData) :
    RepositoryContentsMap :=
  match m with
  | [] => [(key, value)]
  | (k, v) :: rest => if k = key then (key, value) :: rest else (k, v) :: setProperty rest key value

/-- Model of `Object.fromEntries(entries)`: the entries are set in order, a later entry
overwriting an earlier one with the same key. -/
def fromEntries (entries : List (String × FileData)) : RepositoryContentsMap :=
  entries.foldl (fun m entry => setProperty m entry.1 entry.2) []

/-- The property keys of a contents map. -/
def RepositoryContentsMap.keys (m : RepositoryContentsMap) : List String :=
  m.map (fun entry => entry.1)

/-- The value stored under `key` in a contents map, `none` when the key is absent. -/
def RepositoryContentsMap.get? (m : RepositoryContentsMap) (key : String) : Option FileData :=
  List.lookup key m

/-- Parse the file contents from the API response (`parseFileContents`, lines 258 to 290). -/
def parseFileContents (fetchingFiles : List BaseFileListItem) (blobs : List BlobItem)
    (commits : List GitLabCommit) : Outcome RepositoryContentsMap :=
  match fileEntries blobs commits 0 fetchingFiles with
  | .failed e => .failed e
  | .ok entries => .ok (fromEntries entries)

/-- Fetch the metadata of entry/asset files as well as text file contents (`fetchFileContents`,
lines 297 to 304). -/
def fetchFileContents {σ : Type} (R : Remote σ) (fetchingFiles : List BaseFileListItem)
    (w : World σ) : Option (Outcome RepositoryContentsMap × World σ) :=
  let allPaths := fetchingFiles.map (fun file => file.path)
  match fetchBlobs R allPaths w with
  | none => none
  | some (.failed e, w) => some (.failed e, w)
  | some (.ok blobs, w) =>
    if allPaths.length < 100 then
      match fetchCommits R allPaths w with
      | none => none
      | some (.failed e, w) => some (.failed e, w)
      | some (.ok commits, w) => some (parseFileContents fetchingFiles blobs commits, w)
    else some (parseFileContents fetchingFiles blobs [], w)

/-! ### Specification of the batching -/

/-- The batches in which a list of paths is requested: batch `k` (counted from 0) holds the
paths at positions `size * k + 1` to `min (size * (k + 1)) n` of the list; there are
`⌈n / size⌉` batches, and one (empty) batch for the empty list. -/
def requestBatches (size : Nat) (xs : List String) : List (List String) :=
  (List.range (max 1 ((xs.length + size - 1) / size))).map
    (fun k => (xs.drop (size * k)).take size)

/-- The blob requests for the given batches issued strictly one after another: each request is
put to the remote side in the state left by the previous response, and no request follows a
rejected one. -/
def issueBlobRequests {σ : Type} (R : Remote σ) : List (List String) → σ → List Exchange
  | [], _ => []
  | b :: bs, s =>
    match (R.blobs b s).1 with
    | .ok nodes => .blobs b (.ok nodes) :: issueBlobRequests R bs (R.blobs b s).2
    | .failed e => [.blobs b (.failed e)]

/-- The commit requests for the given batches issued strictly one after another. -/
def issueCommitRequests {σ : Type} (R : Remote σ) : List (List String) → σ → List Exchange
  | [], _ => []
  | b :: bs, s =>
    match (R.commits b s).1 with
    | .ok repository =>
      .commits b (.ok repository) :: issueCommitRequests R bs (R.commits b s).2
    | .failed e => [.commits b (.failed e)]

/-- The paths carried by a blob or commit request, the cursor being no path. -/
def Exchange.paths : Exchange → List String
  | .tree _ _ => []
  | .blobs paths _ => paths
  | .commits paths _ => paths

/-- The blob nodes of a response (none for a rejected request or another query). -/
def Exchange.blobNodes : Exchange → List BlobItem
  | .blobs _ (.ok nodes) => nodes
  | _ => []

/-- The commits of a response, `Object.values(...).map(({ lastCommit }) => lastCommit)`. -/
def Exchange.lastCommits : Exchange → List GitLabCommit
  | .commits _ (.ok repository) => repository.map (fun entry => entry.2)
  | _ => []

/-- The error of a rejected request. -/
def Exchange.failure? : Exchange → Option Failure
  | .tree _ (.failed e) => some e
  | .blobs _ (.failed e) => some e
  | .commits _ (.failed e) => some e
  | _ => none

/-- The error of the first rejected request of a history, if any. -/
def firstFailure (history : List Exchange) : Option Failure :=
  history.findSome? Exchange.failure?

/-- Whether the exchange is a blob query. -/
def Exchange.isBlobs : Exchange → Bool
  | .blobs _ _ => true
  | _ => false

/-- Whether the exchange is a commit query. -/
def Exchange.isCommits : Exchange → Bool
  | .commits _ _ => true
  | _ => false

/-- The run of `fetchBlobs` over a given list of batches, after the store was set to 0: the
batches are requested in order; a rejection ends the run; after a response its nodes are
appended and the progress is written; after the last batch the store is set to `undefined`. -/
def runBlobBatches {σ : Type} (R : Remote σ) (allLength : Nat) :
    List (List String) → List BlobItem → World σ → Outcome (List BlobItem) × World σ
  | [], blobs, w => (.ok blobs, w.setProgress none)
  | b :: bs, blobs, w =>
    match fetchGraphQLBlobs R b w with
    | (.failed e, w) => (.failed e, w)
    | (.ok nodes, w) =>
      runBlobBatches R allLength bs (blobs ++ nodes)
        (w.setProgress (some (progressPercent allLength bs.flatten.length)))

/-- The run of `fetchCommits` over a given list of batches. -/
def runCommitBatches {σ : Type} (R : Remote σ) :
    List (List String) → List GitLabCommit → World σ → Outcome (List GitLabCommit) × World σ
  | [], commits, w => (.ok commits, w)
  | b :: bs, commits, w =>
    match fetchGraphQLCommits R b w with
    | (.failed e, w) => (.failed e, w)
    | (.ok repository, w) =>
      runCommitBatches R bs (commits ++ repository.map (fun entry => entry.2)) w

/-! ### The file list (`fetchFileList`) -/

/-- Model of `await fetchGraphQL(FETCH_FILE_LIST_QUERY, { cursor })`. -/
def fetchGraphQLTree {σ : Type} (R : Remote σ) (cursor : String) (w : World σ) :
    Outcome TreePage × World σ :=
  ((R.tree cursor w.remote).1,
    { w with
      remote := (R.tree cursor w.remote).2
      exchanges := w.exchanges ++ [.tree cursor (R.tree cursor w.remote).1]
      events := w.events ++ [.request (.tree cursor (R.tree cursor w.remote).1)] })

/-- The loop of `fetchFileList` (lines 107 to 123); `blobs` and `cursor` are the two mutable
variables.  The loop of the source has no bound of its own: it goes on as long as the remote
side reports a next page.  The first argument bounds the number of pages requested; `none`
means the bound was reached. -/
def fetchFileListLoop {σ : Type} (R : Remote σ) :
    Nat → String → List TreeNode → World σ → Option (Outcome (List TreeNode) × World σ)
  | 0, _, _, _ => none
  | fuel + 1, cursor, blobs, w =>
    match fetchGraphQLTree R cursor w with
    | (.failed e, w) => some (.failed e, w)
    | (.ok page, w) =>
      let blobs := blobs ++ page.nodes
      let cursor := page.endCursor
      if !page.hasNextPage then some (.ok blobs, w)
      else fetchFileListLoop R fuel cursor blobs w

/-- Fetch the repository's complete file list (`fetchFileList`, lines 101 to 129).  The
imported `getPathInfo(path).basename` of `@sveltia/utils/file` is taken as the parameter
`basename`. -/
def fetchFileList {σ : Type} (R : Remote σ) (basename : String → String) (fuel : Nat)
    (w : World σ) : Option (Outcome (List BaseFileListItem) × World σ) :=
  match fetchFileListLoop R fuel "" [] w with
  | none => none
  | some (.failed e, w) => some (.failed e, w)
  | some (.ok blobs, w) =>
    some (.ok ((blobs.filter (fun node => node.type = "blob")).map
      (fun node => ⟨node.path, node.sha, 0, basename node.path⟩)), w)

/-- The page requests issued strictly one after another, at most `limit` of them: the first
with the given cursor, each further one with the `endCursor` of the page before it; no request
follows a rejected one or a page without a next page. -/
def issueTreeRequests {σ : Type} (R : Remote σ) : Nat → String → σ → List Exchange
  | 0, _, _ => []
  | limit + 1, cursor, s =>
    match (R.tree cursor s).1 with
    | .failed e => [.tree cursor (.failed e)]
    | .ok page =>
      .tree cursor (.ok page) ::
        (if page.hasNextPage then issueTreeRequests R limit page.endCursor (R.tree cursor s).2
        else [])

/-- Whether the pagination started with the given cursor ends within `limit` requests: by a
rejected request or by a page without a next page. -/
def paginationEnds {σ : Type} (R : Remote σ) : Nat → String → σ → Bool
  | 0, _, _ => false
  | limit + 1, cursor, s =>
    match (R.tree cursor s).1 with
    | .failed _ => true
    | .ok page =>
      if page.hasNextPage then paginationEnds R limit page.endCursor (R.tree cursor s).2
      else true

/-- The cursor of a page request. -/
def Exchange.cursor? : Exchange → Option String
  | .tree cursor _ => some cursor
  | _ => none

/-- The nodes of a page (none for a rejected request or another query). -/
def Exchange.treeNodes : Exchange → List TreeNode
  | .tree _ (.ok page) => page.nodes
  | _ => []

/-- The page of an answered page request. -/
def Exchange.page? : Exchange → Option TreePage
  | .tree _ (.ok page) => some page
  | _ => none

/-! ## The file-format resolver (`contents/file/config`)

The source of `$lib/services/contents/file/config` is not part of the development; only its
tests (`config.test.js`) are.  Its functions are modelled from the specification and checked
against the expectations of those tests. -/

/-- The registry `customFileFormats`: the extension registered for a custom format name. -/
abbrev CustomFileFormats := String → Option String

/-- Modelled from the spec: `detectFileExtension` of `contents/file/config`, whose source is
missing.  Priority order: registered custom-format extension, then the explicit `extension`,
then the extension implied by the format (`yaml`/`yml` give `yml`, `toml` gives `toml`, `json`
gives `json`), else `md`. -/
def detectFileExtension (customFileFormats : CustomFileFormats)
    (extension format : Option String) : String :=
  match format.bind customFileFormats with
  | some custom => custom
  | none =>
    match extension with
    | some ext => ext
    | none =>
      if format = some "yaml" ∨ format = some "yml" then "yml"
      else if format = some "toml" then "toml"
      else if format = some "json" then "json"
      else "md"

/-- Modelled from the spec: `detectFileFormat` of `contents/file/config`, whose source is
missing.  Priority: the explicit `format` (unknown custom strings passed through), then the
format implied by the extension (`yaml`/`yml` give `yaml`, `toml` gives `toml`, `json` gives
`json`, the markdown extensions give `frontmatter`), else `yaml-frontmatter`. -/
def detectFileFormat (extension format : Option String) : String :=
  match format with
  | some fmt => fmt
  | none =>
    if extension = some "yaml" ∨ extension = some "yml" then "yaml"
    else if extension = some "toml" then "toml"
    else if extension = some "json" then "json"
    else if extension ∈ [some "md", some "mkd", some "mkdn", some "mdwn", some "mdown",
        some "markdown"] then "frontmatter"
    else "yaml-frontmatter"

/-- The characters removed by `String.prototype.trim`: the white space and line terminator
code points of ECMAScript. -/
def isJSWhiteSpace (c : Char) : Bool :=
  c.toNat ∈ [0x09, 0x0A, 0x0B, 0x0C, 0x0D, 0x20, 0xA0, 0x1680, 0x2000, 0x2001, 0x2002, 0x2003,
    0x2004, 0x2005, 0x2006, 0x2007, 0x2008, 0x2009, 0x200A, 0x2028, 0x2029, 0x202F, 0x205F,
    0x3000, 0xFEFF]

/-- Model of `s.trim()`. -/
def jsTrim (s : String) : String :=
  ⟨((s.data.dropWhile isJSWhiteSpace).reverse.dropWhile isJSWhiteSpace).reverse⟩

/-- The `delimiter` option of a front-matter file: absent, a string, or an array of strings. -/
inductive DelimiterOption
  | absent
  | text (d : String)
  | array (ds : List String)
  deriving DecidableEq, Repr

/-- Modelled from the spec: `getFrontMatterDelimiters` of `contents/file/config`, whose source
is missing.  For the format `frontmatter` a delimiter that is a non-empty, non-whitespace
string `d` gives `[d, d]`, a two-element array gives itself, anything else gives `undefined`;
the fixed defaults are `['{', '}']` for `json-frontmatter`, `['+++', '+++']` for
`toml-frontmatter` and `['---', '---']` for `yaml-frontmatter`; other formats give
`undefined`. -/
def getFrontMatterDelimiters (format : String) (delimiter : DelimiterOption) :
    Option (String × String) :=
  if format = "frontmatter" then
    match delimiter with
    | .text d => if jsTrim d = "" then none else some (d, d)
    | .array [opening, closing] => some (opening, closing)
    | _ => none
  else if format = "json-frontmatter" then some ("\x7b", "\x7d")
  else if format = "toml-frontmatter" then some ("+++", "+++")
  else if format = "yaml-frontmatter" then some ("---", "---")
  else none

/-! ### Regular expressions for entry paths -/

/-- The regular expressions that `getEntryPathRegEx` builds, as syntax trees: literal text, the
segment pattern `[^/]+?`, concatenation, alternation (only ever written directly inside a
group), a named capture group `(?<name>…)` and an optional non-capturing group `(?:…)?`. -/
inductive Rx
  | text (s : String)
  | segment
  | cat (a b : Rx)
  | alt (a b : Rx)
  | group (name : String) (body : Rx)
  | opt (body : Rx)
  deriving DecidableEq, Repr

/-- Whether a character is written with a backslash in the source of a regular expression: the
syntax characters of the pattern language and the slash. -/
def isRegExpSyntaxChar (c : Char) : Bool :=
  c ∈ ['.', '*', '+', '?', '^', '$', '\x7b', '\x7d', '(', ')', '|', '[', ']', '\x5c', '/']

/-- Literal text as it is written in the source of a regular expression. -/
def escapeRegExpChars : List Char → List Char
  | [] => []
  | c :: cs =>
    if isRegExpSyntaxChar c then '\x5c' :: c :: escapeRegExpChars cs
    else c :: escapeRegExpChars cs

/-- Literal text as it is written in the source of a regular expression. -/
def escapeRegExp (s : String) : String := ⟨escapeRegExpChars s.data⟩

/-- The source text of a pattern. -/
def Rx.source : Rx → String
  | .text s => escapeRegExp s
  | .segment => "[^/]+?"
  | .cat a b => a.source ++ b.source
  | .alt a b => a.source ++ "|" ++ b.source
  | .group name body => "(?<" ++ name ++ ">" ++ body.source ++ ")"
  | .opt body => "(?:" ++ body.source ++ ")?"

/-- The named captures of a match: the text captured under each name; a name that is absent
is `undefined`. -/
abbrev Captures := List (String × String)

/-- The text captured under `name`, `none` for `undefined`. -/
def Captures.get? (caps : Captures) (name : String) : Option String :=
  List.lookup name caps

/-- Record the text captured under `name`. -/
def Captures.set (caps : Captures) (name value : String) : Captures :=
  (name, value) :: caps.filter (fun entry => entry.1 ≠ name)

/-- The backtracking match of the segment pattern `[^/]+?` followed by the continuation `k`:
one character other than a slash is taken, then the continuation is tried, and one more
character is taken only when the continuation fails (non-greedy). -/
def segmentRun (caps : Captures) (k : List Char → Captures → Option Captures) :
    List Char → Option Captures
  | [] => none
  | c :: rest =>
    if c = '/' then none
    else (k rest caps).orElse (fun _ => segmentRun caps k rest)

/-- The backtracking match of a pattern at the start of `input`, followed by the continuation
`k` on the rest of the input: alternatives are tried from left to right, an optional group is
tried before it is skipped, and a group records the text it matched. -/
def Rx.run : Rx → List Char → Captures → (List Char → Captures → Option Captures) →
    Option Captures
  | .text s, input, caps, k =>
    if s.data.isPrefixOf input then k (input.drop s.data.length) caps else none
  | .segment, input, caps, k => segmentRun caps k input
  | .cat a b, input, caps, k => a.run input caps (fun rest caps' => b.run rest caps' k)
  | .alt a b, input, caps, k => (a.run input caps k).orElse (fun _ => b.run input caps k)
  | .group name body, input, caps, k =>
    body.run input caps (fun rest caps' =>
      k rest (caps'.set name ⟨input.take (input.length - rest.length)⟩))
  | .opt body, input, caps, k => (body.run input caps k).orElse (fun _ => k input caps)

/-- An anchored regular expression `^body$`. -/
structure RegEx where
  body : Rx
  deriving DecidableEq, Repr

/-- The `source` property of the regular expression. -/
def RegEx.source (r : RegEx) : String := "^" ++ r.body.source ++ "$"

/-- Model of `path.match(regex)?.groups`: the named captures of the match of the whole path,
`none` when the path does not match. -/
def RegEx.exec (r : RegEx) (path : String) : Option Captures :=
  r.body.run path.data [] (fun rest caps => if rest = [] then some caps else none)

/-- The alternation of the given texts, `a|b|c`. -/
def altOf : List String → Rx
  | [] => .text ""
  | l :: ls =>
    match ls with
    | [] => .text l
    | _ :: _ => .alt (.text l) (altOf ls)

/-- The concatenation of the given patterns. -/
def catAll : List Rx → Rx
  | [] => .text ""
  | r :: rs => .cat r (catAll rs)

/-- The rest of a template after the first `}}`, if there is one. -/
def closeToken : List Char → Option (List Char)
  | [] => none
  | c :: rest =>
    if c = '\x7d' ∧ rest.head? = some '\x7d' then some rest.tail else closeToken rest

/-- The pattern of a `subPath` template: each `{{token}}` becomes the segment pattern, the text
around the tokens stays literal.  The first argument bounds the number of steps, the last is the
literal text read so far. -/
def templateRxGo : Nat → List Char → List Char → Rx
  | 0, _, lit => .text ⟨lit⟩
  | _ + 1, [], lit => .text ⟨lit⟩
  | fuel + 1, c :: rest, lit =>
    if c = '\x7b' ∧ rest.head? = some '\x7b' then
      match closeToken (rest.drop 2) with
      | some after =>
        if (rest.drop 1).isEmpty then templateRxGo fuel rest (lit ++ [c])
        else .cat (.text ⟨lit⟩) (.cat .segment (templateRxGo fuel after []))
      | none => templateRxGo fuel rest (lit ++ [c])
    else templateRxGo fuel rest (lit ++ [c])

/-- The pattern of a `subPath` template. -/
def templateRx (template : String) : Rx :=
  templateRxGo (template.data.length + 1) template.data []

/-- The flags `structureMap` of the i18n options. -/
structure StructureMap where
  i18nSingleFile : Bool
  i18nMultiFile : Bool
  i18nMultiFolder : Bool
  i18nRootMultiFolder : Bool
  deriving DecidableEq, Repr

/-- The i18n options (`InternalI18nOptions`) read by the resolver. -/
structure I18nOptions where
  i18nEnabled : Bool
  allLocales : List String
  defaultLocale : String
  structureMap : StructureMap
  omitDefaultLocaleFromFileName : Bool
  deriving DecidableEq, Repr

/-- The named `subPath` capture: the segment pattern by default, the pattern of the template
when one is given; with an index file name the bare name is one more alternative. -/
def filePathMatcher (subPath indexFileName : Option String) : Rx :=
  .group "subPath"
    (match indexFileName with
      | some index =>
        .alt (match subPath with
          | some template => templateRx template
          | none => .segment) (.text index)
      | none =>
        match subPath with
        | some template => templateRx template
        | none => .segment)

/-- The named `locale` capture alternating over the given locales. -/
def localeMatcher (locales : List String) : Rx :=
  .group "locale" (altOf locales)

/-- Modelled from the spec: `getEntryPathRegEx` of `contents/file/config`, whose source is
missing.  An anchored regular expression with a named `subPath` capture and, when the i18n
structure requires it, a named `locale` capture: a path segment before `basePath` for the root
multi-folder structure, a path segment after `basePath` for the multi-folder structure, a dot
suffix before the extension for the multi-file structure (optional, and without the default
locale, when the default locale is omitted from file names).  The `format` argument of the
source is not used by the specification and is left out. -/
def getEntryPathRegEx (extension basePath : String) (subPath indexFileName : Option String)
    (i18n : I18nOptions) : RegEx :=
  ⟨catAll
    [ if i18n.structureMap.i18nRootMultiFolder then
        .cat (localeMatcher i18n.allLocales) (.text "/")
      else .text "",
      if basePath = "" then .text "" else .cat (.text basePath) (.text "/"),
      if i18n.structureMap.i18nMultiFolder then
        .cat (localeMatcher i18n.allLocales) (.text "/")
      else .text "",
      filePathMatcher subPath indexFileName,
      if i18n.structureMap.i18nMultiFile then
        (if i18n.omitDefaultLocaleFromFileName then
          .opt (.cat (.text ".")
            (localeMatcher (i18n.allLocales.filter (fun l => l ≠ i18n.defaultLocale))))
        else .cat (.text ".") (localeMatcher i18n.allLocales))
      else .text "",
      .text ".",
      .text extension ]⟩

/-! ### File configuration (`getFileConfig`) -/

/-- The options of a raw collection read by `getFileConfig`. -/
structure RawCollection where
  folder : Option String
  path : Option String
  extension : Option String
  format : Option String
  yaml_quote : Option Bool
  frontmatter_delimiter : DelimiterOption
  deriving DecidableEq, Repr

/-- The options of a file of a file collection read by `getFileConfig`. -/
structure RawCollectionFile where
  file : String
  format : Option String
  frontmatter_delimiter : DelimiterOption
  deriving DecidableEq, Repr

/-- The `FileConfig` of the data model. -/
structure FileConfig where
  extension : String
  format : String
  basePath : Option String
  subPath : Option String
  fullPathRegEx : Option RegEx
  fullPath : Option String
  fmDelimiters : Option (String × String)
  yamlQuote : Bool
  deriving DecidableEq, Repr

/-- A path without its leading and trailing slashes. -/
def stripSlashes (path : String) : String :=
  ⟨((path.data.dropWhile (fun c => c = '/')).reverse.dropWhile (fun c => c = '/')).reverse⟩

/-- The extension of a file path: the text after the last dot of its last segment. -/
def pathExtension (path : String) : Option String :=
  let name := (path.data.reverse.takeWhile (fun c => c ≠ '/'))
  if '.' ∈ name then some ⟨(name.takeWhile (fun c => c ≠ '.')).reverse⟩ else none

/-- Modelled from the spec: `getFileConfig` of `contents/file/config`, whose source is missing.
It composes the detection of extension, format and delimiters.  For a folder collection (no
file given) the base path is the folder without its outer slashes and the path pattern is
built from it.  For a file of a file collection the extension is read from the file path, the
format of the file takes precedence over that of the collection, and `fullPath` is the path of
the file with `{{locale}}` replaced by the default locale, no pattern being built. -/
def getFileConfig (customFileFormats : CustomFileFormats) (rawCollection : RawCollection)
    (file : Option RawCollectionFile) (i18n : I18nOptions) : FileConfig :=
  match file with
  | none =>
    let extension :=
      detectFileExtension customFileFormats rawCollection.extension rawCollection.format
    let format := detectFileFormat (some extension) rawCollection.format
    let basePath := rawCollection.folder.map stripSlashes
    { extension := extension
      format := format
      basePath := basePath
      subPath := rawCollection.path
      fullPathRegEx := basePath.map
        (fun base => getEntryPathRegEx extension base rawCollection.path none i18n)
      fullPath := none
      fmDelimiters := getFrontMatterDelimiters format rawCollection.frontmatter_delimiter
      yamlQuote := rawCollection.yaml_quote.getD false }
  | some f =>
    let givenFormat := f.format.orElse (fun _ => rawCollection.format)
    let extension :=
      detectFileExtension customFileFormats
        ((pathExtension f.file).orElse (fun _ => rawCollection.extension)) givenFormat
    let format := detectFileFormat (some extension) givenFormat
    { extension := extension
      format := format
      basePath := none
      subPath := none
      fullPathRegEx := none
      fullPath := some
        (stripSlashes (JS.replaceAll f.file "\x7b\x7blocale\x7d\x7d" i18n.defaultLocale))
      fmDelimiters := getFrontMatterDelimiters format f.frontmatter_delimiter
      yamlQuote := rawCollection.yaml_quote.getD false }

/-- The directory part in front of an entry: empty for an empty base path, else the base path
and a slash. -/
def baseDir (basePath : String) : String :=
  if basePath = "" then "" else basePath ++ "/"

/-! ### JSON text (`formatJSON`, `JSON.stringify`, `JSON.parse`) -/

/-- A finite number, described by the decimal digits that `Number::toString` writes for it:
either zero, or a sign, the digits `d₁ … d_k` of the shortest decimal that denotes the number
(the first and the last digit are not `0`) and the exponent `n`, the number being
`± 0.d₁…d_k × 10ⁿ`.  Two numbers are equal when these descriptions are; the conversion between
the description and the binary double is the engine's and is not part of the model.  `NaN` and
the infinities are not numbers of JSON, and `-0` is the same number as `0`. -/
inductive JsonNumber
  | zero
  | decimal (negative : Bool) (digits : List Char) (exponent : Int)
  deriving DecidableEq, Repr

/-- A JSON-serialisable value: `null`, a boolean, a finite number, a string (of Unicode scalar
values), a sequence, or a map given by its properties in the order in which they are
enumerated. -/
inductive Json
  | null
  | bool (b : Bool)
  | number (n : JsonNumber)
  | string (s : String)
  | array (items : List Json)
  | object (members : List (String × Json))
  deriving Repr

/-- Whether the description of a number is the canonical one: the digits are decimal digits,
there is at least one, and neither the first nor the last is `0`. -/
def JsonNumber.wellFormed : JsonNumber → Bool
  | .zero => true
  | .decimal _ digits _ =>
    digits.all Char.isDigit && !digits.isEmpty && digits.head? != some '0' &&
      digits.getLast? != some '0'

mutual
/-- Whether a value is one that a JavaScript value can be: its numbers are canonical and no map
has two properties of the same name. -/
def Json.wellFormed : Json → Bool
  | .null => true
  | .bool _ => true
  | .number n => n.wellFormed
  | .string _ => true
  | .array items => wellFormedItems items
  | .object members => wellFormedMembers members && decide ((members.map Prod.fst).Nodup)
/-- Whether every item of a sequence is well formed. -/
def wellFormedItems : List Json → Bool
  | [] => true
  | x :: xs => x.wellFormed && wellFormedItems xs
/-- Whether every property value of a map is well formed. -/
def wellFormedMembers : List (String × Json) → Bool
  | [] => true
  | (_, x) :: xs => x.wellFormed && wellFormedMembers xs
end

/-- The decimal digit for a number below ten. -/
def digitChar (d : Nat) : Char := Char.ofNat (48 + d)

/-- The decimal digits of `n` in front of `acc`; the first argument bounds the number of
digits. -/
def decimalDigitsGo : Nat → Nat → List Char → List Char
  | 0, _, acc => acc
  | fuel + 1, n, acc =>
    if n < 10 then digitChar n :: acc
    else decimalDigitsGo fuel (n / 10) (digitChar (n % 10) :: acc)

/-- The decimal digits of a natural number. -/
def decimalDigits (n : Nat) : List Char := decimalDigitsGo (n + 1) n []

/-- The number denoted by a list of decimal digits. -/
def digitsValue (digits : List Char) : Nat :=
  digits.foldl (fun value c => 10 * value + (c.toNat - 48)) 0

/-- The digits of `Number::toString` for a positive number with the digits `digits` and the
exponent `n`: with `k` digits, the digits followed by `n - k` zeros when `k ≤ n ≤ 21`; the
digits with a decimal point after the first `n` when `0 < n ≤ 21`; `0.`, `-n` zeros and the
digits when `-6 < n ≤ 0`; and otherwise the exponential form, the first digit, the other
digits after a decimal point if there are any, `e`, the sign of `n - 1` and the decimal digits
of its absolute value. -/
def decimalText (digits : List Char) (n : Int) : List Char :=
  let k : Int := digits.length
  if k ≤ n ∧ n ≤ 21 then digits ++ List.replicate (n - k).toNat '0'
  else if 0 < n ∧ n ≤ 21 then digits.take n.toNat ++ '.' :: digits.drop n.toNat
  else if -6 < n ∧ n ≤ 0 then '0' :: '.' :: (List.replicate (-n).toNat '0' ++ digits)
  else
    digits.take 1 ++ ((if digits.length = 1 then [] else '.' :: digits.drop 1) ++
      'e' :: (if n - 1 < 0 then '-' else '+') :: decimalDigits (n - 1).natAbs)

/-- Model of `Number::toString` (radix 10) on a finite number: `0` for zero, and a minus sign
in front of the digits of a negative number. -/
def JsonNumber.toText : JsonNumber → List Char
  | .zero => ['0']
  | .decimal negative digits n => (if negative then ['-'] else []) ++ decimalText digits n

/-- The hexadecimal digit (lower case) for a number below sixteen. -/
def hexDigit (d : Nat) : Char :=
  if d < 10 then Char.ofNat (48 + d) else Char.ofNat (87 + d)

/-- The value of a hexadecimal digit. -/
def hexValue (c : Char) : Option Nat :=
  if c.isDigit then some (c.toNat - 48)
  else if 97 ≤ c.toNat ∧ c.toNat ≤ 102 then some (c.toNat - 87)
  else if 65 ≤ c.toNat ∧ c.toNat ≤ 70 then some (c.toNat - 55)
  else none

/-- One character inside the quotes of `QuoteJSONString`: the short escapes of backspace, tab,
line feed, form feed, carriage return, the quotation mark and the backslash; `\u00XX` for the
other characters below the space; every other character as it is. -/
def quoteChar (c : Char) : List Char :=
  if c = '\x08' then ['\x5c', 'b']
  else if c = '\x09' then ['\x5c', 't']
  else if c = '\x0a' then ['\x5c', 'n']
  else if c = '\x0c' then ['\x5c', 'f']
  else if c = '\x0d' then ['\x5c', 'r']
  else if c = '\x22' then ['\x5c', '\x22']
  else if c = '\x5c' then ['\x5c', '\x5c']
  else if c.toNat < 32 then
    ['\x5c', 'u', '0', '0', hexDigit (c.toNat / 16), hexDigit (c.toNat % 16)]
  else [c]

/-- Model of `QuoteJSONString`. -/
def quoteJSONString (s : String) : List Char :=
  '\x22' :: (s.data.flatMap quoteChar ++ ['\x22'])

/-- The line break and indentation that `JSON.stringify` writes in front of an item and of a
closing bracket when the gap is not empty. -/
def lineBreak (gap indent : List Char) : List Char :=
  if gap = [] then [] else '\x0a' :: indent

mutual
/-- Model of `SerializeJSONProperty` for a value, at the given indentation.  A sequence and a
map without items are `[]` and `\x7b\x7d`; otherwise the items follow the opening bracket,
each on a line of its own indented by one more gap when the gap is not empty, and are
separated by commas; a property is its quoted name, a colon, a space when the gap is not
empty, and its value. -/
def Json.serialize (gap : List Char) : Json → List Char → List Char
  | .null, _ => "null".data
  | .bool b, _ => if b then "true".data else "false".data
  | .number n, _ => n.toText
  | .string s, _ => quoteJSONString s
  | .array items, indent =>
    if items.isEmpty then "[]".data
    else
      '[' :: (lineBreak gap (indent ++ gap) ++ (serializeItems gap items (indent ++ gap) ++
        (lineBreak gap indent ++ [']'])))
  | .object members, indent =>
    if members.isEmpty then "\x7b\x7d".data
    else
      '\x7b' :: (lineBreak gap (indent ++ gap) ++
        (serializeMembers gap members (indent ++ gap) ++ (lineBreak gap indent ++ ['\x7d'])))
/-- The items of a sequence, separated by a comma and the line break. -/
def serializeItems (gap : List Char) : List Json → List Char → List Char
  | [], _ => []
  | x :: xs, indent =>
    x.serialize gap indent ++
      ((if xs.isEmpty then [] else ',' :: lineBreak gap indent) ++
        serializeItems gap xs indent)
/-- The properties of a map, separated by a comma and the line break. -/
def serializeMembers (gap : List Char) : List (String × Json) → List Char → List Char
  | [], _ => []
  | (key, x) :: xs, indent =>
    quoteJSONString key ++ (':' :: ((if gap = [] then [] else [' ']) ++
      (x.serialize gap indent ++
        ((if xs.isEmpty then [] else ',' :: lineBreak gap indent) ++
          serializeMembers gap xs indent))))
end

/-- The `indent_style` of the JSON output options. -/
inductive IndentStyle
  | space
  | tab
  deriving DecidableEq, Repr

/-- The JSON output options (`output.json` of the site configuration). -/
structure JsonFormatOptions where
  indent_style : Option IndentStyle
  indent_size : Option Nat
  deriving DecidableEq, Repr

/-- The gap of `JSON.stringify` for its `space` argument: a tab for the tab style, else as
many spaces as the indent size (two by default), at most ten. -/
def indentGap (options : JsonFormatOptions) : List Char :=
  match options.indent_style with
  | some .tab => ['\x09']
  | _ => List.replicate (min 10 (options.indent_size.getD 2)) ' '

/-- Modelled from the spec: `formatJSON` of `contents/file/format`, whose source is missing.
The value is serialised as `JSON.stringify(obj, null, space)` does, `space` being a tab for the
tab style and the indent size otherwise. -/
def formatJSON (obj : Json) (options : JsonFormatOptions) : String :=
  ⟨obj.serialize (indentGap options) []⟩

/-- The white space of JSON text: space, tab, line feed and carriage return. -/
def isJsonWhiteSpace (c : Char) : Bool :=
  c = ' ' || c = '\x09' || c = '\x0a' || c = '\x0d'

/-- The text without its leading white space. -/
def skipWhiteSpace (input : List Char) : List Char :=
  input.dropWhile isJsonWhiteSpace

/-- The character denoted by the escape `\c` other than `\u`. -/
def simpleEscape (c : Char) : Option Char :=
  if c = '\x22' then some '\x22'
  else if c = '\x5c' then some '\x5c'
  else if c = '/' then some '/'
  else if c = 'b' then some '\x08'
  else if c = 'f' then some '\x0c'
  else if c = 'n' then some '\x0a'
  else if c = 'r' then some '\x0d'
  else if c = 't' then some '\x09'
  else none

/-- The character denoted by the four hexadecimal digits of a `\u` escape; the escape of a
surrogate code unit denotes no character of the model. -/
def unicodeEscape (a b c d : Char) : Option Char :=
  match hexValue a, hexValue b, hexValue c, hexValue d with
  | some h1, some h2, some h3, some h4 =>
    let code := ((h1 * 16 + h2) * 16 + h3) * 16 + h4
    if code < 0xd800 ∨ 0xdfff < code then some (Char.ofNat code) else none
  | _, _, _, _ => none

/-- The characters of a JSON string up to its closing quotation mark, after `acc`, and the
text after the mark; the first argument bounds the number of steps. -/
def parseStringGo : Nat → List Char → List Char → Option (String × List Char)
  | 0, _, _ => none
  | _ + 1, [], _ => none
  | fuel + 1, c :: rest, acc =>
    if c = '\x22' then some (⟨acc⟩, rest)
    else if c = '\x5c' then
      match rest with
      | [] => none
      | e :: rest1 =>
        if e = 'u' then
          match rest1 with
          | h1 :: h2 :: h3 :: h4 :: rest2 =>
            match unicodeEscape h1 h2 h3 h4 with
            | some decoded => parseStringGo fuel rest2 (acc ++ [decoded])
            | none => none
          | _ => none
        else
          match simpleEscape e with
          | some decoded => parseStringGo fuel rest1 (acc ++ [decoded])
          | none => none
    else if c.toNat < 32 then none
    else parseStringGo fuel rest (acc ++ [c])

/-- A JSON string after its opening quotation mark. -/
def parseString (input : List Char) : Option (String × List Char) :=
  parseStringGo input.length input []

/-- The number denoted by the digits `digits` scaled by `10 ^ scale`, in canonical form. -/
def toJsonNumber (negative : Bool) (digits : List Char) (scale : Int) : JsonNumber :=
  let significant := digits.dropWhile (fun c => c = '0')
  if significant.isEmpty then .zero
  else
    .decimal negative (significant.reverse.dropWhile (fun c => c = '0')).reverse
      (significant.length + scale)

/-- The fraction of a JSON number: a decimal point and at least one digit, or nothing. -/
def parseFraction (input : List Char) : Option (List Char × List Char) :=
  if input.head? = some '.' then
    if (input.tail.takeWhile Char.isDigit).isEmpty then none
    else some (input.tail.takeWhile Char.isDigit, input.tail.dropWhile Char.isDigit)
  else some ([], input)

/-- The exponent of a JSON number: `e` or `E`, an optional sign and at least one digit, or
nothing. -/
def parseExponent (input : List Char) : Option (Int × List Char) :=
  if input.head? = some 'e' ∨ input.head? = some 'E' then
    let negative := input.tail.head? = some '-'
    let afterSign :=
      if input.tail.head? = some '-' ∨ input.tail.head? = some '+' then input.tail.tail
      else input.tail
    if (afterSign.takeWhile Char.isDigit).isEmpty then none
    else
      some ((if negative then -1 else 1) * (digitsValue (afterSign.takeWhile Char.isDigit) : Int),
        afterSign.dropWhile Char.isDigit)
  else some (0, input)

/-- A JSON number without its sign: digits without a superfluous leading zero, an optional
fraction and an optional exponent; its value is that of the digits of the integer part and of
the fraction, scaled by the exponent less the number of fraction digits. -/
def parseUnsigned (negative : Bool) (input : List Char) : Option (JsonNumber × List Char) :=
  let intDigits := input.takeWhile Char.isDigit
  if intDigits.isEmpty ∨ (intDigits.head? = some '0' ∧ intDigits.length ≠ 1) then none
  else
    match parseFraction (input.dropWhile Char.isDigit) with
    | none => none
    | some (fracDigits, afterFraction) =>
      match parseExponent afterFraction with
      | none => none
      | some (exponent, rest) =>
        some (toJsonNumber negative (intDigits ++ fracDigits) (exponent - fracDigits.length),
          rest)

/-- A JSON number: an optional minus sign and the unsigned number. -/
def parseNumber (input : List Char) : Option (JsonNumber × List Char) :=
  if input.head? = some '-' then parseUnsigned true input.tail
  else parseUnsigned false input

/-- Model of `CreateDataProperty` on a map: the value of an existing property is replaced, a
new property is added last. -/
def setMember (members : List (String × Json)) (key : String) (value : Json) :
    List (String × Json) :=
  match members with
  | [] => [(key, value)]
  | (k, v) :: rest =>
    if k = key then (key, value) :: rest else (k, v) :: setMember rest key value

mutual
/-- A JSON value at the start of the text, after optional white space, and the text that
follows it; the first argument bounds the depth of the recursion. -/
def parseValue : Nat → List Char → Option (Json × List Char)
  | 0, _ => none
  | fuel + 1, input =>
    match skipWhiteSpace input with
    | [] => none
    | c :: rest =>
      if c = 'n' then
        if "ull".data.isPrefixOf rest then some (.null, rest.drop 3) else none
      else if c = 't' then
        if "rue".data.isPrefixOf rest then some (.bool true, rest.drop 3) else none
      else if c = 'f' then
        if "alse".data.isPrefixOf rest then some (.bool false, rest.drop 4) else none
      else if c = '\x22' then
        match parseString rest with
        | some (s, rest1) => some (.string s, rest1)
        | none => none
      else if c = '[' then
        if (skipWhiteSpace rest).head? = some ']' then some (.array [], (skipWhiteSpace rest).tail)
        else parseElements fuel rest []
      else if c = '\x7b' then
        if (skipWhiteSpace rest).head? = some '\x7d' then
          some (.object [], (skipWhiteSpace rest).tail)
        else parseMembers fuel rest []
      else if c = '-' ∨ c.isDigit then
        match parseNumber (c :: rest) with
        | some (n, rest1) => some (.number n, rest1)
        | none => none
      else none
/-- The items of a sequence after its opening bracket or after a comma, up to the closing
bracket; `acc` holds the items read so far. -/
def parseElements : Nat → List Char → List Json → Option (Json × List Char)
  | 0, _, _ => none
  | fuel + 1, input, acc =>
    match parseValue fuel input with
    | none => none
    | some (value, rest) =>
      if (skipWhiteSpace rest).head? = some ',' then
        parseElements fuel (skipWhiteSpace rest).tail (acc ++ [value])
      else if (skipWhiteSpace rest).head? = some ']' then
        some (.array (acc ++ [value]), (skipWhiteSpace rest).tail)
      else none
/-- The properties of a map after its opening brace or after a comma, up to the closing
brace; `acc` holds the properties read so far. -/
def parseMembers : Nat → List Char → List (String × Json) → Option (Json × List Char)
  | 0, _, _ => none
  | fuel + 1, input, acc =>
    if (skipWhiteSpace input).head? = some '\x22' then
      match parseString (skipWhiteSpace input).tail with
      | none => none
      | some (key, rest) =>
        if (skipWhiteSpace rest).head? = some ':' then
          match parseValue fuel (skipWhiteSpace rest).tail with
          | none => none
          | some (value, rest1) =>
            if (skipWhiteSpace rest1).head? = some ',' then
              parseMembers fuel (skipWhiteSpace rest1).tail (setMember acc key value)
            else if (skipWhiteSpace rest1).head? = some '\x7d' then
              some (.object (setMember acc key value), (skipWhiteSpace rest1).tail)
            else none
        else none
    else none
end

/-- Model of `JSON.parse` (without reviver): the value that the whole text denotes, `none`
where `JSON.parse` throws a `SyntaxError`.  The bound on the recursion is the length of the
text, which no text exhausts. -/
def JSON.parse (text : String) : Option Json :=
  match parseValue (text.length + 1) text.data with
  | some (value, rest) => if (skipWhiteSpace rest).isEmpty then some value else none
  | none => none

/-- The object of the tests of `formatJSON`. -/
def formatTestObject : Json :=
  .object
    [ ("title", .string "My Post"),
      ("published", .bool true),
      ("options", .array [.number (.decimal false ['1'] 1), .number (.decimal false ['2'] 1),
        .number (.decimal false ['3'] 1)]),
      ("image", .object [("alt", .string "flower"), ("src", .string "flower.jpg")]) ]

/-- Whether a number can end in front of `rest`: the text does not go on with a digit, a
decimal point or an exponent mark. -/
def numberEnd (rest : List Char) : Bool :=
  match rest.head? with
  | none => true
  | some c => !(c.isDigit || c = '.' || c = 'e' || c = 'E')

/-! ### Simultaneous substitution -/

/-- The values of the five tokens. -/
def tokenValues (slug collection path login name : String) : Token → String
  | .slug => slug
  | .collection => collection
  | .path => path
  | .authorLogin => login
  | .authorName => name

/-- The token written at the start of the text, if one of the five is. -/
def tokenAt (input : List Char) : Option Token :=
  [Token.slug, .collection, .path, .authorLogin, .authorName].find?
    (fun t => t.text.data.isPrefixOf input)

/-- The single simultaneous substitution of the five tokens in a template: the template is
read once from left to right; where a token is written its value is put out and reading goes on
after the token, every other character is put out as it is.  No value is read again.  The last
argument is the number of characters of the current token still to be passed over. -/
def substituteTokensGo (val : Token → String) : List Char → Nat → List Char
  | [], _ => []
  | _ :: cs, skip + 1 => substituteTokensGo val cs skip
  | c :: cs, 0 =>
    match tokenAt (c :: cs) with
    | some t => (val t).data ++ substituteTokensGo val cs (t.text.data.length - 1)
    | none => c :: substituteTokensGo val cs 0

/-- The template with every token replaced by its value, all at once. -/
def substituteTokens (val : Token → String) (template : String) : String :=
  ⟨substituteTokensGo val template.data 0⟩

/-- A number that `Number` returns for a run of decimal digits: a double that is a natural
number, or `Infinity`. -/
inductive NaturalDouble
  | finite (value : Nat)
  | infinity
  deriving DecidableEq, Repr

/-- The double nearest to the natural number `n` (round to nearest, ties to even).  Every
natural number below `2 ^ 53` is a double.  From there on, for `2 ^ k ≤ n < 2 ^ (k + 1)`, the
doubles around `n` are the multiples of `2 ^ (k - 52)`, and a number that rounds to
`2 ^ 1024` (from `2 ^ 1024 - 2 ^ 970` on) becomes `Infinity`. -/
def nearestDouble (n : Nat) : NaturalDouble :=
  if n < 2 ^ 53 then .finite n
  else
    let unit := 2 ^ (floorLog2 n - 52)
    let value := roundHalfEven n unit * unit
    if value < 2 ^ 1024 then .finite value else .infinity

/-- The number that `Number(s)` is for a non-empty run of decimal digits `s` (line 279,
`Number(idMatcher[0])`): the double nearest to the number that the digits write. -/
def NumberOfString.value? (n : NumberOfString) : Option NaturalDouble :=
  if n.source.data ≠ [] ∧ n.source.data.all Char.isDigit = true then
    some (nearestDouble (digitsValue n.source.data))
  else none

/-! ### Entry files (`formatFrontMatter`, `formatEntryFile`) -/

/-- A content object, given by its own properties in order. -/
abbrev Content (V : Type) := List (String × V)

/-- The value of the property `key` of a content object, if it has the property. -/
def Content.get? {V : Type} (content : Content V) (key : String) : Option V :=
  match content with
  | [] => none
  | (k, v) :: rest => if k = key then some v else Content.get? rest key

/-- The keys of a content object. -/
def Content.keys {V : Type} (content : Content V) : List String :=
  content.map Prod.fst

/-- What the entry file formatter calls: the test `typeof value === 'string'` on the values
of a content object, and the three serialisers `formatYAML` (with the `quote` option),
`formatTOML` and `formatJSON` applied to a content object.  A serialiser returns its text or
throws; the values are arbitrary, so a content object need not be a tree. -/
structure Formatters (V : Type) where
  stringOf : V → Option String
  formatYAML : Content V → Bool → Outcome String
  formatTOML : Content V → Outcome String
  formatJSON : Content V → Outcome String

/-- The registry of custom formats: the formatter registered under a format name. -/
abbrev CustomFormatterRegistry (V : Type) := String → Option (Content V → Outcome String)

/-- The body text: the property `body` if it is a string, else the empty string. -/
def bodyText {V : Type} (F : Formatters V) (content : Content V) : String :=
  match content.get? "body" with
  | some value => (F.stringOf value).getD ""
  | none => ""

/-- The content object after `delete content.body`. -/
def deleteBody {V : Type} (content : Content V) : Content V :=
  content.filter (fun property => property.1 ≠ "body")

/-- The serialiser of a front-matter format. -/
def frontMatterCodec {V : Type} (F : Formatters V) (file : FileConfig) :
    Option (Content V → Outcome String) :=
  if file.format = "frontmatter" ∨ file.format = "yaml-frontmatter" then
    some (fun content => F.formatYAML content file.yamlQuote)
  else if file.format = "toml-frontmatter" then some F.formatTOML
  else if file.format = "json-frontmatter" then some F.formatJSON
  else none

/-- Modelled from the spec: `formatFrontMatter` of `contents/file/format`, whose source is
missing.  The `body` key is removed from the content object; for an unrecognised format the
result is the empty string; the rest of the content is serialised by the codec of the format
and wrapped: opening delimiter line, data, closing delimiter line, body text, newline.  From
the tests: without `fmDelimiters` both delimiters are `---` for every format, and a content
without any key besides `body` gives the body text and a newline without a front-matter block.
A serialiser that throws makes the function throw.  The result is paired with the content
object as the call leaves it. -/
def formatFrontMatter {V : Type} (F : Formatters V) (content : Content V) (file : FileConfig) :
    Outcome String × Content V :=
  let delimiters := file.fmDelimiters.getD ("---", "---")
  let body := bodyText F content
  let data := deleteBody content
  match frontMatterCodec F file with
  | none => (.ok "", data)
  | some codec =>
    if data.isEmpty then (.ok (body ++ "\n"), data)
    else
      match codec data with
      | .ok text =>
        (.ok (delimiters.1 ++ "\n" ++ text ++ "\n" ++ delimiters.2 ++ "\n" ++ body ++ "\n"),
          data)
      | .failed error => (.failed error, data)

/-- The text of a formatter followed by a newline. -/
def withNewline : Outcome String → Outcome String
  | .ok text => .ok (text ++ "\n")
  | .failed error => .failed error

/-- The dispatch of `formatEntryFile` inside its `try` block. -/
def formatEntryFileAttempt {V : Type} (F : Formatters V) (registry : CustomFormatterRegistry V)
    (content : Content V) (file : FileConfig) : Outcome String × Content V :=
  if file.format = "yaml" ∨ file.format = "yml" then
    (withNewline (F.formatYAML content file.yamlQuote), content)
  else if file.format = "toml" then (withNewline (F.formatTOML content), content)
  else if file.format = "json" then (withNewline (F.formatJSON content), content)
  else if file.format = "frontmatter" ∨ file.format = "yaml-frontmatter" ∨
      file.format = "toml-frontmatter" ∨ file.format = "json-frontmatter" then
    formatFrontMatter F content file
  else
    match registry file.format with
    | some formatter => (withNewline (formatter content), content)
    | none => (.ok "", content)

/-- Modelled from the spec: `formatEntryFile` of `contents/file/format`, whose source is
missing.  The dispatch is: `yaml`/`yml`, `toml` and `json` give the text of the serialiser and
a newline; a front-matter format (`*frontmatter`: `frontmatter` and its `yaml-`, `toml-` and
`json-` variants) gives the result of `formatFrontMatter`; any other format is looked up in the
registry of custom formatters, whose text is followed by a newline; an unregistered format gives
the empty string.  Whatever is thrown on the way is caught and the empty string is returned
instead (the report on the console is not part of the model).  The result is paired with the
content object as the call leaves it. -/
def formatEntryFile {V : Type} (F : Formatters V) (registry : CustomFormatterRegistry V)
    (content : Content V) (file : FileConfig) : Outcome String × Content V :=
  match formatEntryFileAttempt F registry content file with
  | (.ok text, after) => (.ok text, after)
  | (.failed _, after) => (.ok "", after)

/-- The serialisers over JSON values: `formatJSON` as modelled, with the output options of the
tests; for YAML and TOML the texts that the tests record for their contents. -/
def testFormatters (yaml toml : String) : Formatters Json where
  stringOf := fun value => match value with
    | .string s => some s
    | _ => none
  formatYAML := fun _ _ => .ok yaml
  formatTOML := fun _ => .ok toml
  formatJSON := fun content => .ok (formatJSON (.object content) ⟨some .space, some 2⟩)

/-- A file configuration of the tests of the formatter. -/
def testFile (format : String) (fmDelimiters : Option (String × String)) : FileConfig :=
  ⟨".md", format, none, none, none, none, fmDelimiters, false⟩

/-- The content `baseContent` of the tests of `formatFrontMatter`. -/
def baseContent : Content Json :=
  [ ("title", .string "My Post"), ("published", .bool true),
    ("tags", .array [.string "test", .string "vitest"]),
    ("body", .string "This is the body content of the post.") ]

/-! ## Deprecation warnings (`config/deprecations.js`) -/

/-- The names of the properties that every plain object inherits from `Object.prototype`.
The value of each of them is a function or, for `__proto__`, the prototype object itself, so
reading any of them from an object without an own property of the name gives a truthy
value. -/
def objectPrototypeKeys : List String :=
  [ "constructor", "__defineGetter__", "__defineSetter__", "hasOwnProperty",
    "__lookupGetter__", "__lookupSetter__", "isPrototypeOf", "propertyIsEnumerable",
    "toString", "valueOf", "__proto__", "toLocaleString" ]

/-- The argument of a call of `console.warn`: a text, `undefined`, or the value of the
inherited property of the given name. -/
inductive WarnArgument
  | text (message : String)
  | undefined
  | inherited (key : String)
  deriving DecidableEq, Repr

/-- The module state of `deprecations.js` and the console: the own properties of
`warnedOnceMap` in order, and the calls of `console.warn` so far, each with the key of the
call of `warnDeprecation` that made it. -/
structure DeprecationState where
  warnedOnceMap : List (String × Bool)
  warnings : List (String × WarnArgument)
  deriving DecidableEq, Repr

/-- The state when the module has been loaded. -/
def DeprecationState.initial : DeprecationState :=
  ⟨[("yaml_quote", false), ("uuid_read_only", false)], []⟩

/-- The table `warningMessages`. -/
def warningMessages : List (String × String) :=
  [ ("yaml_quote",
      "The \x60yaml_quote\x60 collection option is deprecated and will be removed in Sveltia CMS 1.0. " ++
      "Use the global \x60output.yaml.quote\x60 option instead. " ++
      "https://github.com/sveltia/sveltia-cms#controlling-data-output"),
    ("uuid_read_only",
      "The \x60read_only\x60 option for the UUID widget is deprecated and will be removed in Sveltia CMS " ++
      "1.0. Use the \x60readonly\x60 option instead.") ]

/-- The own property `key` of an object given by its own properties. -/
def ownProperty {α : Type} (properties : List (String × α)) (key : String) : Option α :=
  match properties with
  | [] => none
  | (k, v) :: rest => if k = key then some v else ownProperty rest key

/-- The assignment `object[key] = value` on a plain object: the own property is overwritten
in place or added at the end; for `__proto__` the inherited setter is called instead, which
ignores a value that is neither an object nor `null`. -/
def assignProperty (properties : List (String × Bool)) (key : String) (value : Bool) :
    List (String × Bool) :=
  if key = "__proto__" then properties
  else
    match properties with
    | [] => [(key, value)]
    | (k, v) :: rest =>
      if k = key then (k, value) :: rest else (k, v) :: assignProperty rest key value

/-- Whether `warnedOnceMap[key]` is truthy: the own property if there is one, else the
property inherited from `Object.prototype`. -/
def isWarned (s : DeprecationState) (key : String) : Bool :=
  match ownProperty s.warnedOnceMap key with
  | some issued => issued
  | none => decide (key ∈ objectPrototypeKeys)

/-- The value of `message ?? warningMessages[key]`. -/
def warningArgument (key : String) (message : Option String) : WarnArgument :=
  match message with
  | some m => .text m
  | none =>
    match ownProperty warningMessages key with
    | some m => .text m
    | none => if key ∈ objectPrototypeKeys then .inherited key else .undefined

/-- The function `warnDeprecation(key, message)`; `vitest` is the value of
`import.meta.env.VITEST`, and a `message` that is `undefined` is `none`. -/
def warnDeprecation (vitest : Bool) (key : String) (message : Option String)
    (s : DeprecationState) : DeprecationState :=
  if vitest then s
  else if !isWarned s key then
    { warnedOnceMap := assignProperty s.warnedOnceMap key true,
      warnings := s.warnings ++ [(key, warningArgument key message)] }
  else s

/-- A sequence of calls of `warnDeprecation`, each with its key and message. -/
def warnDeprecations (vitest : Bool) (calls : List (String × Option String))
    (s : DeprecationState) : DeprecationState :=
  calls.foldl (fun s call => warnDeprecation vitest call.1 call.2 s) s

/-- The warnings emitted for `key` so far. -/
def DeprecationState.warningsFor (s : DeprecationState) (key : String) :
    List WarnArgument :=
  (s.warnings.filter (fun w => w.1 = key)).map Prod.snd

/-! ## The field walk of the configuration parser (`config/parser/fields`) -/

/-- A field of the configuration as far as the walk looks at it: a field without subfields
and its widget, an `object` field with `fields` or with `types`, and a `list` field with
`fields`, with a single `field` or with `types`; a type has a name and fields. -/
inductive Field
  | leaf (name widget : String)
  | object (name : String) (fields : List Field)
  | objectTypes (name : String) (types : List (String × List Field))
  | list (name : String) (fields : List Field)
  | listField (name : String) (field : Field)
  | listTypes (name : String) (types : List (String × List Field))
  deriving Repr

/-- The `name` of a field. -/
def Field.name : Field → String
  | .leaf name _ => name
  | .object name _ => name
  | .objectTypes name _ => name
  | .list name _ => name
  | .listField name _ => name
  | .listTypes name _ => name

/-- The `widget` of a field. -/
def Field.widget : Field → String
  | .leaf _ widget => widget
  | .object _ _ => "object"
  | .objectTypes _ _ => "object"
  | .list _ _ => "list"
  | .listField _ _ => "list"
  | .listTypes _ _ => "list"

/-- An element of a collector: the field configuration and the key path of its context. -/
structure FieldEntry where
  fieldConfig : Field
  keyPath : String
  deriving Repr

/-- The two field collectors of `ConfigParserCollectors`, each a set of freshly made objects,
that is, the list of its elements in the order of insertion. -/
structure FieldCollectors where
  mediaFields : List FieldEntry
  relationFields : List FieldEntry
  deriving Repr

/-- The key path of a field called `name` in a context with key path `keyPath`; the context
of the top-level fields has the empty key path. -/
def joinKeyPath (keyPath name : String) : String :=
  if keyPath = "" then name else keyPath ++ "." ++ name

/-- A field is added to the media fields when its widget is a media type and to the relation
fields when its widget is `relation`. -/
def collectField (mediaTypes : List String) (entry : FieldEntry) (collectors : FieldCollectors) :
    FieldCollectors :=
  { mediaFields :=
      if entry.fieldConfig.widget ∈ mediaTypes then collectors.mediaFields ++ [entry]
      else collectors.mediaFields
    relationFields :=
      if entry.fieldConfig.widget = "relation" then collectors.relationFields ++ [entry]
      else collectors.relationFields }

mutual
/-- Modelled from the spec: the visit of one field by `parseFields` of
`config/parser/fields`, whose source is missing.  The field is classified under its key path
and then its subfields are walked: those of an object field `p` in the context `p`, those of
a list field in the context `p.*`, those of the type `t` of a list field in the context
`p.*<t>` and those of the type `t` of an object field in the context `p<t>`.  The widget
names that count as media types are a parameter. -/
def parseField (mediaTypes : List String) (keyPath : String) :
    Field → FieldCollectors → FieldCollectors
  | .leaf name widget, collectors =>
    collectField mediaTypes ⟨.leaf name widget, joinKeyPath keyPath name⟩ collectors
  | .object name fields, collectors =>
    parseFields mediaTypes (joinKeyPath keyPath name) fields
      (collectField mediaTypes ⟨.object name fields, joinKeyPath keyPath name⟩ collectors)
  | .objectTypes name types, collectors =>
    parseTypes mediaTypes (joinKeyPath keyPath name) types
      (collectField mediaTypes ⟨.objectTypes name types, joinKeyPath keyPath name⟩ collectors)
  | .list name fields, collectors =>
    parseFields mediaTypes (joinKeyPath keyPath name ++ ".*") fields
      (collectField mediaTypes ⟨.list name fields, joinKeyPath keyPath name⟩ collectors)
  | .listField name field, collectors =>
    parseField mediaTypes (joinKeyPath keyPath name ++ ".*") field
      (collectField mediaTypes ⟨.listField name field, joinKeyPath keyPath name⟩ collectors)
  | .listTypes name types, collectors =>
    parseTypes mediaTypes (joinKeyPath keyPath name ++ ".*") types
      (collectField mediaTypes ⟨.listTypes name types, joinKeyPath keyPath name⟩ collectors)
/-- Modelled from the spec: `parseFields(fields, context, collectors)` of
`config/parser/fields`, whose source is missing: the fields are visited in the declared order,
each with its subfields before the next, and the collectors are passed along.  Of the context
only the key path matters to the collectors. -/
def parseFields (mediaTypes : List String) (keyPath : String) :
    List Field → FieldCollectors → FieldCollectors
  | [], collectors => collectors
  | field :: rest, collectors =>
    parseFields mediaTypes keyPath rest (parseField mediaTypes keyPath field collectors)
/-- The walk through the `types` of a field: the fields of the type `t` are visited in the
context whose key path ends in `<t>`. -/
def parseTypes (mediaTypes : List String) (keyPath : String) :
    List (String × List Field) → FieldCollectors → FieldCollectors
  | [], collectors => collectors
  | (type, fields) :: rest, collectors =>
    parseTypes mediaTypes keyPath rest
      (parseFields mediaTypes (keyPath ++ "<" ++ type ++ ">") fields collectors)
end

/-- The fields that the walk meets, as the property states it: a field `field` of the list
under the key path `p` is met with the key path `p.name` (`name` when `p` is empty), and so is
whatever is met among the subfields of an object field under its key path `q`, among the
subfields or under the single subfield of a list field under `q.*`, among the fields of a
type `t` of a list field under `q.*<t>` and among the fields of a type `t` of an object field
under `q<t>`. -/
inductive Meets : String → List Field → FieldEntry → Prop
  | here (p : String) (fields : List Field) (field : Field) :
      field ∈ fields → Meets p fields ⟨field, joinKeyPath p field.name⟩
  | object (p : String) (fields : List Field) (name : String) (subfields : List Field)
      (entry : FieldEntry) :
      Field.object name subfields ∈ fields → Meets (joinKeyPath p name) subfields entry →
      Meets p fields entry
  | list (p : String) (fields : List Field) (name : String) (subfields : List Field)
      (entry : FieldEntry) :
      Field.list name subfields ∈ fields →
      Meets (joinKeyPath p name ++ ".*") subfields entry → Meets p fields entry
  | listField (p : String) (fields : List Field) (name : String) (subfield : Field)
      (entry : FieldEntry) :
      Field.listField name subfield ∈ fields →
      Meets (joinKeyPath p name ++ ".*") [subfield] entry → Meets p fields entry
  | listTypes (p : String) (fields : List Field) (name : String)
      (types : List (String × List Field)) (type : String) (subfields : List Field)
      (entry : FieldEntry) :
      Field.listTypes name types ∈ fields → (type, subfields) ∈ types →
      Meets (joinKeyPath p name ++ ".*" ++ "<" ++ type ++ ">") subfields entry →
      Meets p fields entry
  | objectTypes (p : String) (fields : List Field) (name : String)
      (types : List (String × List Field)) (type : String) (subfields : List Field)
      (entry : FieldEntry) :
      Field.objectTypes name types ∈ fields → (type, subfields) ∈ types →
      Meets (joinKeyPath p name ++ "<" ++ type ++ ">") subfields entry →
      Meets p fields entry

mutual
/-- The field and the fields below it in depth-first pre-order, each with its key path. -/
def Field.preOrder (keyPath : String) : Field → List FieldEntry
  | .leaf name widget => [⟨.leaf name widget, joinKeyPath keyPath name⟩]
  | .object name fields =>
    ⟨.object name fields, joinKeyPath keyPath name⟩ ::
      fieldsPreOrder (joinKeyPath keyPath name) fields
  | .objectTypes name types =>
    ⟨.objectTypes name types, joinKeyPath keyPath name⟩ ::
      typesPreOrder (joinKeyPath keyPath name) types
  | .list name fields =>
    ⟨.list name fields, joinKeyPath keyPath name⟩ ::
      fieldsPreOrder (joinKeyPath keyPath name ++ ".*") fields
  | .listField name field =>
    ⟨.listField name field, joinKeyPath keyPath name⟩ ::
      field.preOrder (joinKeyPath keyPath name ++ ".*")
  | .listTypes name types =>
    ⟨.listTypes name types, joinKeyPath keyPath name⟩ ::
      typesPreOrder (joinKeyPath keyPath name ++ ".*") types
/-- The fields of a list and the fields below them in depth-first pre-order. -/
def fieldsPreOrder (keyPath : String) : List Field → List FieldEntry
  | [] => []
  | field :: rest => field.preOrder keyPath ++ fieldsPreOrder keyPath rest
/-- The fields of the types of a field in depth-first pre-order. -/
def typesPreOrder (keyPath : String) : List (String × List Field) → List FieldEntry
  | [] => []
  | (type, fields) :: rest =>
    fieldsPreOrder (keyPath ++ "<" ++ type ++ ">") fields ++ typesPreOrder keyPath rest
end

/-- The collectors of a fresh parse. -/
def createCollectors : FieldCollectors := ⟨[], []⟩

/-- The key paths of the elements of a collector. -/
def keyPaths (entries : List FieldEntry) : List String :=
  entries.map FieldEntry.keyPath

/-- The collectors after the entries of a list have been classified one after the other. -/
def collectFields (mediaTypes : List String) (entries : List FieldEntry)
    (collectors : FieldCollectors) : FieldCollectors :=
  { mediaFields :=
      collectors.mediaFields ++
        entries.filter (fun entry => entry.fieldConfig.widget ∈ mediaTypes)
    relationFields :=
      collectors.relationFields ++
        entries.filter (fun entry => entry.fieldConfig.widget = "relation") }

/-- The events of answered requests: each request is followed by the write of the progress
value computed after it. -/
def answeredEvents : List Exchange → List JSNumber → List Event
  | x :: xs, v :: vs => .request x :: .progress (some v) :: answeredEvents xs vs
  | _, _ => []

/-! ### Sample data -/

/-- A remote side that answers every query: one blob per requested path, one commit per
requested path, and a single page of two blobs; its state counts the requests. -/
def sampleRemote : Remote Nat where
  tree := fun _ s =>
    (.ok ⟨[⟨"blob", "a.md", "sha-a"⟩, ⟨"blob", "b.md", "sha-b"⟩], "", false⟩, s + 1)
  blobs := fun paths s => (.ok (paths.map (fun p => ⟨"7", "text of " ++ p⟩)), s + 1)
  commits := fun paths s =>
    (.ok (paths.map (fun p =>
      ("tree " ++ p, ⟨some ⟨some "gid://gitlab/User/123", some "octocat"⟩, "Octo Cat",
        "octo@example.com", "2024-01-01T00:00:00Z"⟩))), s + 1)

/-- The state before any request: store `undefined`, nothing written, nothing requested. -/
def sampleWorld : World Nat := ⟨0, none, [], [], []⟩

/-- The i18n options of the tests of `getEntryPathRegEx`: locales `en` and `fr`, default `en`,
with the given flags for the multi-file, multi-folder and root multi-folder structures and for
the omission of the default locale from file names. -/
def testI18n (multiFile multiFolder rootMultiFolder omitDefault : Bool) : I18nOptions :=
  ⟨false, ["en", "fr"], "en", ⟨false, multiFile, multiFolder, rootMultiFolder⟩, omitDefault⟩

/-- The i18n options `i18nDisabled` of the tests of `getFileConfig`. -/
def i18nDisabled : I18nOptions :=
  ⟨false, ["_default"], "_default", ⟨false, false, false, false⟩, false⟩

/-- The raw collection `rawFolderCollection` of the tests of `getFileConfig`. -/
def rawFolderCollection : RawCollection :=
  ⟨some "/content/posts", none, none, none, none, .absent⟩

/-- The raw collection `rawFileCollection` of the tests of `getFileConfig`. -/
def rawFileCollection : RawCollection :=
  ⟨none, none, none, none, none, .absent⟩

/-- The documented complexity score of the blob query for `k` paths (comment at lines 165 to
168): `15 + (2 * node size)`. -/
def blobQueryComplexity (k : Nat) : Nat := 15 + 2 * k

/-- The documented complexity score of the commit query for `k` paths (comment at line 225):
`5 + (18 * node size)`. -/
def commitQueryComplexity (k : Nat) : Nat := 5 + 18 * k

end Sveltia

/-! ## Theorems: commit messages -/

namespace Sveltia

theorem skipCI_marker_ne (m : String) : "[skip ci] " ++ m ≠ m := by
  intro h
  have h2 := congrArg String.length h
  simp [String.length_append] at h2
  have h3 : "[skip ci] ".length = 10 := by decide
  omega

/-- C1: `createCommitMessage` returns `"[skip ci] "` followed by the substituted message exactly
when the commit type is neither `delete` nor `deleteMedia` and either `skipCI` is true, or
`skipCI` is unset and `automatic_deployments` is explicitly `false`; in every other case it
returns the substituted message with nothing prepended. -/
theorem createCommitMessage_skipCI {κ : Type} (env : CommitEnv κ) (changes : List FileChange)
    (options : CommitOptions κ) :
    (createCommitMessage env changes options =
      if commitTypeOf options ≠ .delete ∧ commitTypeOf options ≠ .deleteMedia ∧
          (options.skipCI = some true ∨
            (options.skipCI = none ∧ env.backend.automatic_deployments = some false))
      then "[skip ci] " ++ substitutedMessage env changes options
      else substitutedMessage env changes options) ∧
    (createCommitMessage env changes options =
        "[skip ci] " ++ substitutedMessage env changes options ↔
      commitTypeOf options ≠ .delete ∧ commitTypeOf options ≠ .deleteMedia ∧
          (options.skipCI = some true ∨
            (options.skipCI = none ∧ env.backend.automatic_deployments = some false))) := by
  have key : skipCIApplies env options = true ↔
      (commitTypeOf options ≠ .delete ∧ commitTypeOf options ≠ .deleteMedia ∧
          (options.skipCI = some true ∨
            (options.skipCI = none ∧ env.backend.automatic_deployments = some false))) := by
    unfold skipCIApplies
    rcases hs : options.skipCI with _ | b
    · simp
      tauto
    · cases b <;> simp
  unfold createCommitMessage
  by_cases h : skipCIApplies env options = true
  · have h2 := key.mp h
    simp only [h, if_true, if_pos h2, true_and]
    exact ⟨fun _ => h2, fun _ => trivial⟩
  · have h2 : ¬ _ := fun h3 => h (key.mpr h3)
    have h' : skipCIApplies env options = false := by simpa using h
    simp only [h', if_neg h2]
    refine ⟨by simp, ?_⟩
    constructor
    · intro h3
      have h4 : substitutedMessage env changes options =
          "[skip ci] " ++ substitutedMessage env changes options := by simpa using h3
      exact absurd h4.symm (skipCI_marker_ne _)
    · intro h3
      exact absurd h3 h2

/-- C2: with the built-in default templates, commit type `update`, a collection whose singular
label is `Posts` and a change whose slug is `my-post`, `createCommitMessage` returns
`Update Posts “my-post”`, the quotation marks being the typographic ones (U+201C, U+201D) of the
built-in update template, with nothing added when skip-CI does not apply. -/
theorem createCommitMessage_default_update {κ : Type} (label : κ → Bool → String) (c : κ)
    (user : User) (autoDeploy skipCI : Option Bool) (path : String)
    (hlabel : label c true = "Posts")
    (hskip : skipCI = some false ∨ (skipCI = none ∧ autoDeploy ≠ some false)) :
    createCommitMessage ⟨⟨none, autoDeploy⟩, user, label⟩ [⟨path, some "my-post"⟩]
      ⟨some .update, some c, skipCI⟩ = "Update Posts “my-post”" := by
  have hs : skipCIApplies (⟨⟨none, autoDeploy⟩, user, label⟩ : CommitEnv κ)
      ⟨some .update, some c, skipCI⟩ = false := by
    rcases hskip with h | ⟨h, h2⟩
    · subst h; simp [skipCIApplies]
    · subst h; simp [skipCIApplies, h2]
  simp only [createCommitMessage, hs, substitutedMessage, substituteTemplate, selectTemplate,
    commitTypeOf, collectionLabel, hlabel]
  rfl

theorem createCommitMessage_default_update_witness :
    createCommitMessage (⟨⟨none, some true⟩, ⟨some "octocat", none⟩, fun _ _ => "Posts"⟩ :
        CommitEnv Unit) [⟨"content/posts/my-post.md", some "my-post"⟩]
      ⟨some .update, some (), none⟩ = "Update Posts “my-post”" :=
  createCommitMessage_default_update (fun _ _ => "Posts") () ⟨some "octocat", none⟩ (some true)
    none "content/posts/my-post.md" rfl (Or.inr ⟨rfl, by decide⟩)

/-- C3, as stated, fails: with the custom `update` template configured as the empty string,
the message is built from the built-in default template and not from the configured one (which
would give the empty message). -/
theorem createCommitMessage_empty_custom_template :
    ((⟨some (fun _ => some ""), none⟩ : BackendConfig).commit_messages.getD (fun _ => none))
        CommitType.update = some "" ∧
      createCommitMessage (⟨⟨some (fun _ => some ""), none⟩, ⟨none, none⟩, fun _ _ => "Posts"⟩ :
          CommitEnv Unit) [⟨"content/posts/my-post.md", some "my-post"⟩]
        ⟨some .update, some (), none⟩ = "Update Posts “my-post”" ∧
      substituteTemplate (⟨⟨some (fun _ => some ""), none⟩, ⟨none, none⟩, fun _ _ => "Posts"⟩ :
          CommitEnv Unit) [⟨"content/posts/my-post.md", some "my-post"⟩]
        ⟨some .update, some (), none⟩ "" = "" := by
  refine ⟨rfl, ?_, ?_⟩ <;> decide

/-- C3, amended: for every commit type, `createCommitMessage` builds the message from the custom
template configured for that commit type whenever a non-empty one is configured, and from the
built-in default template of that commit type when none is configured or the configured one is
the empty string. -/
theorem createCommitMessage_template_choice {κ : Type} (env : CommitEnv κ)
    (changes : List FileChange) (options : CommitOptions κ) :
    createCommitMessage env changes options =
      if skipCIApplies env options then
        "[skip ci] " ++ substituteTemplate env changes options
          (match (env.backend.commit_messages.getD (fun _ => none)) (commitTypeOf options) with
            | some t => if t = "" then DEFAULT_COMMIT_MESSAGES (commitTypeOf options) else t
            | none => DEFAULT_COMMIT_MESSAGES (commitTypeOf options))
      else
        substituteTemplate env changes options
          (match (env.backend.commit_messages.getD (fun _ => none)) (commitTypeOf options) with
            | some t => if t = "" then DEFAULT_COMMIT_MESSAGES (commitTypeOf options) else t
            | none => DEFAULT_COMMIT_MESSAGES (commitTypeOf options)) := by
  have hd : ∀ ct : CommitType, JS.orElse (some (DEFAULT_COMMIT_MESSAGES ct)) "" =
      DEFAULT_COMMIT_MESSAGES ct := by
    intro ct
    cases ct <;> decide
  have hsel : selectTemplate env options =
      (match (env.backend.commit_messages.getD (fun _ => none)) (commitTypeOf options) with
        | some t => if t = "" then DEFAULT_COMMIT_MESSAGES (commitTypeOf options) else t
        | none => DEFAULT_COMMIT_MESSAGES (commitTypeOf options)) := by
    unfold selectTemplate
    simp only [hd]
    cases (env.backend.commit_messages.getD (fun _ => none)) (commitTypeOf options) <;> rfl
  unfold createCommitMessage substitutedMessage
  rw [hsel]

/-! ### Substitution into templates -/

theorem getSubstitutionGo_no_dollar (m b a : List Char) (r : List Char) (h : '$' ∉ r) :
    JS.getSubstitutionGo m b a false r = r := by
  induction r with
  | nil => rfl
  | cons c t ih =>
    have hc : c ≠ '$' := fun hc => h (by simp [hc])
    have ht : '$' ∉ t := fun ht => h (by simp [ht])
    simp [JS.getSubstitutionGo, hc, ih ht]

theorem replaceAllGo_cons_succ (s r cs before : List Char) (c : Char) (k : Nat) :
    JS.replaceAllGo s r (c :: cs) before (k + 1) = JS.replaceAllGo s r cs (before ++ [c]) k :=
  rfl

theorem replaceAllGo_cons_zero (s r cs before : List Char) (c : Char) :
    JS.replaceAllGo s r (c :: cs) before 0 =
      if s.isPrefixOf (c :: cs) then
        JS.getSubstitution s before ((c :: cs).drop s.length) r ++
          (match s.length with
            | 0 => c :: JS.replaceAllGo s r cs (before ++ [c]) 0
            | k + 1 => JS.replaceAllGo s r cs (before ++ [c]) k)
      else c :: JS.replaceAllGo s r cs (before ++ [c]) 0 :=
  rfl

theorem replaceAllGo_skip (s r xs rest before : List Char) :
    JS.replaceAllGo s r (xs ++ rest) before xs.length = JS.replaceAllGo s r rest (before ++ xs) 0 := by
  induction xs generalizing before with
  | nil => simp
  | cons x xs ih =>
    rw [List.cons_append, List.length_cons, replaceAllGo_cons_succ, ih]
    simp

theorem replaceAllGo_match (s r rest before : List Char) (hs : s ≠ []) :
    JS.replaceAllGo s r (s ++ rest) before 0 =
      JS.getSubstitution s before rest r ++ JS.replaceAllGo s r rest (before ++ s) 0 := by
  cases s with
  | nil => exact absurd rfl hs
  | cons c cs =>
    have hp : (c :: cs).isPrefixOf (c :: (cs ++ rest)) = true := by
      have : (c :: cs) <+: (c :: cs) ++ rest := List.prefix_append _ _
      simp
    rw [List.cons_append, replaceAllGo_cons_zero, if_pos hp]
    have hd : List.drop (c :: cs).length (c :: (cs ++ rest)) = rest := by simp
    rw [hd]
    show _ ++ JS.replaceAllGo (c :: cs) r (cs ++ rest) (before ++ [c]) cs.length = _
    rw [replaceAllGo_skip]
    simp

theorem isPrefixOf_of_disagree (s x rest : List Char) (h : agreeOnOverlap s x = false) :
    s.isPrefixOf (x ++ rest) = false := by
  induction s generalizing x with
  | nil => simp [agreeOnOverlap] at h
  | cons a as ih =>
    cases x with
    | nil => simp [agreeOnOverlap] at h
    | cons b bs =>
      simp only [agreeOnOverlap, Bool.and_eq_false_iff] at h
      simp only [List.cons_append, List.isPrefixOf, Bool.and_eq_false_iff]
      rcases h with h | h
      · exact Or.inl h
      · exact Or.inr (ih bs h)

theorem replaceAllGo_clear (s r xs rest before : List Char) (h : clearOf s xs = true) :
    JS.replaceAllGo s r (xs ++ rest) before 0 = xs ++ JS.replaceAllGo s r rest (before ++ xs) 0 := by
  induction xs generalizing before with
  | nil => simp
  | cons x xs ih =>
    simp only [clearOf, Bool.and_eq_true, Bool.not_eq_true'] at h
    have hp := isPrefixOf_of_disagree s (x :: xs) rest h.1
    rw [List.cons_append] at hp
    rw [List.cons_append, replaceAllGo_cons_zero, hp, if_neg (by simp), ih _ h.2]
    simp

theorem clearOf_of_no_brace (s xs : List Char) (hs : s.head? = some '\x7b')
    (h : '\x7b' ∉ xs) : clearOf s xs = true := by
  induction xs with
  | nil => rfl
  | cons c cs ih =>
    have hc : c ≠ '\x7b' := fun hc => h (by simp [hc])
    have hcs : '\x7b' ∉ cs := fun hcs => h (by simp [hcs])
    cases s with
    | nil => simp at hs
    | cons a as =>
      simp only [List.head?_cons, Option.some.injEq] at hs
      subst hs
      have : ('\x7b' == c) = false := by
        simpa using fun h2 : '\x7b' = c => hc h2.symm
      simp [clearOf, agreeOnOverlap, this, ih hcs]

theorem token_text_head (t : Token) : t.text.data.head? = some '\x7b' := by
  cases t <;> rfl

theorem token_text_clear (t u : Token) (h : u ≠ t) : clearOf t.text.data u.text.data = true := by
  cases t <;> cases u <;> first | exact absurd rfl h | decide

theorem replaceAllGo_renderChars (t : Token) (v : String) (hv : '$' ∉ v.data)
    (val : Token → Option String) (ht : val t = none)
    (hval : ∀ u w, val u = some w → '\x7b' ∉ w.data)
    (ps : List Piece) (hlit : ∀ x, Piece.lit x ∈ ps → '\x7b' ∉ x.data) (before : List Char) :
    JS.replaceAllGo t.text.data v.data (renderChars val ps) before 0 =
      renderChars (Function.update val t (some v)) ps := by
  have hne : t.text.data ≠ [] := by
    intro h
    have := token_text_head t
    rw [h] at this
    simp at this
  induction ps generalizing before with
  | nil => simp [renderChars, JS.replaceAllGo, hne]
  | cons q ps ih =>
    have hlit' : ∀ x, Piece.lit x ∈ ps → '\x7b' ∉ x.data := fun x hx =>
      hlit x (List.mem_cons_of_mem _ hx)
    cases q with
    | lit x =>
      have hx : '\x7b' ∉ x.data := hlit x (List.mem_cons_self _ _)
      simp only [renderChars]
      rw [replaceAllGo_clear _ _ _ _ _ (clearOf_of_no_brace _ _ (token_text_head t) hx),
        ih hlit']
    | tok u =>
      simp only [renderChars]
      by_cases hut : u = t
      · subst hut
        rw [ht, Option.getD_none, replaceAllGo_match _ _ _ _ hne, ih hlit']
        simp [JS.getSubstitution, getSubstitutionGo_no_dollar _ _ _ _ hv]
      · rw [Function.update_noteq hut]
        cases hu : val u with
        | none =>
          rw [Option.getD_none,
            replaceAllGo_clear _ _ _ _ _ (token_text_clear t u hut), ih hlit']
        | some w =>
          rw [Option.getD_some,
            replaceAllGo_clear _ _ _ _ _
              (clearOf_of_no_brace _ _ (token_text_head t) (hval u w hu)), ih hlit']

theorem replaceAll_render (t : Token) (v : String) (hv : '$' ∉ v.data)
    (val : Token → Option String) (ht : val t = none)
    (hval : ∀ u w, val u = some w → '\x7b' ∉ w.data)
    (ps : List Piece) (hlit : ∀ x, Piece.lit x ∈ ps → '\x7b' ∉ x.data) :
    JS.replaceAll (render val ps) t.text v = render (Function.update val t (some v)) ps := by
  unfold JS.replaceAll render
  exact congrArg String.mk (replaceAllGo_renderChars t v hv val ht hval ps hlit [])

theorem firstSlug_cons (c : FileChange) (cs : List FileChange) :
    firstSlug (c :: cs) =
      match c.slug with
      | some v => if v = "" then firstSlug cs else v
      | none => firstSlug cs := by
  unfold firstSlug
  rcases hc : c.slug with _ | v
  · simp [hc]
  · by_cases hv : v = ""
    · simp [hc, hv]
    · simp [hc, hv]

theorem isFirstNonEmptySlug_firstSlug (changes : List FileChange) :
    IsFirstNonEmptySlug changes (firstSlug changes) := by
  induction changes with
  | nil => exact Or.inr ⟨rfl, by simp⟩
  | cons c cs ih =>
    rw [firstSlug_cons]
    rcases hc : c.slug with _ | v
    · simp only
      rcases ih with ⟨before, d, after, h1, h2, h3, h4⟩ | ⟨h1, h2⟩
      · refine Or.inl ⟨c :: before, d, after, by simp [h1], h2, h3, ?_⟩
        intro b hb
        rcases List.mem_cons.mp hb with rfl | hb
        · exact Or.inl hc
        · exact h4 b hb
      · refine Or.inr ⟨h1, ?_⟩
        intro b hb
        rcases List.mem_cons.mp hb with rfl | hb
        · exact Or.inl hc
        · exact h2 b hb
    · by_cases hv : v = ""
      · simp only [hv, if_true]
        rcases ih with ⟨before, d, after, h1, h2, h3, h4⟩ | ⟨h1, h2⟩
        · refine Or.inl ⟨c :: before, d, after, by simp [h1], h2, h3, ?_⟩
          intro b hb
          rcases List.mem_cons.mp hb with rfl | hb
          · exact Or.inr (by rw [hc, hv])
          · exact h4 b hb
        · refine Or.inr ⟨h1, ?_⟩
          intro b hb
          rcases List.mem_cons.mp hb with rfl | hb
          · exact Or.inr (by rw [hc, hv])
          · exact h2 b hb
      · simp only [hv, if_false]
        exact Or.inl ⟨[], c, cs, rfl, hc, hv, by simp⟩

theorem firstSlug_mem_or_empty (changes : List FileChange) :
    firstSlug changes = "" ∨ ∃ c ∈ changes, c.slug = some (firstSlug changes) := by
  rcases isFirstNonEmptySlug_firstSlug changes with ⟨before, d, after, h1, h2, _, _⟩ | ⟨h1, _⟩
  · exact Or.inr ⟨d, by rw [h1]; simp, h2⟩
  · exact Or.inl h1

theorem update_no_brace (val : Token → Option String) (t : Token) (v : String)
    (hval : ∀ u w, val u = some w → '\x7b' ∉ w.data) (hv : '\x7b' ∉ v.data) :
    ∀ u w, Function.update val t (some v) u = some w → '\x7b' ∉ w.data := by
  intro u w h
  by_cases hut : u = t
  · subst hut
    rw [Function.update_same] at h
    cases h
    exact hv
  · rw [Function.update_noteq hut] at h
    exact hval u w h

/-- The substitutions made for `create`, `update` and `delete` on a template given by its
pieces, when no literal piece has an opening brace and no value has an opening brace or a dollar
sign: each token is replaced by its value. -/
theorem substituteTemplate_entry {κ : Type} (env : CommitEnv κ) (changes : List FileChange)
    (options : CommitOptions κ) (ps : List Piece)
    (hct : commitTypeOf options = .create ∨ commitTypeOf options = .update ∨
      commitTypeOf options = .delete)
    (hlit : ∀ x, Piece.lit x ∈ ps → '\x7b' ∉ x.data)
    (hs : '\x7b' ∉ (firstSlug changes).data ∧ '$' ∉ (firstSlug changes).data)
    (hc : '\x7b' ∉ (collectionLabel env options).data ∧ '$' ∉ (collectionLabel env options).data)
    (hp : '\x7b' ∉ (JS.toStringOrUndefined (firstPath changes)).data ∧
      '$' ∉ (JS.toStringOrUndefined (firstPath changes)).data)
    (hl : '\x7b' ∉ (env.user.login.getD "").data ∧ '$' ∉ (env.user.login.getD "").data)
    (hn : '\x7b' ∉ (env.user.name.getD "").data ∧ '$' ∉ (env.user.name.getD "").data) :
    substituteTemplate env changes options (templateOf ps) =
      render (valuesOf (firstSlug changes) (collectionLabel env options)
        (JS.toStringOrUndefined (firstPath changes)) (env.user.login.getD "")
        (env.user.name.getD "")) ps := by
  have v0 : ∀ u w, (fun _ : Token => (none : Option String)) u = some w → '\x7b' ∉ w.data := by
    intro u w h
    cases h
  have v1 := update_no_brace _ .slug _ v0 hs.1
  have v2 := update_no_brace _ .collection _ v1 hc.1
  have v3 := update_no_brace _ .path _ v2 hp.1
  have v4 := update_no_brace _ .authorLogin _ v3 hl.1
  have h1 := replaceAll_render .slug _ hs.2 _ rfl v0 ps hlit
  have h2 := replaceAll_render .collection _ hc.2 _ (by simp [Function.update]) v1 ps hlit
  have h3 := replaceAll_render .path _ hp.2 _ (by simp [Function.update]) v2 ps hlit
  have h4 := replaceAll_render .authorLogin _ hl.2 _ (by simp [Function.update]) v3 ps hlit
  have h5 := replaceAll_render .authorName _ hn.2 _ (by simp [Function.update]) v4 ps hlit
  have hfin : Function.update (Function.update (Function.update (Function.update
      (Function.update (fun _ : Token => (none : Option String)) .slug
        (some (firstSlug changes))) .collection (some (collectionLabel env options)))
      .path (some (JS.toStringOrUndefined (firstPath changes))))
      .authorLogin (some (env.user.login.getD ""))) .authorName (some (env.user.name.getD "")) =
      valuesOf (firstSlug changes) (collectionLabel env options)
        (JS.toStringOrUndefined (firstPath changes)) (env.user.login.getD "")
        (env.user.name.getD "") := by
    funext u
    cases u <;> simp [Function.update, valuesOf]
  have hchain : JS.replaceAll (JS.replaceAll (JS.replaceAll (JS.replaceAll (JS.replaceAll
      (templateOf ps) Token.slug.text (firstSlug changes))
      Token.collection.text (collectionLabel env options))
      Token.path.text (JS.toStringOrUndefined (firstPath changes)))
      Token.authorLogin.text (env.user.login.getD ""))
      Token.authorName.text (env.user.name.getD "") =
      render (valuesOf (firstSlug changes) (collectionLabel env options)
        (JS.toStringOrUndefined (firstPath changes)) (env.user.login.getD "")
        (env.user.name.getD "")) ps := by
    unfold templateOf
    rw [h1, h2, h3, h4, h5, hfin]
  rw [← hchain]
  rcases hct with h | h | h <;> simp [substituteTemplate, h, Token.text]

/-- C4, as stated, fails: when the first change carries no slug and a later one does, the
message shows the slug of the later change, not the empty string; and a path holding the
replacement pattern `$&` is not inserted as it is written. -/
theorem createCommitMessage_slug_of_later_change :
    (⟨"content/posts/my-post.md", none⟩ : FileChange).slug = none ∧
      createCommitMessage (⟨⟨none, none⟩, ⟨none, none⟩, fun _ _ => "Posts"⟩ : CommitEnv Unit)
          [⟨"content/posts/my-post.md", none⟩, ⟨"content/posts/my-post.fr.md", some "my-post"⟩]
          ⟨some .update, some (), none⟩ = "Update Posts “my-post”" ∧
      createCommitMessage (⟨⟨none, none⟩, ⟨none, none⟩, fun _ _ => "Posts"⟩ : CommitEnv Unit)
          [⟨"content/posts/my-post.md", none⟩, ⟨"content/posts/my-post.fr.md", some "my-post"⟩]
          ⟨some .update, some (), none⟩ ≠ "Update Posts “”" ∧
      createCommitMessage
          (⟨⟨some (fun _ => some "Update \x7b\x7bpath\x7d\x7d"), none⟩, ⟨none, none⟩,
            fun _ _ => "Posts"⟩ : CommitEnv Unit)
          [⟨"notes/$&.md", some "note"⟩] ⟨some .update, some (), none⟩ =
        "Update notes/\x7b\x7bpath\x7d\x7d.md" := by
  refine ⟨rfl, ?_, ?_, ?_⟩ <;> decide

/-- C4, amended: for the commit types `create`, `update` and `delete` and every non-empty change
list, when the selected template is literal text without an opening brace interleaved with the
tokens `{{slug}}`, `{{collection}}`, `{{path}}`, `{{author-login}}` and `{{author-name}}`, and no
slug, collection label, first path, login or name holds an opening brace or a dollar sign, every
occurrence of `{{slug}}` is replaced by the first non-empty slug among the changes (the empty
string when no change has one) and every occurrence of `{{path}}` by the path of the first
change, the other three tokens being replaced by the label, the login and the name. -/
theorem substitutedMessage_slug_and_path {κ : Type} (env : CommitEnv κ) (first : FileChange)
    (rest : List FileChange) (options : CommitOptions κ) (ps : List Piece)
    (hct : commitTypeOf options = .create ∨ commitTypeOf options = .update ∨
      commitTypeOf options = .delete)
    (hsel : selectTemplate env options = templateOf ps)
    (hlit : ∀ x, Piece.lit x ∈ ps → '\x7b' ∉ x.data)
    (hslug : ∀ c ∈ first :: rest, ∀ v, c.slug = some v → '\x7b' ∉ v.data ∧ '$' ∉ v.data)
    (hc : '\x7b' ∉ (collectionLabel env options).data ∧ '$' ∉ (collectionLabel env options).data)
    (hp : '\x7b' ∉ first.path.data ∧ '$' ∉ first.path.data)
    (hl : '\x7b' ∉ (env.user.login.getD "").data ∧ '$' ∉ (env.user.login.getD "").data)
    (hn : '\x7b' ∉ (env.user.name.getD "").data ∧ '$' ∉ (env.user.name.getD "").data) :
    ∃ slug, IsFirstNonEmptySlug (first :: rest) slug ∧
      substitutedMessage env (first :: rest) options =
        render (valuesOf slug (collectionLabel env options) first.path
          (env.user.login.getD "") (env.user.name.getD "")) ps := by
  refine ⟨firstSlug (first :: rest), isFirstNonEmptySlug_firstSlug _, ?_⟩
  have hs : '\x7b' ∉ (firstSlug (first :: rest)).data ∧ '$' ∉ (firstSlug (first :: rest)).data := by
    rcases firstSlug_mem_or_empty (first :: rest) with h | ⟨c, hc1, hc2⟩
    · rw [h]
      exact ⟨by decide, by decide⟩
    · exact hslug c hc1 _ hc2
  unfold substitutedMessage
  rw [hsel]
  exact substituteTemplate_entry env (first :: rest) options ps hct hlit hs hc hp hl hn

theorem substitutedMessage_slug_and_path_witness :
    ∃ slug, IsFirstNonEmptySlug
        [⟨"content/posts/my-post.md", none⟩, ⟨"content/posts/my-post.fr.md", some "my-post"⟩]
        slug ∧
      substitutedMessage (⟨⟨none, none⟩, ⟨some "octocat", none⟩, fun _ _ => "Posts"⟩ :
          CommitEnv Unit)
        [⟨"content/posts/my-post.md", none⟩, ⟨"content/posts/my-post.fr.md", some "my-post"⟩]
        ⟨some .update, some (), none⟩ =
        render (valuesOf slug "Posts" "content/posts/my-post.md" "octocat" "")
          [.lit "Update ", .tok .collection, .lit " “", .tok .slug, .lit "”"] :=
  substitutedMessage_slug_and_path
    (⟨⟨none, none⟩, ⟨some "octocat", none⟩, fun _ _ => "Posts"⟩ : CommitEnv Unit)
    ⟨"content/posts/my-post.md", none⟩ [⟨"content/posts/my-post.fr.md", some "my-post"⟩]
    ⟨some .update, some (), none⟩
    [.lit "Update ", .tok .collection, .lit " “", .tok .slug, .lit "”"]
    (Or.inr (Or.inl rfl)) (by decide)
    (by
      intro x hx
      simp only [List.mem_cons, Piece.lit.injEq, List.mem_singleton, reduceCtorEq, or_false,
        false_or, List.not_mem_nil] at hx
      rcases hx with rfl | rfl | rfl <;> decide)
    (by
      intro c hc v hv
      simp only [List.mem_cons, List.mem_singleton, List.not_mem_nil, or_false] at hc
      rcases hc with rfl | rfl
      · cases hv
      · cases hv
        exact ⟨by decide, by decide⟩)
    ⟨by decide, by decide⟩ ⟨by decide, by decide⟩ ⟨by decide, by decide⟩
    ⟨by decide, by decide⟩

/-- The substitutions made for `uploadMedia` and `deleteMedia` on a template given by its
pieces, when no literal piece has an opening brace and neither the first path, the login nor the
name has an opening brace or a dollar sign: the path and author tokens are replaced by their
values, `{{slug}}` and `{{collection}}` stay as written, and ` +N` is appended when `N ≥ 1`
paths follow the first. -/
theorem substituteTemplate_media {κ : Type} (env : CommitEnv κ) (first : FileChange)
    (rest : List FileChange) (options : CommitOptions κ) (ps : List Piece)
    (hct : commitTypeOf options = .uploadMedia ∨ commitTypeOf options = .deleteMedia)
    (hlit : ∀ x, Piece.lit x ∈ ps → '\x7b' ∉ x.data)
    (hp : '\x7b' ∉ first.path.data ∧ '$' ∉ first.path.data)
    (hl : '\x7b' ∉ (env.user.login.getD "").data ∧ '$' ∉ (env.user.login.getD "").data)
    (hn : '\x7b' ∉ (env.user.name.getD "").data ∧ '$' ∉ (env.user.name.getD "").data) :
    substituteTemplate env (first :: rest) options (templateOf ps) =
      if rest.length ≠ 0 then
        render (mediaValuesOf first.path (env.user.login.getD "") (env.user.name.getD "")) ps ++
          " +" ++ toString rest.length
      else
        render (mediaValuesOf first.path (env.user.login.getD "") (env.user.name.getD "")) ps := by
  have v0 : ∀ u w, (fun _ : Token => (none : Option String)) u = some w → '\x7b' ∉ w.data := by
    intro u w h
    cases h
  have v1 := update_no_brace _ .path _ v0 hp.1
  have v2 := update_no_brace _ .authorLogin _ v1 hl.1
  have h1 := replaceAll_render .path _ hp.2 _ rfl v0 ps hlit
  have h2 := replaceAll_render .authorLogin _ hl.2 _ (by simp [Function.update]) v1 ps hlit
  have h3 := replaceAll_render .authorName _ hn.2 _ (by simp [Function.update]) v2 ps hlit
  have hfin : Function.update (Function.update (Function.update
      (fun _ : Token => (none : Option String)) .path (some first.path))
      .authorLogin (some (env.user.login.getD ""))) .authorName (some (env.user.name.getD "")) =
      mediaValuesOf first.path (env.user.login.getD "") (env.user.name.getD "") := by
    funext u
    cases u <;> simp [Function.update, mediaValuesOf]
  have hchain : JS.replaceAll (JS.replaceAll (JS.replaceAll
      (templateOf ps) Token.path.text first.path)
      Token.authorLogin.text (env.user.login.getD ""))
      Token.authorName.text (env.user.name.getD "") =
      render (mediaValuesOf first.path (env.user.login.getD "") (env.user.name.getD "")) ps := by
    unfold templateOf
    rw [h1, h2, h3, hfin]
  rw [← hchain]
  rcases hct with h | h <;>
    simp [substituteTemplate, h, Token.text, firstPath, remainingPaths, JS.toStringOrUndefined]

/-- C5 fails on the code at a path holding a replacement pattern: for `deleteMedia` with the
default template, the path `images/$&.png` is not inserted as written (`$&` stands for the
matched token), and in `price-$$.png` the two dollar signs become one.  The claim prescribes
the template with `{{path}}` replaced by the path itself. -/
theorem createCommitMessage_media_dollar_path :
    createCommitMessage (⟨⟨none, none⟩, ⟨none, none⟩, fun _ _ => ""⟩ : CommitEnv Unit)
        [⟨"images/$&.png", none⟩] ⟨some .deleteMedia, none, none⟩ =
        "Delete “images/\x7b\x7bpath\x7d\x7d.png”" ∧
      createCommitMessage (⟨⟨none, none⟩, ⟨none, none⟩, fun _ _ => ""⟩ : CommitEnv Unit)
        [⟨"price-$$.png", none⟩, ⟨"other.png", none⟩] ⟨some .deleteMedia, none, none⟩ =
        "Delete “price-$.png” +1" := by
  constructor <;> decide

end Sveltia

/-! ## Theorems: the GitLab file fetcher -/

namespace Sveltia

theorem requestBatches_unfold (size : Nat) (hsize : 0 < size) (xs : List String) :
    requestBatches size xs =
      xs.take size ::
        (if (xs.drop size).length = 0 then [] else requestBatches size (xs.drop size)) := by
  unfold requestBatches
  by_cases h : xs.length ≤ size
  · have h1 : (xs.length + size - 1) / size ≤ 1 := by
      rw [Nat.div_le_iff_le_mul_add_pred hsize]
      omega
    have h2 : max 1 ((xs.length + size - 1) / size) = 1 := by omega
    have h3 : (xs.drop size).length = 0 := by simp; omega
    rw [h2, if_pos h3]
    simp [List.range_succ]
  · have hlt : size < xs.length := by omega
    have h3 : (xs.drop size).length ≠ 0 := by simp; omega
    have hlen : (xs.drop size).length = xs.length - size := by simp
    have h4 : (xs.length + size - 1) / size = ((xs.drop size).length + size - 1) / size + 1 := by
      rw [hlen]
      have : xs.length + size - 1 = (xs.length - size + size - 1) + size := by omega
      rw [this, Nat.add_div_right _ hsize]
    have h5 : 1 ≤ ((xs.drop size).length + size - 1) / size := by
      rw [Nat.le_div_iff_mul_le hsize]
      omega
    rw [if_neg h3, h4, max_eq_right (by omega), max_eq_right h5, List.range_succ_eq_map]
    simp only [List.map_cons, List.map_map, Nat.mul_zero, List.drop_zero]
    congr 1
    apply List.map_congr_left
    intro k _
    show List.take size (List.drop (size * (k + 1)) xs) = _
    rw [List.drop_drop]
    congr 2
    rw [Nat.mul_succ]
    omega

theorem requestBatches_flatten (size : Nat) (hsize : 0 < size) (xs : List String) :
    (requestBatches size xs).flatten = xs := by
  suffices H : ∀ n (xs : List String), xs.length = n → (requestBatches size xs).flatten = xs from
    H _ xs rfl
  intro n
  induction n using Nat.strong_induction_on with
  | _ n ih =>
    intro xs h
    rw [requestBatches_unfold size hsize]
    by_cases h3 : (xs.drop size).length = 0
    · rw [if_pos h3]
      have : xs.drop size = [] := List.length_eq_zero.mp h3
      have h4 : xs.take size = xs := by
        rw [List.take_eq_self_iff]
        exact List.drop_eq_nil_iff.mp this
      simp [h4]
    · rw [if_neg h3, List.flatten_cons,
        ih (xs.drop size).length (by simp at h3 ⊢; omega) (xs.drop size) rfl]
      exact List.take_append_drop size xs

theorem requestBatches_tail_flatten (size : Nat) (hsize : 0 < size) (xs : List String) :
    (if (xs.drop size).length = 0 then [] else requestBatches size (xs.drop size)).flatten =
      xs.drop size := by
  by_cases h3 : (xs.drop size).length = 0
  · rw [if_pos h3, List.length_eq_zero.mp h3]
    rfl
  · rw [if_neg h3, requestBatches_flatten size hsize]

theorem requestBatches_length_le (size : Nat) (xs b : List String)
    (hb : b ∈ requestBatches size xs) : b.length ≤ size := by
  unfold requestBatches at hb
  rw [List.mem_map] at hb
  obtain ⟨k, _, rfl⟩ := hb
  rw [List.length_take]
  exact Nat.min_le_left _ _

theorem requestBatches_length_pos (size : Nat) (hsize : 0 < size) (xs b : List String)
    (hxs : 1 ≤ xs.length) (hb : b ∈ requestBatches size xs) : 1 ≤ b.length := by
  unfold requestBatches at hb
  rw [List.mem_map] at hb
  obtain ⟨k, hk, rfl⟩ := hb
  rw [List.mem_range] at hk
  have h1 : 1 ≤ (xs.length + size - 1) / size := by
    rw [Nat.le_div_iff_mul_le hsize]
    omega
  rw [max_eq_right h1] at hk
  have hk2 : k + 1 ≤ (xs.length + size - 1) / size := hk
  rw [Nat.le_div_iff_mul_le hsize, Nat.succ_mul] at hk2
  rw [List.length_take, List.length_drop]
  have : size * k < xs.length := by
    rw [Nat.mul_comm]
    omega
  omega

theorem requestBatches_length (size : Nat) (xs : List String) :
    (requestBatches size xs).length = max 1 ((xs.length + size - 1) / size) := by
  simp [requestBatches]

theorem fetchBlobsLoop_eq {σ : Type} (R : Remote σ) (allPaths : List String) :
    ∀ (fuel : Nat) (paths : List String) (blobs : List BlobItem) (w : World σ),
      paths.length < fuel →
      fetchBlobsLoop R allPaths fuel paths blobs w =
        some (runBlobBatches R allPaths.length (requestBatches 100 paths) blobs w) := by
  intro fuel
  induction fuel with
  | zero => intro paths blobs w h; omega
  | succ fuel ih =>
    intro paths blobs w h
    rw [requestBatches_unfold 100 (by decide)]
    simp only [fetchBlobsLoop, runBlobBatches]
    rcases hreq : fetchGraphQLBlobs R (List.take 100 paths) w with ⟨out, w1⟩
    cases out with
    | failed e => rfl
    | ok nodes =>
      simp only [requestBatches_tail_flatten 100 (by decide)]
      by_cases h3 : (paths.drop 100).length = 0
      · simp only [h3, if_true, runBlobBatches]
      · simp only [h3, if_false]
        exact ih _ _ _ (by simp at h3 ⊢; omega)

theorem fetchBlobs_eq {σ : Type} (R : Remote σ) (allPaths : List String) (w : World σ) :
    fetchBlobs R allPaths w =
      some (runBlobBatches R allPaths.length (requestBatches 100 allPaths) []
        (w.setProgress (some (.nat 0)))) :=
  fetchBlobsLoop_eq R allPaths _ _ _ _ (Nat.lt_succ_self _)

theorem fetchCommitsLoop_eq {σ : Type} (R : Remote σ) :
    ∀ (fuel : Nat) (paths : List String) (commits : List GitLabCommit) (w : World σ),
      paths.length < fuel →
      fetchCommitsLoop R fuel paths commits w =
        some (runCommitBatches R (requestBatches 13 paths) commits w) := by
  intro fuel
  induction fuel with
  | zero => intro paths commits w h; omega
  | succ fuel ih =>
    intro paths commits w h
    rw [requestBatches_unfold 13 (by decide)]
    simp only [fetchCommitsLoop, runCommitBatches]
    rcases hreq : fetchGraphQLCommits R (List.take 13 paths) w with ⟨out, w1⟩
    cases out with
    | failed e => rfl
    | ok repository =>
      by_cases h3 : (paths.drop 13).length = 0
      · simp only [h3, if_true, runCommitBatches]
      · simp only [h3, if_false]
        exact ih _ _ _ (by simp at h3 ⊢; omega)

theorem fetchCommits_eq {σ : Type} (R : Remote σ) (allPaths : List String) (w : World σ) :
    fetchCommits R allPaths w =
      some (runCommitBatches R (requestBatches 13 allPaths) [] w) :=
  fetchCommitsLoop_eq R _ _ _ _ (Nat.lt_succ_self _)

theorem setProgress_remote {σ : Type} (w : World σ) (v : Option JSNumber) :
    (w.setProgress v).remote = w.remote := rfl

theorem setProgress_exchanges {σ : Type} (w : World σ) (v : Option JSNumber) :
    (w.setProgress v).exchanges = w.exchanges := rfl

theorem runBlobBatches_exchanges {σ : Type} (R : Remote σ) (n : Nat) :
    ∀ (bs : List (List String)) (blobs : List BlobItem) (w : World σ),
      (runBlobBatches R n bs blobs w).2.exchanges =
        w.exchanges ++ issueBlobRequests R bs w.remote := by
  intro bs
  induction bs with
  | nil => intro blobs w; simp [runBlobBatches, issueBlobRequests, setProgress_exchanges]
  | cons b bs ih =>
    intro blobs w
    simp only [runBlobBatches, issueBlobRequests, fetchGraphQLBlobs]
    cases hres : (R.blobs b w.remote).1 with
    | failed e => simp
    | ok nodes =>
      simp only [ih, setProgress_exchanges, setProgress_remote]
      simp

theorem runBlobBatches_outcome {σ : Type} (R : Remote σ) (n : Nat) :
    ∀ (bs : List (List String)) (blobs : List BlobItem) (w : World σ),
      (runBlobBatches R n bs blobs w).1 =
        match firstFailure (issueBlobRequests R bs w.remote) with
        | some e => .failed e
        | none =>
          .ok (blobs ++ ((issueBlobRequests R bs w.remote).map Exchange.blobNodes).flatten) := by
  intro bs
  induction bs with
  | nil => intro blobs w; simp [runBlobBatches, issueBlobRequests, firstFailure]
  | cons b bs ih =>
    intro blobs w
    simp only [runBlobBatches, issueBlobRequests, fetchGraphQLBlobs]
    cases hres : (R.blobs b w.remote).1 with
    | failed e => simp [firstFailure, Exchange.failure?]
    | ok nodes =>
      simp only [ih, setProgress_remote]
      simp [firstFailure, Exchange.failure?, Exchange.blobNodes]

theorem issueBlobRequests_paths {σ : Type} (R : Remote σ) :
    ∀ (bs : List (List String)) (s : σ),
      (issueBlobRequests R bs s).map Exchange.paths <+: bs ∧
        (firstFailure (issueBlobRequests R bs s) = none →
          (issueBlobRequests R bs s).map Exchange.paths = bs) ∧
        ∀ x ∈ issueBlobRequests R bs s, x.isBlobs = true := by
  intro bs
  induction bs with
  | nil => intro s; simp [issueBlobRequests]
  | cons b bs ih =>
    intro s
    simp only [issueBlobRequests]
    cases hres : (R.blobs b s).1 with
    | failed e =>
      refine ⟨?_, ?_, ?_⟩
      · simp [Exchange.paths]
      · simp [firstFailure, Exchange.failure?]
      · simp [Exchange.isBlobs]
    | ok nodes =>
      obtain ⟨h1, h2, h3⟩ := ih (R.blobs b s).2
      refine ⟨?_, ?_, ?_⟩
      · simp only [List.map_cons, Exchange.paths]
        exact (List.prefix_cons_inj b).mpr h1
      · intro hf
        simp only [List.map_cons, Exchange.paths]
        rw [h2]
        simpa [firstFailure, Exchange.failure?] using hf
      · intro x hx
        rcases List.mem_cons.mp hx with rfl | hx
        · rfl
        · exact h3 x hx

theorem runCommitBatches_exchanges {σ : Type} (R : Remote σ) :
    ∀ (bs : List (List String)) (commits : List GitLabCommit) (w : World σ),
      (runCommitBatches R bs commits w).2.exchanges =
        w.exchanges ++ issueCommitRequests R bs w.remote := by
  intro bs
  induction bs with
  | nil => intro commits w; simp [runCommitBatches, issueCommitRequests]
  | cons b bs ih =>
    intro commits w
    simp only [runCommitBatches, issueCommitRequests, fetchGraphQLCommits]
    cases hres : (R.commits b w.remote).1 with
    | failed e => simp
    | ok repository =>
      simp only [ih]
      simp

theorem runCommitBatches_outcome {σ : Type} (R : Remote σ) :
    ∀ (bs : List (List String)) (commits : List GitLabCommit) (w : World σ),
      (runCommitBatches R bs commits w).1 =
        match firstFailure (issueCommitRequests R bs w.remote) with
        | some e => .failed e
        | none =>
          .ok (commits ++
            ((issueCommitRequests R bs w.remote).map Exchange.lastCommits).flatten) := by
  intro bs
  induction bs with
  | nil => intro commits w; simp [runCommitBatches, issueCommitRequests, firstFailure]
  | cons b bs ih =>
    intro commits w
    simp only [runCommitBatches, issueCommitRequests, fetchGraphQLCommits]
    cases hres : (R.commits b w.remote).1 with
    | failed e => simp [firstFailure, Exchange.failure?]
    | ok repository =>
      simp only [ih]
      simp [firstFailure, Exchange.failure?, Exchange.lastCommits]

theorem issueCommitRequests_paths {σ : Type} (R : Remote σ) :
    ∀ (bs : List (List String)) (s : σ),
      (issueCommitRequests R bs s).map Exchange.paths <+: bs ∧
        (firstFailure (issueCommitRequests R bs s) = none →
          (issueCommitRequests R bs s).map Exchange.paths = bs) ∧
        ∀ x ∈ issueCommitRequests R bs s, x.isCommits = true := by
  intro bs
  induction bs with
  | nil => intro s; simp [issueCommitRequests]
  | cons b bs ih =>
    intro s
    simp only [issueCommitRequests]
    cases hres : (R.commits b s).1 with
    | failed e =>
      refine ⟨?_, ?_, ?_⟩
      · simp [Exchange.paths]
      · simp [firstFailure, Exchange.failure?]
      · simp [Exchange.isCommits]
    | ok repository =>
      obtain ⟨h1, h2, h3⟩ := ih (R.commits b s).2
      refine ⟨?_, ?_, ?_⟩
      · simp only [List.map_cons, Exchange.paths]
        exact (List.prefix_cons_inj b).mpr h1
      · intro hf
        simp only [List.map_cons, Exchange.paths]
        rw [h2]
        simpa [firstFailure, Exchange.failure?] using hf
      · intro x hx
        rcases List.mem_cons.mp hx with rfl | hx
        · rfl
        · exact h3 x hx

theorem requestBatches_getElem? (size : Nat) (xs : List String) (k : Nat)
    (hk : k < (requestBatches size xs).length) :
    (requestBatches size xs)[k]? = some ((xs.drop (size * k)).take size) := by
  rw [requestBatches_length] at hk
  simp [requestBatches, List.getElem?_range hk]

/-- C6: for every list of `n ≥ 1` paths, `fetchBlobs` issues its requests strictly one after
another (each on the remote state left by the previous response, none after a rejection), the
`k`-th request (counted from 0 here) carrying the paths at positions `100 k + 1` to
`min (100 (k + 1)) n`; every batch holds between 1 and 100 paths and the batches concatenated
in request order are the input list; the returned blob list is the concatenation, in the same
order, of the nodes of every response. -/
theorem fetchBlobs_batches {σ : Type} (R : Remote σ) (allPaths : List String) (w : World σ)
    (hn : 1 ≤ allPaths.length) :
    ∃ out w', fetchBlobs R allPaths w = some (out, w') ∧
      w'.exchanges = w.exchanges ++ issueBlobRequests R (requestBatches 100 allPaths) w.remote ∧
      (requestBatches 100 allPaths).length = (allPaths.length + 99) / 100 ∧
      (∀ k, k < (requestBatches 100 allPaths).length →
        (requestBatches 100 allPaths)[k]? = some ((allPaths.drop (100 * k)).take 100)) ∧
      (∀ b ∈ requestBatches 100 allPaths, 1 ≤ b.length ∧ b.length ≤ 100) ∧
      (requestBatches 100 allPaths).flatten = allPaths ∧
      (firstFailure (issueBlobRequests R (requestBatches 100 allPaths) w.remote) = none →
        (issueBlobRequests R (requestBatches 100 allPaths) w.remote).map Exchange.paths =
          requestBatches 100 allPaths) ∧
      out =
        match firstFailure (issueBlobRequests R (requestBatches 100 allPaths) w.remote) with
        | some e => .failed e
        | none =>
          .ok (((issueBlobRequests R (requestBatches 100 allPaths) w.remote).map
            Exchange.blobNodes).flatten) := by
  refine ⟨_, _, fetchBlobs_eq R allPaths w, ?_, ?_, ?_, ?_, ?_, ?_, ?_⟩
  · rw [runBlobBatches_exchanges]
    rfl
  · rw [requestBatches_length]
    have : 1 ≤ (allPaths.length + 100 - 1) / 100 := by
      rw [Nat.le_div_iff_mul_le (by decide)]
      omega
    rw [max_eq_right this, show allPaths.length + 100 - 1 = allPaths.length + 99 from by omega]
  · exact fun k hk => requestBatches_getElem? 100 allPaths k hk
  · exact fun b hb => ⟨requestBatches_length_pos 100 (by decide) allPaths b hn hb,
      requestBatches_length_le 100 allPaths b hb⟩
  · exact requestBatches_flatten 100 (by decide) allPaths
  · exact (issueBlobRequests_paths R _ _).2.1
  · rw [runBlobBatches_outcome]
    simp [setProgress_remote]

theorem fetchBlobs_batches_witness :
    1 ≤ (["a.md", "b.md", "c.md"] : List String).length ∧
      ∃ out w', fetchBlobs sampleRemote ["a.md", "b.md", "c.md"] sampleWorld = some (out, w') ∧
        w'.exchanges = sampleWorld.exchanges ++
          issueBlobRequests sampleRemote (requestBatches 100 ["a.md", "b.md", "c.md"])
            sampleWorld.remote ∧
        (requestBatches 100 ["a.md", "b.md", "c.md"]).flatten = ["a.md", "b.md", "c.md"] := by
  refine ⟨by decide, ?_⟩
  obtain ⟨out, w', h1, h2, _, _, _, h6, _⟩ :=
    fetchBlobs_batches sampleRemote ["a.md", "b.md", "c.md"] sampleWorld (by decide)
  exact ⟨out, w', h1, h2, h6⟩

theorem issued_paths_mem {issued : List Exchange} {bs : List (List String)}
    (h : issued.map Exchange.paths <+: bs) (x : Exchange) (hx : x ∈ issued) : x.paths ∈ bs :=
  h.subset (List.mem_map_of_mem _ hx)

/-- C7: under the documented cost models, `15 + 2 k` for a blob query of `k` paths and
`5 + 18 k` for a commit query of `k` paths, every query issued by `fetchBlobs` costs at most 215
and every query issued by `fetchCommits` costs at most 239, for every input path list, so each
stays under the complexity limit of 250. -/
theorem query_complexity_bounded {σ : Type} (R : Remote σ) (allPaths : List String)
    (w : World σ) :
    (∃ out w' issued, fetchBlobs R allPaths w = some (out, w') ∧
      w'.exchanges = w.exchanges ++ issued ∧
      ∀ x ∈ issued, x.isBlobs = true ∧ blobQueryComplexity x.paths.length ≤ 215 ∧
        blobQueryComplexity x.paths.length < 250) ∧
    (∃ out w' issued, fetchCommits R allPaths w = some (out, w') ∧
      w'.exchanges = w.exchanges ++ issued ∧
      ∀ x ∈ issued, x.isCommits = true ∧ commitQueryComplexity x.paths.length ≤ 239 ∧
        commitQueryComplexity x.paths.length < 250) := by
  constructor
  · refine ⟨_, _, _, fetchBlobs_eq R allPaths w, runBlobBatches_exchanges R _ _ _ _, ?_⟩
    intro x hx
    obtain ⟨h1, _, h3⟩ := issueBlobRequests_paths R (requestBatches 100 allPaths)
      (w.setProgress (some (.nat 0))).remote
    have hlen := requestBatches_length_le 100 allPaths x.paths (issued_paths_mem h1 x hx)
    refine ⟨h3 x hx, ?_, ?_⟩ <;> unfold blobQueryComplexity <;> omega
  · refine ⟨_, _, _, fetchCommits_eq R allPaths w, runCommitBatches_exchanges R _ _ _, ?_⟩
    intro x hx
    obtain ⟨h1, _, h3⟩ := issueCommitRequests_paths R (requestBatches 13 allPaths) w.remote
    have hlen := requestBatches_length_le 13 allPaths x.paths (issued_paths_mem h1 x hx)
    refine ⟨h3 x hx, ?_, ?_⟩ <;> unfold commitQueryComplexity <;> omega

/-! ### The contents map -/

theorem setProperty_of_not_mem (m : RepositoryContentsMap) (key : String) (value : FileData)
    (h : key ∉ m.map (fun e => e.1)) : setProperty m key value = m ++ [(key, value)] := by
  induction m with
  | nil => rfl
  | cons e m ih =>
    obtain ⟨k, v⟩ := e
    simp only [List.map_cons, List.mem_cons, not_or] at h
    have hk : ¬ k = key := fun hk => h.1 hk.symm
    simp only [setProperty, hk, if_false, ih h.2, List.cons_append]

theorem foldl_setProperty_of_nodup (es : List (String × FileData)) :
    ∀ acc : RepositoryContentsMap,
      (acc.map (fun e => e.1) ++ es.map (fun e => e.1)).Nodup →
      es.foldl (fun m entry => setProperty m entry.1 entry.2) acc = acc ++ es := by
  induction es with
  | nil => intro acc _; simp
  | cons e es ih =>
    intro acc h
    have hnot : e.1 ∉ acc.map (fun e => e.1) := by
      intro hmem
      have := (List.nodup_append.mp h).2.2
      exact this hmem (by simp)
    rw [List.foldl_cons, setProperty_of_not_mem acc e.1 e.2 hnot, ih]
    · simp
    · simpa [List.map_append, List.append_assoc] using h

theorem fromEntries_of_nodup (es : List (String × FileData))
    (h : (es.map (fun e => e.1)).Nodup) : fromEntries es = es := by
  unfold fromEntries
  rw [foldl_setProperty_of_nodup es [] (by simpa using h)]
  rfl

theorem setProperty_mem (m : RepositoryContentsMap) (key : String) (value : FileData)
    (e : String × FileData) (he : e ∈ setProperty m key value) : e ∈ m ∨ e = (key, value) := by
  induction m with
  | nil =>
    simp only [setProperty, List.mem_singleton] at he
    exact Or.inr he
  | cons x m ih =>
    obtain ⟨k, v⟩ := x
    simp only [setProperty] at he
    by_cases hk : k = key
    · simp only [hk, if_true, List.mem_cons] at he
      rcases he with he | he
      · exact Or.inr he
      · exact Or.inl (List.mem_cons_of_mem _ he)
    · simp only [hk, if_false, List.mem_cons] at he
      rcases he with he | he
      · exact Or.inl (by rw [he]; exact List.mem_cons_self _ _)
      · rcases ih he with h | h
        · exact Or.inl (List.mem_cons_of_mem _ h)
        · exact Or.inr h

theorem foldl_setProperty_mem (es : List (String × FileData)) :
    ∀ (acc : RepositoryContentsMap) (e : String × FileData),
      e ∈ es.foldl (fun m entry => setProperty m entry.1 entry.2) acc → e ∈ acc ∨ e ∈ es := by
  induction es with
  | nil => intro acc e he; exact Or.inl he
  | cons x es ih =>
    intro acc e he
    rw [List.foldl_cons] at he
    rcases ih _ e he with h | h
    · rcases setProperty_mem acc x.1 x.2 e h with h2 | h2
      · exact Or.inl h2
      · exact Or.inr (by rw [h2]; exact List.mem_cons_self _ _)
    · exact Or.inr (List.mem_cons_of_mem _ h)

theorem fromEntries_mem (es : List (String × FileData)) (e : String × FileData)
    (he : e ∈ fromEntries es) : e ∈ es := by
  rcases foldl_setProperty_mem es [] e he with h | h
  · cases h
  · exact h

theorem lookup_of_getElem? (m : List (String × FileData))
    (h : (m.map (fun e => e.1)).Nodup) (i : Nat) (k : String) (v : FileData)
    (hi : m[i]? = some (k, v)) : List.lookup k m = some v := by
  induction m generalizing i with
  | nil => simp at hi
  | cons e m ih =>
    obtain ⟨k', v'⟩ := e
    simp only [List.map_cons, List.nodup_cons] at h
    cases i with
    | zero =>
      simp only [List.getElem?_cons_zero, Option.some.injEq, Prod.mk.injEq] at hi
      obtain ⟨rfl, rfl⟩ := hi
      simp [List.lookup]
    | succ i =>
      simp only [List.getElem?_cons_succ] at hi
      have hmem : k ∈ m.map (fun e => e.1) :=
        List.mem_map.mpr ⟨(k, v), List.getElem?_mem hi, rfl⟩
      have hne : ¬ k = k' := fun hk => h.1 (hk ▸ hmem)
      have hbeq : (k == k') = false := by simpa using hne
      simp only [List.lookup, hbeq]
      exact ih h.2 i hi

theorem fileEntries_ok (blobs : List BlobItem) (commits : List GitLabCommit) :
    ∀ (files : List BaseFileListItem) (index : Nat), index + files.length ≤ blobs.length →
      ∃ entries, fileEntries blobs commits index files = .ok entries ∧
        entries.map (fun e => e.1) = files.map (fun f => f.path) ∧
        ∀ j f b, files[j]? = some f → blobs[index + j]? = some b →
          entries[j]? = some (f.path,
            ⟨f.sha, ⟨b.size⟩, b.rawTextBlob, metaOf commits[index + j]?⟩) := by
  intro files
  induction files with
  | nil => intro index _; exact ⟨[], rfl, rfl, by simp⟩
  | cons file rest ih =>
    intro index h
    simp only [List.length_cons] at h
    obtain ⟨entries, h1, h2, h3⟩ := ih (index + 1) (by omega)
    have hlt : index < blobs.length := by omega
    have hb : blobs[index]? = some blobs[index] := List.getElem?_eq_getElem hlt
    refine ⟨(file.path, ⟨file.sha, ⟨blobs[index].size⟩, blobs[index].rawTextBlob,
      metaOf commits[index]?⟩) :: entries, by simp only [fileEntries, hb, h1], by simp [h2], ?_⟩
    intro j f b hf hbj
    cases j with
    | zero =>
      simp only [List.getElem?_cons_zero, Option.some.injEq] at hf
      subst hf
      simp only [Nat.add_zero] at hbj ⊢
      rw [hb, Option.some.injEq] at hbj
      subst hbj
      simp
    | succ j =>
      simp only [List.getElem?_cons_succ] at hf ⊢
      have := h3 j f b hf (by rw [← hbj]; congr 1; omega)
      rw [this]
      congr 4
      congr 1
      omega

theorem fileEntries_no_commits (blobs : List BlobItem) :
    ∀ (files : List BaseFileListItem) (index : Nat) (entries : List (String × FileData)),
      fileEntries blobs [] index files = .ok entries →
      ∀ e ∈ entries, e.2.meta = ⟨none, none⟩ := by
  intro files
  induction files with
  | nil =>
    intro index entries h e he
    simp only [fileEntries, Outcome.ok.injEq] at h
    subst h
    cases he
  | cons file rest ih =>
    intro index entries h e he
    simp only [fileEntries] at h
    cases hb : blobs[index]? with
    | none => simp [hb] at h
    | some blob =>
      simp only [hb] at h
      cases hrest : fileEntries blobs [] (index + 1) rest with
      | failed err => simp [hrest] at h
      | ok es =>
        simp only [hrest, Outcome.ok.injEq] at h
        subst h
        rcases List.mem_cons.mp he with rfl | he
        · simp [metaOf]
        · exact ih (index + 1) es hrest e he

theorem parseFileContents_no_commits (files : List BaseFileListItem) (blobs : List BlobItem)
    (m : RepositoryContentsMap) (h : parseFileContents files blobs [] = .ok m) :
    ∀ e ∈ m, e.2.meta = ⟨none, none⟩ := by
  unfold parseFileContents at h
  cases hes : fileEntries blobs [] 0 files with
  | failed err => simp [hes] at h
  | ok es =>
    simp only [hes, Outcome.ok.injEq] at h
    subst h
    intro e he
    exact fileEntries_no_commits blobs files 0 es hes e (fromEntries_mem es e he)

theorem parseFileContents_ok (files : List BaseFileListItem) (blobs : List BlobItem)
    (commits : List GitLabCommit) (hnodup : (files.map (fun f => f.path)).Nodup)
    (hlen : blobs.length = files.length) :
    ∃ m, parseFileContents files blobs commits = .ok m ∧
      m.map (fun e => e.1) = files.map (fun f => f.path) ∧
      ∀ (i : Nat) (f : BaseFileListItem) (b : BlobItem), files[i]? = some f →
        blobs[i]? = some b →
        m[i]? = some (f.path, ⟨f.sha, ⟨b.size⟩, b.rawTextBlob, metaOf commits[i]?⟩) := by
  obtain ⟨entries, h1, h2, h3⟩ := fileEntries_ok blobs commits files 0 (by omega)
  have hfe : fromEntries entries = entries := fromEntries_of_nodup entries (h2 ▸ hnodup)
  refine ⟨entries, by simp only [parseFileContents, h1, hfe], h2, ?_⟩
  intro i f b hf hb
  have := h3 i f b hf (by simpa using hb)
  simpa using this

/-- C9: `fetchFileContents` requests last-commit metadata exactly when the file list has fewer
than 100 entries.  For 100 or more files no commit query is issued and every entry of the
resulting contents map has an empty `meta`; for fewer than 100 files, once the blobs are
fetched, `fetchCommits` is called with all of the paths, so that the commit queries issued are
the batches of all the paths.  A rejected blob request ends the operation before that choice. -/
theorem fetchFileContents_commit_threshold {σ : Type} (R : Remote σ)
    (files : List BaseFileListItem) (w : World σ) :
    ∃ outB w1 issuedB, fetchBlobs R (files.map (fun f => f.path)) w = some (outB, w1) ∧
      w1.exchanges = w.exchanges ++ issuedB ∧ (∀ x ∈ issuedB, x.isCommits = false) ∧
      match outB with
      | .failed e => fetchFileContents R files w = some (.failed e, w1)
      | .ok blobs =>
        if files.length < 100 then
          ∃ outC w2, fetchCommits R (files.map (fun f => f.path)) w1 = some (outC, w2) ∧
            w2.exchanges = w1.exchanges ++
              issueCommitRequests R (requestBatches 13 (files.map (fun f => f.path))) w1.remote ∧
            issueCommitRequests R (requestBatches 13 (files.map (fun f => f.path))) w1.remote
              ≠ [] ∧
            (requestBatches 13 (files.map (fun f => f.path))).flatten =
              files.map (fun f => f.path) ∧
            fetchFileContents R files w =
              some (match outC with
                | .ok commits => parseFileContents files blobs commits
                | .failed e => .failed e, w2)
        else
          fetchFileContents R files w = some (parseFileContents files blobs [], w1) ∧
            ∀ m, parseFileContents files blobs [] = .ok m → ∀ e ∈ m, e.2.meta = ⟨none, none⟩ := by
  obtain ⟨_, _, hB3⟩ := issueBlobRequests_paths R
    (requestBatches 100 (files.map (fun f => f.path))) (w.setProgress (some (.nat 0))).remote
  have hex := runBlobBatches_exchanges R (files.map (fun f => f.path)).length
    (requestBatches 100 (files.map (fun f => f.path))) [] (w.setProgress (some (.nat 0)))
  have hB := fetchBlobs_eq R (files.map (fun f => f.path)) w
  rcases hrun : runBlobBatches R (files.map (fun f => f.path)).length
      (requestBatches 100 (files.map (fun f => f.path))) []
      (w.setProgress (some (.nat 0))) with ⟨outB, w1⟩
  rw [hrun] at hB hex
  refine ⟨outB, w1, _, hB, hex, ?_, ?_⟩
  · intro x hx
    have := hB3 x hx
    cases x <;> simp_all [Exchange.isBlobs, Exchange.isCommits]
  · cases outB with
    | failed e =>
      simp only [fetchFileContents, hB]
    | ok blobs =>
      by_cases hlt : files.length < 100
      · simp only [hlt, if_true]
        have hC := fetchCommits_eq R (files.map (fun f => f.path)) w1
        have hexC := runCommitBatches_exchanges R
          (requestBatches 13 (files.map (fun f => f.path))) [] w1
        rcases hrunC : runCommitBatches R (requestBatches 13 (files.map (fun f => f.path)))
          [] w1 with ⟨outC, w2⟩
        rw [hrunC] at hC hexC
        refine ⟨outC, w2, hC, hexC, ?_, requestBatches_flatten 13 (by decide) _, ?_⟩
        · rw [requestBatches_unfold 13 (by decide)]
          simp only [issueCommitRequests]
          cases (R.commits (List.take 13 (files.map (fun f => f.path))) w1.remote).1 <;> simp
        · simp only [fetchFileContents, hB, List.length_map, hlt, if_true, hC]
          cases outC <;> rfl
      · simp only [hlt, if_false]
        refine ⟨?_, parseFileContents_no_commits files blobs⟩
        simp only [fetchFileContents, hB, List.length_map, hlt, if_false]

/-- C10: for every file listing with pairwise distinct paths and one blob returned per path in
listing order (the commits being fetched, or skipped from 100 files on), the contents map built
by `fetchFileContents` has exactly one key per listed file, as many keys as files, none
duplicated or missing, and the entry stored under each path carries that file's listed `sha`
together with the numeric size (`Number(size)`) and raw text of the blob at the same index. -/
theorem fetchFileContents_contents_map {σ : Type} (R : Remote σ)
    (files : List BaseFileListItem) (w w1 : World σ) (blobs : List BlobItem)
    (commits : List GitLabCommit)
    (hnodup : (files.map (fun f => f.path)).Nodup)
    (hblobs : fetchBlobs R (files.map (fun f => f.path)) w = some (.ok blobs, w1))
    (hlen : blobs.length = files.length)
    (hcommits : (files.length < 100 ∧
        ∃ w2, fetchCommits R (files.map (fun f => f.path)) w1 = some (.ok commits, w2)) ∨
      (100 ≤ files.length ∧ commits = [])) :
    ∃ m w', fetchFileContents R files w = some (.ok m, w') ∧
      m.keys.Nodup ∧ m.keys.length = files.length ∧
      (∀ key, key ∈ m.keys ↔ key ∈ files.map (fun f => f.path)) ∧
      ∀ (i : Nat) (f : BaseFileListItem) (b : BlobItem), files[i]? = some f →
        blobs[i]? = some b →
        m.get? f.path = some ⟨f.sha, ⟨b.size⟩, b.rawTextBlob, metaOf commits[i]?⟩ := by
  obtain ⟨m, hm1, hm2, hm3⟩ := parseFileContents_ok files blobs commits hnodup hlen
  have hkeys : m.keys = files.map (fun f => f.path) := hm2
  have hfetch : ∃ w', fetchFileContents R files w = some (.ok m, w') := by
    rcases hcommits with ⟨hlt, w2, hC⟩ | ⟨hge, hnil⟩
    · exact ⟨w2, by simp only [fetchFileContents, hblobs, List.length_map, hlt, if_true, hC, hm1]⟩
    · have hlt : ¬ files.length < 100 := by omega
      subst hnil
      exact ⟨w1, by simp only [fetchFileContents, hblobs, List.length_map, hlt, if_false, hm1]⟩
  obtain ⟨w', hw'⟩ := hfetch
  refine ⟨m, w', hw', hkeys ▸ hnodup, by rw [hkeys, List.length_map], ?_, ?_⟩
  · intro key
    rw [hkeys]
  · intro i f b hf hb
    exact lookup_of_getElem? m (hm2 ▸ hnodup) i f.path _ (hm3 i f b hf hb)

theorem fetchFileContents_contents_map_witness :
    ∃ m w', fetchFileContents sampleRemote
        [⟨"a.md", "sha-a", 0, "a.md"⟩, ⟨"b.md", "sha-b", 0, "b.md"⟩] sampleWorld =
          some (.ok m, w') ∧
      m.keys.Nodup ∧ m.keys.length = 2 ∧
      m.get? "b.md" = some ⟨"sha-b", ⟨"7"⟩, "text of b.md",
        metaOf (some ⟨some ⟨some "gid://gitlab/User/123", some "octocat"⟩, "Octo Cat",
          "octo@example.com", "2024-01-01T00:00:00Z"⟩)⟩ := by
  obtain ⟨m, w', h1, h2, h3, _, h5⟩ := fetchFileContents_contents_map sampleRemote
    [⟨"a.md", "sha-a", 0, "a.md"⟩, ⟨"b.md", "sha-b", 0, "b.md"⟩] sampleWorld
    ⟨1, none, [some (.nat 0), some (.nat 100), none],
      [.blobs ["a.md", "b.md"] (.ok [⟨"7", "text of a.md"⟩, ⟨"7", "text of b.md"⟩])],
      [.progress (some (.nat 0)),
        .request (.blobs ["a.md", "b.md"] (.ok [⟨"7", "text of a.md"⟩, ⟨"7", "text of b.md"⟩])),
        .progress (some (.nat 100)), .progress none]⟩
    [⟨"7", "text of a.md"⟩, ⟨"7", "text of b.md"⟩]
    [⟨some ⟨some "gid://gitlab/User/123", some "octocat"⟩, "Octo Cat", "octo@example.com",
        "2024-01-01T00:00:00Z"⟩,
      ⟨some ⟨some "gid://gitlab/User/123", some "octocat"⟩, "Octo Cat", "octo@example.com",
        "2024-01-01T00:00:00Z"⟩]
    (by decide) rfl rfl (Or.inl ⟨by decide, _, rfl⟩)
  exact ⟨m, w', h1, h2, h3, h5 1 ⟨"b.md", "sha-b", 0, "b.md"⟩ ⟨"7", "text of b.md"⟩ rfl rfl⟩

set_option maxRecDepth 1000000 in
/-- C8 fails on the code: for a list of 1250 paths, every request being answered, the value
written after the seventh batch (700 of 1250 paths fetched) is 57, while `100 * 700 / 1250`
rounded up is 56: the quotient `700 / 1250` is rounded to a double and its product with 100 is
slightly above 56.  For the empty list the value written after the only batch is `NaN`. -/
theorem fetchBlobs_progress_values :
    (fetchBlobs sampleRemote ((List.range 1250).map (fun i => "f" ++ toString i ++ ".md"))
        sampleWorld).map (fun r => r.2.progressWrites) =
      some [some (.nat 0), some (.nat 8), some (.nat 16), some (.nat 24), some (.nat 32),
        some (.nat 40), some (.nat 48), some (.nat 57), some (.nat 64), some (.nat 72),
        some (.nat 80), some (.nat 88), some (.nat 96), some (.nat 100), none] ∧
      (100 * 700 + 1250 - 1) / 1250 = 56 ∧
      (fetchBlobs sampleRemote [] sampleWorld).map (fun r => r.2.progressWrites) =
        some [some (.nat 0), some .nan, none] := by
  refine ⟨?_, ?_, ?_⟩ <;> decide

/-! ### The file list -/

theorem fetchFileListLoop_eq {σ : Type} (R : Remote σ) :
    ∀ (fuel : Nat) (cursor : String) (blobs : List TreeNode) (w : World σ),
      paginationEnds R fuel cursor w.remote = true →
      ∃ out w', fetchFileListLoop R fuel cursor blobs w = some (out, w') ∧
        w'.exchanges = w.exchanges ++ issueTreeRequests R fuel cursor w.remote ∧
        w'.progressWrites = w.progressWrites ∧
        w'.dataLoadedProgress = w.dataLoadedProgress ∧
        out =
          match firstFailure (issueTreeRequests R fuel cursor w.remote) with
          | some e => .failed e
          | none =>
            .ok (blobs ++
              ((issueTreeRequests R fuel cursor w.remote).map Exchange.treeNodes).flatten) := by
  intro fuel
  induction fuel with
  | zero => intro cursor blobs w h; simp [paginationEnds] at h
  | succ fuel ih =>
    intro cursor blobs w h
    simp only [paginationEnds] at h
    simp only [fetchFileListLoop, issueTreeRequests, fetchGraphQLTree]
    cases hres : (R.tree cursor w.remote).1 with
    | failed e =>
      exact ⟨.failed e,
        { w with
          remote := (R.tree cursor w.remote).2
          exchanges := w.exchanges ++ [.tree cursor (.failed e)]
          events := w.events ++ [.request (.tree cursor (.failed e))] },
        rfl, rfl, rfl, rfl, by simp [firstFailure, Exchange.failure?]⟩
    | ok page =>
      simp only [hres] at h
      by_cases hnext : page.hasNextPage = true
      · simp only [hnext, if_true] at h
        obtain ⟨out, w', h1, h2, h3, h4, h5⟩ := ih page.endCursor (blobs ++ page.nodes)
          { w with
            remote := (R.tree cursor w.remote).2
            exchanges := w.exchanges ++ [.tree cursor (.ok page)]
            events := w.events ++ [.request (.tree cursor (.ok page))] } h
        refine ⟨out, w', by simpa [hnext] using h1, by simpa [hnext] using h2, h3, h4, ?_⟩
        rw [h5]
        simp [hnext, firstFailure, Exchange.failure?, Exchange.treeNodes]
      · have hnext' : page.hasNextPage = false := by simpa using hnext
        exact ⟨.ok (blobs ++ page.nodes),
          { w with
            remote := (R.tree cursor w.remote).2
            exchanges := w.exchanges ++ [.tree cursor (.ok page)]
            events := w.events ++ [.request (.tree cursor (.ok page))] },
          by simp [hnext'], by simp [hnext'], rfl, rfl,
          by simp [hnext', firstFailure, Exchange.failure?, Exchange.treeNodes]⟩

theorem paginationEnds_mono {σ : Type} (R : Remote σ) :
    ∀ (fuel fuel' : Nat) (cursor : String) (s : σ), fuel ≤ fuel' →
      paginationEnds R fuel cursor s = true →
      paginationEnds R fuel' cursor s = true ∧
        issueTreeRequests R fuel' cursor s = issueTreeRequests R fuel cursor s := by
  intro fuel
  induction fuel with
  | zero => intro fuel' cursor s _ h; simp [paginationEnds] at h
  | succ fuel ih =>
    intro fuel' cursor s hle h
    cases fuel' with
    | zero => omega
    | succ fuel' =>
      simp only [paginationEnds] at h ⊢
      simp only [issueTreeRequests]
      cases hres : (R.tree cursor s).1 with
      | failed e => simp
      | ok page =>
        simp only [hres] at h
        by_cases hnext : page.hasNextPage = true
        · simp only [hnext, if_true] at h ⊢
          obtain ⟨h1, h2⟩ := ih fuel' page.endCursor (R.tree cursor s).2 (by omega) h
          exact ⟨h1, by rw [h2]⟩
        · have hnext' : page.hasNextPage = false := by simpa using hnext
          simp [hnext']

theorem issueTreeRequests_chain {σ : Type} (R : Remote σ) :
    ∀ (limit : Nat) (cursor : String) (s : σ),
      (∀ x, (issueTreeRequests R limit cursor s).head? = some x → x.cursor? = some cursor) ∧
      (∀ (i : Nat) (x y : Exchange), (issueTreeRequests R limit cursor s)[i]? = some x →
        (issueTreeRequests R limit cursor s)[i + 1]? = some y →
        ∃ page, x.page? = some page ∧ page.hasNextPage = true ∧
          y.cursor? = some page.endCursor) ∧
      (∀ (i : Nat) (x : Exchange), (issueTreeRequests R limit cursor s)[i]? = some x →
        (x.failure? ≠ none ∨ ∃ page, x.page? = some page ∧ page.hasNextPage = false) →
        (issueTreeRequests R limit cursor s).length = i + 1) := by
  intro limit
  induction limit with
  | zero => intro cursor s; simp [issueTreeRequests]
  | succ limit ih =>
    intro cursor s
    simp only [issueTreeRequests]
    cases hres : (R.tree cursor s).1 with
    | failed e =>
      refine ⟨?_, ?_, ?_⟩
      · intro x hx
        simp only [List.head?_cons, Option.some.injEq] at hx
        subst hx
        rfl
      · intro i x y _ hy
        simp at hy
      · intro i x hx _
        cases i with
        | zero => rfl
        | succ i => simp at hx
    | ok page =>
      obtain ⟨ih1, ih2, ih3⟩ := ih page.endCursor (R.tree cursor s).2
      refine ⟨?_, ?_, ?_⟩
      · intro x hx
        simp only [List.head?_cons, Option.some.injEq] at hx
        subst hx
        rfl
      · intro i x y hx hy
        by_cases hnext : page.hasNextPage = true
        · simp only [hnext, if_true] at hx hy
          cases i with
          | zero =>
            simp only [List.getElem?_cons_zero, Option.some.injEq] at hx
            subst hx
            simp only [List.getElem?_cons_succ] at hy
            refine ⟨page, rfl, hnext, ih1 y ?_⟩
            rw [List.head?_eq_getElem?]
            exact hy
          | succ i =>
            simp only [List.getElem?_cons_succ] at hx hy
            exact ih2 i x y hx hy
        · have hnext' : page.hasNextPage = false := by simpa using hnext
          simp [hnext'] at hy
      · intro i x hx hend
        by_cases hnext : page.hasNextPage = true
        · simp only [hnext, if_true] at hx ⊢
          cases i with
          | zero =>
            simp only [List.getElem?_cons_zero, Option.some.injEq] at hx
            subst hx
            rcases hend with h | ⟨q, hq, hq2⟩
            · simp [Exchange.failure?] at h
            · simp only [Exchange.page?, Option.some.injEq] at hq
              subst hq
              rw [hnext] at hq2
              cases hq2
          | succ i =>
            simp only [List.getElem?_cons_succ] at hx
            simp only [List.length_cons]
            rw [ih3 i x hx hend]
        · have hnext' : page.hasNextPage = false := by simpa using hnext
          simp only [hnext', Bool.false_eq_true, if_false] at hx ⊢
          cases i with
          | zero => rfl
          | succ i => simp at hx

theorem fetchFileListLoop_mono {σ : Type} (R : Remote σ) :
    ∀ (fuel fuel' : Nat) (cursor : String) (blobs : List TreeNode) (w : World σ),
      fuel ≤ fuel' → paginationEnds R fuel cursor w.remote = true →
      fetchFileListLoop R fuel' cursor blobs w = fetchFileListLoop R fuel cursor blobs w := by
  intro fuel
  induction fuel with
  | zero => intro fuel' cursor blobs w _ h; simp [paginationEnds] at h
  | succ fuel ih =>
    intro fuel' cursor blobs w hle h
    cases fuel' with
    | zero => omega
    | succ fuel' =>
      simp only [paginationEnds] at h
      simp only [fetchFileListLoop, fetchGraphQLTree]
      cases hres : (R.tree cursor w.remote).1 with
      | failed e => rfl
      | ok page =>
        simp only [hres] at h
        by_cases hnext : page.hasNextPage = true
        · simp only [hnext, if_true] at h
          simp only [hnext, Bool.not_true, Bool.false_eq_true, if_false]
          exact ih fuel' page.endCursor _ _ (by omega) h
        · have hnext' : page.hasNextPage = false := by simpa using hnext
          simp [hnext']

/-- C11: `fetchFileList` requests pages starting with an empty cursor, passes each page's
`endCursor` as the cursor of the next request, and stops after the first page whose
`hasNextPage` is false; its result is exactly the nodes of all pages fetched, in page order,
restricted to those whose type is `blob`, each returned with its path, its sha and size 0.
The loop has no bound of its own, so the statement is for a remote side whose pagination ends
within `fuel` requests, and the result is the same for every larger bound; a rejected request
ends the operation with its error. -/
theorem fetchFileList_pages {σ : Type} (R : Remote σ) (basename : String → String)
    (fuel : Nat) (w : World σ) (hends : paginationEnds R fuel "" w.remote = true) :
    ∃ out w', fetchFileList R basename fuel w = some (out, w') ∧
      (∀ fuel', fuel ≤ fuel' → fetchFileList R basename fuel' w = some (out, w')) ∧
      w'.exchanges = w.exchanges ++ issueTreeRequests R fuel "" w.remote ∧
      (∀ x, (issueTreeRequests R fuel "" w.remote).head? = some x → x.cursor? = some "") ∧
      (∀ (i : Nat) (x y : Exchange), (issueTreeRequests R fuel "" w.remote)[i]? = some x →
        (issueTreeRequests R fuel "" w.remote)[i + 1]? = some y →
        ∃ page, x.page? = some page ∧ page.hasNextPage = true ∧
          y.cursor? = some page.endCursor) ∧
      (∀ (i : Nat) (x : Exchange), (issueTreeRequests R fuel "" w.remote)[i]? = some x →
        (x.failure? ≠ none ∨ ∃ page, x.page? = some page ∧ page.hasNextPage = false) →
        (issueTreeRequests R fuel "" w.remote).length = i + 1) ∧
      out =
        match firstFailure (issueTreeRequests R fuel "" w.remote) with
        | some e => .failed e
        | none =>
          .ok (((((issueTreeRequests R fuel "" w.remote).map Exchange.treeNodes).flatten).filter
            (fun node => node.type = "blob")).map
              (fun node => ⟨node.path, node.sha, 0, basename node.path⟩)) := by
  obtain ⟨c1, c2, c3⟩ := issueTreeRequests_chain R fuel "" w.remote
  obtain ⟨out0, w0, h1, h2, _, _, h5⟩ := fetchFileListLoop_eq R fuel "" [] w hends
  have hlist : ∀ fuel', fuel ≤ fuel' →
      fetchFileList R basename fuel' w = fetchFileList R basename fuel w := by
    intro fuel' hle
    unfold fetchFileList
    rw [fetchFileListLoop_mono R fuel fuel' "" [] w hle hends]
  rw [List.nil_append] at h5
  cases hf : firstFailure (issueTreeRequests R fuel "" w.remote) with
  | some e =>
    rw [hf] at h5
    subst h5
    have hres : fetchFileList R basename fuel w = some (.failed e, w0) := by
      simp only [fetchFileList, h1]
    exact ⟨.failed e, w0, hres, fun fuel' hle => (hlist fuel' hle).trans hres, h2, c1, c2, c3,
      rfl⟩
  | none =>
    rw [hf] at h5
    subst h5
    have hres : fetchFileList R basename fuel w = some (.ok
        (((((issueTreeRequests R fuel "" w.remote).map Exchange.treeNodes).flatten).filter
          (fun node => node.type = "blob")).map
            (fun node => ⟨node.path, node.sha, 0, basename node.path⟩)), w0) := by
      simp only [fetchFileList, h1]
    exact ⟨_, w0, hres, fun fuel' hle => (hlist fuel' hle).trans hres, h2, c1, c2, c3, rfl⟩

theorem fetchFileList_pages_witness :
    paginationEnds sampleRemote 1 "" sampleWorld.remote = true ∧
      ∃ out w', fetchFileList sampleRemote (fun path => path) 1 sampleWorld = some (out, w') ∧
        ∀ fuel', 1 ≤ fuel' →
          fetchFileList sampleRemote (fun path => path) fuel' sampleWorld = some (out, w') := by
  refine ⟨rfl, ?_⟩
  obtain ⟨out, w', h1, h2, _⟩ :=
    fetchFileList_pages sampleRemote (fun path => path) 1 sampleWorld rfl
  exact ⟨out, w', h1, h2⟩

/-! ### Failures and the progress indicator -/

theorem issueBlobRequests_failure_last {σ : Type} (R : Remote σ) :
    ∀ (bs : List (List String)) (s : σ) (e : Failure),
      firstFailure (issueBlobRequests R bs s) = some e →
      ∃ init x, issueBlobRequests R bs s = init ++ [x] ∧ x.failure? = some e ∧
        ∀ y ∈ init, y.failure? = none := by
  intro bs
  induction bs with
  | nil => intro s e h; simp [issueBlobRequests, firstFailure] at h
  | cons b bs ih =>
    intro s e h
    simp only [issueBlobRequests] at h ⊢
    cases hres : (R.blobs b s).1 with
    | failed e' =>
      simp only [hres, firstFailure, List.findSome?_cons, Exchange.failure?,
        Option.some.injEq] at h
      subst h
      exact ⟨[], _, rfl, rfl, by simp⟩
    | ok nodes =>
      simp only [hres, firstFailure, List.findSome?_cons, Exchange.failure?] at h
      obtain ⟨init, x, h1, h2, h3⟩ := ih (R.blobs b s).2 e h
      refine ⟨.blobs b (.ok nodes) :: init, x, by simp [h1], h2, ?_⟩
      intro y hy
      rcases List.mem_cons.mp hy with rfl | hy
      · rfl
      · exact h3 y hy

theorem issueCommitRequests_failure_last {σ : Type} (R : Remote σ) :
    ∀ (bs : List (List String)) (s : σ) (e : Failure),
      firstFailure (issueCommitRequests R bs s) = some e →
      ∃ init x, issueCommitRequests R bs s = init ++ [x] ∧ x.failure? = some e ∧
        ∀ y ∈ init, y.failure? = none := by
  intro bs
  induction bs with
  | nil => intro s e h; simp [issueCommitRequests, firstFailure] at h
  | cons b bs ih =>
    intro s e h
    simp only [issueCommitRequests] at h ⊢
    cases hres : (R.commits b s).1 with
    | failed e' =>
      simp only [hres, firstFailure, List.findSome?_cons, Exchange.failure?,
        Option.some.injEq] at h
      subst h
      exact ⟨[], _, rfl, rfl, by simp⟩
    | ok repository =>
      simp only [hres, firstFailure, List.findSome?_cons, Exchange.failure?] at h
      obtain ⟨init, x, h1, h2, h3⟩ := ih (R.commits b s).2 e h
      refine ⟨.commits b (.ok repository) :: init, x, by simp [h1], h2, ?_⟩
      intro y hy
      rcases List.mem_cons.mp hy with rfl | hy
      · rfl
      · exact h3 y hy

theorem firstFailure_append_of_none (xs ys : List Exchange) (h : firstFailure xs = none) :
    firstFailure (xs ++ ys) = firstFailure ys := by
  unfold firstFailure at h ⊢
  rw [List.findSome?_append, h]
  rfl

theorem firstFailure_none_iff (xs : List Exchange) :
    firstFailure xs = none ↔ ∀ x ∈ xs, x.failure? = none := by
  unfold firstFailure
  exact List.findSome?_eq_none_iff

theorem setProperty_keys (m : RepositoryContentsMap) (key : String) (value : FileData)
    (k : String) :
    k ∈ (setProperty m key value).keys ↔ k ∈ m.keys ∨ k = key := by
  induction m with
  | nil => simp [setProperty, RepositoryContentsMap.keys]
  | cons x m ih =>
    obtain ⟨k', v'⟩ := x
    simp only [RepositoryContentsMap.keys] at ih
    by_cases hk : k' = key
    · subst hk
      simp only [setProperty, if_true, RepositoryContentsMap.keys, List.map_cons, List.mem_cons]
      tauto
    · simp only [setProperty, hk, if_false, RepositoryContentsMap.keys, List.map_cons,
        List.mem_cons, ih]
      tauto

theorem foldl_setProperty_keys (es : List (String × FileData)) :
    ∀ (acc : RepositoryContentsMap) (k : String),
      k ∈ RepositoryContentsMap.keys
          (es.foldl (fun m entry => setProperty m entry.1 entry.2) acc) ↔
        k ∈ acc.keys ∨ k ∈ es.map (fun e => e.1) := by
  induction es with
  | nil => intro acc k; simp
  | cons x es ih =>
    intro acc k
    rw [List.foldl_cons, ih, setProperty_keys]
    simp only [List.map_cons, List.mem_cons]
    tauto

theorem fromEntries_keys (es : List (String × FileData)) (k : String) :
    k ∈ (fromEntries es).keys ↔ k ∈ es.map (fun e => e.1) := by
  unfold fromEntries
  rw [foldl_setProperty_keys]
  simp [RepositoryContentsMap.keys]

theorem fileEntries_keys (blobs : List BlobItem) (commits : List GitLabCommit) :
    ∀ (files : List BaseFileListItem) (index : Nat) (entries : List (String × FileData)),
      fileEntries blobs commits index files = .ok entries →
      entries.map (fun e => e.1) = files.map (fun f => f.path) := by
  intro files
  induction files with
  | nil =>
    intro index entries h
    simp only [fileEntries, Outcome.ok.injEq] at h
    subst h
    rfl
  | cons file rest ih =>
    intro index entries h
    simp only [fileEntries] at h
    cases hb : blobs[index]? with
    | none => simp [hb] at h
    | some blob =>
      simp only [hb] at h
      cases hrest : fileEntries blobs commits (index + 1) rest with
      | failed err => simp [hrest] at h
      | ok es =>
        simp only [hrest, Outcome.ok.injEq] at h
        subst h
        simp [ih (index + 1) es hrest]

theorem parseFileContents_keys (files : List BaseFileListItem) (blobs : List BlobItem)
    (commits : List GitLabCommit) (m : RepositoryContentsMap)
    (h : parseFileContents files blobs commits = .ok m) :
    ∀ k, k ∈ m.keys ↔ k ∈ files.map (fun f => f.path) := by
  unfold parseFileContents at h
  cases hes : fileEntries blobs commits 0 files with
  | failed err => simp [hes] at h
  | ok es =>
    simp only [hes, Outcome.ok.injEq] at h
    subst h
    intro k
    rw [fromEntries_keys, fileEntries_keys blobs commits files 0 es hes]

/-- C12: if any request issued while fetching blobs or commit metadata fails,
`fetchFileContents` fails with that same error and returns no contents map, and the failing
request is the last one issued; a contents map is returned only when every request succeeded,
and it then has a key for every file, so a map holding only part of the files is never
returned. -/
theorem fetchFileContents_failure {σ : Type} (R : Remote σ) (files : List BaseFileListItem)
    (w : World σ) :
    ∃ out w' issued, fetchFileContents R files w = some (out, w') ∧
      w'.exchanges = w.exchanges ++ issued ∧
      (∀ e, firstFailure issued = some e →
        out = .failed e ∧
          ∃ init x, issued = init ++ [x] ∧ x.failure? = some e ∧
            ∀ y ∈ init, y.failure? = none) ∧
      (∀ m, out = .ok m → firstFailure issued = none ∧ ∀ f ∈ files, f.path ∈ m.keys) := by
  have hex := runBlobBatches_exchanges R (files.map (fun f => f.path)).length
    (requestBatches 100 (files.map (fun f => f.path))) [] (w.setProgress (some (.nat 0)))
  have hout := runBlobBatches_outcome R (files.map (fun f => f.path)).length
    (requestBatches 100 (files.map (fun f => f.path))) [] (w.setProgress (some (.nat 0)))
  have hB := fetchBlobs_eq R (files.map (fun f => f.path)) w
  rw [setProgress_remote] at hex hout
  rw [setProgress_exchanges] at hex
  generalize hIB : issueBlobRequests R (requestBatches 100 (files.map (fun f => f.path)))
    w.remote = issuedB at hex hout
  have hlastB := issueBlobRequests_failure_last R
    (requestBatches 100 (files.map (fun f => f.path))) w.remote
  rw [hIB] at hlastB
  rcases hrun : runBlobBatches R (files.map (fun f => f.path)).length
      (requestBatches 100 (files.map (fun f => f.path))) []
      (w.setProgress (some (.nat 0))) with ⟨outB, w1⟩
  rw [hrun] at hB hex hout
  simp only at hex hout
  cases hfB : firstFailure issuedB with
  | some e0 =>
    rw [hfB] at hout
    subst hout
    refine ⟨.failed e0, w1, issuedB, by simp only [fetchFileContents, hB], hex, ?_, ?_⟩
    · intro e he
      rw [hfB, Option.some.injEq] at he
      subst he
      exact ⟨rfl, hlastB e0 hfB⟩
    · intro m hm
      cases hm
  | none =>
    rw [hfB] at hout
    simp only [List.nil_append] at hout
    subst hout
    by_cases hlt : files.length < 100
    · have hC := fetchCommits_eq R (files.map (fun f => f.path)) w1
      have hexC := runCommitBatches_exchanges R
        (requestBatches 13 (files.map (fun f => f.path))) [] w1
      have houtC := runCommitBatches_outcome R
        (requestBatches 13 (files.map (fun f => f.path))) [] w1
      have hlastC := issueCommitRequests_failure_last R
        (requestBatches 13 (files.map (fun f => f.path))) w1.remote
      generalize hIC : issueCommitRequests R (requestBatches 13 (files.map (fun f => f.path)))
        w1.remote = issuedC at hexC houtC hlastC
      rcases hrunC : runCommitBatches R (requestBatches 13 (files.map (fun f => f.path)))
        [] w1 with ⟨outC, w2⟩
      rw [hrunC] at hC hexC houtC
      simp only at hexC houtC
      have hexAll : w2.exchanges = w.exchanges ++ (issuedB ++ issuedC) := by
        rw [hexC, hex, List.append_assoc]
      have hfAll : firstFailure (issuedB ++ issuedC) = firstFailure issuedC :=
        firstFailure_append_of_none _ _ hfB
      cases hfC : firstFailure issuedC with
      | some e1 =>
        rw [hfC] at houtC
        subst houtC
        refine ⟨.failed e1, w2, issuedB ++ issuedC, ?_, hexAll, ?_, ?_⟩
        · simp only [fetchFileContents, hB, List.length_map, hlt, if_true, hC]
        · intro e he
          rw [hfAll, hfC, Option.some.injEq] at he
          subst he
          obtain ⟨init, x, h1, h2, h3⟩ := hlastC e1 hfC
          refine ⟨rfl, issuedB ++ init, x, by rw [h1, List.append_assoc], h2, ?_⟩
          intro y hy
          rcases List.mem_append.mp hy with hy | hy
          · exact (firstFailure_none_iff issuedB).mp hfB y hy
          · exact h3 y hy
        · intro m hm
          cases hm
      | none =>
        rw [hfC] at houtC
        simp only [List.nil_append] at houtC
        subst houtC
        refine ⟨parseFileContents files ((issuedB.map Exchange.blobNodes).flatten)
          ((issuedC.map Exchange.lastCommits).flatten), w2, issuedB ++ issuedC, ?_, hexAll,
          ?_, ?_⟩
        · simp only [fetchFileContents, hB, List.length_map, hlt, if_true, hC]
        · intro e he
          rw [hfAll, hfC] at he
          cases he
        · intro m hm
          refine ⟨by rw [hfAll, hfC], ?_⟩
          intro f hf
          exact (parseFileContents_keys files _ _ m hm f.path).mpr
            (List.mem_map_of_mem _ hf)
    · refine ⟨parseFileContents files ((issuedB.map Exchange.blobNodes).flatten) [], w1,
        issuedB, ?_, hex, ?_, ?_⟩
      · simp only [fetchFileContents, hB, List.length_map, hlt, if_false]
      · intro e he
        rw [hfB] at he
        cases he
      · intro m hm
        refine ⟨hfB, ?_⟩
        intro f hf
        exact (parseFileContents_keys files _ _ m hm f.path).mpr (List.mem_map_of_mem _ hf)

theorem runBlobBatches_cons_failed {σ : Type} (R : Remote σ) (n : Nat) (b : List String)
    (bs : List (List String)) (blobs : List BlobItem) (w : World σ) (e : Failure)
    (h : (R.blobs b w.remote).1 = .failed e) :
    runBlobBatches R n (b :: bs) blobs w =
      (.failed e,
        { w with
          remote := (R.blobs b w.remote).2
          exchanges := w.exchanges ++ [.blobs b (.failed e)]
          events := w.events ++ [.request (.blobs b (.failed e))] }) := by
  simp only [runBlobBatches, fetchGraphQLBlobs, h]

theorem runBlobBatches_cons_ok {σ : Type} (R : Remote σ) (n : Nat) (b : List String)
    (bs : List (List String)) (blobs : List BlobItem) (w : World σ) (nodes : List BlobItem)
    (h : (R.blobs b w.remote).1 = .ok nodes) :
    runBlobBatches R n (b :: bs) blobs w =
      runBlobBatches R n bs (blobs ++ nodes)
        (World.setProgress
          { w with
            remote := (R.blobs b w.remote).2
            exchanges := w.exchanges ++ [.blobs b (.ok nodes)]
            events := w.events ++ [.request (.blobs b (.ok nodes))] }
          (some (progressPercent n bs.flatten.length))) := by
  simp only [runBlobBatches, fetchGraphQLBlobs, h]

theorem issueBlobRequests_cons_failed {σ : Type} (R : Remote σ) (b : List String)
    (bs : List (List String)) (s : σ) (e : Failure) (h : (R.blobs b s).1 = .failed e) :
    issueBlobRequests R (b :: bs) s = [.blobs b (.failed e)] := by
  simp only [issueBlobRequests, h]

theorem issueBlobRequests_cons_ok {σ : Type} (R : Remote σ) (b : List String)
    (bs : List (List String)) (s : σ) (nodes : List BlobItem) (h : (R.blobs b s).1 = .ok nodes) :
    issueBlobRequests R (b :: bs) s =
      .blobs b (.ok nodes) :: issueBlobRequests R bs (R.blobs b s).2 := by
  simp only [issueBlobRequests, h]

theorem runBlobBatches_progress {σ : Type} (R : Remote σ) (n : Nat) :
    ∀ (bs : List (List String)) (blobs : List BlobItem) (w : World σ),
      ∃ values : List JSNumber,
        (runBlobBatches R n bs blobs w).2.progressWrites =
          w.progressWrites ++ (values.map some ++
            (if (firstFailure (issueBlobRequests R bs w.remote)).isNone then [none] else [])) ∧
        values.length +
            (if (firstFailure (issueBlobRequests R bs w.remote)).isNone then 0 else 1) =
          (issueBlobRequests R bs w.remote).length := by
  intro bs
  induction bs with
  | nil =>
    intro blobs w
    exact ⟨[], by simp [runBlobBatches, issueBlobRequests, firstFailure, World.setProgress],
      by simp [issueBlobRequests, firstFailure]⟩
  | cons b bs ih =>
    intro blobs w
    rcases hres : (R.blobs b w.remote).1 with nodes | e
    · rw [runBlobBatches_cons_ok R n b bs blobs w nodes hres,
        issueBlobRequests_cons_ok R b bs w.remote nodes hres]
      obtain ⟨values, h1, h2⟩ := ih (blobs ++ nodes)
        (World.setProgress
          { w with
            remote := (R.blobs b w.remote).2
            exchanges := w.exchanges ++ [.blobs b (.ok nodes)]
            events := w.events ++ [.request (.blobs b (.ok nodes))] }
          (some (progressPercent n bs.flatten.length)))
      refine ⟨progressPercent n bs.flatten.length :: values, ?_, ?_⟩
      · rw [h1]
        simp [World.setProgress, firstFailure, Exchange.failure?]
      · simp only [setProgress_remote] at h2
        simp only [firstFailure, List.findSome?_cons, Exchange.failure?, List.length_cons]
        simp only [firstFailure] at h2
        omega
    · rw [runBlobBatches_cons_failed R n b bs blobs w e hres,
        issueBlobRequests_cons_failed R b bs w.remote e hres]
      exact ⟨[], by simp [firstFailure, Exchange.failure?],
        by simp [firstFailure, Exchange.failure?]⟩

theorem runBlobBatches_store {σ : Type} (R : Remote σ) (n : Nat) :
    ∀ (bs : List (List String)) (blobs : List BlobItem) (w : World σ),
      w.progressWrites.getLast? = some w.dataLoadedProgress →
      (runBlobBatches R n bs blobs w).2.progressWrites.getLast? =
        some (runBlobBatches R n bs blobs w).2.dataLoadedProgress := by
  intro bs
  induction bs with
  | nil => intro blobs w _; simp [runBlobBatches, World.setProgress]
  | cons b bs ih =>
    intro blobs w h
    simp only [runBlobBatches, fetchGraphQLBlobs]
    cases hres : (R.blobs b w.remote).1 with
    | failed e => exact h
    | ok nodes =>
      apply ih
      simp [World.setProgress]

theorem runBlobBatches_events {σ : Type} (R : Remote σ) (n : Nat) :
    ∀ (bs : List (List String)) (blobs : List BlobItem) (w : World σ),
      ∃ values : List JSNumber,
        (runBlobBatches R n bs blobs w).2.progressWrites =
          w.progressWrites ++ (values.map some ++
            (if (firstFailure (issueBlobRequests R bs w.remote)).isNone then [none] else [])) ∧
        values.length +
            (if (firstFailure (issueBlobRequests R bs w.remote)).isNone then 0 else 1) =
          (issueBlobRequests R bs w.remote).length ∧
        (firstFailure (issueBlobRequests R bs w.remote) = none →
          (runBlobBatches R n bs blobs w).2.events =
            w.events ++ (answeredEvents (issueBlobRequests R bs w.remote) values ++
              [.progress none])) ∧
        (∀ e, firstFailure (issueBlobRequests R bs w.remote) = some e →
          ∃ answered rejected,
            issueBlobRequests R bs w.remote = answered ++ [rejected] ∧
            answered.length = values.length ∧ rejected.failure? = some e ∧
            (runBlobBatches R n bs blobs w).2.events =
              w.events ++ (answeredEvents answered values ++ [.request rejected])) := by
  intro bs
  induction bs with
  | nil =>
    intro blobs w
    refine ⟨[], by simp [runBlobBatches, issueBlobRequests, firstFailure, World.setProgress],
      by simp [issueBlobRequests, firstFailure], ?_, ?_⟩
    · intro _
      simp [runBlobBatches, issueBlobRequests, World.setProgress, answeredEvents]
    · intro e h
      simp [issueBlobRequests, firstFailure] at h
  | cons b bs ih =>
    intro blobs w
    rcases hres : (R.blobs b w.remote).1 with nodes | e
    · rw [runBlobBatches_cons_ok R n b bs blobs w nodes hres,
        issueBlobRequests_cons_ok R b bs w.remote nodes hres]
      obtain ⟨values, h1, h2, h3, h4⟩ := ih (blobs ++ nodes)
        (World.setProgress
          { w with
            remote := (R.blobs b w.remote).2
            exchanges := w.exchanges ++ [.blobs b (.ok nodes)]
            events := w.events ++ [.request (.blobs b (.ok nodes))] }
          (some (progressPercent n bs.flatten.length)))
      simp only [setProgress_remote] at h2 h3 h4
      have hff : firstFailure (Exchange.blobs b (.ok nodes) ::
          issueBlobRequests R bs (R.blobs b w.remote).2) =
          firstFailure (issueBlobRequests R bs (R.blobs b w.remote).2) := by
        simp [firstFailure, Exchange.failure?]
      refine ⟨progressPercent n bs.flatten.length :: values, ?_, ?_, ?_, ?_⟩
      · rw [h1]
        simp [World.setProgress, firstFailure, Exchange.failure?]
      · simp only [firstFailure, List.findSome?_cons, Exchange.failure?, List.length_cons]
        simp only [firstFailure] at h2
        omega
      · intro hnone
        rw [hff] at hnone
        rw [h3 hnone]
        simp [World.setProgress, answeredEvents]
      · intro e he
        rw [hff] at he
        obtain ⟨answered, rejected, a1, a2, a3, a4⟩ := h4 e he
        refine ⟨.blobs b (.ok nodes) :: answered, rejected, by rw [a1]; rfl, by simp [a2], a3,
          ?_⟩
        rw [a4]
        simp [World.setProgress, answeredEvents]
    · rw [runBlobBatches_cons_failed R n b bs blobs w e hres,
        issueBlobRequests_cons_failed R b bs w.remote e hres]
      refine ⟨[], by simp [firstFailure, Exchange.failure?],
        by simp [firstFailure, Exchange.failure?], ?_, ?_⟩
      · intro h
        simp [firstFailure, Exchange.failure?] at h
      · intro e' he'
        refine ⟨[], .blobs b (.failed e), rfl, rfl, ?_, ?_⟩
        · simpa [firstFailure, Exchange.failure?] using he'
        · simp [answeredEvents]

/-- C13: `fetchBlobs` sets the progress indicator to 0 before its first request (the 0 is
written even when the first request is rejected) and to inactive (`undefined`) after the last
batch has succeeded; when a batch request fails the indicator is not reset and keeps the last
value written before the failure: the value written after the last answered batch, or 0 if
the first batch fails.  One value is written after each answered batch.  In the order of
events: the write of 0 comes first, then each answered request followed by the write of its
value, and last the write of `undefined` or the rejected request. -/
theorem fetchBlobs_progress_lifecycle {σ : Type} (R : Remote σ) (allPaths : List String)
    (w : World σ) :
    ∃ out w' issued, ∃ values : List JSNumber,
      fetchBlobs R allPaths w = some (out, w') ∧
      w'.exchanges = w.exchanges ++ issued ∧
      match out with
      | .ok _ =>
        w'.progressWrites = w.progressWrites ++ (some (.nat 0) :: values.map some ++ [none]) ∧
          values.length = issued.length ∧ w'.dataLoadedProgress = none ∧
          w'.events = w.events ++
            (.progress (some (.nat 0)) :: answeredEvents issued values ++ [.progress none])
      | .failed e =>
        w'.progressWrites = w.progressWrites ++ (some (.nat 0) :: values.map some) ∧
          values.length + 1 = issued.length ∧
          w'.dataLoadedProgress = some (values.getLast?.getD (.nat 0)) ∧
          ∃ answered rejected, issued = answered ++ [rejected] ∧
            answered.length = values.length ∧ rejected.failure? = some e ∧
            w'.events = w.events ++
              (.progress (some (.nat 0)) :: answeredEvents answered values ++
                [.request rejected]) := by
  have hB := fetchBlobs_eq R allPaths w
  have hex := runBlobBatches_exchanges R allPaths.length (requestBatches 100 allPaths) []
    (w.setProgress (some (.nat 0)))
  have hout := runBlobBatches_outcome R allPaths.length (requestBatches 100 allPaths) []
    (w.setProgress (some (.nat 0)))
  have hstore := runBlobBatches_store R allPaths.length (requestBatches 100 allPaths) []
    (w.setProgress (some (.nat 0))) (by simp [World.setProgress])
  obtain ⟨values, hw, hlen, hev1, hev2⟩ := runBlobBatches_events R allPaths.length
    (requestBatches 100 allPaths) [] (w.setProgress (some (.nat 0)))
  rw [setProgress_remote] at hex hout hw hlen hev1 hev2
  rw [setProgress_exchanges] at hex
  generalize issueBlobRequests R (requestBatches 100 allPaths) w.remote = issued
    at hex hout hw hlen hev1 hev2
  rcases hrun : runBlobBatches R allPaths.length (requestBatches 100 allPaths) []
      (w.setProgress (some (.nat 0))) with ⟨out, w'⟩
  rw [hrun] at hB hex hout hstore hw hev1 hev2
  simp only at hex hout hstore hw hev1 hev2
  have hw0 : (w.setProgress (some (.nat 0))).progressWrites =
      w.progressWrites ++ [some (.nat 0)] := rfl
  have he0 : (w.setProgress (some (.nat 0))).events =
      w.events ++ [.progress (some (.nat 0))] := rfl
  rw [hw0] at hw
  rw [he0] at hev1 hev2
  refine ⟨out, w', issued, values, hB, hex, ?_⟩
  cases hf : firstFailure issued with
  | none =>
    rw [hf] at hout
    simp only [hf, Option.isNone_none, if_true] at hw hlen
    subst hout
    simp only
    rw [hw] at hstore
    refine ⟨by rw [hw]; simp, by omega, ?_, by rw [hev1 hf]; simp⟩
    have : some (none : Option JSNumber) = some w'.dataLoadedProgress := by
      rw [← hstore, ← List.append_assoc, List.getLast?_concat]
    exact (Option.some.inj this).symm
  | some e =>
    rw [hf] at hout
    simp only [hf, Option.isNone_some, Bool.false_eq_true, if_false] at hw hlen
    subst hout
    simp only
    rw [hw] at hstore
    obtain ⟨answered, rejected, a1, a2, a3, a4⟩ := hev2 e hf
    refine ⟨by rw [hw]; simp, hlen, ?_, answered, rejected, a1, a2, a3, by rw [a4]; simp⟩
    have : some (some (values.getLast?.getD (.nat 0))) = some w'.dataLoadedProgress := by
      rw [← hstore]
      rcases List.eq_nil_or_concat values with h | ⟨init, v, h⟩
      · subst h
        simp only [List.map_nil, List.append_nil, List.getLast?_concat, List.getLast?_nil,
          Option.getD_none]
      · subst h
        have e1 : w.progressWrites ++ [some (JSNumber.nat 0)] ++
            (List.map some (init.concat v) ++ []) =
            (w.progressWrites ++ [some (JSNumber.nat 0)] ++ List.map some init) ++ [some v] := by
          simp
        have e2 : (init.concat v).getLast? = some v := by
          rw [List.concat_eq_append, List.getLast?_concat]
        rw [e1, List.getLast?_concat, e2, Option.getD_some]
    exact (Option.some.inj this).symm

/-- The order of events of `fetchBlobs` on two samples: with every request answered, the
write of 0, the request, the write of 100 and the write of `undefined`; with the request
rejected, the write of 0 and the request, the store keeping 0. -/
theorem fetchBlobs_events_samples :
    (fetchBlobs sampleRemote ["a.md", "b.md"] sampleWorld).map (fun r => r.2.events) =
      some [.progress (some (.nat 0)),
        .request (.blobs ["a.md", "b.md"]
          (.ok [⟨"7", "text of a.md"⟩, ⟨"7", "text of b.md"⟩])),
        .progress (some (.nat 100)), .progress none] ∧
      (fetchBlobs
          ⟨sampleRemote.tree, fun _ s => (.failed (.rejected "503"), s + 1),
            sampleRemote.commits⟩
          ["a.md"] sampleWorld).map (fun r => (r.2.events, r.2.dataLoadedProgress)) =
        some ([.progress (some (.nat 0)),
          .request (.blobs ["a.md"] (.failed (.rejected "503")))], some (.nat 0)) := by
  decide

/-! ## Theorems: the file-format resolver -/

/-- The expectations of `Test detectFileExtension()` in `config.test.js` hold of the model. -/
theorem detectFileExtension_tests :
    detectFileExtension (fun f => if f = "custom" then some "custom" else none) none
        (some "custom") = "custom" ∧
      detectFileExtension (fun _ => none) (some "txt") none = "txt" ∧
      detectFileExtension (fun _ => none) none (some "yaml") = "yml" ∧
      detectFileExtension (fun _ => none) none (some "yml") = "yml" ∧
      detectFileExtension (fun _ => none) none (some "toml") = "toml" ∧
      detectFileExtension (fun _ => none) none (some "json") = "json" ∧
      detectFileExtension (fun _ => none) none none = "md" ∧
      detectFileExtension (fun _ => none) none (some "unknown") = "md" ∧
      detectFileExtension (fun f => if f = "custom" then some "custom" else none) (some "txt")
        (some "custom") = "custom" ∧
      detectFileExtension (fun _ => none) (some "txt") (some "yaml") = "txt" := by
  decide

/-- C14: `detectFileExtension` returns the extension registered for the file's format whenever
that format is a registered custom format, even when an explicit extension is also given;
otherwise the explicit extension when one is given, even when a format is also given; otherwise
`yml` for format `yaml` or `yml`, `toml` for `toml`, `json` for `json`, and `md` for every
other or missing format. -/
theorem detectFileExtension_priority (customFileFormats : CustomFileFormats)
    (extension format : Option String) :
    (∀ fmt custom, format = some fmt → customFileFormats fmt = some custom →
      detectFileExtension customFileFormats extension format = custom) ∧
    ((∀ fmt, format = some fmt → customFileFormats fmt = none) →
      (∀ ext, extension = some ext →
        detectFileExtension customFileFormats extension format = ext) ∧
      (extension = none →
        ((format = some "yaml" ∨ format = some "yml") →
          detectFileExtension customFileFormats extension format = "yml") ∧
        (format = some "toml" →
          detectFileExtension customFileFormats extension format = "toml") ∧
        (format = some "json" →
          detectFileExtension customFileFormats extension format = "json") ∧
        (format ≠ some "yaml" → format ≠ some "yml" → format ≠ some "toml" →
          format ≠ some "json" →
          detectFileExtension customFileFormats extension format = "md"))) := by
  constructor
  · intro fmt custom hf hc
    subst hf
    simp [detectFileExtension, hc]
  · intro hnone
    have hbind : format.bind customFileFormats = none := by
      cases format with
      | none => rfl
      | some fmt => exact hnone fmt rfl
    refine ⟨?_, ?_⟩
    · intro ext he
      subst he
      simp [detectFileExtension, hbind]
    · intro he
      subst he
      refine ⟨?_, ?_, ?_, ?_⟩
      · intro h
        simp [detectFileExtension, hbind, h]
      · intro h
        subst h
        simp only [detectFileExtension, hbind]
        decide
      · intro h
        subst h
        simp only [detectFileExtension, hbind]
        decide
      · intro h1 h2 h3 h4
        simp [detectFileExtension, hbind, h1, h2, h3, h4]

/-- The expectations of `Test detectFileFormat()` in `config.test.js` hold of the model. -/
theorem detectFileFormat_tests :
    detectFileFormat (some "md") (some "json") = "json" ∧
      detectFileFormat (some "md") (some "custom-format") = "custom-format" ∧
      detectFileFormat (some "yaml") none = "yaml" ∧
      detectFileFormat (some "yml") none = "yaml" ∧
      detectFileFormat (some "toml") none = "toml" ∧
      detectFileFormat (some "json") none = "json" ∧
      (∀ ext ∈ ["md", "mkd", "mkdn", "mdwn", "mdown", "markdown"],
        detectFileFormat (some ext) none = "frontmatter") ∧
      detectFileFormat (some "txt") none = "yaml-frontmatter" ∧
      detectFileFormat (some "unknown") none = "yaml-frontmatter" := by
  decide

/-- C15: `detectFileFormat` returns the explicit format unchanged whenever one is given
(including unknown custom names, and whatever the extension); otherwise `yaml` for extension
`yaml` or `yml`, `toml` for `toml`, `json` for `json`, `frontmatter` for each of `md`, `mkd`,
`mkdn`, `mdwn`, `mdown` and `markdown`, and `yaml-frontmatter` for every other extension. -/
theorem detectFileFormat_priority (extension format : Option String) :
    (∀ fmt, format = some fmt → detectFileFormat extension format = fmt) ∧
    (format = none →
      ((extension = some "yaml" ∨ extension = some "yml") →
        detectFileFormat extension format = "yaml") ∧
      (extension = some "toml" → detectFileFormat extension format = "toml") ∧
      (extension = some "json" → detectFileFormat extension format = "json") ∧
      (∀ ext ∈ ["md", "mkd", "mkdn", "mdwn", "mdown", "markdown"], extension = some ext →
        detectFileFormat extension format = "frontmatter") ∧
      (∀ ext, extension = some ext →
        ext ∉ ["yaml", "yml", "toml", "json", "md", "mkd", "mkdn", "mdwn", "mdown", "markdown"] →
        detectFileFormat extension format = "yaml-frontmatter")) := by
  constructor
  · intro fmt hf
    subst hf
    rfl
  · intro hf
    subst hf
    refine ⟨?_, ?_, ?_, ?_, ?_⟩
    · intro h
      simp [detectFileFormat, h]
    · intro h
      subst h
      decide
    · intro h
      subst h
      decide
    · intro ext hext h
      subst h
      simp only [List.mem_cons, List.mem_singleton, List.not_mem_nil, or_false] at hext
      rcases hext with rfl | rfl | rfl | rfl | rfl | rfl <;> decide
    · intro ext h hnot
      subst h
      simp only [List.mem_cons, List.mem_singleton, List.not_mem_nil, or_false, not_or] at hnot
      obtain ⟨h1, h2, h3, h4, h5, h6, h7, h8, h9, h10⟩ := hnot
      simp [detectFileFormat, h1, h2, h3, h4, h5, h6, h7, h8, h9, h10]

/-- The expectations of `Test getFrontMatterDelimiters()` in `config.test.js` hold of the
model. -/
theorem getFrontMatterDelimiters_tests :
    getFrontMatterDelimiters "frontmatter" (.text "###") = some ("###", "###") ∧
      getFrontMatterDelimiters "frontmatter" (.array ["<<<", ">>>"]) = some ("<<<", ">>>") ∧
      getFrontMatterDelimiters "json-frontmatter" .absent = some ("\x7b", "\x7d") ∧
      getFrontMatterDelimiters "toml-frontmatter" .absent = some ("+++", "+++") ∧
      getFrontMatterDelimiters "yaml-frontmatter" .absent = some ("---", "---") ∧
      getFrontMatterDelimiters "unknown" .absent = none ∧
      getFrontMatterDelimiters "frontmatter" (.text "") = none ∧
      getFrontMatterDelimiters "frontmatter" (.text "   ") = none ∧
      getFrontMatterDelimiters "frontmatter" (.array ["only-one"]) = none ∧
      getFrontMatterDelimiters "frontmatter" (.array ["one", "two", "three"]) = none := by
  decide

/-- C16: `getFrontMatterDelimiters`: for format `frontmatter`, a delimiter string that is
non-empty after trimming whitespace yields the pair `[d, d]`, a two-element array yields that
array unchanged, and an empty string, a whitespace-only string or an array of any length other
than 2 yields `undefined`; the formats `json-frontmatter`, `toml-frontmatter` and
`yaml-frontmatter` yield `['{','}']`, `['+++','+++']` and `['---','---']`; every other format
yields `undefined`. -/
theorem getFrontMatterDelimiters_cases (format : String) (delimiter : DelimiterOption) :
    (format = "frontmatter" →
      (∀ d, delimiter = .text d → jsTrim d ≠ "" →
        getFrontMatterDelimiters format delimiter = some (d, d)) ∧
      (∀ opening closing, delimiter = .array [opening, closing] →
        getFrontMatterDelimiters format delimiter = some (opening, closing)) ∧
      (delimiter = .text "" → getFrontMatterDelimiters format delimiter = none) ∧
      (∀ d, delimiter = .text d → (∀ c ∈ d.data, isJSWhiteSpace c = true) →
        getFrontMatterDelimiters format delimiter = none) ∧
      (∀ ds, delimiter = .array ds → ds.length ≠ 2 →
        getFrontMatterDelimiters format delimiter = none)) ∧
    (format = "json-frontmatter" →
      getFrontMatterDelimiters format delimiter = some ("\x7b", "\x7d")) ∧
    (format = "toml-frontmatter" →
      getFrontMatterDelimiters format delimiter = some ("+++", "+++")) ∧
    (format = "yaml-frontmatter" →
      getFrontMatterDelimiters format delimiter = some ("---", "---")) ∧
    (format ∉ ["frontmatter", "json-frontmatter", "toml-frontmatter", "yaml-frontmatter"] →
      getFrontMatterDelimiters format delimiter = none) := by
  refine ⟨?_, ?_, ?_, ?_, ?_⟩
  · intro hf
    subst hf
    refine ⟨?_, ?_, ?_, ?_, ?_⟩
    · intro d hd ht
      subst hd
      simp [getFrontMatterDelimiters, ht]
    · intro opening closing hd
      subst hd
      simp [getFrontMatterDelimiters]
    · intro hd
      subst hd
      decide
    · intro d hd hall
      subst hd
      have : jsTrim d = "" := by
        unfold jsTrim
        have h1 : d.data.dropWhile isJSWhiteSpace = [] := by
          rw [List.dropWhile_eq_nil_iff]
          exact hall
        rw [h1]
        rfl
      simp [getFrontMatterDelimiters, this]
    · intro ds hd hlen
      subst hd
      unfold getFrontMatterDelimiters
      match ds, hlen with
      | [], _ => rfl
      | [_], _ => rfl
      | [_, _], h => exact absurd rfl h
      | _ :: _ :: _ :: _, _ => rfl
  · intro hf
    subst hf
    rfl
  · intro hf
    subst hf
    rfl
  · intro hf
    subst hf
    rfl
  · intro hf
    simp only [List.mem_cons, List.mem_singleton, List.not_mem_nil, or_false, not_or] at hf
    obtain ⟨h1, h2, h3, h4⟩ := hf
    simp [getFrontMatterDelimiters, h1, h2, h3, h4]

/-- The expectations of `Test getEntryPathRegEx()` in `config.test.js` hold of the model: the
sources and the captures of the sample paths. -/
theorem getEntryPathRegEx_tests :
    (getEntryPathRegEx "md" "content/posts" none none (testI18n false false false false)).source
        = "^content\\/posts\\/(?<subPath>[^/]+?)\\.md$" ∧
      ((getEntryPathRegEx "md" "content/posts" none none
        (testI18n false false false false)).exec "content/posts/my-post.md").bind
          (fun caps => caps.get? "subPath") = some "my-post" ∧
      (getEntryPathRegEx "md" "content/posts"
        (some "\x7b\x7byear\x7d\x7d/\x7b\x7bslug\x7d\x7d") none
        (testI18n false false false false)).source
        = "^content\\/posts\\/(?<subPath>[^/]+?\\/[^/]+?)\\.md$" ∧
      ((getEntryPathRegEx "md" "content/posts"
        (some "\x7b\x7byear\x7d\x7d/\x7b\x7bslug\x7d\x7d") none
        (testI18n false false false false)).exec "content/posts/2023/my-post.md").bind
          (fun caps => caps.get? "subPath") = some "2023/my-post" ∧
      (getEntryPathRegEx "md" "content/posts" (some "\x7b\x7bslug\x7d\x7d/index")
        (some "_index") (testI18n false false false false)).source
        = "^content\\/posts\\/(?<subPath>[^/]+?\\/index|_index)\\.md$" ∧
      ((getEntryPathRegEx "md" "content/posts" (some "\x7b\x7bslug\x7d\x7d/index")
        (some "_index") (testI18n false false false false)).exec
          "content/posts/my-post/index.md").bind
          (fun caps => caps.get? "subPath") = some "my-post/index" ∧
      ((getEntryPathRegEx "md" "content/posts" (some "\x7b\x7bslug\x7d\x7d/index")
        (some "_index") (testI18n false false false false)).exec
          "content/posts/_index.md").bind
          (fun caps => caps.get? "subPath") = some "_index" ∧
      (getEntryPathRegEx "md" "content/posts" none none (testI18n true false false false)).source
        = "^content\\/posts\\/(?<subPath>[^/]+?)\\.(?<locale>en|fr)\\.md$" ∧
      ((getEntryPathRegEx "md" "content/posts" none none
        (testI18n true false false false)).exec "content/posts/my-post.en.md").bind
          (fun caps => caps.get? "locale") = some "en" ∧
      ((getEntryPathRegEx "md" "content/posts" none none
        (testI18n true false false false)).exec "content/posts/my-post.fr.md").bind
          (fun caps => caps.get? "locale") = some "fr" ∧
      (getEntryPathRegEx "md" "content/posts" none none (testI18n true false false true)).source
        = "^content\\/posts\\/(?<subPath>[^/]+?)(?:\\.(?<locale>fr))?\\.md$" ∧
      ((getEntryPathRegEx "md" "content/posts" none none
        (testI18n true false false true)).exec "content/posts/my-post.md").map
          (fun caps => caps.get? "locale") = some none ∧
      ((getEntryPathRegEx "md" "content/posts" none none
        (testI18n true false false true)).exec "content/posts/my-post.fr.md").bind
          (fun caps => caps.get? "locale") = some "fr" ∧
      (getEntryPathRegEx "md" "content/posts" none none (testI18n false true false false)).source
        = "^content\\/posts\\/(?<locale>en|fr)\\/(?<subPath>[^/]+?)\\.md$" ∧
      ((getEntryPathRegEx "md" "content/posts" none none
        (testI18n false true false false)).exec "content/posts/en/my-post.md").bind
          (fun caps => caps.get? "locale") = some "en" ∧
      ((getEntryPathRegEx "md" "content/posts" none none
        (testI18n false true false false)).exec "content/posts/fr/my-post.md").bind
          (fun caps => caps.get? "locale") = some "fr" ∧
      (getEntryPathRegEx "md" "content/posts" none none (testI18n false false true false)).source
        = "^(?<locale>en|fr)\\/content\\/posts\\/(?<subPath>[^/]+?)\\.md$" ∧
      ((getEntryPathRegEx "md" "content/posts" none none
        (testI18n false false true false)).exec "en/content/posts/my-post.md").bind
          (fun caps => caps.get? "locale") = some "en" ∧
      ((getEntryPathRegEx "md" "content/posts" none none
        (testI18n false false true false)).exec "fr/content/posts/my-post.md").bind
          (fun caps => caps.get? "locale") = some "fr" ∧
      (getEntryPathRegEx "md" "" none none (testI18n false false false false)).source
        = "^(?<subPath>[^/]+?)\\.md$" ∧
      ((getEntryPathRegEx "md" "" none none
        (testI18n false false false false)).exec "my-post.md").bind
          (fun caps => caps.get? "subPath") = some "my-post" := by
  decide

/-- Expectations of `Test getFileConfig()` in `config.test.js` hold of the model (entry
collection without i18n; file collection without i18n, with format override and with
multi-file i18n). -/
theorem getFileConfig_tests :
    getFileConfig (fun _ => none) rawFolderCollection none i18nDisabled =
        ⟨"md", "frontmatter", some "content/posts", none,
          some (getEntryPathRegEx "md" "content/posts" none none i18nDisabled), none, none,
          false⟩ ∧
      getFileConfig (fun _ => none)
          { rawFolderCollection with
            path := some "\x7b\x7bslug\x7d\x7d/index", format := some "yaml-frontmatter" }
          none i18nDisabled =
        ⟨"md", "yaml-frontmatter", some "content/posts", some "\x7b\x7bslug\x7d\x7d/index",
          some (getEntryPathRegEx "md" "content/posts" (some "\x7b\x7bslug\x7d\x7d/index") none
            i18nDisabled), none, some ("---", "---"), false⟩ ∧
      (getEntryPathRegEx "md" "content/posts" (some "\x7b\x7bslug\x7d\x7d/index") none
          i18nDisabled).source = "^content\\/posts\\/(?<subPath>[^/]+?\\/index)\\.md$" ∧
      getFileConfig (fun _ => none)
          { rawFolderCollection with extension := some "yml", yaml_quote := some true }
          none i18nDisabled =
        ⟨"yml", "yaml", some "content/posts", none,
          some (getEntryPathRegEx "yml" "content/posts" none none i18nDisabled), none, none,
          true⟩ ∧
      getFileConfig (fun _ => none) { rawFolderCollection with extension := some "json" }
          none i18nDisabled =
        ⟨"json", "json", some "content/posts", none,
          some (getEntryPathRegEx "json" "content/posts" none none i18nDisabled), none, none,
          false⟩ ∧
      getFileConfig (fun _ => none) rawFileCollection
          (some ⟨"data/members.md", none, .absent⟩) i18nDisabled =
        ⟨"md", "frontmatter", none, none, none, some "data/members.md", none, false⟩ ∧
      getFileConfig (fun _ => none) { rawFileCollection with format := some "yaml-frontmatter" }
          (some ⟨"data/members.yml", none, .absent⟩) i18nDisabled =
        ⟨"yml", "yaml-frontmatter", none, none, none, some "data/members.yml",
          some ("---", "---"), false⟩ ∧
      getFileConfig (fun _ => none)
          { rawFileCollection with extension := some "yml", yaml_quote := some true }
          (some ⟨"data/members.yml", none, .absent⟩) i18nDisabled =
        ⟨"yml", "yaml", none, none, none, some "data/members.yml", none, true⟩ ∧
      getFileConfig (fun _ => none) { rawFileCollection with extension := some "json" }
          (some ⟨"data/members.json", none, .absent⟩) i18nDisabled =
        ⟨"json", "json", none, none, none, some "data/members.json", none, false⟩ ∧
      getFileConfig (fun _ => none) { rawFileCollection with format := some "yaml-frontmatter" }
          (some ⟨"data/members.md", some "toml-frontmatter", .absent⟩) i18nDisabled =
        ⟨"md", "toml-frontmatter", none, none, none, some "data/members.md",
          some ("+++", "+++"), false⟩ ∧
      getFileConfig (fun _ => none) rawFileCollection
          (some ⟨"data/members.\x7b\x7blocale\x7d\x7d.md", none, .absent⟩)
          (testI18n true false false false) =
        ⟨"md", "frontmatter", none, none, none, some "data/members.en.md", none, false⟩ ∧
      getFileConfig (fun _ => none) rawFileCollection
          (some ⟨"data/\x7b\x7blocale\x7d\x7d/members.md", none, .absent⟩)
          (testI18n true false false false) =
        ⟨"md", "frontmatter", none, none, none, some "data/en/members.md", none, false⟩ := by
  decide

/-- C19: every `FileConfig` returned by `getFileConfig` has exactly one of its two path
descriptions populated: for a folder collection `basePath` and `fullPathRegEx` are set and
`fullPath` is `undefined`; for a file of a file collection `fullPath` is set and `basePath`
and `fullPathRegEx` are `undefined`, under every i18n structure. -/
theorem getFileConfig_paths (customFileFormats : CustomFileFormats)
    (rawCollection : RawCollection) (i18n : I18nOptions) :
    (∀ folder, rawCollection.folder = some folder →
      (getFileConfig customFileFormats rawCollection none i18n).basePath =
          some (stripSlashes folder) ∧
        (getFileConfig customFileFormats rawCollection none i18n).fullPathRegEx.isSome = true ∧
        (getFileConfig customFileFormats rawCollection none i18n).fullPath = none) ∧
    (∀ file : RawCollectionFile,
      (getFileConfig customFileFormats rawCollection (some file) i18n).fullPath.isSome = true ∧
        (getFileConfig customFileFormats rawCollection (some file) i18n).basePath = none ∧
        (getFileConfig customFileFormats rawCollection (some file) i18n).fullPathRegEx = none) := by
  constructor
  · intro folder hf
    simp [getFileConfig, hf]
  · intro file
    simp [getFileConfig]

/-! ### Matching entry paths -/

theorem run_cat (a b : Rx) (input : List Char) (caps : Captures)
    (k : List Char → Captures → Option Captures) :
    (Rx.cat a b).run input caps k = a.run input caps (fun rest caps' => b.run rest caps' k) :=
  rfl

theorem run_group (name : String) (body : Rx) (input : List Char) (caps : Captures)
    (k : List Char → Captures → Option Captures) :
    (Rx.group name body).run input caps k =
      body.run input caps (fun rest caps' =>
        k rest (caps'.set name ⟨input.take (input.length - rest.length)⟩)) :=
  rfl

theorem run_alt (a b : Rx) (input : List Char) (caps : Captures)
    (k : List Char → Captures → Option Captures) :
    (Rx.alt a b).run input caps k =
      (a.run input caps k).orElse (fun _ => b.run input caps k) :=
  rfl

theorem run_opt (body : Rx) (input : List Char) (caps : Captures)
    (k : List Char → Captures → Option Captures) :
    (Rx.opt body).run input caps k =
      (body.run input caps k).orElse (fun _ => k input caps) :=
  rfl

theorem run_segment (input : List Char) (caps : Captures)
    (k : List Char → Captures → Option Captures) :
    Rx.segment.run input caps k = segmentRun caps k input :=
  rfl

theorem run_text_some (s : String) (input : List Char) (caps c : Captures)
    (k : List Char → Captures → Option Captures) :
    (Rx.text s).run input caps k = some c ↔
      ∃ rest, input = s.data ++ rest ∧ k rest caps = some c := by
  simp only [Rx.run]
  constructor
  · intro h
    by_cases hp : s.data.isPrefixOf input = true
    · rw [if_pos hp] at h
      obtain ⟨rest, hr⟩ := List.isPrefixOf_iff_prefix.mp hp
      refine ⟨rest, hr.symm, ?_⟩
      rw [← hr, List.drop_left] at h
      exact h
    · rw [if_neg hp] at h
      cases h
  · rintro ⟨rest, hr, hk⟩
    have hp : s.data.isPrefixOf input = true :=
      List.isPrefixOf_iff_prefix.mpr ⟨rest, hr.symm⟩
    rw [if_pos hp, hr, List.drop_left]
    exact hk

theorem run_text_empty (input : List Char) (caps : Captures)
    (k : List Char → Captures → Option Captures) :
    (Rx.text "").run input caps k = k input caps := by
  simp [Rx.run]

theorem segmentRun_some (caps : Captures) (k : List Char → Captures → Option Captures) :
    ∀ (input : List Char) (c : Captures), segmentRun caps k input = some c →
      ∃ name rest, input = name ++ rest ∧ name ≠ [] ∧ '/' ∉ name ∧ k rest caps = some c := by
  intro input
  induction input with
  | nil => intro c h; simp [segmentRun] at h
  | cons a rest ih =>
    intro c h
    simp only [segmentRun] at h
    by_cases ha : a = '/'
    · simp [ha] at h
    · rw [if_neg ha] at h
      cases hk : k rest caps with
      | some c' =>
        rw [hk] at h
        simp only [Option.orElse] at h
        cases h
        exact ⟨[a], rest, rfl, by simp, by simpa using fun h : '/' = a => ha h.symm, hk⟩
      | none =>
        rw [hk] at h
        simp only [Option.orElse] at h
        obtain ⟨name, rest', h1, h2, h3, h4⟩ := ih c h
        refine ⟨a :: name, rest', by rw [h1]; rfl, by simp, ?_, h4⟩
        intro hmem
        rcases List.mem_cons.mp hmem with h5 | h5
        · exact ha h5.symm
        · exact h3 h5

theorem segmentRun_cons (caps : Captures) (k : List Char → Captures → Option Captures)
    (a : Char) (rest : List Char) (ha : a ≠ '/') :
    segmentRun caps k (a :: rest) = (k rest caps).orElse (fun _ => segmentRun caps k rest) := by
  simp only [segmentRun, if_neg ha]

theorem segmentRun_first (caps : Captures) (k : List Char → Captures → Option Captures)
    (rest : List Char) (c : Captures) :
    ∀ (name : List Char), name ≠ [] → '/' ∉ name → k rest caps = some c →
      (∀ i, 0 < i → i < name.length → k (name.drop i ++ rest) caps = none) →
      segmentRun caps k (name ++ rest) = some c := by
  intro name
  induction name with
  | nil => intro h; exact absurd rfl h
  | cons a name ih =>
    intro _ hslash hk hnone
    have ha : a ≠ '/' := fun h => hslash (by simp [h])
    have hslash' : '/' ∉ name := fun h => hslash (List.mem_cons_of_mem _ h)
    rw [List.cons_append, segmentRun_cons caps k a _ ha]
    by_cases hn : name = []
    · subst hn
      rw [List.nil_append, hk]
      rfl
    · have h1 : k (name ++ rest) caps = none := by
        have := hnone 1 (by decide)
          (by simp only [List.length_cons]; have := List.length_pos.mpr hn; omega)
        simpa using this
      rw [h1]
      show segmentRun caps k (name ++ rest) = some c
      apply ih hn hslash' hk
      intro i hi hlt
      have := hnone (i + 1) (by omega) (by simp only [List.length_cons]; omega)
      simpa using this

/-- The continuation at the end of the pattern: the rest of the path must be empty. -/
theorem endOfPath_some (rest : List Char) (caps c : Captures) :
    (if rest = [] then some caps else none) = some c ↔ rest = [] ∧ c = caps := by
  by_cases h : rest = []
  · simp [h, eq_comm]
  · simp [h]

theorem dotExtension_some (extension : String) (rest : List Char) (caps c : Captures) :
    (Rx.text ".").run rest caps (fun r2 c2 => (Rx.text extension).run r2 c2
        (fun r3 c3 => (Rx.text "").run r3 c3
          (fun r4 c4 => if r4 = [] then some c4 else none))) = some c ↔
      rest = '.' :: extension.data ∧ c = caps := by
  rw [run_text_some]
  constructor
  · rintro ⟨r2, h1, h2⟩
    rw [run_text_some] at h2
    obtain ⟨r3, h3, h4⟩ := h2
    rw [run_text_empty, endOfPath_some] at h4
    obtain ⟨h5, h6⟩ := h4
    subst h5
    exact ⟨by rw [h1, h3]; simp, h6⟩
  · rintro ⟨h1, h2⟩
    refine ⟨extension.data, by rw [h1]; rfl, ?_⟩
    rw [run_text_some]
    refine ⟨[], by simp, ?_⟩
    rw [run_text_empty, endOfPath_some]
    exact ⟨rfl, h2⟩

theorem subPathSegment_some (extension : String) (input : List Char) (caps c : Captures) :
    (Rx.group "subPath" Rx.segment).run input caps (fun r4 c4 => (Rx.text "").run r4 c4
        (fun r5 c5 => (Rx.text ".").run r5 c5 (fun r6 c6 => (Rx.text extension).run r6 c6
          (fun r7 c7 => (Rx.text "").run r7 c7
            (fun r8 c8 => if r8 = [] then some c8 else none))))) = some c ↔
      ∃ name, name ≠ [] ∧ '/' ∉ name ∧ input = name ++ '.' :: extension.data ∧
        c = caps.set "subPath" ⟨name⟩ := by
  simp only [run_group, run_segment]
  constructor
  · intro h
    obtain ⟨name, rest, h1, h2, h3, h4⟩ := segmentRun_some _ _ input c h
    rw [run_text_empty, dotExtension_some] at h4
    obtain ⟨h5, h6⟩ := h4
    refine ⟨name, h2, h3, by rw [h1, h5], ?_⟩
    rw [h6, h1]
    simp
  · rintro ⟨name, h2, h3, h1, h6⟩
    subst h1
    apply segmentRun_first _ _ _ _ name h2 h3
    · rw [run_text_empty, dotExtension_some]
      refine ⟨rfl, ?_⟩
      rw [h6]
      simp
    · intro i hi hlt
      apply Option.eq_none_iff_forall_not_mem.mpr
      intro c' hc'
      rw [Option.mem_def, run_text_empty, dotExtension_some] at hc'
      have hlen := congrArg List.length hc'.1
      simp only [List.length_append, List.length_drop, List.length_cons] at hlen
      omega

theorem escapeRegExpChars_of_plain (cs : List Char)
    (h : ∀ c ∈ cs, isRegExpSyntaxChar c = false) : escapeRegExpChars cs = cs := by
  induction cs with
  | nil => rfl
  | cons c cs ih =>
    have hc := h c (List.mem_cons_self _ _)
    simp only [escapeRegExpChars, hc, Bool.false_eq_true, if_false]
    rw [ih (fun d hd => h d (List.mem_cons_of_mem _ hd))]

theorem string_eq_iff_data (a b : String) : a = b ↔ a.data = b.data :=
  ⟨fun h => h ▸ rfl, fun h => String.ext h⟩

/-- C17: for a folder collection with no i18n structure and no subPath template,
`getEntryPathRegEx` returns an anchored regular expression whose source is the escaped
`basePath`, an escaped slash, `(?<subPath>[^/]+?)`, an escaped dot and the extension (written
as it is when it has no syntax character), exactly `^content\/posts\/(?<subPath>[^/]+?)\.md$`
for `content/posts` and `md`, the base path and its slash being omitted when the base path is
empty; it matches a path exactly when the path is `basePath`, a slash, a non-empty name
containing no slash, a dot and the extension, and it captures that name as `subPath`. -/
theorem getEntryPathRegEx_plain (extension basePath : String)
    (enabled single omitDefault : Bool) (allLocales : List String) (defaultLocale : String) :
    (getEntryPathRegEx extension basePath none none
        ⟨enabled, allLocales, defaultLocale, ⟨single, false, false, false⟩, omitDefault⟩).source =
      "^" ++ (if basePath = "" then "" else escapeRegExp basePath ++ "\\/") ++
        "(?<subPath>[^/]+?)" ++ "\\." ++ escapeRegExp extension ++ "$" ∧
    ((∀ c ∈ extension.data, isRegExpSyntaxChar c = false) →
      escapeRegExp extension = extension) ∧
    (getEntryPathRegEx "md" "content/posts" none none
        ⟨enabled, allLocales, defaultLocale, ⟨single, false, false, false⟩, omitDefault⟩).source =
      "^content\\/posts\\/(?<subPath>[^/]+?)\\.md$" ∧
    (∀ (path : String) (caps : Captures),
      (getEntryPathRegEx extension basePath none none
        ⟨enabled, allLocales, defaultLocale, ⟨single, false, false, false⟩,
          omitDefault⟩).exec path = some caps ↔
        ∃ name : String, name ≠ "" ∧ '/' ∉ name.data ∧
          path = baseDir basePath ++ name ++ "." ++ extension ∧
          caps = [("subPath", name)]) := by
  refine ⟨?_, ?_, ?_, ?_⟩
  · apply String.ext
    by_cases hb : basePath = ""
    · simp [getEntryPathRegEx, RegEx.source, catAll, Rx.source, filePathMatcher, hb,
        String.data_append, show escapeRegExp "" = "" from rfl,
        show (escapeRegExp ".").data = ['\x5c', '.'] from by decide]
    · simp [getEntryPathRegEx, RegEx.source, catAll, Rx.source, filePathMatcher, hb,
        String.data_append, show escapeRegExp "" = "" from rfl,
        show (escapeRegExp ".").data = ['\x5c', '.'] from by decide,
        show (escapeRegExp "/").data = ['\x5c', '/'] from by decide]
  · intro h
    unfold escapeRegExp
    rw [escapeRegExpChars_of_plain _ h]
  · rfl
  · intro path caps
    unfold RegEx.exec
    simp only [getEntryPathRegEx, catAll, Bool.false_eq_true, if_false, filePathMatcher, run_cat]
    rw [run_text_empty]
    by_cases hb : basePath = ""
    · simp only [hb, if_true, baseDir]
      rw [run_text_empty, run_text_empty, subPathSegment_some]
      constructor
      · rintro ⟨name, h1, h2, h3, h4⟩
        refine ⟨⟨name⟩, ?_, h2, ?_, ?_⟩
        · intro h
          exact h1 (congrArg String.data h)
        · apply String.ext
          simp [String.data_append, h3]
        · rw [h4]
          rfl
      · rintro ⟨name, h1, h2, h3, h4⟩
        refine ⟨name.data, ?_, h2, ?_, ?_⟩
        · intro h
          exact h1 (String.ext h)
        · rw [h3]
          simp [String.data_append]
        · rw [h4]
          rfl
    · simp only [hb, if_false, baseDir, run_cat]
      rw [run_text_some]
      constructor
      · rintro ⟨r1, hr1, h⟩
        rw [run_text_some] at h
        obtain ⟨r2, hr2, h⟩ := h
        rw [run_text_empty, subPathSegment_some] at h
        obtain ⟨name, h1, h2, h3, h4⟩ := h
        refine ⟨⟨name⟩, ?_, h2, ?_, ?_⟩
        · intro h
          exact h1 (congrArg String.data h)
        · apply String.ext
          simp [String.data_append, hr1, hr2, h3]
        · rw [h4]
          rfl
      · rintro ⟨name, h1, h2, h3, h4⟩
        refine ⟨'/' :: (name.data ++ '.' :: extension.data), ?_, ?_⟩
        · rw [h3]
          simp [String.data_append]
        · rw [run_text_some]
          refine ⟨name.data ++ '.' :: extension.data, rfl, ?_⟩
          rw [run_text_empty, subPathSegment_some]
          refine ⟨name.data, ?_, h2, rfl, ?_⟩
          · intro h
            exact h1 (String.ext h)
          · rw [h4]
            rfl

/-! ### The locale capture -/

theorem basePath_run_some (basePath : String) (input : List Char) (caps c : Captures)
    (k : List Char → Captures → Option Captures) :
    (if basePath = "" then Rx.text "" else Rx.cat (Rx.text basePath) (Rx.text "/")).run
        input caps k = some c ↔
      ∃ rest, input = (baseDir basePath).data ++ rest ∧ k rest caps = some c := by
  by_cases hb : basePath = ""
  · simp only [hb, if_true, baseDir, run_text_empty]
    simp
  · simp only [hb, if_false, baseDir, run_cat, run_text_some, String.data_append]
    constructor
    · rintro ⟨r1, h1, r2, h2, h3⟩
      exact ⟨r2, by rw [h1, h2, List.append_assoc], h3⟩
    · rintro ⟨rest, h1, h2⟩
      exact ⟨"/".data ++ rest, by rw [h1, List.append_assoc], rest, rfl, h2⟩

theorem altOf_cons_cons (l m : String) (ls : List String) :
    altOf (l :: m :: ls) = Rx.alt (Rx.text l) (altOf (m :: ls)) :=
  rfl

theorem altOf_run_some (input : List Char) (caps c : Captures)
    (k : List Char → Captures → Option Captures) :
    ∀ ls : List String, ls ≠ [] → (altOf ls).run input caps k = some c →
      ∃ l ∈ ls, ∃ rest, input = l.data ++ rest ∧ k rest caps = some c := by
  intro ls
  induction ls with
  | nil => intro h; exact absurd rfl h
  | cons l tl ih =>
    intro _ h
    cases tl with
    | nil =>
      have h1 : (Rx.text l).run input caps k = some c := h
      rw [run_text_some] at h1
      obtain ⟨rest, h2, h3⟩ := h1
      exact ⟨l, List.mem_singleton.mpr rfl, rest, h2, h3⟩
    | cons m ls =>
      rw [altOf_cons_cons, run_alt] at h
      cases h1 : (Rx.text l).run input caps k with
      | some c1 =>
        rw [h1] at h
        simp only [Option.orElse] at h
        rw [h] at h1
        rw [run_text_some] at h1
        obtain ⟨rest, h2, h3⟩ := h1
        exact ⟨l, List.mem_cons_self _ _, rest, h2, h3⟩
      | none =>
        rw [h1] at h
        simp only [Option.orElse] at h
        obtain ⟨l1, h2, rest, h3, h4⟩ := ih (by simp) h
        exact ⟨l1, List.mem_cons_of_mem _ h2, rest, h3, h4⟩

theorem altOf_run_unique (input : List Char) (caps c : Captures)
    (k : List Char → Captures → Option Captures) :
    ∀ ls : List String,
      (∃ l ∈ ls, ∃ rest, input = l.data ++ rest ∧ k rest caps = some c) →
      (∀ l ∈ ls, ∀ rest c1, input = l.data ++ rest → k rest caps = some c1 → c1 = c) →
      (altOf ls).run input caps k = some c := by
  intro ls
  induction ls with
  | nil =>
    rintro ⟨l, hl, _⟩
    simp at hl
  | cons l tl ih =>
    intro hex huniq
    cases tl with
    | nil =>
      obtain ⟨l1, hl1, rest, h2, h3⟩ := hex
      rw [List.mem_singleton] at hl1
      subst hl1
      show (Rx.text l1).run input caps k = some c
      rw [run_text_some]
      exact ⟨rest, h2, h3⟩
    | cons m ls =>
      rw [altOf_cons_cons, run_alt]
      cases h1 : (Rx.text l).run input caps k with
      | some c1 =>
        simp only [Option.orElse]
        have h1b := h1
        rw [run_text_some] at h1b
        obtain ⟨rest, h2, h3⟩ := h1b
        rw [huniq l (List.mem_cons_self _ _) rest c1 h2 h3]
      | none =>
        simp only [Option.orElse]
        apply ih
        · obtain ⟨l1, hl1, rest, h2, h3⟩ := hex
          rcases List.mem_cons.mp hl1 with h4 | h4
          · subst h4
            have : (Rx.text l1).run input caps k = some c := by
              rw [run_text_some]
              exact ⟨rest, h2, h3⟩
            rw [h1] at this
            cases this
          · exact ⟨l1, h4, rest, h2, h3⟩
        · intro l1 hl1
          exact huniq l1 (List.mem_cons_of_mem _ hl1)

theorem localeMatcher_run_some (ls : List String) (hne : ls ≠ []) (input : List Char)
    (caps c : Captures) (k : List Char → Captures → Option Captures)
    (h : (localeMatcher ls).run input caps k = some c) :
    ∃ l ∈ ls, ∃ rest, input = l.data ++ rest ∧ k rest (caps.set "locale" l) = some c := by
  unfold localeMatcher at h
  rw [run_group] at h
  obtain ⟨l, hl, rest, h1, h2⟩ := altOf_run_some _ _ _ _ ls hne h
  refine ⟨l, hl, rest, h1, ?_⟩
  rw [h1] at h2
  simpa using h2

theorem localeMatcher_run_unique (ls : List String) (l : String) (hl : l ∈ ls)
    (rest : List Char) (caps c : Captures) (k : List Char → Captures → Option Captures)
    (hk : k rest (caps.set "locale" l) = some c)
    (huniq : ∀ l1 ∈ ls, ∀ rest1 c1, l.data ++ rest = l1.data ++ rest1 →
      k rest1 (caps.set "locale" l1) = some c1 → c1 = c) :
    (localeMatcher ls).run (l.data ++ rest) caps k = some c := by
  unfold localeMatcher
  rw [run_group]
  apply altOf_run_unique
  · refine ⟨l, hl, rest, rfl, ?_⟩
    simpa using hk
  · intro l1 hl1 rest1 c1 h1 h2
    apply huniq l1 hl1 rest1 c1 h1
    rw [h1] at h2
    simpa using h2

theorem subPathGroup_some (input : List Char) (caps c : Captures)
    (k : List Char → Captures → Option Captures)
    (h : (Rx.group "subPath" Rx.segment).run input caps k = some c) :
    ∃ name rest, input = name ++ rest ∧ name ≠ [] ∧ '/' ∉ name ∧
      k rest (caps.set "subPath" ⟨name⟩) = some c := by
  rw [run_group, run_segment] at h
  obtain ⟨name, rest, h1, h2, h3, h4⟩ := segmentRun_some _ _ input c h
  refine ⟨name, rest, h1, h2, h3, ?_⟩
  rw [h1] at h4
  simpa using h4

theorem subPathGroup_first (name rest : List Char) (caps c : Captures)
    (k : List Char → Captures → Option Captures) (hne : name ≠ []) (hslash : '/' ∉ name)
    (hk : k rest (caps.set "subPath" ⟨name⟩) = some c)
    (hnone : ∀ i, 0 < i → i < name.length → ∀ c1, k (name.drop i ++ rest) c1 = none) :
    (Rx.group "subPath" Rx.segment).run (name ++ rest) caps k = some c := by
  rw [run_group, run_segment]
  apply segmentRun_first _ _ _ _ name hne hslash
  · simpa using hk
  · intro i hi hlt
    exact hnone i hi hlt _

theorem append_sep_unique (s : Char) :
    ∀ (a b r1 r2 : List Char), s ∉ a → s ∉ b → a ++ s :: r1 = b ++ s :: r2 →
      a = b ∧ r1 = r2 := by
  intro a
  induction a with
  | nil =>
    intro b r1 r2 _ hb h
    cases b with
    | nil => simpa using h
    | cons x b =>
      simp only [List.nil_append, List.cons_append, List.cons.injEq] at h
      exact absurd (by simp [h.1]) hb
  | cons y a ih =>
    intro b r1 r2 ha hb h
    cases b with
    | nil =>
      simp only [List.nil_append, List.cons_append, List.cons.injEq] at h
      exact absurd (by simp [h.1]) ha
    | cons x b =>
      simp only [List.cons_append, List.cons.injEq] at h
      obtain ⟨h1, h2⟩ := ih b r1 r2 (fun hm => ha (List.mem_cons_of_mem _ hm))
        (fun hm => hb (List.mem_cons_of_mem _ hm)) h.2
      exact ⟨by rw [h.1, h1], h2⟩

theorem intercalate_go_append (s a : String) :
    ∀ (xs : List String) (b : String),
      String.intercalate.go (a ++ b) s xs = a ++ String.intercalate.go b s xs := by
  intro xs
  induction xs with
  | nil => intro b; rfl
  | cons x xs ih =>
    intro b
    simp only [String.intercalate.go]
    rw [String.append_assoc, String.append_assoc, ih, String.append_assoc]

theorem altOf_source : ∀ ls : List String,
    (altOf ls).source = "|".intercalate (ls.map escapeRegExp) := by
  intro ls
  induction ls with
  | nil => rfl
  | cons l tl ih =>
    cases tl with
    | nil => rfl
    | cons m ls =>
      rw [altOf_cons_cons]
      simp only [Rx.source, ih]
      simp only [List.map_cons, String.intercalate, String.intercalate.go]
      rw [String.append_assoc, String.append_assoc, intercalate_go_append, intercalate_go_append]

theorem localeMatcher_source (ls : List String) :
    (localeMatcher ls).source =
      "(?<locale>" ++ "|".intercalate (ls.map escapeRegExp) ++ ")" := by
  simp only [localeMatcher, Rx.source, altOf_source]
  rfl


theorem rootMultiFolder_exec (extension basePath : String) (enabled omitDefault : Bool)
    (allLocales : List String) (defaultLocale : String) (hne : allLocales ≠ [])
    (hslash : ∀ l ∈ allLocales, '/' ∉ l.data) (path : String) (caps : Captures) :
    (getEntryPathRegEx extension basePath none none
        ⟨enabled, allLocales, defaultLocale, ⟨false, false, false, true⟩,
          omitDefault⟩).exec path = some caps ↔
      ∃ l ∈ allLocales, ∃ name : String, name ≠ "" ∧ '/' ∉ name.data ∧
        path = l ++ "/" ++ baseDir basePath ++ name ++ "." ++ extension ∧
        caps = [("subPath", name), ("locale", l)] := by
  unfold RegEx.exec
  simp only [getEntryPathRegEx, catAll, Bool.false_eq_true, if_false, if_true, filePathMatcher,
    run_cat]
  constructor
  · intro h
    obtain ⟨l, hl, r1, h1, h2⟩ := localeMatcher_run_some _ hne _ _ _ _ h
    rw [run_text_some] at h2
    obtain ⟨r2, h3, h4⟩ := h2
    rw [basePath_run_some] at h4
    obtain ⟨r3, h5, h6⟩ := h4
    rw [run_text_empty, subPathSegment_some] at h6
    obtain ⟨name, h7, h8, h9, h10⟩ := h6
    refine ⟨l, hl, ⟨name⟩, ?_, h8, ?_, ?_⟩
    · intro h
      exact h7 (congrArg String.data h)
    · apply String.ext
      simp [String.data_append, h1, h3, h5, h9]
    · rw [h10]
      simp [Captures.set]
  · rintro ⟨l, hl, name, h1, h2, h3, h4⟩
    have hp : path.data =
        l.data ++ ('/' :: ((baseDir basePath).data ++ (name.data ++ '.' :: extension.data))) := by
      rw [h3]
      simp [String.data_append]
    rw [hp]
    have hK : ∀ rest : List Char,
        rest = '/' :: ((baseDir basePath).data ++ (name.data ++ '.' :: extension.data)) →
        (Rx.text "/").run rest (Captures.set [] "locale" l) (fun rest caps1 =>
          (if basePath = "" then Rx.text "" else (Rx.text basePath).cat (Rx.text "/")).run rest
            caps1 (fun rest caps2 => (Rx.text "").run rest caps2 (fun rest caps3 =>
              (Rx.group "subPath" Rx.segment).run rest caps3 (fun rest caps4 =>
                (Rx.text "").run rest caps4 (fun rest caps5 =>
                  (Rx.text ".").run rest caps5 (fun rest caps6 =>
                    (Rx.text extension).run rest caps6 (fun rest caps7 =>
                      (Rx.text "").run rest caps7 (fun rest caps8 =>
                        if rest = [] then some caps8 else none)))))))) = some caps := by
      intro rest hrest
      rw [run_text_some]
      refine ⟨_, hrest, ?_⟩
      rw [basePath_run_some]
      refine ⟨_, rfl, ?_⟩
      rw [run_text_empty, subPathSegment_some]
      refine ⟨name.data, ?_, h2, rfl, ?_⟩
      · intro h
        exact h1 (String.ext h)
      · rw [h4]
        simp [Captures.set]
    apply localeMatcher_run_unique _ _ hl
    · exact hK _ rfl
    · intro l1 hl1 rest1 c1 he hk
      have hk1 := hk
      rw [run_text_some] at hk1
      obtain ⟨r2, h5, _⟩ := hk1
      have h6 : l.data ++ '/' :: ((baseDir basePath).data ++
          (name.data ++ '.' :: extension.data)) = l1.data ++ '/' :: r2 := by
        rw [he, h5]
        rfl
      obtain ⟨e1, e2⟩ := append_sep_unique '/' _ _ _ _ (hslash l hl) (hslash l1 hl1) h6
      have e3 : l1 = l := String.ext e1.symm
      subst e3
      rw [hK rest1 (by rw [h5, ← e2]; rfl)] at hk
      exact (Option.some.inj hk).symm

theorem multiFolder_exec (extension basePath : String) (enabled omitDefault : Bool)
    (allLocales : List String) (defaultLocale : String) (hne : allLocales ≠ [])
    (hslash : ∀ l ∈ allLocales, '/' ∉ l.data) (path : String) (caps : Captures) :
    (getEntryPathRegEx extension basePath none none
        ⟨enabled, allLocales, defaultLocale, ⟨false, false, true, false⟩,
          omitDefault⟩).exec path = some caps ↔
      ∃ l ∈ allLocales, ∃ name : String, name ≠ "" ∧ '/' ∉ name.data ∧
        path = baseDir basePath ++ l ++ "/" ++ name ++ "." ++ extension ∧
        caps = [("subPath", name), ("locale", l)] := by
  unfold RegEx.exec
  simp only [getEntryPathRegEx, catAll, Bool.false_eq_true, if_false, if_true, filePathMatcher,
    run_cat]
  rw [run_text_empty, basePath_run_some]
  constructor
  · rintro ⟨r0, h0, h⟩
    obtain ⟨l, hl, r1, h1, h2⟩ := localeMatcher_run_some _ hne _ _ _ _ h
    rw [run_text_some] at h2
    obtain ⟨r2, h3, h6⟩ := h2
    rw [subPathSegment_some] at h6
    obtain ⟨name, h7, h8, h9, h10⟩ := h6
    refine ⟨l, hl, ⟨name⟩, ?_, h8, ?_, ?_⟩
    · intro h
      exact h7 (congrArg String.data h)
    · apply String.ext
      simp [String.data_append, h0, h1, h3, h9]
    · rw [h10]
      simp [Captures.set]
  · rintro ⟨l, hl, name, h1, h2, h3, h4⟩
    refine ⟨l.data ++ ('/' :: (name.data ++ '.' :: extension.data)), ?_, ?_⟩
    · rw [h3]
      simp [String.data_append]
    have hK : ∀ rest : List Char,
        rest = '/' :: (name.data ++ '.' :: extension.data) →
        (Rx.text "/").run rest (Captures.set [] "locale" l) (fun rest caps3 =>
              (Rx.group "subPath" Rx.segment).run rest caps3 (fun rest caps4 =>
                (Rx.text "").run rest caps4 (fun rest caps5 =>
                  (Rx.text ".").run rest caps5 (fun rest caps6 =>
                    (Rx.text extension).run rest caps6 (fun rest caps7 =>
                      (Rx.text "").run rest caps7 (fun rest caps8 =>
                        if rest = [] then some caps8 else none)))))) = some caps := by
      intro rest hrest
      rw [run_text_some]
      refine ⟨_, hrest, ?_⟩
      rw [subPathSegment_some]
      refine ⟨name.data, ?_, h2, rfl, ?_⟩
      · intro h
        exact h1 (String.ext h)
      · rw [h4]
        simp [Captures.set]
    apply localeMatcher_run_unique _ _ hl
    · exact hK _ rfl
    · intro l1 hl1 rest1 c1 he hk
      have hk1 := hk
      rw [run_text_some] at hk1
      obtain ⟨r2, h5, _⟩ := hk1
      have h6 : l.data ++ '/' :: (name.data ++ '.' :: extension.data) =
          l1.data ++ '/' :: r2 := by
        rw [he, h5]
        rfl
      obtain ⟨e1, e2⟩ := append_sep_unique '/' _ _ _ _ (hslash l hl) (hslash l1 hl1) h6
      have e3 : l1 = l := String.ext e1.symm
      subst e3
      rw [hK rest1 (by rw [h5, ← e2]; rfl)] at hk
      exact (Option.some.inj hk).symm

theorem multiFile_exec (extension basePath : String) (enabled : Bool)
    (allLocales : List String) (defaultLocale : String) (hne : allLocales ≠ [])
    (hdot : ∀ l ∈ allLocales, '.' ∉ l.data) (path : String) (caps : Captures) :
    (getEntryPathRegEx extension basePath none none
        ⟨enabled, allLocales, defaultLocale, ⟨false, true, false, false⟩,
          false⟩).exec path = some caps ↔
      ∃ l ∈ allLocales, ∃ name : String, name ≠ "" ∧ '/' ∉ name.data ∧
        path = baseDir basePath ++ name ++ "." ++ l ++ "." ++ extension ∧
        caps = [("locale", l), ("subPath", name)] := by
  unfold RegEx.exec
  simp only [getEntryPathRegEx, catAll, Bool.false_eq_true, if_false, if_true, filePathMatcher,
    run_cat]
  rw [run_text_empty, basePath_run_some]
  constructor
  · rintro ⟨r0, h0, h⟩
    rw [run_text_empty] at h
    obtain ⟨name, r1, h1, h2, h3, h4⟩ := subPathGroup_some _ _ _ _ h
    rw [run_text_some] at h4
    obtain ⟨r2, h5, h6⟩ := h4
    obtain ⟨l, hl, r3, h7, h8⟩ := localeMatcher_run_some _ hne _ _ _ _ h6
    rw [dotExtension_some] at h8
    obtain ⟨h9, h10⟩ := h8
    refine ⟨l, hl, ⟨name⟩, ?_, h3, ?_, ?_⟩
    · intro h
      exact h2 (congrArg String.data h)
    · apply String.ext
      simp [String.data_append, h0, h1, h5, h7, h9]
    · rw [h10]
      simp [Captures.set]
  · rintro ⟨l, hl, name, h1, h2, h3, h4⟩
    refine ⟨name.data ++ ('.' :: (l.data ++ '.' :: extension.data)), ?_, ?_⟩
    · rw [h3]
      simp [String.data_append]
    rw [run_text_empty]
    apply subPathGroup_first
    · intro h
      exact h1 (String.ext h)
    · exact h2
    · rw [run_text_some]
      refine ⟨l.data ++ '.' :: extension.data, rfl, ?_⟩
      apply localeMatcher_run_unique _ _ hl
      · rw [dotExtension_some]
        refine ⟨rfl, ?_⟩
        rw [h4]
        simp [Captures.set]
      · intro l1 hl1 rest1 c1 he hk
        rw [dotExtension_some] at hk
        obtain ⟨h5, h6⟩ := hk
        rw [h5] at he
        have e1 : l.data = l1.data := List.append_cancel_right he
        have e3 : l1 = l := String.ext e1.symm
        subst e3
        rw [h6, h4]
        simp [Captures.set]
    · intro i hi hlt c1
      apply Option.eq_none_iff_forall_not_mem.mpr
      intro c2 hc2
      rw [Option.mem_def, run_text_some] at hc2
      obtain ⟨r2, h5, h6⟩ := hc2
      obtain ⟨l1, hl1, r3, h7, h8⟩ := localeMatcher_run_some _ hne _ _ _ _ h6
      rw [dotExtension_some] at h8
      obtain ⟨h9, _⟩ := h8
      rw [h7, h9] at h5
      have h10 : (name.data.drop i ++ '.' :: l.data) ++ '.' :: extension.data =
          ('.' :: l1.data) ++ '.' :: extension.data := by
        rw [List.append_assoc]
        exact h5
      have h11 := List.append_cancel_right h10
      cases hd : name.data.drop i with
      | nil =>
        have := congrArg List.length hd
        simp only [List.length_drop, List.length_nil] at this
        omega
      | cons x d =>
        rw [hd] at h11
        simp only [List.cons_append, List.cons.injEq] at h11
        apply hdot l1 hl1
        rw [← h11.2]
        simp

theorem multiFile_omit_exec (extension basePath : String) (enabled : Bool)
    (allLocales : List String) (defaultLocale : String)
    (hother : ∃ l ∈ allLocales, l ≠ defaultLocale) (path : String) (caps : Captures)
    (h : (getEntryPathRegEx extension basePath none none
        ⟨enabled, allLocales, defaultLocale, ⟨false, true, false, false⟩,
          true⟩).exec path = some caps) :
    (∃ name : String, name ≠ "" ∧ '/' ∉ name.data ∧
        path = baseDir basePath ++ name ++ "." ++ extension ∧
        caps = [("subPath", name)]) ∨
      (∃ l ∈ allLocales, l ≠ defaultLocale ∧ ∃ name : String, name ≠ "" ∧ '/' ∉ name.data ∧
        path = baseDir basePath ++ name ++ "." ++ l ++ "." ++ extension ∧
        caps = [("locale", l), ("subPath", name)]) := by
  have hne : allLocales.filter (fun l => l ≠ defaultLocale) ≠ [] := by
    obtain ⟨l, hl, hd⟩ := hother
    intro h0
    have : l ∈ allLocales.filter (fun l => l ≠ defaultLocale) :=
      List.mem_filter.mpr ⟨hl, by simpa using hd⟩
    rw [h0] at this
    simp at this
  unfold RegEx.exec at h
  simp only [getEntryPathRegEx, catAll, Bool.false_eq_true, if_false, if_true, filePathMatcher,
    run_cat] at h
  rw [run_text_empty, basePath_run_some] at h
  obtain ⟨r0, h0, h⟩ := h
  rw [run_text_empty] at h
  obtain ⟨name, r1, h1, h2, h3, h4⟩ := subPathGroup_some _ _ _ _ h
  rw [run_opt, run_cat] at h4
  cases hb : (Rx.text ".").run r1 (Captures.set [] "subPath" ⟨name⟩) (fun rest caps1 =>
      (localeMatcher (allLocales.filter (fun l => l ≠ defaultLocale))).run rest caps1
        (fun rest caps2 => (Rx.text ".").run rest caps2 (fun rest caps3 =>
          (Rx.text extension).run rest caps3 (fun rest caps4 =>
            (Rx.text "").run rest caps4 (fun rest caps5 =>
              if rest = [] then some caps5 else none))))) with
  | some c1 =>
    rw [hb] at h4
    simp only [Option.orElse] at h4
    rw [h4] at hb
    rw [run_text_some] at hb
    obtain ⟨r2, h5, h6⟩ := hb
    obtain ⟨l, hl, r3, h7, h8⟩ := localeMatcher_run_some _ hne _ _ _ _ h6
    rw [dotExtension_some] at h8
    obtain ⟨h9, h10⟩ := h8
    have hl2 := List.mem_filter.mp hl
    right
    refine ⟨l, hl2.1, by simpa using hl2.2, ⟨name⟩, ?_, h3, ?_, ?_⟩
    · intro h
      exact h2 (congrArg String.data h)
    · apply String.ext
      simp [String.data_append, h0, h1, h5, h7, h9]
    · rw [h10]
      simp [Captures.set]
  | none =>
    rw [hb] at h4
    simp only [Option.orElse] at h4
    rw [dotExtension_some] at h4
    obtain ⟨h9, h10⟩ := h4
    left
    refine ⟨⟨name⟩, ?_, h3, ?_, ?_⟩
    · intro h
      exact h2 (congrArg String.data h)
    · apply String.ext
      simp [String.data_append, h0, h1, h9]
    · rw [h10]
      simp [Captures.set]

theorem multiFile_omit_default (extension basePath : String) (enabled : Bool)
    (allLocales : List String) (defaultLocale : String)
    (hother : ∃ l ∈ allLocales, l ≠ defaultLocale) (name : String) (hname : name ≠ "")
    (hslash : '/' ∉ name.data)
    (hsuffix : ∀ (p l : String), p ≠ "" → l ∈ allLocales → l ≠ defaultLocale →
      name ≠ p ++ "." ++ l) :
    (getEntryPathRegEx extension basePath none none
        ⟨enabled, allLocales, defaultLocale, ⟨false, true, false, false⟩, true⟩).exec
        (baseDir basePath ++ name ++ "." ++ extension) = some [("subPath", name)] := by
  have hne : allLocales.filter (fun l => l ≠ defaultLocale) ≠ [] := by
    obtain ⟨l, hl, hd⟩ := hother
    intro h0
    have : l ∈ allLocales.filter (fun l => l ≠ defaultLocale) :=
      List.mem_filter.mpr ⟨hl, by simpa using hd⟩
    rw [h0] at this
    simp at this
  have hbody : ∀ (d : List Char) (c1 : Captures),
      (∀ l ∈ allLocales, l ≠ defaultLocale → d ≠ '.' :: l.data) →
      (Rx.text ".").run (d ++ '.' :: extension.data) c1 (fun rest caps1 =>
        (localeMatcher (allLocales.filter (fun l => l ≠ defaultLocale))).run rest caps1
          (fun rest caps2 => (Rx.text ".").run rest caps2 (fun rest caps3 =>
            (Rx.text extension).run rest caps3 (fun rest caps4 =>
              (Rx.text "").run rest caps4 (fun rest caps5 =>
                if rest = [] then some caps5 else none))))) = none := by
    intro d c1 hd
    apply Option.eq_none_iff_forall_not_mem.mpr
    intro c2 hc2
    rw [Option.mem_def, run_text_some] at hc2
    obtain ⟨r2, h5, h6⟩ := hc2
    obtain ⟨l, hl, r3, h7, h8⟩ := localeMatcher_run_some _ hne _ _ _ _ h6
    rw [dotExtension_some] at h8
    obtain ⟨h9, _⟩ := h8
    have hl2 := List.mem_filter.mp hl
    rw [h7, h9] at h5
    have h10 : d ++ '.' :: extension.data = ('.' :: l.data) ++ '.' :: extension.data := h5
    exact hd l hl2.1 (by simpa using hl2.2) (List.append_cancel_right h10)
  unfold RegEx.exec
  simp only [getEntryPathRegEx, catAll, Bool.false_eq_true, if_false, if_true, filePathMatcher,
    run_cat]
  rw [run_text_empty, basePath_run_some]
  refine ⟨name.data ++ '.' :: extension.data, by simp [String.data_append], ?_⟩
  rw [run_text_empty]
  apply subPathGroup_first
  · intro h
    exact hname (String.ext h)
  · exact hslash
  · rw [run_opt, run_cat]
    have := hbody [] (Captures.set [] "subPath" ⟨name.data⟩) (by intro l _ _ h; cases h)
    rw [List.nil_append] at this
    rw [this]
    simp only [Option.orElse]
    rw [dotExtension_some]
    exact ⟨rfl, by simp [Captures.set]⟩
  · intro i hi hlt c1
    rw [run_opt, run_cat, hbody]
    · simp only [Option.orElse]
      apply Option.eq_none_iff_forall_not_mem.mpr
      intro c2 hc2
      rw [Option.mem_def, dotExtension_some] at hc2
      have h5 : name.data.drop i ++ '.' :: extension.data = [] ++ '.' :: extension.data :=
        hc2.1
      have h6 := congrArg List.length (List.append_cancel_right h5)
      simp only [List.length_drop, List.length_nil] at h6
      omega
    · intro l hl hd h5
      apply hsuffix ⟨name.data.take i⟩ l ?_ hl hd
      · apply String.ext
        simp only [String.data_append]
        rw [List.append_assoc, List.singleton_append, ← h5, List.take_append_drop]
      · intro h6
        have h7 : (name.data.take i).length = 0 := congrArg (fun s => s.data.length) h6
        rw [List.length_take] at h7
        omega

/-- C18: with an i18n structure `getEntryPathRegEx` adds a named `locale` capture alternating
over the configured locales.  For the root multi-folder structure the capture and a slash
stand at the very start of the pattern, before `basePath`, so a path matches exactly when it is
a configured locale, a slash and then the entry path, the locale being captured.  For the
multi-folder structure the capture is the path segment directly after `basePath`.  For the
multi-file structure it is a dot suffix between `subPath` and the extension; with
`omitDefaultLocaleFromFileName` the suffix is wrapped as an optional group and the default
locale is left out of the alternation, so a path whose name carries no locale suffix matches
with `locale` undefined, and the default locale is never captured.  The sources hold for every
`subPath` template and index file name; the matches are stated for the default `subPath`
pattern and locales without slash or dot. -/
theorem getEntryPathRegEx_locale (extension basePath : String)
    (subPath indexFileName : Option String) (enabled omitDefault : Bool)
    (allLocales : List String) (defaultLocale : String) (hne : allLocales ≠ [])
    (hplain : ∀ l ∈ allLocales, '/' ∉ l.data ∧ '.' ∉ l.data) :
    (∀ locales : List String, (localeMatcher locales).source =
      "(?<locale>" ++ "|".intercalate (locales.map escapeRegExp) ++ ")") ∧
    (getEntryPathRegEx extension basePath subPath indexFileName
        ⟨enabled, allLocales, defaultLocale, ⟨false, false, false, true⟩, omitDefault⟩).source =
      "^" ++ (localeMatcher allLocales).source ++ "\\/" ++
        (if basePath = "" then "" else escapeRegExp basePath ++ "\\/") ++
        (filePathMatcher subPath indexFileName).source ++ "\\." ++ escapeRegExp extension ++
        "$" ∧
    (∀ (path : String) (caps : Captures),
      (getEntryPathRegEx extension basePath none none
        ⟨enabled, allLocales, defaultLocale, ⟨false, false, false, true⟩,
          omitDefault⟩).exec path = some caps ↔
      ∃ l ∈ allLocales, ∃ name : String, name ≠ "" ∧ '/' ∉ name.data ∧
        path = l ++ "/" ++ baseDir basePath ++ name ++ "." ++ extension ∧
        caps = [("subPath", name), ("locale", l)]) ∧
    (getEntryPathRegEx extension basePath subPath indexFileName
        ⟨enabled, allLocales, defaultLocale, ⟨false, false, true, false⟩, omitDefault⟩).source =
      "^" ++ (if basePath = "" then "" else escapeRegExp basePath ++ "\\/") ++
        (localeMatcher allLocales).source ++ "\\/" ++
        (filePathMatcher subPath indexFileName).source ++ "\\." ++ escapeRegExp extension ++
        "$" ∧
    (∀ (path : String) (caps : Captures),
      (getEntryPathRegEx extension basePath none none
        ⟨enabled, allLocales, defaultLocale, ⟨false, false, true, false⟩,
          omitDefault⟩).exec path = some caps ↔
      ∃ l ∈ allLocales, ∃ name : String, name ≠ "" ∧ '/' ∉ name.data ∧
        path = baseDir basePath ++ l ++ "/" ++ name ++ "." ++ extension ∧
        caps = [("subPath", name), ("locale", l)]) ∧
    (getEntryPathRegEx extension basePath subPath indexFileName
        ⟨enabled, allLocales, defaultLocale, ⟨false, true, false, false⟩, false⟩).source =
      "^" ++ (if basePath = "" then "" else escapeRegExp basePath ++ "\\/") ++
        (filePathMatcher subPath indexFileName).source ++
        "\\." ++ (localeMatcher allLocales).source ++ "\\." ++ escapeRegExp extension ++ "$" ∧
    (∀ (path : String) (caps : Captures),
      (getEntryPathRegEx extension basePath none none
        ⟨enabled, allLocales, defaultLocale, ⟨false, true, false, false⟩,
          false⟩).exec path = some caps ↔
      ∃ l ∈ allLocales, ∃ name : String, name ≠ "" ∧ '/' ∉ name.data ∧
        path = baseDir basePath ++ name ++ "." ++ l ++ "." ++ extension ∧
        caps = [("locale", l), ("subPath", name)]) ∧
    (getEntryPathRegEx extension basePath subPath indexFileName
        ⟨enabled, allLocales, defaultLocale, ⟨false, true, false, false⟩, true⟩).source =
      "^" ++ (if basePath = "" then "" else escapeRegExp basePath ++ "\\/") ++
        (filePathMatcher subPath indexFileName).source ++
        "(?:\\." ++ (localeMatcher (allLocales.filter (fun l => l ≠ defaultLocale))).source ++
        ")?" ++ "\\." ++ escapeRegExp extension ++ "$" ∧
    ((∃ l ∈ allLocales, l ≠ defaultLocale) →
      (∀ (path : String) (caps : Captures),
        (getEntryPathRegEx extension basePath none none
          ⟨enabled, allLocales, defaultLocale, ⟨false, true, false, false⟩,
            true⟩).exec path = some caps →
        (∃ name : String, name ≠ "" ∧ '/' ∉ name.data ∧
          path = baseDir basePath ++ name ++ "." ++ extension ∧
          caps = [("subPath", name)]) ∨
        (∃ l ∈ allLocales, l ≠ defaultLocale ∧ ∃ name : String, name ≠ "" ∧ '/' ∉ name.data ∧
          path = baseDir basePath ++ name ++ "." ++ l ++ "." ++ extension ∧
          caps = [("locale", l), ("subPath", name)])) ∧
      (∀ name : String, name ≠ "" → '/' ∉ name.data →
        (∀ (p l : String), p ≠ "" → l ∈ allLocales → l ≠ defaultLocale →
          name ≠ p ++ "." ++ l) →
        ∃ caps : Captures,
          (getEntryPathRegEx extension basePath none none
            ⟨enabled, allLocales, defaultLocale, ⟨false, true, false, false⟩, true⟩).exec
            (baseDir basePath ++ name ++ "." ++ extension) = some caps ∧
          caps.get? "subPath" = some name ∧ caps.get? "locale" = none)) := by
  refine ⟨localeMatcher_source, ?_, ?_, ?_, ?_, ?_, ?_, ?_, ?_⟩
  · apply String.ext
    by_cases hb : basePath = ""
    · simp [getEntryPathRegEx, RegEx.source, catAll, Rx.source, hb,
        String.data_append, show escapeRegExp "" = "" from rfl,
        show (escapeRegExp ".").data = ['\x5c', '.'] from by decide,
        show (escapeRegExp "/").data = ['\x5c', '/'] from by decide]
    · simp [getEntryPathRegEx, RegEx.source, catAll, Rx.source, hb,
        String.data_append, show escapeRegExp "" = "" from rfl,
        show (escapeRegExp ".").data = ['\x5c', '.'] from by decide,
        show (escapeRegExp "/").data = ['\x5c', '/'] from by decide]
  · exact rootMultiFolder_exec extension basePath enabled omitDefault allLocales defaultLocale
      hne (fun l hl => (hplain l hl).1)
  · apply String.ext
    by_cases hb : basePath = ""
    · simp [getEntryPathRegEx, RegEx.source, catAll, Rx.source, hb,
        String.data_append, show escapeRegExp "" = "" from rfl,
        show (escapeRegExp ".").data = ['\x5c', '.'] from by decide,
        show (escapeRegExp "/").data = ['\x5c', '/'] from by decide]
    · simp [getEntryPathRegEx, RegEx.source, catAll, Rx.source, hb,
        String.data_append, show escapeRegExp "" = "" from rfl,
        show (escapeRegExp ".").data = ['\x5c', '.'] from by decide,
        show (escapeRegExp "/").data = ['\x5c', '/'] from by decide]
  · exact multiFolder_exec extension basePath enabled omitDefault allLocales defaultLocale
      hne (fun l hl => (hplain l hl).1)
  · apply String.ext
    by_cases hb : basePath = ""
    · simp [getEntryPathRegEx, RegEx.source, catAll, Rx.source, hb,
        String.data_append, show escapeRegExp "" = "" from rfl,
        show (escapeRegExp ".").data = ['\x5c', '.'] from by decide,
        show (escapeRegExp "/").data = ['\x5c', '/'] from by decide]
    · simp [getEntryPathRegEx, RegEx.source, catAll, Rx.source, hb,
        String.data_append, show escapeRegExp "" = "" from rfl,
        show (escapeRegExp ".").data = ['\x5c', '.'] from by decide,
        show (escapeRegExp "/").data = ['\x5c', '/'] from by decide]
  · exact multiFile_exec extension basePath enabled allLocales defaultLocale
      hne (fun l hl => (hplain l hl).2)
  · apply String.ext
    by_cases hb : basePath = ""
    · simp [getEntryPathRegEx, RegEx.source, catAll, Rx.source, hb,
        String.data_append, show escapeRegExp "" = "" from rfl,
        show (escapeRegExp ".").data = ['\x5c', '.'] from by decide,
        show (escapeRegExp "/").data = ['\x5c', '/'] from by decide]
    · simp [getEntryPathRegEx, RegEx.source, catAll, Rx.source, hb,
        String.data_append, show escapeRegExp "" = "" from rfl,
        show (escapeRegExp ".").data = ['\x5c', '.'] from by decide,
        show (escapeRegExp "/").data = ['\x5c', '/'] from by decide]
  · intro hother
    constructor
    · intro path caps h
      exact multiFile_omit_exec extension basePath enabled allLocales defaultLocale hother
        path caps h
    · intro name h1 h2 h3
      refine ⟨[("subPath", name)],
        multiFile_omit_default extension basePath enabled allLocales defaultLocale hother
          name h1 h2 h3, ?_, ?_⟩
      · simp [Captures.get?, List.lookup]
      · simp [Captures.get?, List.lookup]

theorem getEntryPathRegEx_locale_witness :
    (["en", "fr"] ≠ ([] : List String)) ∧
    (∀ l ∈ ["en", "fr"], '/' ∉ l.data ∧ '.' ∉ l.data) ∧
    (getEntryPathRegEx "md" "content/posts" none none
        ⟨true, ["en", "fr"], "en", ⟨false, false, false, true⟩, false⟩).exec
        "fr/content/posts/my-post.md" = some [("subPath", "my-post"), ("locale", "fr")] :=
  ⟨by decide, by decide,
    ((getEntryPathRegEx_locale "md" "content/posts" none none true false ["en", "fr"] "en"
      (by decide) (by decide)).2.2.1 "fr/content/posts/my-post.md"
        [("subPath", "my-post"), ("locale", "fr")]).mpr
      ⟨"fr", by decide, "my-post", by decide, by decide, by decide, rfl⟩⟩

/-! ### Reading back the text of `formatJSON` -/

theorem digitChar_isDigit (d : Nat) (h : d < 10) : (digitChar d).isDigit = true := by
  interval_cases d <;> decide

theorem digitChar_value (d : Nat) (h : d < 10) : (digitChar d).toNat - 48 = d := by
  interval_cases d <;> decide

theorem digitsValue_append (xs ys : List Char) :
    digitsValue (xs ++ ys) =
      ys.foldl (fun value c => 10 * value + (c.toNat - 48)) (digitsValue xs) := by
  simp [digitsValue, List.foldl_append]

theorem foldl_digits_shift (ys : List Char) :
    ∀ a : Nat, ys.foldl (fun value c => 10 * value + (c.toNat - 48)) a =
      a * 10 ^ ys.length + digitsValue ys := by
  induction ys with
  | nil => intro a; simp [digitsValue]
  | cons y ys ih =>
    intro a
    simp only [List.foldl_cons, digitsValue, List.length_cons]
    rw [ih, ih (10 * 0 + (y.toNat - 48))]
    ring

theorem decimalDigitsGo_value : ∀ (fuel n : Nat) (acc : List Char), n < fuel →
    digitsValue (decimalDigitsGo fuel n acc) = n * 10 ^ acc.length + digitsValue acc := by
  intro fuel
  induction fuel with
  | zero => intro n acc h; omega
  | succ fuel ih =>
    intro n acc h
    simp only [decimalDigitsGo]
    by_cases h10 : n < 10
    · rw [if_pos h10]
      have : digitChar n :: acc = [digitChar n] ++ acc := rfl
      rw [this, digitsValue_append, foldl_digits_shift]
      simp [digitsValue, digitChar_value n h10]
    · rw [if_neg h10, ih (n / 10) _ (by omega)]
      have : digitChar (n % 10) :: acc = [digitChar (n % 10)] ++ acc := rfl
      rw [this, digitsValue_append, foldl_digits_shift]
      simp only [digitsValue, List.foldl_cons, List.foldl_nil, List.length_append,
        List.length_singleton, digitChar_value (n % 10) (Nat.mod_lt _ (by decide))]
      have h1 : n = 10 * (n / 10) + n % 10 := (Nat.div_add_mod n 10).symm
      rw [pow_add]
      nth_rewrite 3 [h1]
      ring

theorem digitsValue_decimalDigits (n : Nat) : digitsValue (decimalDigits n) = n := by
  unfold decimalDigits
  rw [decimalDigitsGo_value (n + 1) n [] (by omega)]
  simp [digitsValue]

theorem decimalDigitsGo_all : ∀ (fuel n : Nat) (acc : List Char),
    (∀ c ∈ acc, c.isDigit = true) → ∀ c ∈ decimalDigitsGo fuel n acc, c.isDigit = true := by
  intro fuel
  induction fuel with
  | zero => intro n acc h; exact h
  | succ fuel ih =>
    intro n acc h
    simp only [decimalDigitsGo]
    by_cases h10 : n < 10
    · rw [if_pos h10]
      intro c hc
      rcases List.mem_cons.mp hc with h1 | h1
      · rw [h1]
        exact digitChar_isDigit n h10
      · exact h c h1
    · rw [if_neg h10]
      apply ih
      intro c hc
      rcases List.mem_cons.mp hc with h1 | h1
      · rw [h1]
        exact digitChar_isDigit _ (Nat.mod_lt _ (by decide))
      · exact h c h1

theorem decimalDigits_all (n : Nat) : ∀ c ∈ decimalDigits n, c.isDigit = true :=
  decimalDigitsGo_all (n + 1) n [] (by simp)

theorem decimalDigitsGo_ne_nil : ∀ (fuel n : Nat) (acc : List Char), 0 < fuel →
    decimalDigitsGo fuel n acc ≠ [] := by
  intro fuel
  induction fuel with
  | zero => intro n acc h; omega
  | succ fuel ih =>
    intro n acc _
    simp only [decimalDigitsGo]
    by_cases h10 : n < 10
    · rw [if_pos h10]
      simp
    · rw [if_neg h10]
      cases fuel with
      | zero => simp [decimalDigitsGo]
      | succ fuel => exact ih _ _ (by omega)

theorem decimalDigits_ne_nil (n : Nat) : decimalDigits n ≠ [] :=
  decimalDigitsGo_ne_nil (n + 1) n [] (by omega)

theorem takeWhile_digits (ds rest : List Char) (hall : ∀ c ∈ ds, c.isDigit = true)
    (hrest : ∀ c, rest.head? = some c → c.isDigit = false) :
    (ds ++ rest).takeWhile Char.isDigit = ds ∧ (ds ++ rest).dropWhile Char.isDigit = rest := by
  induction ds with
  | nil =>
    cases rest with
    | nil => simp
    | cons c rest =>
      have := hrest c rfl
      simp [List.takeWhile, List.dropWhile, this]
  | cons d ds ih =>
    have hd := hall d (List.mem_cons_self _ _)
    have := ih (fun c hc => hall c (List.mem_cons_of_mem _ hc))
    simp [List.takeWhile, List.dropWhile, hd, this]

theorem dropWhile_zeros (m : Nat) (ds : List Char) (h : ds.head? ≠ some '0') :
    (List.replicate m '0' ++ ds).dropWhile (fun c => c = '0') = ds := by
  induction m with
  | zero =>
    cases ds with
    | nil => rfl
    | cons d ds =>
      have : d ≠ '0' := fun hd => h (by rw [hd]; rfl)
      simp [List.dropWhile, this]
  | succ m ih =>
    simp [List.replicate_succ, List.dropWhile, ih]

theorem dropTrailing_zeros (m : Nat) (ds : List Char) (h : ds.getLast? ≠ some '0') :
    ((ds ++ List.replicate m '0').reverse.dropWhile (fun c => c = '0')).reverse = ds := by
  rw [List.reverse_append, List.reverse_replicate, dropWhile_zeros, List.reverse_reverse]
  rw [List.head?_reverse]
  exact h

theorem numberEnd_digit (rest : List Char) (h : numberEnd rest = true) :
    ∀ c, rest.head? = some c → c.isDigit = false := by
  intro c hc
  simp only [numberEnd, hc] at h
  simp only [Bool.not_eq_true', Bool.or_eq_false_iff] at h
  exact h.1.1.1

theorem numberEnd_mark (rest : List Char) (h : numberEnd rest = true) :
    rest.head? ≠ some '.' ∧ rest.head? ≠ some 'e' ∧ rest.head? ≠ some 'E' := by
  refine ⟨?_, ?_, ?_⟩ <;>
  · intro hc
    simp [numberEnd, hc] at h

theorem parseFraction_none (rest : List Char) (h : rest.head? ≠ some '.') :
    parseFraction rest = some ([], rest) := by
  simp [parseFraction, h]

theorem parseExponent_none (rest : List Char) (h1 : rest.head? ≠ some 'e')
    (h2 : rest.head? ≠ some 'E') : parseExponent rest = some (0, rest) := by
  simp [parseExponent, h1, h2]

theorem parseFraction_digits (ds rest : List Char) (hall : ∀ c ∈ ds, c.isDigit = true)
    (hne : ds ≠ []) (hrest : ∀ c, rest.head? = some c → c.isDigit = false) :
    parseFraction ('.' :: (ds ++ rest)) = some (ds, rest) := by
  have h := takeWhile_digits ds rest hall hrest
  simp [parseFraction, h.1, h.2, hne]

theorem parseExponent_digits (m : Int) (rest : List Char)
    (hrest : ∀ c, rest.head? = some c → c.isDigit = false) :
    parseExponent ('e' :: (if m < 0 then '-' else '+') :: (decimalDigits m.natAbs ++ rest)) =
      some (m, rest) := by
  have h := takeWhile_digits (decimalDigits m.natAbs) rest (decimalDigits_all _) hrest
  have hne := decimalDigits_ne_nil m.natAbs
  by_cases hm : m < 0
  · simp [parseExponent, hm, h.1, h.2, hne, digitsValue_decimalDigits]
    rw [abs_of_neg hm]
    omega
  · simp [parseExponent, hm, h.1, h.2, hne, digitsValue_decimalDigits]
    exact not_lt.mp hm

theorem parseUnsigned_parts (negative : Bool) (intDigits tail fracDigits afterFraction
    rest : List Char) (exponent : Int) (hall : ∀ c ∈ intDigits, c.isDigit = true)
    (hne : intDigits ≠ []) (hzero : intDigits.head? = some '0' → intDigits.length = 1)
    (htail : ∀ c, tail.head? = some c → c.isDigit = false)
    (hfrac : parseFraction tail = some (fracDigits, afterFraction))
    (hexp : parseExponent afterFraction = some (exponent, rest)) :
    parseUnsigned negative (intDigits ++ tail) =
      some (toJsonNumber negative (intDigits ++ fracDigits) (exponent - fracDigits.length),
        rest) := by
  have h := takeWhile_digits intDigits tail hall htail
  unfold parseUnsigned
  simp only [h.1, h.2, hfrac, hexp]
  rw [if_neg]
  rintro (h1 | ⟨h1, h2⟩)
  · exact hne (List.isEmpty_iff.mp h1)
  · exact h2 (hzero h1)

theorem toJsonNumber_canonical (negative : Bool) (lead trail : Nat) (ds : List Char)
    (scale : Int) (hne : ds ≠ []) (hhead : ds.head? ≠ some '0')
    (hlast : ds.getLast? ≠ some '0') :
    toJsonNumber negative (List.replicate lead '0' ++ (ds ++ List.replicate trail '0')) scale =
      .decimal negative ds (ds.length + trail + scale) := by
  have h1 : (ds ++ List.replicate trail '0').head? ≠ some '0' := by
    cases ds with
    | nil => exact absurd rfl hne
    | cons d ds => exact hhead
  unfold toJsonNumber
  simp only [dropWhile_zeros lead _ h1, dropTrailing_zeros trail ds hlast]
  rw [if_neg]
  · simp
  · simp [hne]

theorem toJsonNumber_of (negative : Bool) (all : List Char) (scale : Int) (lead trail : Nat)
    (ds : List Char) (target : Int)
    (hall : all = List.replicate lead '0' ++ (ds ++ List.replicate trail '0'))
    (htarget : (ds.length : Int) + trail + scale = target)
    (hne : ds ≠ []) (hhead : ds.head? ≠ some '0') (hlast : ds.getLast? ≠ some '0') :
    toJsonNumber negative all scale = .decimal negative ds target := by
  rw [hall, toJsonNumber_canonical negative lead trail ds scale hne hhead hlast, htarget]

theorem parseUnsigned_decimalText (negative : Bool) (ds : List Char) (n : Int)
    (rest : List Char) (hall : ∀ c ∈ ds, c.isDigit = true) (hne : ds ≠ [])
    (hhead : ds.head? ≠ some '0') (hlast : ds.getLast? ≠ some '0')
    (hend : numberEnd rest = true) :
    parseUnsigned negative (decimalText ds n ++ rest) = some (.decimal negative ds n, rest) := by
  have hdigit := numberEnd_digit rest hend
  obtain ⟨hdot, he1, he2⟩ := numberEnd_mark rest hend
  have hlen : 0 < ds.length := List.length_pos.mpr hne
  have hzero : ∀ m : Nat, 0 < m → (ds.take m).head? = some '0' → (ds.take m).length = 1 := by
    intro m hm h
    exfalso
    apply hhead
    cases ds with
    | nil => exact absurd rfl hne
    | cons d ds =>
      cases m with
      | zero => omega
      | succ m => exact h
  unfold decimalText
  simp only []
  by_cases hA : (ds.length : Int) ≤ n ∧ n ≤ 21
  · rw [if_pos hA]
    rw [parseUnsigned_parts negative (ds ++ List.replicate (n - ds.length).toNat '0') rest []
      rest rest 0 ?_ ?_ ?_ hdigit (parseFraction_none rest hdot) (parseExponent_none rest he1 he2)]
    · rw [toJsonNumber_of negative _ _ 0 (n - ds.length).toNat ds n (by simp) ?_ hne hhead hlast]
      have : ((n - ds.length).toNat : Int) = n - ds.length := Int.toNat_of_nonneg (by omega)
      simp only [List.length_nil]
      omega
    · intro c hc
      rcases List.mem_append.mp hc with h | h
      · exact hall c h
      · rw [List.eq_of_mem_replicate h]
        decide
    · simp [hne]
    · intro h
      exfalso
      apply hhead
      cases ds with
      | nil => exact absurd rfl hne
      | cons d ds => exact h
  · rw [if_neg hA]
    by_cases hB : 0 < n ∧ n ≤ 21
    · rw [if_pos hB]
      have hn : n.toNat < ds.length := by omega
      have hn0 : 0 < n.toNat := by omega
      rw [List.append_assoc, parseUnsigned_parts negative (ds.take n.toNat)
        ('.' :: ds.drop n.toNat ++ rest) (ds.drop n.toNat) rest rest 0 ?_ ?_ (hzero _ hn0) ?_
        (parseFraction_digits _ _ ?_ ?_ hdigit) (parseExponent_none rest he1 he2)]
      · rw [toJsonNumber_of negative _ _ 0 0 ds n (by simp) ?_ hne hhead hlast]
        simp only [List.length_drop]
        omega
      · intro c hc
        exact hall c (List.mem_of_mem_take hc)
      · intro h
        have := congrArg List.length h
        simp only [List.length_take, List.length_nil] at this
        omega
      · intro c hc
        simp only [List.cons_append, List.head?_cons, Option.some.injEq] at hc
        rw [← hc]
        decide
      · intro c hc
        exact hall c (List.mem_of_mem_drop hc)
      · intro h
        have := congrArg List.length h
        simp only [List.length_drop, List.length_nil] at this
        omega
    · rw [if_neg hB]
      by_cases hC : -6 < n ∧ n ≤ 0
      · rw [if_pos hC]
        have h1 : '0' :: '.' :: (List.replicate (-n).toNat '0' ++ ds) ++ rest =
            ['0'] ++ ('.' :: ((List.replicate (-n).toNat '0' ++ ds) ++ rest)) := by simp
        rw [h1, parseUnsigned_parts negative ['0'] _ (List.replicate (-n).toNat '0' ++ ds) rest
          rest 0 ?_ ?_ ?_ ?_ (parseFraction_digits _ _ ?_ ?_ hdigit)
          (parseExponent_none rest he1 he2)]
        · rw [toJsonNumber_of negative _ _ (1 + (-n).toNat) 0 ds n ?_ ?_ hne hhead hlast]
          · simp [List.replicate_add]
          · have : ((-n).toNat : Int) = -n := Int.toNat_of_nonneg (by omega)
            simp only [List.length_append, List.length_replicate, Nat.cast_add]
            omega
        · intro c hc
          rw [List.mem_singleton.mp hc]
          decide
        · simp
        · intro _
          rfl
        · intro c hc
          simp only [List.head?_cons, Option.some.injEq] at hc
          rw [← hc]
          decide
        · intro c hc
          rcases List.mem_append.mp hc with h | h
          · rw [List.eq_of_mem_replicate h]
            decide
          · exact hall c h
        · simp [hne]
      · rw [if_neg hC]
        by_cases hk : ds.length = 1
        · rw [if_pos hk, List.nil_append, List.append_assoc]
          have hrest : ∀ c, ('e' :: (if n - 1 < 0 then '-' else '+') ::
              decimalDigits (n - 1).natAbs ++ rest).head? = some c → c.isDigit = false := by
            intro c hc
            simp only [List.cons_append, List.head?_cons, Option.some.injEq] at hc
            rw [← hc]
            decide
          rw [parseUnsigned_parts negative (ds.take 1) _ [] _ rest (n - 1) ?_ ?_
            (hzero 1 (by decide)) hrest (parseFraction_none _ (by simp))
            (parseExponent_digits (n - 1) rest hdigit)]
          · rw [toJsonNumber_of negative _ _ 0 0 ds n ?_ ?_ hne hhead hlast]
            · simp [List.take_of_length_le (le_of_eq hk)]
            · simp only [List.length_nil]
              omega
          · intro c hc
            exact hall c (List.mem_of_mem_take hc)
          · intro h
            have := congrArg List.length h
            simp only [List.length_take, List.length_nil] at this
            omega
        · rw [if_neg hk]
          have hrest : ∀ c, ('.' :: (ds.drop 1 ++ ('e' :: (if n - 1 < 0 then '-' else '+') ::
              decimalDigits (n - 1).natAbs ++ rest))).head? = some c → c.isDigit = false := by
            intro c hc
            simp only [List.head?_cons, Option.some.injEq] at hc
            rw [← hc]
            decide
          have hrest2 : ∀ c, ('e' :: (if n - 1 < 0 then '-' else '+') ::
              decimalDigits (n - 1).natAbs ++ rest).head? = some c → c.isDigit = false := by
            intro c hc
            simp only [List.cons_append, List.head?_cons, Option.some.injEq] at hc
            rw [← hc]
            decide
          have h1 : ds.take 1 ++ ('.' :: ds.drop 1 ++ 'e' :: (if n - 1 < 0 then '-' else '+') ::
              decimalDigits (n - 1).natAbs) ++ rest =
              ds.take 1 ++ ('.' :: (ds.drop 1 ++ ('e' :: (if n - 1 < 0 then '-' else '+') ::
              decimalDigits (n - 1).natAbs ++ rest))) := by simp
          rw [h1, parseUnsigned_parts negative (ds.take 1) _ (ds.drop 1) _ rest (n - 1) ?_ ?_
            (hzero 1 (by decide)) hrest (parseFraction_digits _ _ ?_ ?_ hrest2)
            (parseExponent_digits (n - 1) rest hdigit)]
          · rw [toJsonNumber_of negative _ _ 0 0 ds n
              (by rw [List.take_append_drop]; simp) ?_ hne hhead hlast]
            simp only [List.length_drop]
            omega
          · intro c hc
            exact hall c (List.mem_of_mem_take hc)
          · intro h
            have := congrArg List.length h
            simp only [List.length_take, List.length_nil] at this
            omega
          · intro c hc
            exact hall c (List.mem_of_mem_drop hc)
          · intro h
            have := congrArg List.length h
            simp only [List.length_drop, List.length_nil] at this
            omega

theorem parseNumber_toText (n : JsonNumber) (hwf : n.wellFormed = true) (rest : List Char)
    (hend : numberEnd rest = true) : parseNumber (n.toText ++ rest) = some (n, rest) := by
  have hdigit := numberEnd_digit rest hend
  obtain ⟨hdot, he1, he2⟩ := numberEnd_mark rest hend
  cases n with
  | zero =>
    have h := parseUnsigned_parts false ['0'] rest [] rest rest 0
      (by intro c hc; rw [List.mem_singleton.mp hc]; decide) (by simp) (fun _ => rfl) hdigit
      (parseFraction_none rest hdot) (parseExponent_none rest he1 he2)
    simp only [JsonNumber.toText, parseNumber]
    rw [if_neg (by simp), h]
    rfl
  | decimal negative ds e =>
    simp only [JsonNumber.wellFormed, Bool.and_eq_true, List.all_eq_true, Bool.not_eq_true',
      bne_iff_ne, ne_eq] at hwf
    obtain ⟨⟨⟨hall, hne⟩, hhead⟩, hlast⟩ := hwf
    have hne1 : ds ≠ [] := by
      intro h
      rw [h] at hne
      simp at hne
    have hbody := parseUnsigned_decimalText negative ds e rest hall hne1 hhead hlast hend
    have hfirst : (decimalText ds e ++ rest).head? ≠ some '-' := by
      intro h
      have h1 : (parseUnsigned negative (decimalText ds e ++ rest)).isSome = true := by
        rw [hbody]
        rfl
      cases htext : decimalText ds e ++ rest with
      | nil =>
        rw [htext] at h
        simp at h
      | cons c t =>
        rw [htext] at h h1
        simp only [List.head?_cons, Option.some.injEq] at h
        rw [h] at h1
        simp [parseUnsigned, List.takeWhile] at h1
    cases negative with
    | true =>
      simp only [JsonNumber.toText, parseNumber, if_true, List.singleton_append,
        List.cons_append, List.head?_cons, List.tail_cons]
      exact hbody
    | false =>
      simp only [JsonNumber.toText, parseNumber, Bool.false_eq_true, if_false, List.nil_append]
      rw [if_neg hfirst]
      exact hbody

theorem unicodeEscape_control : ∀ n, n < 32 →
    unicodeEscape '0' '0' (hexDigit (n / 16)) (hexDigit (n % 16)) = some (Char.ofNat n) := by
  decide

theorem parseStringGo_quoteChar (c : Char) (fuel : Nat) (tail acc : List Char) :
    parseStringGo (fuel + 1) (quoteChar c ++ tail) acc = parseStringGo fuel tail (acc ++ [c]) := by
  unfold quoteChar
  by_cases h1 : c = '\x08'
  · subst h1
    simp [parseStringGo, simpleEscape]
  rw [if_neg h1]
  by_cases h2 : c = '\x09'
  · subst h2
    simp [parseStringGo, simpleEscape]
  rw [if_neg h2]
  by_cases h3 : c = '\x0a'
  · subst h3
    simp [parseStringGo, simpleEscape]
  rw [if_neg h3]
  by_cases h4 : c = '\x0c'
  · subst h4
    simp [parseStringGo, simpleEscape]
  rw [if_neg h4]
  by_cases h5 : c = '\x0d'
  · subst h5
    simp [parseStringGo, simpleEscape]
  rw [if_neg h5]
  by_cases h6 : c = '\x22'
  · subst h6
    simp [parseStringGo, simpleEscape]
  rw [if_neg h6]
  by_cases h7 : c = '\x5c'
  · subst h7
    simp [parseStringGo, simpleEscape]
  rw [if_neg h7]
  by_cases h8 : c.toNat < 32
  · rw [if_pos h8]
    have h9 := unicodeEscape_control c.toNat h8
    rw [Char.ofNat_toNat] at h9
    simp [parseStringGo, h9]
  · rw [if_neg h8]
    simp [parseStringGo, h6, h7, h8]

theorem parseStringGo_quoted (rest : List Char) : ∀ (s acc : List Char) (fuel : Nat),
    s.length < fuel →
    parseStringGo fuel (s.flatMap quoteChar ++ '\x22' :: rest) acc = some (⟨acc ++ s⟩, rest) := by
  intro s
  induction s with
  | nil =>
    intro acc fuel h
    cases fuel with
    | zero => omega
    | succ fuel => simp [parseStringGo]
  | cons c s ih =>
    intro acc fuel h
    cases fuel with
    | zero => omega
    | succ fuel =>
      rw [List.flatMap_cons, List.append_assoc, parseStringGo_quoteChar,
        ih _ _ (by simpa using h)]
      simp

theorem quoteChar_length (c : Char) : 1 ≤ (quoteChar c).length := by
  unfold quoteChar
  split_ifs <;> simp

theorem flatMap_quoteChar_length (s : List Char) : s.length ≤ (s.flatMap quoteChar).length := by
  induction s with
  | nil => simp
  | cons c s ih =>
    rw [List.flatMap_cons, List.length_append, List.length_cons]
    have := quoteChar_length c
    omega

theorem parseString_quoted (s : String) (rest : List Char) :
    parseString (s.data.flatMap quoteChar ++ '\x22' :: rest) = some (s, rest) := by
  unfold parseString
  rw [parseStringGo_quoted rest s.data [] _ ?_]
  · simp
  · have := flatMap_quoteChar_length s.data
    simp only [List.length_append, List.length_cons]
    omega

theorem skipWhiteSpace_append (ws rest : List Char)
    (hws : ∀ c ∈ ws, isJsonWhiteSpace c = true) :
    skipWhiteSpace (ws ++ rest) = skipWhiteSpace rest := by
  induction ws with
  | nil => rfl
  | cons c ws ih =>
    have hc := hws c (List.mem_cons_self _ _)
    simp only [skipWhiteSpace, List.cons_append, List.dropWhile, hc]
    exact ih (fun d hd => hws d (List.mem_cons_of_mem _ hd))

theorem skipWhiteSpace_cons (c : Char) (rest : List Char) (h : isJsonWhiteSpace c = false) :
    skipWhiteSpace (c :: rest) = c :: rest := by
  simp [skipWhiteSpace, List.dropWhile, h]

theorem lineBreak_whiteSpace (gap indent : List Char)
    (hindent : ∀ c ∈ indent, isJsonWhiteSpace c = true) :
    ∀ c ∈ lineBreak gap indent, isJsonWhiteSpace c = true := by
  intro c hc
  unfold lineBreak at hc
  by_cases hg : gap = []
  · simp [hg] at hc
  · rw [if_neg hg] at hc
    rcases List.mem_cons.mp hc with h | h
    · rw [h]
      decide
    · exact hindent c h

theorem append_whiteSpace (indent gap : List Char)
    (hindent : ∀ c ∈ indent, isJsonWhiteSpace c = true)
    (hgap : ∀ c ∈ gap, isJsonWhiteSpace c = true) :
    ∀ c ∈ indent ++ gap, isJsonWhiteSpace c = true := by
  intro c hc
  rcases List.mem_append.mp hc with h | h
  · exact hindent c h
  · exact hgap c h

theorem parseNumber_head (c : Char) (t : List Char) (h : (parseNumber (c :: t)).isSome = true) :
    c = '-' ∨ c.isDigit = true := by
  by_cases hc : c = '-'
  · exact Or.inl hc
  · right
    by_cases hd : c.isDigit = true
    · exact hd
    · simp [parseNumber, hc, parseUnsigned, List.takeWhile, hd] at h

theorem toText_head (n : JsonNumber) (hwf : n.wellFormed = true) :
    ∃ c t, n.toText = c :: t ∧ (c = '-' ∨ c.isDigit = true) := by
  have h := parseNumber_toText n hwf [] rfl
  rw [List.append_nil] at h
  cases htext : n.toText with
  | nil =>
    rw [htext] at h
    simp [parseNumber, parseUnsigned] at h
  | cons c t =>
    rw [htext] at h
    exact ⟨c, t, rfl, parseNumber_head c t (by rw [h]; rfl)⟩

theorem numberStart_facts (c : Char) (h : c = '-' ∨ c.isDigit = true) :
    isJsonWhiteSpace c = false ∧ c ≠ 'n' ∧ c ≠ 't' ∧ c ≠ 'f' ∧ c ≠ '\x22' ∧ c ≠ '[' ∧
      c ≠ '\x7b' ∧ c ≠ ']' := by
  rcases h with h | h
  · subst h
    decide
  · refine ⟨?_, ?_, ?_, ?_, ?_, ?_, ?_, ?_⟩
    · cases hw : isJsonWhiteSpace c with
      | false => rfl
      | true =>
        simp only [isJsonWhiteSpace, Bool.or_eq_true, decide_eq_true_eq] at hw
        rcases hw with ((hw | hw) | hw) | hw <;>
        · subst hw
          exact absurd h (by decide)
    all_goals
      intro hc
      subst hc
      exact absurd h (by decide)

theorem numberEnd_whiteSpace (c : Char) (t : List Char) (h : isJsonWhiteSpace c = true) :
    numberEnd (c :: t) = true := by
  simp only [isJsonWhiteSpace, Bool.or_eq_true, decide_eq_true_eq] at h
  rcases h with ((h | h) | h) | h <;>
  · subst h
    rfl

theorem numberEnd_close (close rest : List Char) (b : Char) (hb : b = ']' ∨ b = '\x7d')
    (hclose : ∀ c ∈ close, isJsonWhiteSpace c = true) :
    numberEnd (close ++ b :: rest) = true := by
  cases close with
  | nil =>
    rcases hb with hb | hb <;>
    · subst hb
      rfl
  | cons c close => exact numberEnd_whiteSpace c _ (hclose c (List.mem_cons_self _ _))

theorem skipWhiteSpace_close (close rest : List Char) (b : Char)
    (hb : isJsonWhiteSpace b = false) (hclose : ∀ c ∈ close, isJsonWhiteSpace c = true) :
    skipWhiteSpace (close ++ b :: rest) = b :: rest := by
  rw [skipWhiteSpace_append close _ hclose, skipWhiteSpace_cons b rest hb]

theorem serialize_head (gap indent : List Char) (v : Json) (hwf : v.wellFormed = true) :
    ∃ c t, v.serialize gap indent = c :: t ∧ isJsonWhiteSpace c = false ∧ c ≠ ']' := by
  cases v with
  | null => exact ⟨'n', "ull".data, rfl, by decide, by decide⟩
  | bool b =>
    cases b with
    | true => exact ⟨'t', "rue".data, rfl, by decide, by decide⟩
    | false => exact ⟨'f', "alse".data, rfl, by decide, by decide⟩
  | number n =>
    obtain ⟨c, t, h1, h2⟩ := toText_head n (by simpa [Json.wellFormed] using hwf)
    have h3 := numberStart_facts c h2
    exact ⟨c, t, by simp [Json.serialize, h1], h3.1, h3.2.2.2.2.2.2.2⟩
  | string s => exact ⟨'\x22', _, rfl, by decide, by decide⟩
  | array items =>
    by_cases h : items.isEmpty = true
    · exact ⟨'[', [']'], by simp [Json.serialize, h], by decide, by decide⟩
    · exact ⟨'[', _, by simp only [Json.serialize, h]; rfl, by decide, by decide⟩
  | object members =>
    by_cases h : members.isEmpty = true
    · exact ⟨'\x7b', ['\x7d'], by simp [Json.serialize, h], by decide, by decide⟩
    · exact ⟨'\x7b', _, by simp only [Json.serialize, h]; rfl, by decide, by decide⟩

theorem setMember_of_not_mem (members : List (String × Json)) (key : String) (value : Json)
    (h : key ∉ members.map Prod.fst) : setMember members key value = members ++ [(key, value)] := by
  induction members with
  | nil => rfl
  | cons m members ih =>
    obtain ⟨k, v⟩ := m
    simp only [List.map_cons, List.mem_cons, not_or] at h
    have hk : ¬k = key := fun e => h.1 e.symm
    simp only [setMember, hk, if_false, ih h.2, List.cons_append]

theorem parseValue_skip (fuel : Nat) (ws : List Char) (c : Char) (t : List Char)
    (hws : ∀ d ∈ ws, isJsonWhiteSpace d = true) :
    parseValue (fuel + 1) (ws ++ c :: t) = parseValue (fuel + 1) (c :: t) := by
  cases hc : isJsonWhiteSpace c with
  | false =>
    simp only [parseValue, skipWhiteSpace_append ws _ hws]
  | true =>
    have h1 : ∀ d ∈ ws ++ [c], isJsonWhiteSpace d = true := by
      intro d hd
      rcases List.mem_append.mp hd with h | h
      · exact hws d h
      · rw [List.mem_singleton.mp h]
        exact hc
    have h2 : ws ++ c :: t = (ws ++ [c]) ++ t := by simp
    have h3 : c :: t = [c] ++ t := rfl
    simp only [parseValue]
    rw [h2, skipWhiteSpace_append _ _ h1, h3,
      skipWhiteSpace_append [c] t (by intro d hd; rw [List.mem_singleton.mp hd]; exact hc)]

mutual
theorem parseValue_serialize (gap : List Char)
    (hgap : ∀ c ∈ gap, isJsonWhiteSpace c = true) :
    ∀ (v : Json) (indent ws rest : List Char) (fuel : Nat), v.wellFormed = true →
      (∀ c ∈ indent, isJsonWhiteSpace c = true) → (∀ c ∈ ws, isJsonWhiteSpace c = true) →
      numberEnd rest = true → (v.serialize gap indent).length < fuel →
      parseValue fuel (ws ++ (v.serialize gap indent ++ rest)) = some (v, rest)
  | .null, indent, ws, rest, fuel, _, _, hws, _, hfuel => by
    cases fuel with
    | zero => omega
    | succ fuel =>
      have h : Json.null.serialize gap indent ++ rest = 'n' :: ("ull".data ++ rest) := rfl
      rw [h, parseValue_skip fuel ws _ _ hws]
      simp [parseValue, skipWhiteSpace, List.dropWhile, isJsonWhiteSpace]
  | .bool true, indent, ws, rest, fuel, _, _, hws, _, hfuel => by
    cases fuel with
    | zero => omega
    | succ fuel =>
      have h : (Json.bool true).serialize gap indent ++ rest = 't' :: ("rue".data ++ rest) := rfl
      rw [h, parseValue_skip fuel ws _ _ hws]
      simp [parseValue, skipWhiteSpace, List.dropWhile, isJsonWhiteSpace]
  | .bool false, indent, ws, rest, fuel, _, _, hws, _, hfuel => by
    cases fuel with
    | zero => omega
    | succ fuel =>
      have h : (Json.bool false).serialize gap indent ++ rest = 'f' :: ("alse".data ++ rest) :=
        rfl
      rw [h, parseValue_skip fuel ws _ _ hws]
      simp [parseValue, skipWhiteSpace, List.dropWhile, isJsonWhiteSpace]
  | .number n, indent, ws, rest, fuel, hwf, _, hws, hend, hfuel => by
    cases fuel with
    | zero => omega
    | succ fuel =>
      have hn : n.wellFormed = true := by simpa [Json.wellFormed] using hwf
      obtain ⟨c, t, h1, h2⟩ := toText_head n hn
      have h3 := numberStart_facts c h2
      have h4 := parseNumber_toText n hn rest hend
      have h : (Json.number n).serialize gap indent ++ rest = c :: (t ++ rest) := by
        simp [Json.serialize, h1]
      rw [h1, List.cons_append] at h4
      rw [h, parseValue_skip fuel ws _ _ hws]
      simp only [parseValue, skipWhiteSpace_cons c _ h3.1]
      simp only [h3.2.1, h3.2.2.1, h3.2.2.2.1, h3.2.2.2.2.1, h3.2.2.2.2.2.1, h3.2.2.2.2.2.2.1,
        if_false, h2, if_true, h4]
  | .string s, indent, ws, rest, fuel, _, _, hws, _, hfuel => by
    cases fuel with
    | zero => omega
    | succ fuel =>
      have h : (Json.string s).serialize gap indent ++ rest =
          '\x22' :: (s.data.flatMap quoteChar ++ '\x22' :: rest) := by
        simp [Json.serialize, quoteJSONString]
      rw [h, parseValue_skip fuel ws _ _ hws]
      simp [parseValue, skipWhiteSpace, List.dropWhile, isJsonWhiteSpace, parseString_quoted]
  | .array items, indent, ws, rest, fuel, hwf, hindent, hws, _, hfuel => by
    cases fuel with
    | zero => omega
    | succ fuel =>
      cases items with
      | nil =>
        have h : (Json.array []).serialize gap indent ++ rest = '[' :: ']' :: rest := rfl
        rw [h, parseValue_skip fuel ws _ _ hws]
        simp [parseValue, skipWhiteSpace, List.dropWhile, isJsonWhiteSpace]
      | cons x xs =>
        have hwf1 : wellFormedItems (x :: xs) = true := by simpa [Json.wellFormed] using hwf
        have hx : x.wellFormed = true := by
          simp only [wellFormedItems, Bool.and_eq_true] at hwf1
          exact hwf1.1
        have hind := append_whiteSpace indent gap hindent hgap
        have h : (Json.array (x :: xs)).serialize gap indent ++ rest =
            '[' :: (lineBreak gap (indent ++ gap) ++
              (serializeItems gap (x :: xs) (indent ++ gap) ++
                (lineBreak gap indent ++ ']' :: rest))) := by
          simp [Json.serialize]
        have hlen : (serializeItems gap (x :: xs) (indent ++ gap)).length + 1 < fuel := by
          simp only [Json.serialize, List.isEmpty_cons, Bool.false_eq_true, if_false,
            List.length_cons, List.length_append, List.length_nil] at hfuel
          omega
        obtain ⟨c, t, h5, h6, h7⟩ := serialize_head gap (indent ++ gap) x hx
        have h8 : (skipWhiteSpace (lineBreak gap (indent ++ gap) ++
              (serializeItems gap (x :: xs) (indent ++ gap) ++
                (lineBreak gap indent ++ ']' :: rest)))).head? = some c := by
          rw [skipWhiteSpace_append _ _ (lineBreak_whiteSpace gap _ hind)]
          simp only [serializeItems, h5, List.cons_append]
          rw [skipWhiteSpace_cons c _ h6]
          rfl
        rw [h, parseValue_skip fuel ws _ _ hws]
        simp only [parseValue, skipWhiteSpace_cons '[' _ (by decide)]
        simp only [show ¬('[' = 'n') from by decide, show ¬('[' = 't') from by decide,
          show ¬('[' = 'f') from by decide, show ¬('[' = '\x22') from by decide, if_false,
          if_true, h8, Option.some.injEq, h7]
        have := parseElements_serialize gap hgap (x :: xs) (indent ++ gap)
          (lineBreak gap (indent ++ gap)) (lineBreak gap indent) rest [] fuel (by simp) hwf1
          hind (lineBreak_whiteSpace gap _ hind) (lineBreak_whiteSpace gap _ hindent) hlen
        rw [this]
        rfl
  | .object members, indent, ws, rest, fuel, hwf, hindent, hws, _, hfuel => by
    cases fuel with
    | zero => omega
    | succ fuel =>
      cases members with
      | nil =>
        have h : (Json.object []).serialize gap indent ++ rest = '\x7b' :: '\x7d' :: rest := rfl
        rw [h, parseValue_skip fuel ws _ _ hws]
        simp [parseValue, skipWhiteSpace, List.dropWhile, isJsonWhiteSpace]
      | cons m ms =>
        obtain ⟨key, x⟩ := m
        simp only [Json.wellFormed, Bool.and_eq_true, decide_eq_true_eq] at hwf
        have hind := append_whiteSpace indent gap hindent hgap
        have h : (Json.object ((key, x) :: ms)).serialize gap indent ++ rest =
            '\x7b' :: (lineBreak gap (indent ++ gap) ++
              (serializeMembers gap ((key, x) :: ms) (indent ++ gap) ++
                (lineBreak gap indent ++ '\x7d' :: rest))) := by
          simp [Json.serialize]
        have hlen : (serializeMembers gap ((key, x) :: ms) (indent ++ gap)).length + 1 < fuel := by
          simp only [Json.serialize, List.isEmpty_cons, Bool.false_eq_true, if_false,
            List.length_cons, List.length_append, List.length_nil] at hfuel
          omega
        have h8 : (skipWhiteSpace (lineBreak gap (indent ++ gap) ++
              (serializeMembers gap ((key, x) :: ms) (indent ++ gap) ++
                (lineBreak gap indent ++ '\x7d' :: rest)))).head? = some '\x22' := by
          rw [skipWhiteSpace_append _ _ (lineBreak_whiteSpace gap _ hind)]
          simp only [serializeMembers, quoteJSONString, List.cons_append]
          rw [skipWhiteSpace_cons '\x22' _ (by decide)]
          rfl
        rw [h, parseValue_skip fuel ws _ _ hws]
        simp only [parseValue, skipWhiteSpace_cons '\x7b' _ (by decide)]
        simp only [show ¬('\x7b' = 'n') from by decide, show ¬('\x7b' = 't') from by decide,
          show ¬('\x7b' = 'f') from by decide, show ¬('\x7b' = '\x22') from by decide,
          show ¬('\x7b' = '[') from by decide, if_false,
          if_true, h8, Option.some.injEq, show ¬('\x22' = '\x7d') from by decide]
        have := parseMembers_serialize gap hgap ((key, x) :: ms) (indent ++ gap)
          (lineBreak gap (indent ++ gap)) (lineBreak gap indent) rest [] fuel (by simp) hwf.1
          (by simpa using hwf.2)
          hind (lineBreak_whiteSpace gap _ hind) (lineBreak_whiteSpace gap _ hindent) hlen
        rw [this]
        rfl
theorem parseElements_serialize (gap : List Char)
    (hgap : ∀ c ∈ gap, isJsonWhiteSpace c = true) :
    ∀ (items : List Json) (indent ws close rest : List Char) (acc : List Json) (fuel : Nat),
      items ≠ [] → wellFormedItems items = true →
      (∀ c ∈ indent, isJsonWhiteSpace c = true) → (∀ c ∈ ws, isJsonWhiteSpace c = true) →
      (∀ c ∈ close, isJsonWhiteSpace c = true) →
      (serializeItems gap items indent).length + 1 < fuel →
      parseElements fuel (ws ++ (serializeItems gap items indent ++ (close ++ ']' :: rest))) acc =
        some (.array (acc ++ items), rest)
  | [], _, _, _, _, _, _, hne, _, _, _, _, _ => absurd rfl hne
  | x :: xs, indent, ws, close, rest, acc, fuel, _, hwf, hindent, hws, hclose, hfuel => by
    cases fuel with
    | zero => omega
    | succ fuel =>
      simp only [wellFormedItems, Bool.and_eq_true] at hwf
      cases xs with
      | nil =>
        have h : ws ++ (serializeItems gap [x] indent ++ (close ++ ']' :: rest)) =
            ws ++ (x.serialize gap indent ++ (close ++ ']' :: rest)) := by
          simp [serializeItems]
        have hlen : (x.serialize gap indent).length < fuel := by
          simp only [serializeItems, List.isEmpty_nil, if_true, List.length_append,
            List.length_nil] at hfuel
          omega
        have hv := parseValue_serialize gap hgap x indent ws (close ++ ']' :: rest) fuel hwf.1
          hindent hws (numberEnd_close close rest ']' (Or.inl rfl) hclose) hlen
        rw [h]
        simp only [parseElements, hv, skipWhiteSpace_close close rest ']' (by decide) hclose]
        simp
      | cons y ys =>
        have h : ws ++ (serializeItems gap (x :: y :: ys) indent ++ (close ++ ']' :: rest)) =
            ws ++ (x.serialize gap indent ++ (',' :: (lineBreak gap indent ++
              (serializeItems gap (y :: ys) indent ++ (close ++ ']' :: rest))))) := by
          simp [serializeItems]
        have hlen : (x.serialize gap indent).length < fuel ∧
            (serializeItems gap (y :: ys) indent).length + 1 < fuel := by
          rw [serializeItems] at hfuel
          simp only [List.isEmpty_cons, Bool.false_eq_true, if_false, List.length_append,
            List.length_cons] at hfuel
          omega
        have hv := parseValue_serialize gap hgap x indent ws (',' :: (lineBreak gap indent ++
          (serializeItems gap (y :: ys) indent ++ (close ++ ']' :: rest)))) fuel hwf.1
          hindent hws rfl hlen.1
        have hrec := parseElements_serialize gap hgap (y :: ys) indent (lineBreak gap indent)
          close rest (acc ++ [x]) fuel (by simp) hwf.2 hindent
          (lineBreak_whiteSpace gap _ hindent) hclose hlen.2
        rw [h]
        simp only [parseElements, hv, skipWhiteSpace_cons ',' _ (by decide), List.head?_cons,
          if_true, List.tail_cons, hrec]
        simp
theorem parseMembers_serialize (gap : List Char)
    (hgap : ∀ c ∈ gap, isJsonWhiteSpace c = true) :
    ∀ (members : List (String × Json)) (indent ws close rest : List Char)
      (acc : List (String × Json)) (fuel : Nat),
      members ≠ [] → wellFormedMembers members = true →
      (acc.map Prod.fst ++ members.map Prod.fst).Nodup →
      (∀ c ∈ indent, isJsonWhiteSpace c = true) → (∀ c ∈ ws, isJsonWhiteSpace c = true) →
      (∀ c ∈ close, isJsonWhiteSpace c = true) →
      (serializeMembers gap members indent).length + 1 < fuel →
      parseMembers fuel
          (ws ++ (serializeMembers gap members indent ++ (close ++ '\x7d' :: rest))) acc =
        some (.object (acc ++ members), rest)
  | [], _, _, _, _, _, _, hne, _, _, _, _, _, _ => absurd rfl hne
  | (key, x) :: xs, indent, ws, close, rest, acc, fuel, _, hwf, hnodup, hindent, hws, hclose,
      hfuel => by
    cases fuel with
    | zero => omega
    | succ fuel =>
      simp only [wellFormedMembers, Bool.and_eq_true] at hwf
      have hkey : key ∉ acc.map Prod.fst := by
        intro hmem
        have := List.nodup_append.mp hnodup
        exact this.2.2 hmem (by simp)
      have hset := setMember_of_not_mem acc key x hkey
      have hsp : ∀ c ∈ (if gap = [] then [] else [' ']), isJsonWhiteSpace c = true := by
        intro c hc
        by_cases hg : gap = []
        · simp [hg] at hc
        · rw [if_neg hg, List.mem_singleton] at hc
          rw [hc]
          rfl
      cases xs with
      | nil =>
        have h : ws ++ (serializeMembers gap [(key, x)] indent ++ (close ++ '\x7d' :: rest)) =
            ws ++ ('\x22' :: (key.data.flatMap quoteChar ++ '\x22' :: (':' ::
              ((if gap = [] then [] else [' ']) ++
                (x.serialize gap indent ++ (close ++ '\x7d' :: rest)))))) := by
          simp [serializeMembers, quoteJSONString]
        have hlen : (x.serialize gap indent).length < fuel := by
          simp only [serializeMembers, List.isEmpty_nil, if_true, List.length_append,
            List.length_nil, List.length_cons] at hfuel
          omega
        have hv := parseValue_serialize gap hgap x indent (if gap = [] then [] else [' '])
          (close ++ '\x7d' :: rest) fuel hwf.1
          hindent hsp (numberEnd_close close rest '\x7d' (Or.inr rfl) hclose) hlen
        rw [h]
        simp only [parseMembers, skipWhiteSpace_close ws _ '\x22' (by decide) hws,
          List.head?_cons, if_true, List.tail_cons, parseString_quoted,
          skipWhiteSpace_cons ':' _ (by decide), hv,
          skipWhiteSpace_close close rest '\x7d' (by decide) hclose, hset]
        simp
      | cons y ys =>
        have h : ws ++ (serializeMembers gap ((key, x) :: y :: ys) indent ++
              (close ++ '\x7d' :: rest)) =
            ws ++ ('\x22' :: (key.data.flatMap quoteChar ++ '\x22' :: (':' ::
              ((if gap = [] then [] else [' ']) ++
                (x.serialize gap indent ++ (',' :: (lineBreak gap indent ++
                  (serializeMembers gap (y :: ys) indent ++ (close ++ '\x7d' :: rest))))))))) := by
          simp [serializeMembers, quoteJSONString]
        have hlen : (x.serialize gap indent).length < fuel ∧
            (serializeMembers gap (y :: ys) indent).length + 1 < fuel := by
          rw [serializeMembers] at hfuel
          simp only [List.isEmpty_cons, Bool.false_eq_true, if_false, List.length_append,
            List.length_cons] at hfuel
          omega
        have hv := parseValue_serialize gap hgap x indent (if gap = [] then [] else [' '])
          (',' :: (lineBreak gap indent ++
            (serializeMembers gap (y :: ys) indent ++ (close ++ '\x7d' :: rest)))) fuel hwf.1
          hindent hsp rfl hlen.1
        have hrec := parseMembers_serialize gap hgap (y :: ys) indent (lineBreak gap indent)
          close rest (acc ++ [(key, x)]) fuel (by simp) hwf.2
          (by simpa using hnodup) hindent
          (lineBreak_whiteSpace gap _ hindent) hclose hlen.2
        rw [h]
        simp only [parseMembers, skipWhiteSpace_close ws _ '\x22' (by decide) hws,
          List.head?_cons, if_true, List.tail_cons, parseString_quoted,
          skipWhiteSpace_cons ':' _ (by decide), hv,
          skipWhiteSpace_cons ',' _ (by decide), hset, hrec]
        simp
end

theorem indentGap_whiteSpace (options : JsonFormatOptions) :
    ∀ c ∈ indentGap options, isJsonWhiteSpace c = true := by
  intro c hc
  unfold indentGap at hc
  split at hc
  · rw [List.mem_singleton.mp hc]
    rfl
  · rw [List.eq_of_mem_replicate hc]
    rfl

set_option maxRecDepth 100000 in
/-- The expectations of `Test formatJSON()` in `format.test.js` hold of the model: the text of
the test object without options, with an indent of four spaces and with the tab style. -/
theorem formatJSON_tests :
    formatJSON formatTestObject ⟨none, none⟩ =
        "\x7b\n  \"title\": \"My Post\",\n  \"published\": true,\n  \"options\": [\n    1,\n    2,\n    3\n  ],\n  \"image\": \x7b\n    \"alt\": \"flower\",\n    \"src\": \"flower.jpg\"\n  \x7d\n\x7d" ∧
      formatJSON formatTestObject ⟨some .space, some 4⟩ =
        "\x7b\n    \"title\": \"My Post\",\n    \"published\": true,\n    \"options\": [\n        1,\n        2,\n        3\n    ],\n    \"image\": \x7b\n        \"alt\": \"flower\",\n        \"src\": \"flower.jpg\"\n    \x7d\n\x7d" ∧
      formatJSON formatTestObject ⟨some .tab, none⟩ =
        "\x7b\n\t\"title\": \"My Post\",\n\t\"published\": true,\n\t\"options\": [\n\t\t1,\n\t\t2,\n\t\t3\n\t],\n\t\"image\": \x7b\n\t\t\"alt\": \"flower\",\n\t\t\"src\": \"flower.jpg\"\n\t\x7d\n\x7d" := by
  decide

set_option maxRecDepth 100000 in
/-- Samples of the models of `Number::toString`, `QuoteJSONString` and `JSON.parse`: the four
notations of a number, the escapes of a string, a text with white space, escapes and exponents
read by the parser and written again without gap, and texts that are no JSON. -/
theorem json_samples :
    (JsonNumber.decimal true "12345".data 21).toText = "-123450000000000000000".data ∧
      (JsonNumber.decimal false "12345".data 3).toText = "123.45".data ∧
      (JsonNumber.decimal false "1".data (-5)).toText = "0.000001".data ∧
      (JsonNumber.decimal false "1".data (-6)).toText = "1e-7".data ∧
      (JsonNumber.decimal false "1".data 22).toText = "1e+21".data ∧
      (JsonNumber.decimal true "12345".data (-7)).toText = "-1.2345e-8".data ∧
      quoteJSONString "a\"b\\c\n\x01é" = "\"a\\\"b\\\\c\\n\\u0001é\"".data ∧
      (JSON.parse " [1.50e+2, -0.00025, 1E21, \"a\\u0041\\n\\/\", \x7b\x7d, [ ], null , 0.1e-6,\n \x7b\"k\" : [true , false], \"k\": -0\x7d ] ").map
          (fun v => v.serialize [] []) =
        some "[150,-0.00025,1e+21,\"aA\\n/\",\x7b\x7d,[],null,1e-7,\x7b\"k\":0\x7d]".data ∧
      (JSON.parse "[01]").isNone = true ∧
      (JSON.parse "[1,]").isNone = true ∧
      (JSON.parse "\x7b\"a\":1,\x7d").isNone = true ∧
      (JSON.parse "tru").isNone = true ∧
      (JSON.parse "1 2").isNone = true ∧
      (JSON.parse "\"a\nb\"").isNone = true ∧
      (JSON.parse "").isNone = true := by
  decide

/-- C20: for every JSON-serialisable value (nested maps and sequences, `null`, booleans, finite
numbers and strings; no map with two properties of the same name) and every indent option (the
space style with any indent size, the default size, or the tab style), parsing the text
returned by `formatJSON` as JSON yields the value itself; so does parsing the text followed by
the line feed that `formatEntryFile` appends. -/
theorem formatJSON_roundTrip (obj : Json) (options : JsonFormatOptions)
    (hwf : obj.wellFormed = true) :
    JSON.parse (formatJSON obj options) = some obj ∧
      JSON.parse (formatJSON obj options ++ "\n") = some obj := by
  have hgap := indentGap_whiteSpace options
  have hl : (formatJSON obj options).length = (obj.serialize (indentGap options) []).length :=
    rfl
  constructor
  · have h := parseValue_serialize (indentGap options) hgap obj [] [] []
      ((formatJSON obj options).length + 1) hwf (by simp) (by simp) rfl
      (by rw [hl]; omega)
    rw [List.nil_append, List.append_nil] at h
    unfold JSON.parse
    have h1 : (formatJSON obj options).data = obj.serialize (indentGap options) [] := rfl
    rw [h1, h]
    rfl
  · have h := parseValue_serialize (indentGap options) hgap obj [] [] ['\x0a']
      ((formatJSON obj options ++ "\n").length + 1) hwf (by simp) (by simp) rfl
      (by rw [String.length_append, hl]; omega)
    rw [List.nil_append] at h
    unfold JSON.parse
    have h1 : (formatJSON obj options ++ "\n").data =
        obj.serialize (indentGap options) [] ++ ['\x0a'] := rfl
    rw [h1, h]
    rfl

theorem formatJSON_roundTrip_witness :
    formatTestObject.wellFormed = true ∧
      JSON.parse (formatJSON formatTestObject ⟨none, none⟩) = some formatTestObject :=
  ⟨by decide, (formatJSON_roundTrip formatTestObject ⟨none, none⟩ (by decide)).1⟩

/-! ### The five replacements as one substitution -/

theorem token_isPrefixOf (u t : Token) (rest : List Char) :
    u.text.data.isPrefixOf (t.text.data ++ rest) = decide (u = t) := by
  by_cases h : u = t
  · subst h
    simp only [decide_True]
    exact List.isPrefixOf_iff_prefix.mpr (List.prefix_append _ _)
  · simp only [h, decide_False]
    have hc := token_text_clear u t (fun e => h e.symm)
    have hd : agreeOnOverlap u.text.data t.text.data = false := by
      cases ht : t.text.data with
      | nil =>
        have := token_text_head t
        rw [ht] at this
        simp at this
      | cons c cs =>
        rw [ht] at hc
        simp only [clearOf, Bool.and_eq_true, Bool.not_eq_true'] at hc
        exact hc.1
    exact isPrefixOf_of_disagree _ _ rest hd

theorem tokenAt_token (t : Token) (rest : List Char) :
    tokenAt (t.text.data ++ rest) = some t := by
  unfold tokenAt
  cases t <;> simp [List.find?, token_isPrefixOf]

theorem tokenAt_of_no_brace (c : Char) (cs : List Char) (h : c ≠ '\x7b') :
    tokenAt (c :: cs) = none := by
  have hp : ∀ t : Token, t.text.data.isPrefixOf (c :: cs) = false := by
    intro t
    cases ht : t.text.data with
    | nil =>
      have := token_text_head t
      rw [ht] at this
      simp at this
    | cons a as =>
      have := token_text_head t
      rw [ht] at this
      simp only [List.head?_cons, Option.some.injEq] at this
      subst this
      have hne : ('\x7b' == c) = false := by simpa using fun e : '\x7b' = c => h e.symm
      simp [List.isPrefixOf, hne]
  simp [tokenAt, List.find?, hp]

theorem substituteTokensGo_skip (val : Token → String) (xs rest : List Char) :
    substituteTokensGo val (xs ++ rest) xs.length = substituteTokensGo val rest 0 := by
  induction xs with
  | nil =>
    cases rest <;> rfl
  | cons x xs ih =>
    rw [List.cons_append, List.length_cons]
    show substituteTokensGo val (xs ++ rest) xs.length = _
    exact ih

theorem substituteTokensGo_literal (val : Token → String) (xs rest : List Char)
    (h : '\x7b' ∉ xs) :
    substituteTokensGo val (xs ++ rest) 0 = xs ++ substituteTokensGo val rest 0 := by
  induction xs with
  | nil => rfl
  | cons x xs ih =>
    have hx : x ≠ '\x7b' := fun e => h (by simp [e])
    have hxs : '\x7b' ∉ xs := fun e => h (List.mem_cons_of_mem _ e)
    rw [List.cons_append]
    show (match tokenAt (x :: (xs ++ rest)) with
      | some t => (val t).data ++ substituteTokensGo val (xs ++ rest) (t.text.data.length - 1)
      | none => x :: substituteTokensGo val (xs ++ rest) 0) = _
    rw [tokenAt_of_no_brace x _ hx]
    simp only [ih hxs, List.cons_append]

theorem substituteTokensGo_token (val : Token → String) (t : Token) (rest : List Char) :
    substituteTokensGo val (t.text.data ++ rest) 0 =
      (val t).data ++ substituteTokensGo val rest 0 := by
  cases ht : t.text.data with
  | nil =>
    have := token_text_head t
    rw [ht] at this
    simp at this
  | cons c cs =>
    have hat := tokenAt_token t rest
    rw [ht] at hat
    rw [List.cons_append]
    show (match tokenAt (c :: (cs ++ rest)) with
      | some u => (val u).data ++ substituteTokensGo val (cs ++ rest) (u.text.data.length - 1)
      | none => c :: substituteTokensGo val (cs ++ rest) 0) = _
    rw [← List.cons_append, hat]
    simp only [ht, List.length_cons, Nat.add_sub_cancel]
    rw [substituteTokensGo_skip]

theorem substituteTokensGo_renderChars (val : Token → String) (ps : List Piece)
    (hlit : ∀ x, Piece.lit x ∈ ps → '\x7b' ∉ x.data) :
    substituteTokensGo val (renderChars (fun _ => none) ps) 0 =
      renderChars (fun t => some (val t)) ps := by
  induction ps with
  | nil => rfl
  | cons q ps ih =>
    have hlit1 : ∀ x, Piece.lit x ∈ ps → '\x7b' ∉ x.data := fun x hx =>
      hlit x (List.mem_cons_of_mem _ hx)
    cases q with
    | lit x =>
      simp only [renderChars]
      rw [substituteTokensGo_literal val _ _ (hlit x (List.mem_cons_self _ _)), ih hlit1]
    | tok t =>
      simp only [renderChars, Option.getD_none, Option.getD_some]
      rw [substituteTokensGo_token, ih hlit1]

theorem substituteTokens_templateOf (val : Token → String) (ps : List Piece)
    (hlit : ∀ x, Piece.lit x ∈ ps → '\x7b' ∉ x.data) :
    substituteTokens val (templateOf ps) = render (fun t => some (val t)) ps := by
  unfold substituteTokens templateOf render
  exact congrArg String.mk (substituteTokensGo_renderChars val ps hlit)

theorem valuesOf_eq_tokenValues (slug collection path login name : String) :
    valuesOf slug collection path login name =
      fun t => some (tokenValues slug collection path login name t) := by
  funext t
  cases t <;> rfl

/-- The five successive `replaceAll` calls on a template given by its pieces, for arbitrary
values without an opening brace or a dollar sign: each token is replaced by its value. -/
theorem replaceAll_chain_render (ps : List Piece) (slug collection path login name : String)
    (hlit : ∀ x, Piece.lit x ∈ ps → '\x7b' ∉ x.data)
    (hs : '\x7b' ∉ slug.data ∧ '$' ∉ slug.data)
    (hc : '\x7b' ∉ collection.data ∧ '$' ∉ collection.data)
    (hp : '\x7b' ∉ path.data ∧ '$' ∉ path.data)
    (hl : '\x7b' ∉ login.data ∧ '$' ∉ login.data)
    (hn : '\x7b' ∉ name.data ∧ '$' ∉ name.data) :
    JS.replaceAll (JS.replaceAll (JS.replaceAll (JS.replaceAll (JS.replaceAll
      (templateOf ps) "\x7b\x7bslug\x7d\x7d" slug)
      "\x7b\x7bcollection\x7d\x7d" collection)
      "\x7b\x7bpath\x7d\x7d" path)
      "\x7b\x7bauthor-login\x7d\x7d" login)
      "\x7b\x7bauthor-name\x7d\x7d" name =
      render (valuesOf slug collection path login name) ps := by
  have v0 : ∀ u w, (fun _ : Token => (none : Option String)) u = some w → '\x7b' ∉ w.data := by
    intro u w h
    cases h
  have v1 := update_no_brace _ .slug _ v0 hs.1
  have v2 := update_no_brace _ .collection _ v1 hc.1
  have v3 := update_no_brace _ .path _ v2 hp.1
  have v4 := update_no_brace _ .authorLogin _ v3 hl.1
  have h1 := replaceAll_render .slug _ hs.2 _ rfl v0 ps hlit
  have h2 := replaceAll_render .collection _ hc.2 _ (by simp [Function.update]) v1 ps hlit
  have h3 := replaceAll_render .path _ hp.2 _ (by simp [Function.update]) v2 ps hlit
  have h4 := replaceAll_render .authorLogin _ hl.2 _ (by simp [Function.update]) v3 ps hlit
  have h5 := replaceAll_render .authorName _ hn.2 _ (by simp [Function.update]) v4 ps hlit
  have hfin : Function.update (Function.update (Function.update (Function.update
      (Function.update (fun _ : Token => (none : Option String)) .slug (some slug))
      .collection (some collection)) .path (some path)) .authorLogin (some login))
      .authorName (some name) = valuesOf slug collection path login name := by
    funext u
    cases u <;> simp [Function.update, valuesOf]
  have h1b : JS.replaceAll (templateOf ps) "\x7b\x7bslug\x7d\x7d" slug = _ := h1
  have h2b : JS.replaceAll _ "\x7b\x7bcollection\x7d\x7d" collection = _ := h2
  have h3b : JS.replaceAll _ "\x7b\x7bpath\x7d\x7d" path = _ := h3
  have h4b : JS.replaceAll _ "\x7b\x7bauthor-login\x7d\x7d" login = _ := h4
  have h5b : JS.replaceAll _ "\x7b\x7bauthor-name\x7d\x7d" name = _ := h5
  rw [h1b, h2b, h3b, h4b, h5b, hfin]

/-- C28: for the commit types `create`, `update` and `delete`, when the template is a
concatenation of brace-free literal text and the five tokens `{{slug}}`, `{{collection}}`,
`{{path}}`, `{{author-login}}` and `{{author-name}}`, and none of the substituted values (slug,
collection label, path, login, name) contains an opening brace, a closing brace or a dollar
sign, the message produced by the five successive `replaceAll` calls equals the single
simultaneous substitution of the five tokens in the template, which is the concatenation with
each token replaced by its value. -/
theorem createCommitMessage_simultaneous {κ : Type} (env : CommitEnv κ)
    (changes : List FileChange) (options : CommitOptions κ) (ps : List Piece)
    (hct : commitTypeOf options = .create ∨ commitTypeOf options = .update ∨
      commitTypeOf options = .delete)
    (hsel : selectTemplate env options = templateOf ps)
    (hlit : ∀ x, Piece.lit x ∈ ps → '\x7b' ∉ x.data ∧ '\x7d' ∉ x.data)
    (hvals : ∀ v ∈ [firstSlug changes, collectionLabel env options,
        JS.toStringOrUndefined (firstPath changes), env.user.login.getD "",
        env.user.name.getD ""],
      '\x7b' ∉ v.data ∧ '\x7d' ∉ v.data ∧ '$' ∉ v.data) :
    JS.replaceAll (JS.replaceAll (JS.replaceAll (JS.replaceAll (JS.replaceAll
        (selectTemplate env options) "\x7b\x7bslug\x7d\x7d" (firstSlug changes))
        "\x7b\x7bcollection\x7d\x7d" (collectionLabel env options))
        "\x7b\x7bpath\x7d\x7d" (JS.toStringOrUndefined (firstPath changes)))
        "\x7b\x7bauthor-login\x7d\x7d" (env.user.login.getD ""))
        "\x7b\x7bauthor-name\x7d\x7d" (env.user.name.getD "") =
      substituteTokens (tokenValues (firstSlug changes) (collectionLabel env options)
        (JS.toStringOrUndefined (firstPath changes)) (env.user.login.getD "")
        (env.user.name.getD "")) (selectTemplate env options) ∧
    substitutedMessage env changes options =
      substituteTokens (tokenValues (firstSlug changes) (collectionLabel env options)
        (JS.toStringOrUndefined (firstPath changes)) (env.user.login.getD "")
        (env.user.name.getD "")) (selectTemplate env options) ∧
    substituteTokens (tokenValues (firstSlug changes) (collectionLabel env options)
        (JS.toStringOrUndefined (firstPath changes)) (env.user.login.getD "")
        (env.user.name.getD "")) (selectTemplate env options) =
      render (valuesOf (firstSlug changes) (collectionLabel env options)
        (JS.toStringOrUndefined (firstPath changes)) (env.user.login.getD "")
        (env.user.name.getD "")) ps := by
  have hlit1 : ∀ x, Piece.lit x ∈ ps → '\x7b' ∉ x.data := fun x hx => (hlit x hx).1
  have hs := hvals (firstSlug changes) (by simp)
  have hc := hvals (collectionLabel env options) (by simp)
  have hp := hvals (JS.toStringOrUndefined (firstPath changes)) (by simp)
  have hl := hvals (env.user.login.getD "") (by simp)
  have hn := hvals (env.user.name.getD "") (by simp)
  have hchain := replaceAll_chain_render ps (firstSlug changes) (collectionLabel env options)
    (JS.toStringOrUndefined (firstPath changes)) (env.user.login.getD "")
    (env.user.name.getD "") hlit1 ⟨hs.1, hs.2.2⟩ ⟨hc.1, hc.2.2⟩ ⟨hp.1, hp.2.2⟩ ⟨hl.1, hl.2.2⟩
    ⟨hn.1, hn.2.2⟩
  have hsub : substituteTokens (tokenValues (firstSlug changes) (collectionLabel env options)
        (JS.toStringOrUndefined (firstPath changes)) (env.user.login.getD "")
        (env.user.name.getD "")) (templateOf ps) =
      render (valuesOf (firstSlug changes) (collectionLabel env options)
        (JS.toStringOrUndefined (firstPath changes)) (env.user.login.getD "")
        (env.user.name.getD "")) ps := by
    rw [substituteTokens_templateOf _ ps hlit1, valuesOf_eq_tokenValues]
  have hmsg := substituteTemplate_entry env changes options ps hct hlit1 ⟨hs.1, hs.2.2⟩
    ⟨hc.1, hc.2.2⟩ ⟨hp.1, hp.2.2⟩ ⟨hl.1, hl.2.2⟩ ⟨hn.1, hn.2.2⟩
  rw [hsel]
  refine ⟨?_, ?_, hsub⟩
  · rw [hchain, hsub]
  · unfold substitutedMessage
    rw [hsel, hmsg, hsub]

theorem createCommitMessage_simultaneous_witness :
    substitutedMessage (⟨⟨none, none⟩, ⟨some "octocat", none⟩, fun _ _ => "Posts"⟩ :
        CommitEnv Unit)
      [⟨"content/posts/my-post.md", some "my-post"⟩] ⟨some .create, some (), none⟩ =
      substituteTokens (tokenValues "my-post" "Posts" "content/posts/my-post.md" "octocat" "")
        "Create \x7b\x7bcollection\x7d\x7d “\x7b\x7bslug\x7d\x7d”" ∧
    substituteTokens (tokenValues "my-post" "Posts" "content/posts/my-post.md" "octocat" "")
        "Create \x7b\x7bcollection\x7d\x7d “\x7b\x7bslug\x7d\x7d”" = "Create Posts “my-post”" :=
  ⟨(createCommitMessage_simultaneous
      (⟨⟨none, none⟩, ⟨some "octocat", none⟩, fun _ _ => "Posts"⟩ : CommitEnv Unit)
      [⟨"content/posts/my-post.md", some "my-post"⟩] ⟨some .create, some (), none⟩
      [.lit "Create ", .tok .collection, .lit " “", .tok .slug, .lit "”"]
      (Or.inl rfl) (by decide)
      (by
        intro x hx
        simp only [List.mem_cons, Piece.lit.injEq, List.mem_singleton, reduceCtorEq, or_false,
          false_or, List.not_mem_nil] at hx
        rcases hx with rfl | rfl | rfl <;> decide)
      (by decide)).2.1, by decide⟩

/-! ### The commit type `openAuthoring` -/

theorem replaceAll_of_no_brace (subject search repl : String)
    (hs : search.data.head? = some '\x7b') (h : '\x7b' ∉ subject.data) :
    JS.replaceAll subject search repl = subject := by
  have hne : search.data ≠ [] := by
    intro e
    rw [e] at hs
    simp at hs
  have h1 := replaceAllGo_clear search.data repl.data subject.data [] []
    (clearOf_of_no_brace _ _ hs h)
  rw [List.append_nil] at h1
  unfold JS.replaceAll
  rw [h1]
  simp [JS.replaceAllGo, hne]

/-- For the commit type `openAuthoring` the message is the selected template after three
`replaceAll` calls, the first of which puts the name of the commit type itself in the place of
`{{message}}`; with the default template the message is `openAuthoring` for every change list
and every user. -/
theorem substitutedMessage_openAuthoring {κ : Type} (env : CommitEnv κ)
    (changes : List FileChange) (options : CommitOptions κ)
    (hct : commitTypeOf options = .openAuthoring) :
    substitutedMessage env changes options =
      JS.replaceAll (JS.replaceAll (JS.replaceAll (selectTemplate env options)
        "\x7b\x7bmessage\x7d\x7d" "openAuthoring")
        "\x7b\x7bauthor-login\x7d\x7d" (env.user.login.getD ""))
        "\x7b\x7bauthor-name\x7d\x7d" (env.user.name.getD "") ∧
    ((∀ custom, env.backend.commit_messages = some custom →
        custom .openAuthoring = none ∨ custom .openAuthoring = some "") →
      selectTemplate env options = "\x7b\x7bmessage\x7d\x7d" ∧
      substitutedMessage env changes options = "openAuthoring") := by
  have h1 : substitutedMessage env changes options =
      JS.replaceAll (JS.replaceAll (JS.replaceAll (selectTemplate env options)
        "\x7b\x7bmessage\x7d\x7d" "openAuthoring")
        "\x7b\x7bauthor-login\x7d\x7d" (env.user.login.getD ""))
        "\x7b\x7bauthor-name\x7d\x7d" (env.user.name.getD "") := by
    simp [substitutedMessage, substituteTemplate, hct, CommitType.toString]
  refine ⟨h1, ?_⟩
  intro hcustom
  have hsel : selectTemplate env options = "\x7b\x7bmessage\x7d\x7d" := by
    unfold selectTemplate
    rw [hct]
    cases hcm : env.backend.commit_messages with
    | none => rfl
    | some custom =>
      rcases hcustom custom hcm with h | h
      · simp only [Option.getD_some, h]
        rfl
      · simp only [Option.getD_some, h]
        rfl
  refine ⟨hsel, ?_⟩
  rw [h1, hsel]
  have h2 : JS.replaceAll "\x7b\x7bmessage\x7d\x7d" "\x7b\x7bmessage\x7d\x7d" "openAuthoring" =
      "openAuthoring" := by decide
  rw [h2, replaceAll_of_no_brace "openAuthoring" _ _ (by decide) (by decide),
    replaceAll_of_no_brace "openAuthoring" _ _ (by decide) (by decide)]

/-- C26 fails on the code at a user name holding a replacement pattern: for `openAuthoring`
with the custom template `{{message}} by {{author-name}}` and the user name `Ca$$h`, the
message is `openAuthoring by Ca$h`, the two dollar signs of the name becoming one, and with the
login `$&` the token `{{author-login}}` is put back in the place of the login.  The claim
prescribes the name and the login themselves.  With the default template the message is
`openAuthoring` for the same users, whatever the change list. -/
theorem createCommitMessage_openAuthoring_dollar_name :
    createCommitMessage
        (⟨⟨some (fun t => if t = .openAuthoring then
            some "\x7b\x7bmessage\x7d\x7d by \x7b\x7bauthor-name\x7d\x7d" else none), none⟩,
          ⟨some "octocat", some "Ca$$h"⟩, fun _ _ => ""⟩ : CommitEnv Unit)
        [⟨"content/posts/my-post.md", some "my-post"⟩] ⟨some .openAuthoring, none, none⟩ =
        "openAuthoring by Ca$h" ∧
      createCommitMessage
        (⟨⟨some (fun t => if t = .openAuthoring then
            some "\x7b\x7bmessage\x7d\x7d (\x7b\x7bauthor-login\x7d\x7d)" else none), none⟩,
          ⟨some "$&", some "Octo Cat"⟩, fun _ _ => ""⟩ : CommitEnv Unit)
        [] ⟨some .openAuthoring, none, none⟩ =
        "openAuthoring (\x7b\x7bauthor-login\x7d\x7d)" ∧
      createCommitMessage
        (⟨⟨none, none⟩, ⟨some "octocat", some "Ca$$h"⟩, fun _ _ => ""⟩ : CommitEnv Unit)
        [⟨"content/posts/my-post.md", some "my-post"⟩] ⟨some .openAuthoring, none, none⟩ =
        "openAuthoring" ∧
      createCommitMessage
        (⟨⟨none, none⟩, ⟨some "octocat", some "Ca$$h"⟩, fun _ _ => ""⟩ : CommitEnv Unit)
        [] ⟨some .openAuthoring, none, none⟩ = "openAuthoring" := by
  refine ⟨?_, ?_, ?_, ?_⟩ <;> decide

/-! ### The author of the last commit -/

theorem isDigit_eq (c : Char) : (decide ('0' ≤ c) && decide (c ≤ '9')) = c.isDigit := by
  simp only [Char.isDigit, Char.le_def]
  rfl

theorem firstDigitRun_eq (s : List Char) :
    firstDigitRun s =
      if (s.dropWhile (fun c => !c.isDigit)).takeWhile Char.isDigit = [] then none
      else some ((s.dropWhile (fun c => !c.isDigit)).takeWhile Char.isDigit) := by
  unfold firstDigitRun
  have h1 : (fun c : Char => !(decide ('0' ≤ c) && decide (c ≤ '9'))) =
      fun c => !c.isDigit := by
    funext c
    rw [isDigit_eq]
  have h2 : (fun c : Char => decide ('0' ≤ c) && decide (c ≤ '9')) = Char.isDigit := by
    funext c
    rw [isDigit_eq]
  rw [h1, h2]
  cases h : (s.dropWhile (fun c => !c.isDigit)).takeWhile Char.isDigit with
  | nil => rfl
  | cons c cs => rfl

theorem firstDigitRun_none (s : List Char) (h : ∀ c ∈ s, c.isDigit = false) :
    firstDigitRun s = none := by
  rw [firstDigitRun_eq]
  have : s.dropWhile (fun c => !c.isDigit) = [] := by
    rw [List.dropWhile_eq_nil_iff]
    intro c hc
    simp [h c hc]
  rw [this]
  rfl

theorem firstDigitRun_some (s : List Char) (h : ∃ c ∈ s, c.isDigit = true) :
    ∃ pre run post, s = pre ++ run ++ post ∧ (∀ c ∈ pre, c.isDigit = false) ∧ run ≠ [] ∧
      (∀ c ∈ run, c.isDigit = true) ∧ (∀ c, post.head? = some c → c.isDigit = false) ∧
      firstDigitRun s = some run := by
  have hd : s.dropWhile (fun c => !c.isDigit) ≠ [] := by
    intro e
    rw [List.dropWhile_eq_nil_iff] at e
    obtain ⟨c, hc, hdig⟩ := h
    have := e c hc
    simp [hdig] at this
  have hhead := List.head?_dropWhile_not (fun c : Char => !c.isDigit) s
  have hrun : (s.dropWhile (fun c => !c.isDigit)).takeWhile Char.isDigit ≠ [] := by
    cases hdl : s.dropWhile (fun c => !c.isDigit) with
    | nil => exact absurd hdl hd
    | cons c cs =>
      rw [hdl] at hhead
      simp only [List.head?_cons, Bool.not_eq_true, Option.mem_def, Option.some.injEq, forall_eq',
        Bool.not_eq_false', Bool.not_not] at hhead
      have hc : c.isDigit = true := by simpa using hhead
      simp [List.takeWhile, hc]
  refine ⟨s.takeWhile (fun c => !c.isDigit),
    (s.dropWhile (fun c => !c.isDigit)).takeWhile Char.isDigit,
    (s.dropWhile (fun c => !c.isDigit)).dropWhile Char.isDigit, ?_, ?_, hrun, ?_, ?_, ?_⟩
  · rw [List.append_assoc, List.takeWhile_append_dropWhile, List.takeWhile_append_dropWhile]
  · intro c hc
    have := List.mem_takeWhile_imp hc
    simpa using this
  · intro c hc
    exact List.mem_takeWhile_imp hc
  · intro c hc
    have := List.head?_dropWhile_not Char.isDigit (s.dropWhile (fun c => !c.isDigit))
    rw [hc] at this
    simpa using this
  · rw [firstDigitRun_eq, if_neg hrun]
theorem floorLog2Go_spec :
    ∀ (fuel n : Nat), n ≤ fuel → 0 < n →
      2 ^ floorLog2Go fuel n ≤ n ∧ n < 2 ^ (floorLog2Go fuel n + 1)
  | 0, n, h, h0 => by omega
  | fuel + 1, n, h, h0 => by
    unfold floorLog2Go
    by_cases h2 : n < 2
    · simp only [h2, if_true]
      omega
    · simp only [h2, if_false]
      obtain ⟨i1, i2⟩ := floorLog2Go_spec fuel (n / 2) (by omega) (by omega)
      rw [pow_succ] at i2 ⊢
      rw [pow_succ]
      omega

theorem floorLog2_spec (n : Nat) (h : 0 < n) :
    2 ^ floorLog2 n ≤ n ∧ n < 2 ^ (floorLog2 n + 1) :=
  floorLog2Go_spec n n (Nat.le_refl n) h

theorem roundHalfEven_near (p q : Nat) (hq : 0 < q) :
    2 * (roundHalfEven p q * q) ≤ 2 * p + q ∧ 2 * p ≤ 2 * (roundHalfEven p q * q) + q := by
  have h1 := Nat.div_add_mod p q
  have h2 := Nat.mod_lt p hq
  have h3 : (p / q + 1) * q = q * (p / q) + q := by ring
  have h4 : p / q * q = q * (p / q) := by ring
  unfold roundHalfEven
  split
  · rw [h4]; omega
  · split
    · rw [h3]; omega
    · split
      · rw [h4]; omega
      · rw [h3]; omega

set_option exponentiation.threshold 2048 in
set_option maxRecDepth 100000 in
theorem nearestDouble_two_pow_53 : nearestDouble (2 ^ 53) = .finite (2 ^ 53) := by
  decide

/-- Below `2 ^ 53`, and at `2 ^ 53` itself, the nearest double is the number. -/
theorem nearestDouble_exact (n : Nat) (h : n ≤ 2 ^ 53) : nearestDouble n = .finite n := by
  rcases Nat.lt_or_ge n (2 ^ 53) with h1 | h1
  · unfold nearestDouble
    rw [if_pos h1]
  · have : n = 2 ^ 53 := Nat.le_antisymm h h1
    subst this
    exact nearestDouble_two_pow_53

/-- From `2 ^ 53` on, a finite result of `nearestDouble` is a double and no further from the
number than half the distance between neighbouring doubles: it is `m * 2 ^ e` with
`2 ^ 52 ≤ m ≤ 2 ^ 53`, where `2 ^ (e + 52) ≤ n < 2 ^ (e + 53)`, and differs from `n` by at
most `2 ^ e / 2`; the result is `Infinity` only when that multiple is `2 ^ 1024` or more. -/
theorem nearestDouble_near (n : Nat) (h : 2 ^ 53 ≤ n) :
    ∃ m e, 2 ^ (e + 52) ≤ n ∧ n < 2 ^ (e + 53) ∧ 2 ^ 52 ≤ m ∧ m ≤ 2 ^ 53 ∧
      2 * (m * 2 ^ e) ≤ 2 * n + 2 ^ e ∧ 2 * n ≤ 2 * (m * 2 ^ e) + 2 ^ e ∧
      nearestDouble n = if m * 2 ^ e < 2 ^ 1024 then .finite (m * 2 ^ e) else .infinity := by
  have hpos : 0 < n := Nat.lt_of_lt_of_le (by decide) h
  obtain ⟨l1, l2⟩ := floorLog2_spec n hpos
  have hk : 53 ≤ floorLog2 n := by
    by_contra hlt
    have h5 : floorLog2 n + 1 ≤ 53 := by omega
    have := Nat.pow_le_pow_right (show 0 < 2 by decide) h5
    omega
  have he : floorLog2 n - 52 + 52 = floorLog2 n := by omega
  have hunit : 0 < 2 ^ (floorLog2 n - 52) := pow_pos (by decide) _
  obtain ⟨r1, r2⟩ := roundHalfEven_near n (2 ^ (floorLog2 n - 52)) hunit
  have hsplit : 2 ^ floorLog2 n = 2 ^ 52 * 2 ^ (floorLog2 n - 52) := by
    rw [← pow_add]
    congr 1
    omega
  have hsplit' : 2 ^ (floorLog2 n + 1) = 2 ^ 53 * 2 ^ (floorLog2 n - 52) := by
    rw [← pow_add]
    congr 1
    omega
  refine ⟨roundHalfEven n (2 ^ (floorLog2 n - 52)), floorLog2 n - 52, ?_, ?_, ?_, ?_, r1, r2,
    ?_⟩
  · rw [he]; exact l1
  · rw [show floorLog2 n - 52 + 53 = floorLog2 n + 1 by omega]; exact l2
  · by_contra hlt
    have h6 : roundHalfEven n (2 ^ (floorLog2 n - 52)) + 1 ≤ 2 ^ 52 := by omega
    have h7 := Nat.mul_le_mul_right (2 ^ (floorLog2 n - 52)) h6
    rw [← hsplit, Nat.add_mul, Nat.one_mul] at h7
    omega
  · by_contra hgt
    have h6 : 2 ^ 53 + 1 ≤ roundHalfEven n (2 ^ (floorLog2 n - 52)) := by omega
    have h7 := Nat.mul_le_mul_right (2 ^ (floorLog2 n - 52)) h6
    rw [Nat.add_mul, Nat.one_mul, ← hsplit'] at h7
    omega
  · have hn : ¬n < 2 ^ 53 := by omega
    unfold nearestDouble
    rw [if_neg hn]

set_option exponentiation.threshold 2048 in
set_option maxRecDepth 100000 in
/-- Samples of `nearestDouble`: the neighbours of `2 ^ 53`, ties going to the even mantissa,
the largest number that stays finite and the smallest that becomes `Infinity`. -/
theorem nearestDouble_samples :
    nearestDouble 123 = .finite 123 ∧
      nearestDouble 9007199254740993 = .finite 9007199254740992 ∧
      nearestDouble 9007199254740995 = .finite 9007199254740996 ∧
      nearestDouble 18014398509481987 = .finite 18014398509481988 ∧
      nearestDouble (2 ^ 1024 - 2 ^ 970 - 1) = .finite (2 ^ 1024 - 2 ^ 971) ∧
      nearestDouble (2 ^ 1024 - 2 ^ 970) = .infinity ∧
      nearestDouble (10 ^ 400) = .infinity := by
  decide

theorem metaOf_commitAuthor (commit : GitLabCommit) :
    ∃ author, (metaOf (some commit)).commitAuthor = some author ∧
      author.name = commit.authorName ∧ author.email = commit.authorEmail ∧
      author.login = commit.author.bind (fun a => a.username) ∧
      (commit.author = none → author.id = none) ∧
      (∀ a, commit.author = some a → a.id = none → author.id = none) ∧
      (∀ a id, commit.author = some a → a.id = some id →
        (∀ c ∈ id.data, c.isDigit = false) → author.id = none) ∧
      (∀ a id, commit.author = some a → a.id = some id → (∃ c ∈ id.data, c.isDigit = true) →
        ∃ pre run post, id.data = pre ++ run ++ post ∧ (∀ c ∈ pre, c.isDigit = false) ∧
          run ≠ [] ∧ (∀ c ∈ run, c.isDigit = true) ∧
          (∀ c, post.head? = some c → c.isDigit = false) ∧
          author.id = some ⟨⟨run⟩⟩ ∧
          author.id.bind NumberOfString.value? = some (nearestDouble (digitsValue run))) := by
  refine ⟨_, rfl, rfl, rfl, rfl, ?_, ?_, ?_, ?_⟩
  · intro h
    simp [h]
  · intro a h1 h2
    simp [h1, h2]
  · intro a id h1 h2 h3
    simp [h1, h2, firstDigitRun_none id.data h3]
  · intro a id h1 h2 h3
    obtain ⟨pre, run, post, e1, e2, e3, e4, e5, e6⟩ := firstDigitRun_some id.data h3
    refine ⟨pre, run, post, e1, e2, e3, e4, e5, by simp [h1, h2, e6], ?_⟩
    simp [h1, h2, e6, NumberOfString.value?, e3]
    exact e4

set_option exponentiation.threshold 2048 in
set_option maxRecDepth 100000 in
/-- C27 fails on the code at an id whose number is not a double: for the author id
`gid://gitlab/User/9007199254740993` the first run of digits writes 9007199254740993, and
`parseFileContents` sets `commitAuthor.id` to `Number` of the run, which is the double
9007199254740992. -/
theorem parseFileContents_commitAuthor_large_id :
    (((match parseFileContents [⟨"a.md", "sha-a", 0, "a.md"⟩] [⟨"7", "text of a.md"⟩]
          [⟨some ⟨some "gid://gitlab/User/9007199254740993", some "octocat"⟩, "Octo Cat",
            "octo@example.com", "2024-01-01T00:00:00Z"⟩] with
        | .ok contents => contents.get? "a.md"
        | .failed _ => none).bind (fun data => data.meta.commitAuthor)).bind
          (fun author => author.id)).bind NumberOfString.value? =
        some (.finite 9007199254740992) ∧
      firstDigitRun "gid://gitlab/User/9007199254740993".data =
        some "9007199254740993".data ∧
      digitsValue "9007199254740993".data = 9007199254740993 := by
  decide

/-- C27: for every file that has a commit at its index, `parseFileContents` sets
`commitAuthor.id` to `Number` of the first run of decimal digits in the opaque id of the
commit author, which is the double nearest to the number that the run writes and that number
itself whenever it is at most `2 ^ 53` (123 for `gid://gitlab/User/123`), and to `undefined`
when the author is `null`, has no id, or the id contains no digit; `commitAuthor.name` and
`commitAuthor.email` are the `authorName` and `authorEmail` of the commit in every one of these
cases. -/
theorem parseFileContents_commitAuthor (files : List BaseFileListItem) (blobs : List BlobItem)
    (commits : List GitLabCommit) (i : Nat) (f : BaseFileListItem) (commit : GitLabCommit)
    (hblobs : files.length ≤ blobs.length) (hf : files[i]? = some f)
    (hc : commits[i]? = some commit) :
    ∃ entries data author, fileEntries blobs commits 0 files = .ok entries ∧
      parseFileContents files blobs commits = .ok (fromEntries entries) ∧
      entries[i]? = some (f.path, data) ∧
      data.meta.commitAuthor = some author ∧
      author.name = commit.authorName ∧ author.email = commit.authorEmail ∧
      (commit.author = none → author.id = none) ∧
      (∀ a, commit.author = some a → a.id = none → author.id = none) ∧
      (∀ a id, commit.author = some a → a.id = some id →
        (∀ c ∈ id.data, c.isDigit = false) → author.id = none) ∧
      (∀ a id, commit.author = some a → a.id = some id → (∃ c ∈ id.data, c.isDigit = true) →
        ∃ pre run post, id.data = pre ++ run ++ post ∧ (∀ c ∈ pre, c.isDigit = false) ∧
          run ≠ [] ∧ (∀ c ∈ run, c.isDigit = true) ∧
          (∀ c, post.head? = some c → c.isDigit = false) ∧
          author.id = some ⟨⟨run⟩⟩ ∧
          author.id.bind NumberOfString.value? = some (nearestDouble (digitsValue run)) ∧
          (digitsValue run ≤ 2 ^ 53 →
            author.id.bind NumberOfString.value? = some (.finite (digitsValue run)))) ∧
      ((metaOf (some ⟨some ⟨some "gid://gitlab/User/123", some "octocat"⟩, "Octo Cat",
          "octo@example.com", "2024-01-01T00:00:00Z"⟩)).commitAuthor.bind (fun x => x.id)).bind
          NumberOfString.value? = some (.finite 123) := by
  obtain ⟨entries, h1, _, h3⟩ := fileEntries_ok blobs commits files 0 (by omega)
  have hi : i < files.length := by
    rcases Nat.lt_or_ge i files.length with h | h
    · exact h
    · rw [List.getElem?_eq_none h] at hf
      cases hf
  have hb : blobs[i]? = some blobs[i] := List.getElem?_eq_getElem (by omega)
  have he := h3 i f blobs[i] hf (by simp [hb])
  simp only [Nat.zero_add, hc] at he
  obtain ⟨author, a1, a2, a3, _, a5, a6, a7, a8⟩ := metaOf_commitAuthor commit
  refine ⟨entries, _, author, h1, by simp only [parseFileContents, h1], he, a1, a2, a3, a5, a6,
    a7, ?_, by decide⟩
  intro a id g1 g2 g3
  obtain ⟨pre, run, post, e1, e2, e3, e4, e5, e6, e7⟩ := a8 a id g1 g2 g3
  refine ⟨pre, run, post, e1, e2, e3, e4, e5, e6, e7, ?_⟩
  intro hle
  rw [e7, nearestDouble_exact _ hle]

/-- C27 at a file with one commit whose author has the id `gid://gitlab/User/123`: the entry
has the author's name and email. -/
theorem parseFileContents_commitAuthor_witness :
    ∃ entries data author,
      fileEntries [⟨"7", "text of a.md"⟩]
        [⟨some ⟨some "gid://gitlab/User/123", some "octocat"⟩, "Octo Cat", "octo@example.com",
          "2024-01-01T00:00:00Z"⟩] 0 [⟨"a.md", "sha-a", 0, "a.md"⟩] = .ok entries ∧
      entries[0]? = some ("a.md", data) ∧
      data.meta.commitAuthor = some author ∧
      author.name = "Octo Cat" ∧ author.email = "octo@example.com" := by
  obtain ⟨entries, data, author, h1, _, h3, h4, h5, h6, _⟩ :=
    parseFileContents_commitAuthor [⟨"a.md", "sha-a", 0, "a.md"⟩] [⟨"7", "text of a.md"⟩]
      [⟨some ⟨some "gid://gitlab/User/123", some "octocat"⟩, "Octo Cat", "octo@example.com",
        "2024-01-01T00:00:00Z"⟩] 0 ⟨"a.md", "sha-a", 0, "a.md"⟩
      ⟨some ⟨some "gid://gitlab/User/123", some "octocat"⟩, "Octo Cat", "octo@example.com",
        "2024-01-01T00:00:00Z"⟩ (by decide) rfl rfl
  exact ⟨entries, data, author, h1, h3, h4, h5, h6⟩

/-! ### Missing blobs and missing commits -/

theorem fileEntries_failed (blobs : List BlobItem) (commits : List GitLabCommit) :
    ∀ (files : List BaseFileListItem) (index : Nat), index ≤ blobs.length →
      blobs.length < index + files.length →
      fileEntries blobs commits index files =
        .failed (.typeError "Cannot destructure property of undefined") := by
  intro files
  induction files with
  | nil => intro index h0 h; simp at h; omega
  | cons file rest ih =>
    intro index _ h
    simp only [List.length_cons] at h
    simp only [fileEntries]
    cases hb : blobs[index]? with
    | none => rfl
    | some blob =>
      have hlt : index < blobs.length := by
        rcases Nat.lt_or_ge index blobs.length with h1 | h1
        · exact h1
        · rw [List.getElem?_eq_none h1] at hb
          cases hb
      rw [ih (index + 1) (by omega) (by omega)]

/-- C30: `parseFileContents` succeeds on every input in which a blob exists at the index of
every file, whatever the length of the commit list: the entry made for a file carries its path
and sha with the size and text of the blob at its index, and an empty `meta` when there is no
commit at that index (for every file when the commit list is empty); with pairwise distinct
paths that entry is the one stored under the path.  It fails, with a `TypeError`, exactly when
some file has no blob at its index. -/
theorem parseFileContents_total (files : List BaseFileListItem) (blobs : List BlobItem)
    (commits : List GitLabCommit) :
    (files.length ≤ blobs.length →
      ∃ entries, fileEntries blobs commits 0 files = .ok entries ∧
        parseFileContents files blobs commits = .ok (fromEntries entries) ∧
        entries.length = files.length ∧
        (∀ (i : Nat) (f : BaseFileListItem) (b : BlobItem), files[i]? = some f →
          blobs[i]? = some b →
          entries[i]? = some (f.path, ⟨f.sha, ⟨b.size⟩, b.rawTextBlob, metaOf commits[i]?⟩) ∧
          (commits[i]? = none → metaOf commits[i]? = ⟨none, none⟩) ∧
          ((files.map (fun x => x.path)).Nodup →
            (fromEntries entries).get? f.path =
              some ⟨f.sha, ⟨b.size⟩, b.rawTextBlob, metaOf commits[i]?⟩))) ∧
    (∀ i : Nat, commits = [] → metaOf commits[i]? = ⟨none, none⟩) ∧
    ((∃ e, parseFileContents files blobs commits = .failed e) ↔
      ∃ (i : Nat) (f : BaseFileListItem), files[i]? = some f ∧ blobs[i]? = none) ∧
    (∀ e, parseFileContents files blobs commits = .failed e →
      e = .typeError "Cannot destructure property of undefined") := by
  refine ⟨?_, ?_, ?_, ?_⟩
  · intro hle
    obtain ⟨entries, h1, h2, h3⟩ := fileEntries_ok blobs commits files 0 (by omega)
    refine ⟨entries, h1, by simp only [parseFileContents, h1], ?_, ?_⟩
    · have := congrArg List.length h2
      simpa using this
    · intro i f b hf hb
      have he := h3 i f b hf (by simpa using hb)
      simp only [Nat.zero_add] at he
      refine ⟨he, ?_, ?_⟩
      · intro hnone
        rw [hnone]
        rfl
      · intro hnodup
        have hfe : fromEntries entries = entries := fromEntries_of_nodup entries (h2 ▸ hnodup)
        rw [hfe]
        exact lookup_of_getElem? entries (h2 ▸ hnodup) i f.path _ he
  · intro i hnil
    rw [hnil]
    rfl
  · constructor
    · rintro ⟨e, he⟩
      rcases Nat.lt_or_ge blobs.length files.length with hlt | hge
      · have hf : files[blobs.length]? = some files[blobs.length] :=
          List.getElem?_eq_getElem hlt
        exact ⟨blobs.length, _, hf, List.getElem?_eq_none (Nat.le_refl _)⟩
      · obtain ⟨entries, h1, _, _⟩ := fileEntries_ok blobs commits files 0 (by omega)
        simp [parseFileContents, h1] at he
    · rintro ⟨i, f, hf, hb⟩
      have hi : i < files.length := by
        rcases Nat.lt_or_ge i files.length with h | h
        · exact h
        · rw [List.getElem?_eq_none h] at hf
          cases hf
      have hbi : blobs.length ≤ i := by
        rcases Nat.lt_or_ge i blobs.length with h | h
        · rw [List.getElem?_eq_getElem h] at hb
          cases hb
        · exact h
      refine ⟨.typeError "Cannot destructure property of undefined", ?_⟩
      simp only [parseFileContents, fileEntries_failed blobs commits files 0 (by omega) (by omega)]
  · intro e he
    rcases Nat.lt_or_ge blobs.length files.length with hlt | hge
    · simp only [parseFileContents, fileEntries_failed blobs commits files 0 (by omega) (by omega),
        Outcome.failed.injEq] at he
      exact he.symm
    · obtain ⟨entries, h1, _, _⟩ := fileEntries_ok blobs commits files 0 (by omega)
      simp [parseFileContents, h1] at he

/-! ### The number of requests -/

theorem issueBlobRequests_length {σ : Type} (R : Remote σ) (bs : List (List String)) (s : σ) :
    (issueBlobRequests R bs s).length ≤ bs.length ∧
      (firstFailure (issueBlobRequests R bs s) = none →
        (issueBlobRequests R bs s).length = bs.length) ∧
      (bs ≠ [] → 1 ≤ (issueBlobRequests R bs s).length) := by
  obtain ⟨h1, h2, _⟩ := issueBlobRequests_paths R bs s
  refine ⟨?_, ?_, ?_⟩
  · have := h1.length_le
    simpa using this
  · intro hf
    have := congrArg List.length (h2 hf)
    simpa using this
  · intro hne
    cases bs with
    | nil => exact absurd rfl hne
    | cons b bs =>
      simp only [issueBlobRequests]
      cases (R.blobs b s).1 <;> simp

theorem issueCommitRequests_length {σ : Type} (R : Remote σ) (bs : List (List String))
    (s : σ) :
    (issueCommitRequests R bs s).length ≤ bs.length ∧
      (firstFailure (issueCommitRequests R bs s) = none →
        (issueCommitRequests R bs s).length = bs.length) ∧
      (bs ≠ [] → 1 ≤ (issueCommitRequests R bs s).length) := by
  obtain ⟨h1, h2, _⟩ := issueCommitRequests_paths R bs s
  refine ⟨?_, ?_, ?_⟩
  · have := h1.length_le
    simpa using this
  · intro hf
    have := congrArg List.length (h2 hf)
    simpa using this
  · intro hne
    cases bs with
    | nil => exact absurd rfl hne
    | cons b bs =>
      simp only [issueCommitRequests]
      cases (R.commits b s).1 <;> simp

theorem requestBatches_ne_nil (size : Nat) (xs : List String) : requestBatches size xs ≠ [] := by
  intro h
  have := requestBatches_length size xs
  rw [h] at this
  simp only [List.length_nil] at this
  omega

/-- C29: for every path list of length `n` the batch loops of `fetchBlobs` and `fetchCommits`
terminate: each returns, and its result is the same for every bound on the number of
iterations above `n`.  At least one request is issued and at most `max(1, ⌈n / 100⌉)` and
`max(1, ⌈n / 13⌉)` respectively; exactly that many when every request is answered, a rejected
request being the last.  For the empty list the one request carries an empty batch of paths. -/
theorem fetch_loops_terminate {σ : Type} (R : Remote σ) (allPaths : List String) (w : World σ) :
    (∃ out w' issued, fetchBlobs R allPaths w = some (out, w') ∧
      (∀ fuel, allPaths.length < fuel →
        fetchBlobsLoop R allPaths fuel allPaths [] (w.setProgress (some (.nat 0))) =
          some (out, w')) ∧
      w'.exchanges = w.exchanges ++ issued ∧ (∀ x ∈ issued, x.isBlobs = true) ∧
      1 ≤ issued.length ∧ issued.length ≤ max 1 ((allPaths.length + 99) / 100) ∧
      (firstFailure issued = none → issued.length = max 1 ((allPaths.length + 99) / 100)) ∧
      (allPaths = [] → issued.map Exchange.paths = [[]])) ∧
    (∃ out w' issued, fetchCommits R allPaths w = some (out, w') ∧
      (∀ fuel, allPaths.length < fuel →
        fetchCommitsLoop R fuel allPaths [] w = some (out, w')) ∧
      w'.exchanges = w.exchanges ++ issued ∧ (∀ x ∈ issued, x.isCommits = true) ∧
      1 ≤ issued.length ∧ issued.length ≤ max 1 ((allPaths.length + 12) / 13) ∧
      (firstFailure issued = none → issued.length = max 1 ((allPaths.length + 12) / 13)) ∧
      (allPaths = [] → issued.map Exchange.paths = [[]])) ∧
    (allPaths.length ≤ 100 * max 1 ((allPaths.length + 99) / 100) ∧
      (0 < allPaths.length →
        100 * (max 1 ((allPaths.length + 99) / 100) - 1) < allPaths.length) ∧
      allPaths.length ≤ 13 * max 1 ((allPaths.length + 12) / 13) ∧
      (0 < allPaths.length →
        13 * (max 1 ((allPaths.length + 12) / 13) - 1) < allPaths.length)) := by
  refine ⟨?_, ?_, ?_⟩
  · obtain ⟨l1, l2, l3⟩ := issueBlobRequests_length R (requestBatches 100 allPaths) w.remote
    have hlen := requestBatches_length 100 allPaths
    rw [show allPaths.length + 100 - 1 = allPaths.length + 99 from by omega] at hlen
    refine ⟨_, _, issueBlobRequests R (requestBatches 100 allPaths) w.remote,
      fetchBlobs_eq R allPaths w, ?_, ?_, ?_, ?_, ?_, ?_, ?_⟩
    · intro fuel hfuel
      exact fetchBlobsLoop_eq R allPaths fuel allPaths [] _ hfuel
    · rw [runBlobBatches_exchanges]
      rfl
    · exact (issueBlobRequests_paths R _ _).2.2
    · exact l3 (requestBatches_ne_nil 100 allPaths)
    · rw [← hlen]
      exact l1
    · intro hf
      rw [← hlen]
      exact l2 hf
    · intro hnil
      subst hnil
      have : requestBatches 100 [] = [[]] := by decide
      rw [this]
      simp only [issueBlobRequests]
      cases (R.blobs [] w.remote).1 <;> rfl
  · obtain ⟨l1, l2, l3⟩ := issueCommitRequests_length R (requestBatches 13 allPaths) w.remote
    have hlen := requestBatches_length 13 allPaths
    rw [show allPaths.length + 13 - 1 = allPaths.length + 12 from by omega] at hlen
    refine ⟨_, _, issueCommitRequests R (requestBatches 13 allPaths) w.remote,
      fetchCommits_eq R allPaths w, ?_, ?_, ?_, ?_, ?_, ?_, ?_⟩
    · intro fuel hfuel
      exact fetchCommitsLoop_eq R fuel allPaths [] _ hfuel
    · rw [runCommitBatches_exchanges]
    · exact (issueCommitRequests_paths R _ _).2.2
    · exact l3 (requestBatches_ne_nil 13 allPaths)
    · rw [← hlen]
      exact l1
    · intro hf
      rw [← hlen]
      exact l2 hf
    · intro hnil
      subst hnil
      have : requestBatches 13 [] = [[]] := by decide
      rw [this]
      simp only [issueCommitRequests]
      cases (R.commits [] w.remote).1 <;> rfl
  · omega

/-! ## Theorems: entry files -/

theorem deleteBody_keys {V : Type} (content : Content V) :
    (deleteBody content).keys = content.keys.filter (fun key => key ≠ "body") := by
  induction content with
  | nil => rfl
  | cons p rest ih =>
    obtain ⟨k, v⟩ := p
    simp only [deleteBody, Content.keys, ne_eq, decide_not] at ih ⊢
    by_cases hk : k = "body"
    · simp [List.filter_cons, hk, ih]
    · simp [List.filter_cons, hk, ih]

theorem deleteBody_get? {V : Type} (content : Content V) (key : String) (h : key ≠ "body") :
    (deleteBody content).get? key = content.get? key := by
  induction content with
  | nil => rfl
  | cons p rest ih =>
    obtain ⟨k, v⟩ := p
    simp only [deleteBody, ne_eq, decide_not] at ih ⊢
    by_cases hk : k = "body"
    · subst hk
      simp [List.filter_cons, Content.get?, Ne.symm h, ih]
    · by_cases hkey : k = key
      · subst hkey
        simp [List.filter_cons, hk, Content.get?]
      · simp [List.filter_cons, hk, Content.get?, hkey, ih]

theorem deleteBody_ne_nil {V : Type} (content : Content V)
    (hkey : ∃ key ∈ content.keys, key ≠ "body") : (deleteBody content).isEmpty = false := by
  obtain ⟨key, hmem, hne⟩ := hkey
  have h1 : key ∈ (deleteBody content).keys := by
    rw [deleteBody_keys]
    simp [List.mem_filter, hmem, hne]
  cases h : deleteBody content with
  | nil => rw [h] at h1; simp [Content.keys] at h1
  | cons p rest => rfl

theorem frontMatterCodec_none {V : Type} (F : Formatters V) (file : FileConfig)
    (h : ¬(file.format = "frontmatter" ∨ file.format = "yaml-frontmatter" ∨
      file.format = "toml-frontmatter" ∨ file.format = "json-frontmatter")) :
    frontMatterCodec F file = none := by
  simp only [not_or] at h
  simp [frontMatterCodec, h.1, h.2.1, h.2.2.1, h.2.2.2]

theorem formatFrontMatter_of_codec {V : Type} (F : Formatters V) (content : Content V)
    (file : FileConfig) (codec : Content V → Outcome String) (text : String)
    (hcodec : frontMatterCodec F file = some codec)
    (hkey : ∃ key ∈ content.keys, key ≠ "body")
    (htext : codec (deleteBody content) = .ok text) :
    (formatFrontMatter F content file).1 =
      .ok ((file.fmDelimiters.getD ("---", "---")).1 ++ "\n" ++ text ++ "\n" ++
        (file.fmDelimiters.getD ("---", "---")).2 ++ "\n" ++ bodyText F content ++ "\n") := by
  simp only [formatFrontMatter, hcodec, deleteBody_ne_nil content hkey, htext]
  rfl

/-- C21: for a content with at least one key besides `body`, and `data` the text that the
codec of the format (YAML with the quote option for `frontmatter` and `yaml-frontmatter`, TOML
for `toml-frontmatter`, JSON for `json-frontmatter`) returns for the content without `body`,
`formatFrontMatter` returns the opening delimiter, a newline, `data`, a newline, the closing
delimiter, a newline, the body text and a newline.  The delimiters are `_file.fmDelimiters`
when given (`---` twice otherwise); the body text is the `body` property when it is a string
and the empty string when it is absent or not a string.  For every other format the result is
the empty string. -/
theorem formatFrontMatter_layout {V : Type} (F : Formatters V) (content : Content V)
    (file : FileConfig) :
    (∃ body,
      (∀ value text, content.get? "body" = some value → F.stringOf value = some text →
        body = text) ∧
      (content.get? "body" = none → body = "") ∧
      (∀ value, content.get? "body" = some value → F.stringOf value = none → body = "") ∧
      ∀ sd ed data, (∃ key ∈ content.keys, key ≠ "body") →
        (file.fmDelimiters = some (sd, ed) ∨
          (file.fmDelimiters = none ∧ sd = "---" ∧ ed = "---")) →
        ((file.format = "frontmatter" ∨ file.format = "yaml-frontmatter") →
          F.formatYAML (deleteBody content) file.yamlQuote = .ok data →
          (formatFrontMatter F content file).1 =
            .ok (sd ++ "\n" ++ data ++ "\n" ++ ed ++ "\n" ++ body ++ "\n")) ∧
        (file.format = "toml-frontmatter" →
          F.formatTOML (deleteBody content) = .ok data →
          (formatFrontMatter F content file).1 =
            .ok (sd ++ "\n" ++ data ++ "\n" ++ ed ++ "\n" ++ body ++ "\n")) ∧
        (file.format = "json-frontmatter" →
          F.formatJSON (deleteBody content) = .ok data →
          (formatFrontMatter F content file).1 =
            .ok (sd ++ "\n" ++ data ++ "\n" ++ ed ++ "\n" ++ body ++ "\n"))) ∧
    (¬(file.format = "frontmatter" ∨ file.format = "yaml-frontmatter" ∨
        file.format = "toml-frontmatter" ∨ file.format = "json-frontmatter") →
      (formatFrontMatter F content file).1 = .ok "") := by
  refine ⟨⟨bodyText F content, ?_, ?_, ?_, ?_⟩, ?_⟩
  · intro value text h1 h2
    simp [bodyText, h1, h2]
  · intro h1
    simp [bodyText, h1]
  · intro value h1 h2
    simp [bodyText, h1, h2]
  · intro sd ed data hkey hd
    have hdel : file.fmDelimiters.getD ("---", "---") = (sd, ed) := by
      rcases hd with h | ⟨h, h1, h2⟩
      · rw [h]; rfl
      · rw [h, h1, h2]; rfl
    refine ⟨?_, ?_, ?_⟩
    · intro hf ht
      have hc : frontMatterCodec F file =
          some (fun content => F.formatYAML content file.yamlQuote) := by
        simp [frontMatterCodec, hf]
      rw [formatFrontMatter_of_codec F content file _ data hc hkey ht, hdel]
    · intro hf ht
      have hc : frontMatterCodec F file = some F.formatTOML := by
        simp [frontMatterCodec, hf]
      rw [formatFrontMatter_of_codec F content file _ data hc hkey ht, hdel]
    · intro hf ht
      have hc : frontMatterCodec F file = some F.formatJSON := by
        simp [frontMatterCodec, hf]
      rw [formatFrontMatter_of_codec F content file _ data hc hkey ht, hdel]
  · intro hf
    simp [formatFrontMatter, frontMatterCodec_none F file hf]

theorem formatFrontMatter_content {V : Type} (F : Formatters V) (content : Content V)
    (file : FileConfig) : (formatFrontMatter F content file).2 = deleteBody content := by
  simp only [formatFrontMatter]
  cases frontMatterCodec F file with
  | none => rfl
  | some codec =>
    simp only
    split
    · rfl
    · cases codec (deleteBody content) <;> rfl

theorem formatEntryFile_content {V : Type} (F : Formatters V)
    (registry : CustomFormatterRegistry V) (content : Content V) (file : FileConfig) :
    (formatEntryFile F registry content file).2 =
      (formatEntryFileAttempt F registry content file).2 := by
  simp only [formatEntryFile]
  rcases h : formatEntryFileAttempt F registry content file with ⟨r, after⟩
  cases r <;> rfl

theorem formatEntryFileAttempt_frontMatter {V : Type} (F : Formatters V)
    (registry : CustomFormatterRegistry V) (content : Content V) (file : FileConfig)
    (hformat : file.format = "frontmatter" ∨ file.format = "yaml-frontmatter" ∨
      file.format = "toml-frontmatter" ∨ file.format = "json-frontmatter") :
    formatEntryFileAttempt F registry content file = formatFrontMatter F content file := by
  have h1 : ¬(file.format = "yaml" ∨ file.format = "yml") := by
    rcases hformat with h | h | h | h <;> rw [h] <;> decide
  have h2 : ¬file.format = "toml" := by
    rcases hformat with h | h | h | h <;> rw [h] <;> decide
  have h3 : ¬file.format = "json" := by
    rcases hformat with h | h | h | h <;> rw [h] <;> decide
  simp only [formatEntryFileAttempt, h1, h2, h3, hformat, if_true, if_false]

/-- C22: for a front-matter format, the content object after `formatFrontMatter` (called
directly or through `formatEntryFile`) has no `body` key, its other keys are those of the
content before the call in the same order, and every key other than `body` has the value it
had before the call. -/
theorem formatFrontMatter_deletes_body {V : Type} (F : Formatters V)
    (registry : CustomFormatterRegistry V) (content : Content V) (file : FileConfig)
    (hformat : file.format = "frontmatter" ∨ file.format = "yaml-frontmatter" ∨
      file.format = "toml-frontmatter" ∨ file.format = "json-frontmatter") :
    ("body" ∉ (formatFrontMatter F content file).2.keys ∧
      (formatFrontMatter F content file).2.keys =
        content.keys.filter (fun key => key ≠ "body") ∧
      ∀ key, key ≠ "body" →
        (formatFrontMatter F content file).2.get? key = content.get? key) ∧
    ("body" ∉ (formatEntryFile F registry content file).2.keys ∧
      (formatEntryFile F registry content file).2.keys =
        content.keys.filter (fun key => key ≠ "body") ∧
      ∀ key, key ≠ "body" →
        (formatEntryFile F registry content file).2.get? key = content.get? key) := by
  have h : "body" ∉ (deleteBody content).keys ∧
      (deleteBody content).keys = content.keys.filter (fun key => key ≠ "body") ∧
      ∀ key, key ≠ "body" → (deleteBody content).get? key = content.get? key := by
    refine ⟨?_, deleteBody_keys content, fun key hk => deleteBody_get? content key hk⟩
    rw [deleteBody_keys]
    simp [List.mem_filter]
  rw [formatEntryFile_content, formatEntryFileAttempt_frontMatter F registry content file hformat,
    formatFrontMatter_content]
  exact ⟨h, h⟩

/-- C22 at the content of the tests: `title`, `published` and `tags` are left. -/
theorem formatFrontMatter_deletes_body_witness :
    (testFile "frontmatter" none).format = "frontmatter" ∧
      (formatFrontMatter (testFormatters "" "") baseContent (testFile "frontmatter" none)).2.keys =
        ["title", "published", "tags"] :=
  ⟨rfl, ((formatFrontMatter_deletes_body (testFormatters "" "") (fun _ => none) baseContent
    (testFile "frontmatter" none) (Or.inl rfl)).1.2.1).trans (by decide)⟩

theorem formatEntryFile_eq {V : Type} (F : Formatters V)
    (registry : CustomFormatterRegistry V) (content : Content V) (file : FileConfig) :
    (formatEntryFile F registry content file).1 =
      match (formatEntryFileAttempt F registry content file).1 with
      | .ok text => .ok text
      | .failed _ => .ok "" := by
  simp only [formatEntryFile]
  rcases h : formatEntryFileAttempt F registry content file with ⟨r, after⟩
  cases r <;> rfl

theorem formatEntryFileAttempt_custom {V : Type} (F : Formatters V)
    (registry : CustomFormatterRegistry V) (content : Content V) (file : FileConfig)
    (hformat : ¬(file.format = "yaml" ∨ file.format = "yml" ∨ file.format = "toml" ∨
      file.format = "json" ∨ file.format = "frontmatter" ∨
      file.format = "yaml-frontmatter" ∨ file.format = "toml-frontmatter" ∨
      file.format = "json-frontmatter")) :
    (formatEntryFileAttempt F registry content file).1 =
      match registry file.format with
      | some formatter => withNewline (formatter content)
      | none => .ok "" := by
  simp only [not_or] at hformat
  obtain ⟨h1, h2, h3, h4, h5, h6, h7, h8⟩ := hformat
  simp only [formatEntryFileAttempt, h1, h2, h3, h4, h5, h6, h7, h8, or_self, if_false]
  cases registry file.format <;> rfl

/-- C23: `formatEntryFile` always returns a text.  The text is empty when the format is
neither built in nor registered, when the serialiser of `yaml`, `yml`, `toml` or `json` or the
registered formatter throws, and when `formatFrontMatter` throws; when the serialiser of
`yaml`, `yml`, `toml` or `json`, or the formatter registered for another format, returns
`out`, the text is `out` followed by one newline. -/
theorem formatEntryFile_never_fails {V : Type} (F : Formatters V)
    (registry : CustomFormatterRegistry V) (content : Content V) (file : FileConfig) :
    (∃ text, (formatEntryFile F registry content file).1 = .ok text) ∧
    (¬(file.format = "yaml" ∨ file.format = "yml" ∨ file.format = "toml" ∨
        file.format = "json" ∨ file.format = "frontmatter" ∨
        file.format = "yaml-frontmatter" ∨ file.format = "toml-frontmatter" ∨
        file.format = "json-frontmatter") →
      (registry file.format = none → (formatEntryFile F registry content file).1 = .ok "") ∧
      (∀ formatter error, registry file.format = some formatter →
        formatter content = .failed error →
        (formatEntryFile F registry content file).1 = .ok "") ∧
      (∀ formatter out, registry file.format = some formatter →
        formatter content = .ok out →
        (formatEntryFile F registry content file).1 = .ok (out ++ "\n"))) ∧
    ((file.format = "yaml" ∨ file.format = "yml") →
      (∀ error, F.formatYAML content file.yamlQuote = .failed error →
        (formatEntryFile F registry content file).1 = .ok "") ∧
      (∀ out, F.formatYAML content file.yamlQuote = .ok out →
        (formatEntryFile F registry content file).1 = .ok (out ++ "\n"))) ∧
    (file.format = "toml" →
      (∀ error, F.formatTOML content = .failed error →
        (formatEntryFile F registry content file).1 = .ok "") ∧
      (∀ out, F.formatTOML content = .ok out →
        (formatEntryFile F registry content file).1 = .ok (out ++ "\n"))) ∧
    (file.format = "json" →
      (∀ error, F.formatJSON content = .failed error →
        (formatEntryFile F registry content file).1 = .ok "") ∧
      (∀ out, F.formatJSON content = .ok out →
        (formatEntryFile F registry content file).1 = .ok (out ++ "\n"))) ∧
    ((file.format = "frontmatter" ∨ file.format = "yaml-frontmatter" ∨
        file.format = "toml-frontmatter" ∨ file.format = "json-frontmatter") →
      (∀ error, (formatFrontMatter F content file).1 = .failed error →
        (formatEntryFile F registry content file).1 = .ok "") ∧
      (∀ out, (formatFrontMatter F content file).1 = .ok out →
        (formatEntryFile F registry content file).1 = .ok out)) := by
  refine ⟨?_, ?_, ?_, ?_, ?_, ?_⟩
  · rw [formatEntryFile_eq]
    cases (formatEntryFileAttempt F registry content file).1 with
    | ok text => exact ⟨text, rfl⟩
    | failed e => exact ⟨"", rfl⟩
  · intro hformat
    rw [formatEntryFile_eq, formatEntryFileAttempt_custom F registry content file hformat]
    refine ⟨?_, ?_, ?_⟩
    · intro h
      rw [h]
    · intro formatter error h1 h2
      rw [h1]
      simp only [h2, withNewline]
    · intro formatter out h1 h2
      rw [h1]
      simp only [h2, withNewline]
  · intro hformat
    rw [formatEntryFile_eq]
    simp only [formatEntryFileAttempt, hformat, if_true]
    constructor
    · intro error h
      rw [h]
      rfl
    · intro out h
      rw [h]
      rfl
  · intro hformat
    rw [formatEntryFile_eq]
    have h1 : ¬(file.format = "yaml" ∨ file.format = "yml") := by rw [hformat]; decide
    simp only [formatEntryFileAttempt, h1, hformat, if_true, if_false]
    constructor
    · intro error h
      rw [h]
      rfl
    · intro out h
      rw [h]
      rfl
  · intro hformat
    rw [formatEntryFile_eq]
    have h1 : ¬(file.format = "yaml" ∨ file.format = "yml") := by rw [hformat]; decide
    have h2 : ¬file.format = "toml" := by rw [hformat]; decide
    simp only [formatEntryFileAttempt, h1, h2, hformat, if_true, if_false]
    constructor
    · intro error h
      rw [h]
      rfl
    · intro out h
      rw [h]
      rfl
  · intro hformat
    rw [formatEntryFile_eq, formatEntryFileAttempt_frontMatter F registry content file hformat]
    constructor
    · intro error h
      rw [h]
    · intro out h
      rw [h]

set_option maxRecDepth 100000 in
/-- The expectations of `Test formatFrontMatter()` in `format.test.js` hold of the model, the
YAML and TOML texts being those of the tests: the default and the custom delimiters for the
three codecs, a content with `body` only, without `body` and with a `body` that is `null`, an
invalid format, and the keys left in the content object. -/
theorem formatFrontMatter_tests :
    (formatFrontMatter
        (testFormatters "title: My Post\npublished: true\ntags:\n  - test\n  - vitest" "")
        baseContent (testFile "frontmatter" none)).1 =
      .ok "---\ntitle: My Post\npublished: true\ntags:\n  - test\n  - vitest\n---\nThis is the body content of the post.\n" ∧
    (formatFrontMatter
        (testFormatters "title: My Post\npublished: true\ntags:\n  - test\n  - vitest" "")
        baseContent (testFile "yaml-frontmatter" (some ("+++", "+++")))).1 =
      .ok "+++\ntitle: My Post\npublished: true\ntags:\n  - test\n  - vitest\n+++\nThis is the body content of the post.\n" ∧
    (formatFrontMatter
        (testFormatters "" "title = \"My Post\"\npublished = true\ntags = [ \"test\", \"vitest\" ]")
        baseContent (testFile "toml-frontmatter" none)).1 =
      .ok "---\ntitle = \"My Post\"\npublished = true\ntags = [ \"test\", \"vitest\" ]\n---\nThis is the body content of the post.\n" ∧
    (formatFrontMatter (testFormatters "" "") baseContent (testFile "json-frontmatter" none)).1 =
      .ok "---\n\x7b\n  \"title\": \"My Post\",\n  \"published\": true,\n  \"tags\": [\n    \"test\",\n    \"vitest\"\n  ]\n\x7d\n---\nThis is the body content of the post.\n" ∧
    (formatFrontMatter (testFormatters "" "") baseContent
        (testFile "json-frontmatter" (some ("\x7b", "\x7d")))).1 =
      .ok "\x7b\n\x7b\n  \"title\": \"My Post\",\n  \"published\": true,\n  \"tags\": [\n    \"test\",\n    \"vitest\"\n  ]\n\x7d\n\x7d\nThis is the body content of the post.\n" ∧
    (formatFrontMatter (testFormatters "" "")
        [("body", .string "Just body content without frontmatter.")]
        (testFile "frontmatter" none)).1 =
      .ok "Just body content without frontmatter.\n" ∧
    (formatFrontMatter (testFormatters "title: My Post\npublished: true" "")
        [("title", .string "My Post"), ("published", .bool true)]
        (testFile "frontmatter" none)).1 =
      .ok "---\ntitle: My Post\npublished: true\n---\n\n" ∧
    (formatFrontMatter (testFormatters "title: My Post" "")
        [("title", .string "My Post"), ("body", .null)] (testFile "frontmatter" none)).1 =
      .ok "---\ntitle: My Post\n---\n\n" ∧
    (formatFrontMatter (testFormatters "" "") baseContent (testFile "invalid-format" none)).1 =
      .ok "" ∧
    (formatFrontMatter (testFormatters "" "") baseContent (testFile "frontmatter" none)).2.keys =
      ["title", "published", "tags"] := by
  decide

set_option maxRecDepth 100000 in
/-- The expectations of `Test formatEntryFile()` in `format.test.js` hold of the model: the
text of a registered custom formatter with a newline, the empty string when `formatJSON`
throws and for an unknown format, the JSON text with a newline, and the `body` key removed
by a front-matter format. -/
theorem formatEntryFile_tests :
    (formatEntryFile (testFormatters "" "")
        (fun format =>
          if format = "customFormat" then some (fun _ => .ok "custom formatted content")
          else none)
        [("title", .string "Test")] (testFile "customFormat" none)).1 =
      .ok "custom formatted content\n" ∧
    (formatEntryFile
        ⟨(testFormatters "" "").stringOf, (testFormatters "" "").formatYAML,
          (testFormatters "" "").formatTOML,
          fun _ => .failed (.typeError "Converting circular structure to JSON")⟩
        (fun _ => none) [("title", .string "Test")] (testFile "json" none)).1 = .ok "" ∧
    (formatEntryFile (testFormatters "" "") (fun _ => none) [("title", .string "Test")]
        (testFile "unknown-format" none)).1 = .ok "" ∧
    (formatEntryFile (testFormatters "" "") (fun _ => none)
        [("title", .string "Test Post"), ("published", .bool true)] (testFile "json" none)).1 =
      .ok "\x7b\n  \"title\": \"Test Post\",\n  \"published\": true\n\x7d\n" ∧
    (formatEntryFile (testFormatters "title: Test Post" "") (fun _ => none)
        [("title", .string "Test Post")] (testFile "yml" none)).1 = .ok "title: Test Post\n" ∧
    (formatEntryFile (testFormatters "title: Test Post" "") (fun _ => none)
        [("title", .string "Test Post"), ("body", .string "This is the body.")]
        (testFile "frontmatter" (some ("---", "---")))).2.keys = ["title"] := by
  decide

/-! ## Theorems: deprecation warnings -/

theorem ownProperty_assignProperty_self (properties : List (String × Bool)) (key : String)
    (h : key ≠ "__proto__") :
    ownProperty (assignProperty properties key true) key = some true := by
  induction properties with
  | nil => simp [assignProperty, ownProperty, h]
  | cons p rest ih =>
    obtain ⟨k, v⟩ := p
    unfold assignProperty
    simp only [h, if_false]
    by_cases hk : k = key
    · simp [hk, ownProperty]
    · simp only [hk, if_false, ownProperty]
      exact ih

theorem ownProperty_assignProperty_ne (properties : List (String × Bool)) (key other : String)
    (h : other ≠ key) :
    ownProperty (assignProperty properties key true) other = ownProperty properties other := by
  induction properties with
  | nil =>
    unfold assignProperty
    by_cases hp : key = "__proto__"
    · simp [hp]
    · simp [hp, ownProperty, Ne.symm h]
  | cons p rest ih =>
    obtain ⟨k, v⟩ := p
    unfold assignProperty
    by_cases hp : key = "__proto__"
    · simp [hp]
    · simp only [hp, if_false]
      by_cases hk : k = key
      · subst hk
        simp [ownProperty, Ne.symm h]
      · simp only [hk, if_false, ownProperty]
        rw [ih]

/-- Inside the test environment nothing changes. -/
theorem warnDeprecations_vitest (calls : List (String × Option String))
    (s : DeprecationState) : warnDeprecations true calls s = s := by
  induction calls generalizing s with
  | nil => rfl
  | cons c cs ih =>
    simp only [warnDeprecations, List.foldl_cons, warnDeprecation, if_true]
    exact ih s

/-- One call outside the test environment with a key that `Object.prototype` does not have:
the warning is emitted if and only if the key has not been marked, with the message passed or
else the default one, and the key is marked afterwards. -/
theorem warnDeprecation_step (key : String) (message : Option String) (s : DeprecationState)
    (hkey : key ∉ objectPrototypeKeys) :
    isWarned (warnDeprecation false key message s) key = true ∧
      (isWarned s key = false →
        (warnDeprecation false key message s).warnings =
          s.warnings ++ [(key, warningArgument key message)]) ∧
      (isWarned s key = true → warnDeprecation false key message s = s) := by
  have hp : key ≠ "__proto__" := by
    intro h
    apply hkey
    rw [h]
    decide
  refine ⟨?_, ?_, ?_⟩
  · cases hw : isWarned s key with
    | true => simp [warnDeprecation, hw]
    | false =>
      simp only [warnDeprecation, hw, Bool.false_eq_true, if_false, Bool.not_false, if_true]
      simp only [isWarned, ownProperty_assignProperty_self _ _ hp]
  · intro hw
    simp [warnDeprecation, hw]
  · intro hw
    simp [warnDeprecation, hw]

/-- A call with another key neither marks nor unmarks a key and emits nothing for it. -/
theorem warnDeprecation_other (vitest : Bool) (key other : String) (message : Option String)
    (s : DeprecationState) (h : other ≠ key) :
    isWarned (warnDeprecation vitest key message s) other = isWarned s other ∧
      (warnDeprecation vitest key message s).warningsFor other = s.warningsFor other := by
  unfold warnDeprecation
  cases vitest with
  | true => simp
  | false =>
    cases hw : isWarned s key with
    | true => simp
    | false =>
      simp only [Bool.false_eq_true, if_false, Bool.not_false, if_true]
      constructor
      · simp only [isWarned, ownProperty_assignProperty_ne _ _ _ h]
      · simp [DeprecationState.warningsFor, List.filter_append, List.filter_cons, Ne.symm h]

/-- Any sequence of calls keeps a marked key marked and emits nothing more for it. -/
theorem warnDeprecations_marked (key : String) (hkey : key ∉ objectPrototypeKeys)
    (calls : List (String × Option String)) (s : DeprecationState)
    (hw : isWarned s key = true) :
    isWarned (warnDeprecations false calls s) key = true ∧
      (warnDeprecations false calls s).warningsFor key = s.warningsFor key := by
  induction calls generalizing s with
  | nil => exact ⟨hw, rfl⟩
  | cons c cs ih =>
    obtain ⟨k, m⟩ := c
    simp only [warnDeprecations, List.foldl_cons]
    by_cases hk : k = key
    · subst hk
      have h3 := (warnDeprecation_step k m s hkey).2.2 hw
      rw [h3]
      exact ih s hw
    · obtain ⟨o1, o2⟩ := warnDeprecation_other false k key m s (Ne.symm hk)
      obtain ⟨i1, i2⟩ := ih (warnDeprecation false k m s) (by rw [o1]; exact hw)
      exact ⟨i1, by rw [← o2]; exact i2⟩

/-- The property for the keys that `Object.prototype` does not have: outside the test
environment, in a run of calls from a state in which the key is not marked and nothing has
been emitted for it, the first call with the key emits one warning (the message passed, or
else the default one) and no later call emits another; if no call has the key, nothing is
emitted for it. -/
theorem warnDeprecations_once (key : String) (hkey : key ∉ objectPrototypeKeys)
    (calls : List (String × Option String)) (s : DeprecationState)
    (hw : isWarned s key = false) (hnone : s.warningsFor key = []) :
    (warnDeprecations false calls s).warningsFor key =
      match calls.find? (fun call => call.1 = key) with
      | some call => [warningArgument key call.2]
      | none => [] := by
  induction calls generalizing s with
  | nil => simpa [warnDeprecations] using hnone
  | cons c cs ih =>
    obtain ⟨k, m⟩ := c
    by_cases hk : k = key
    · subst hk
      simp only [List.find?_cons, decide_True]
      obtain ⟨s1, s2, _⟩ := warnDeprecation_step k m s hkey
      have hrun : warnDeprecations false ((k, m) :: cs) s =
          warnDeprecations false cs (warnDeprecation false k m s) := rfl
      rw [hrun, (warnDeprecations_marked k hkey cs _ s1).2]
      simp only [DeprecationState.warningsFor, s2 hw, List.filter_append, List.map_append]
      simp only [DeprecationState.warningsFor] at hnone
      simp [hnone]
    · obtain ⟨o1, o2⟩ := warnDeprecation_other false k key m s (Ne.symm hk)
      have hrun : warnDeprecations false ((k, m) :: cs) s =
          warnDeprecations false cs (warnDeprecation false k m s) := rfl
      rw [hrun, ih _ (by rw [o1]; exact hw) (by rw [o2]; exact hnone)]
      simp [List.find?_cons, hk]

/-- C25: outside the test environment the first call `warnDeprecation('constructor', 'm')`
emits no warning and leaves the state as it was, because `warnedOnceMap['constructor']` is
the inherited `Object` function, which is truthy; the same holds for `toString` and
`__proto__`, with or without a message.  For the key `yaml_quote` the first call emits the
message passed (or the default one) and the second call emits nothing; inside the test
environment the state is unchanged. -/
theorem warnDeprecation_inherited_key :
    warnDeprecation false "constructor" (some "m") DeprecationState.initial =
        DeprecationState.initial ∧
      (warnDeprecations false [("toString", none), ("__proto__", some "m")]
        DeprecationState.initial).warnings = [] ∧
      (warnDeprecations false [("yaml_quote", some "m"), ("yaml_quote", some "n")]
        DeprecationState.initial).warnings = [("yaml_quote", .text "m")] ∧
      (warnDeprecations false [("other", none), ("other", some "n")]
        DeprecationState.initial).warnings = [("other", .undefined)] ∧
      warnDeprecation true "yaml_quote" (some "m") DeprecationState.initial =
        DeprecationState.initial := by
  decide

/-! ## Theorems: the field walk -/

theorem collectFields_nil (mediaTypes : List String) (collectors : FieldCollectors) :
    collectFields mediaTypes [] collectors = collectors := by
  simp [collectFields]

theorem collectFields_cons (mediaTypes : List String) (entry : FieldEntry)
    (entries : List FieldEntry) (collectors : FieldCollectors) :
    collectFields mediaTypes (entry :: entries) collectors =
      collectFields mediaTypes entries (collectField mediaTypes entry collectors) := by
  simp only [collectFields, collectField, List.filter_cons]
  refine congrArg₂ FieldCollectors.mk ?_ ?_
  · by_cases h1 : entry.fieldConfig.widget ∈ mediaTypes <;> simp [h1]
  · by_cases h2 : entry.fieldConfig.widget = "relation" <;> simp [h2]

theorem collectFields_append (mediaTypes : List String) (xs ys : List FieldEntry)
    (collectors : FieldCollectors) :
    collectFields mediaTypes (xs ++ ys) collectors =
      collectFields mediaTypes ys (collectFields mediaTypes xs collectors) := by
  simp [collectFields, List.filter_append, List.append_assoc]

mutual
/-- The visit of a field classifies the field and the fields below it in pre-order. -/
theorem parseField_eq (mediaTypes : List String) :
    ∀ (field : Field) (keyPath : String) (collectors : FieldCollectors),
      parseField mediaTypes keyPath field collectors =
        collectFields mediaTypes (field.preOrder keyPath) collectors
  | .leaf name widget, keyPath, collectors => by
    simp only [parseField, Field.preOrder, collectFields_cons, collectFields_nil]
  | .object name fields, keyPath, collectors => by
    simp only [parseField, Field.preOrder, collectFields_cons]
    exact parseFields_eq mediaTypes fields _ _
  | .objectTypes name types, keyPath, collectors => by
    simp only [parseField, Field.preOrder, collectFields_cons]
    exact parseTypes_eq mediaTypes types _ _
  | .list name fields, keyPath, collectors => by
    simp only [parseField, Field.preOrder, collectFields_cons]
    exact parseFields_eq mediaTypes fields _ _
  | .listField name field, keyPath, collectors => by
    simp only [parseField, Field.preOrder, collectFields_cons]
    exact parseField_eq mediaTypes field _ _
  | .listTypes name types, keyPath, collectors => by
    simp only [parseField, Field.preOrder, collectFields_cons]
    exact parseTypes_eq mediaTypes types _ _
/-- The walk classifies the fields of the list and the fields below them in pre-order. -/
theorem parseFields_eq (mediaTypes : List String) :
    ∀ (fields : List Field) (keyPath : String) (collectors : FieldCollectors),
      parseFields mediaTypes keyPath fields collectors =
        collectFields mediaTypes (fieldsPreOrder keyPath fields) collectors
  | [], keyPath, collectors => by
    simp only [parseFields, fieldsPreOrder, collectFields_nil]
  | field :: rest, keyPath, collectors => by
    simp only [parseFields, fieldsPreOrder, collectFields_append]
    rw [parseField_eq mediaTypes field, parseFields_eq mediaTypes rest]
/-- The walk through the types classifies their fields in pre-order. -/
theorem parseTypes_eq (mediaTypes : List String) :
    ∀ (types : List (String × List Field)) (keyPath : String) (collectors : FieldCollectors),
      parseTypes mediaTypes keyPath types collectors =
        collectFields mediaTypes (typesPreOrder keyPath types) collectors
  | [], keyPath, collectors => by
    simp only [parseTypes, typesPreOrder, collectFields_nil]
  | (type, fields) :: rest, keyPath, collectors => by
    simp only [parseTypes, typesPreOrder, collectFields_append]
    rw [parseFields_eq mediaTypes fields, parseTypes_eq mediaTypes rest]
end

theorem Meets.mono {p : String} {fields fields' : List Field} {entry : FieldEntry}
    (h : Meets p fields entry) (hsub : ∀ field ∈ fields, field ∈ fields') :
    Meets p fields' entry := by
  cases h with
  | here _ _ field hmem => exact .here p fields' field (hsub _ hmem)
  | object _ _ name subfields _ hmem hrest =>
    exact .object p fields' name subfields entry (hsub _ hmem) hrest
  | list _ _ name subfields _ hmem hrest =>
    exact .list p fields' name subfields entry (hsub _ hmem) hrest
  | listField _ _ name subfield _ hmem hrest =>
    exact .listField p fields' name subfield entry (hsub _ hmem) hrest
  | listTypes _ _ name types type subfields _ hmem ht hrest =>
    exact .listTypes p fields' name types type subfields entry (hsub _ hmem) ht hrest
  | objectTypes _ _ name types type subfields _ hmem ht hrest =>
    exact .objectTypes p fields' name types type subfields entry (hsub _ hmem) ht hrest

mutual
theorem meets_of_mem_preOrder :
    ∀ (field : Field) (keyPath : String) (entry : FieldEntry),
      entry ∈ field.preOrder keyPath → Meets keyPath [field] entry
  | .leaf name widget, keyPath, entry, h => by
    simp only [Field.preOrder, List.mem_singleton] at h
    subst h
    exact .here keyPath _ (.leaf name widget) (List.mem_singleton.mpr rfl)
  | .object name fields, keyPath, entry, h => by
    simp only [Field.preOrder, List.mem_cons] at h
    rcases h with h | h
    · subst h
      exact .here keyPath _ (.object name fields) (List.mem_singleton.mpr rfl)
    · exact .object keyPath _ name fields entry (List.mem_singleton.mpr rfl)
        (meets_of_mem_fieldsPreOrder fields _ entry h)
  | .objectTypes name types, keyPath, entry, h => by
    simp only [Field.preOrder, List.mem_cons] at h
    rcases h with h | h
    · subst h
      exact .here keyPath _ (.objectTypes name types) (List.mem_singleton.mpr rfl)
    · obtain ⟨type, subfields, ht, hm⟩ := meets_of_mem_typesPreOrder types _ entry h
      exact .objectTypes keyPath _ name types type subfields entry
        (List.mem_singleton.mpr rfl) ht hm
  | .list name fields, keyPath, entry, h => by
    simp only [Field.preOrder, List.mem_cons] at h
    rcases h with h | h
    · subst h
      exact .here keyPath _ (.list name fields) (List.mem_singleton.mpr rfl)
    · exact .list keyPath _ name fields entry (List.mem_singleton.mpr rfl)
        (meets_of_mem_fieldsPreOrder fields _ entry h)
  | .listField name field, keyPath, entry, h => by
    simp only [Field.preOrder, List.mem_cons] at h
    rcases h with h | h
    · subst h
      exact .here keyPath _ (.listField name field) (List.mem_singleton.mpr rfl)
    · exact .listField keyPath _ name field entry (List.mem_singleton.mpr rfl)
        (meets_of_mem_preOrder field _ entry h)
  | .listTypes name types, keyPath, entry, h => by
    simp only [Field.preOrder, List.mem_cons] at h
    rcases h with h | h
    · subst h
      exact .here keyPath _ (.listTypes name types) (List.mem_singleton.mpr rfl)
    · obtain ⟨type, subfields, ht, hm⟩ := meets_of_mem_typesPreOrder types _ entry h
      exact .listTypes keyPath _ name types type subfields entry
        (List.mem_singleton.mpr rfl) ht hm
theorem meets_of_mem_fieldsPreOrder :
    ∀ (fields : List Field) (keyPath : String) (entry : FieldEntry),
      entry ∈ fieldsPreOrder keyPath fields → Meets keyPath fields entry
  | [], keyPath, entry, h => by
    simp [fieldsPreOrder] at h
  | field :: rest, keyPath, entry, h => by
    simp only [fieldsPreOrder, List.mem_append] at h
    rcases h with h | h
    · exact (meets_of_mem_preOrder field keyPath entry h).mono (by simp)
    · exact (meets_of_mem_fieldsPreOrder rest keyPath entry h).mono
        (fun f hf => List.mem_cons_of_mem _ hf)
theorem meets_of_mem_typesPreOrder :
    ∀ (types : List (String × List Field)) (keyPath : String) (entry : FieldEntry),
      entry ∈ typesPreOrder keyPath types →
      ∃ type subfields, (type, subfields) ∈ types ∧
        Meets (keyPath ++ "<" ++ type ++ ">") subfields entry
  | [], keyPath, entry, h => by
    simp [typesPreOrder] at h
  | (type, fields) :: rest, keyPath, entry, h => by
    simp only [typesPreOrder, List.mem_append] at h
    rcases h with h | h
    · exact ⟨type, fields, List.mem_cons_self _ _,
        meets_of_mem_fieldsPreOrder fields _ entry h⟩
    · obtain ⟨t, fs, ht, hm⟩ := meets_of_mem_typesPreOrder rest keyPath entry h
      exact ⟨t, fs, List.mem_cons_of_mem _ ht, hm⟩
end

theorem preOrder_head (field : Field) (keyPath : String) :
    ⟨field, joinKeyPath keyPath field.name⟩ ∈ field.preOrder keyPath := by
  cases field <;> simp [Field.preOrder, Field.name]

theorem mem_fieldsPreOrder_of_mem (keyPath : String) (entry : FieldEntry) (field : Field) :
    ∀ fields : List Field, field ∈ fields → entry ∈ field.preOrder keyPath →
      entry ∈ fieldsPreOrder keyPath fields
  | [], h, _ => by simp at h
  | first :: rest, h, he => by
    simp only [fieldsPreOrder, List.mem_append]
    rcases List.mem_cons.mp h with h | h
    · subst h
      exact Or.inl he
    · exact Or.inr (mem_fieldsPreOrder_of_mem keyPath entry field rest h he)

theorem mem_typesPreOrder_of_mem (keyPath : String) (entry : FieldEntry) (type : String)
    (subfields : List Field) :
    ∀ types : List (String × List Field), (type, subfields) ∈ types →
      entry ∈ fieldsPreOrder (keyPath ++ "<" ++ type ++ ">") subfields →
      entry ∈ typesPreOrder keyPath types
  | [], h, _ => by simp at h
  | (t, fs) :: rest, h, he => by
    simp only [typesPreOrder, List.mem_append]
    rcases List.mem_cons.mp h with h | h
    · simp only [Prod.mk.injEq] at h
      obtain ⟨h1, h2⟩ := h
      subst h1 h2
      exact Or.inl he
    · exact Or.inr (mem_typesPreOrder_of_mem keyPath entry type subfields rest h he)

theorem mem_fieldsPreOrder_of_meets {p : String} {fields : List Field} {entry : FieldEntry}
    (h : Meets p fields entry) : entry ∈ fieldsPreOrder p fields := by
  induction h with
  | here p fields field hmem =>
    exact mem_fieldsPreOrder_of_mem p _ field fields hmem (preOrder_head field p)
  | object p fields name subfields entry hmem _ ih =>
    apply mem_fieldsPreOrder_of_mem p entry _ fields hmem
    simp only [Field.preOrder, List.mem_cons]
    exact Or.inr ih
  | list p fields name subfields entry hmem _ ih =>
    apply mem_fieldsPreOrder_of_mem p entry _ fields hmem
    simp only [Field.preOrder, List.mem_cons]
    exact Or.inr ih
  | listField p fields name subfield entry hmem _ ih =>
    apply mem_fieldsPreOrder_of_mem p entry _ fields hmem
    simp only [Field.preOrder, List.mem_cons]
    simp only [fieldsPreOrder, List.append_nil] at ih
    exact Or.inr ih
  | listTypes p fields name types type subfields entry hmem ht _ ih =>
    apply mem_fieldsPreOrder_of_mem p entry _ fields hmem
    simp only [Field.preOrder, List.mem_cons]
    exact Or.inr (mem_typesPreOrder_of_mem _ entry type subfields types ht ih)
  | objectTypes p fields name types type subfields entry hmem ht _ ih =>
    apply mem_fieldsPreOrder_of_mem p entry _ fields hmem
    simp only [Field.preOrder, List.mem_cons]
    exact Or.inr (mem_typesPreOrder_of_mem _ entry type subfields types ht ih)

theorem joinKeyPath_of_ne (keyPath name : String) (h : keyPath ≠ "") :
    joinKeyPath keyPath name = keyPath ++ "." ++ name := by
  simp [joinKeyPath, h]

theorem append_ne_empty (a b : String) (h : b ≠ "") : a ++ b ≠ "" := by
  intro h1
  apply h
  have h2 := congrArg String.data h1
  simp only [String.data_append] at h2
  exact String.ext (List.append_eq_nil.mp h2).2

theorem joinKeyPath_star (p name : String) :
    joinKeyPath (p ++ ".*") name = p ++ ".*." ++ name := by
  rw [joinKeyPath_of_ne _ _ (append_ne_empty p ".*" (by decide))]
  apply String.ext
  simp [String.data_append]

theorem joinKeyPath_type (p type name : String) :
    joinKeyPath (p ++ "<" ++ type ++ ">") name = p ++ "<" ++ type ++ ">." ++ name := by
  rw [joinKeyPath_of_ne _ _ (append_ne_empty _ ">" (by decide))]
  apply String.ext
  simp [String.data_append]

/-- C24: `parseFields` appends to the media fields and to the relation fields of the
collectors the fields that it meets in the field tree whose widget is a media type, and whose
widget is `relation`, and nothing else, in depth-first pre-order of the declaration.  The
fields met and their key paths are: a field of the list walked, with the key path `p.name`
for the context key path `p` (`name` when `p` is empty), and whatever is met among the
subfields of an object field with key path `q` in the context `q`, of a list field with
`fields` or a single `field` in the context `q.*`, of the type `t` of a list field in the
context `q.*<t>` and of the type `t` of an object field in the context `q<t>`.  A list field
`gallery` whose only subfield is the image field `image`, declared by `field` or by `fields`,
yields the one media field with key path `gallery.*.image`. -/
theorem parseFields_collects (mediaTypes : List String) (keyPath : String)
    (fields : List Field) (collectors : FieldCollectors) :
    (parseFields mediaTypes keyPath fields collectors).mediaFields =
        collectors.mediaFields ++
          (fieldsPreOrder keyPath fields).filter
            (fun entry => entry.fieldConfig.widget ∈ mediaTypes) ∧
      (parseFields mediaTypes keyPath fields collectors).relationFields =
        collectors.relationFields ++
          (fieldsPreOrder keyPath fields).filter
            (fun entry => entry.fieldConfig.widget = "relation") ∧
      (∀ entry, entry ∈ fieldsPreOrder keyPath fields ↔ Meets keyPath fields entry) ∧
      (∀ name, joinKeyPath "" name = name) ∧
      (∀ p name, p ≠ "" → joinKeyPath p name = p ++ "." ++ name) ∧
      (∀ q name, joinKeyPath (q ++ ".*") name = q ++ ".*." ++ name) ∧
      (∀ q type name,
        joinKeyPath (q ++ ".*" ++ "<" ++ type ++ ">") name =
          q ++ ".*<" ++ type ++ ">." ++ name) ∧
      (∀ q type name,
        joinKeyPath (q ++ "<" ++ type ++ ">") name = q ++ "<" ++ type ++ ">." ++ name) ∧
      ("image" ∈ mediaTypes → "list" ∉ mediaTypes →
        keyPaths (parseFields mediaTypes "" [.listField "gallery" (.leaf "image" "image")]
          createCollectors).mediaFields = ["gallery.*.image"] ∧
        keyPaths (parseFields mediaTypes "" [.list "gallery" [.leaf "image" "image"]]
          createCollectors).mediaFields = ["gallery.*.image"]) := by
  refine ⟨?_, ?_, ?_, ?_, ?_, ?_, ?_, ?_, ?_⟩
  · rw [parseFields_eq]
    rfl
  · rw [parseFields_eq]
    rfl
  · intro entry
    exact ⟨meets_of_mem_fieldsPreOrder fields keyPath entry, mem_fieldsPreOrder_of_meets⟩
  · intro name
    simp [joinKeyPath]
  · intro p name hp
    exact joinKeyPath_of_ne p name hp
  · exact joinKeyPath_star
  · intro q type name
    rw [joinKeyPath_type]
    apply String.ext
    simp [String.data_append]
  · exact joinKeyPath_type
  · intro himage hlist
    have h1 : joinKeyPath "" "gallery" = "gallery" := by decide
    have h2 : joinKeyPath "gallery.*" "image" = "gallery.*.image" := by decide
    constructor
    · rw [parseFields_eq]
      simp [fieldsPreOrder, Field.preOrder, collectFields, createCollectors, keyPaths,
        List.filter_cons, Field.widget, himage, hlist, h1, h2]
    · rw [parseFields_eq]
      simp [fieldsPreOrder, Field.preOrder, collectFields, createCollectors, keyPaths,
        List.filter_cons, Field.widget, himage, hlist, h1, h2]

set_option maxRecDepth 100000 in
/-- The expectations of the tests of the field collectors in `fields/index.test.js` hold of
the model with the media types `file` and `image`: the key paths of the media fields and of
the relation fields at the top level, in objects, in lists with `fields` and with a single
`field`, in nested structures, in the order of the declaration, and in the types of lists and
of objects. -/
theorem parseFields_tests :
    keyPaths (parseFields ["file", "image"] ""
        [.leaf "cover_image" "image", .leaf "title" "string"] createCollectors).mediaFields =
      ["cover_image"] ∧
    keyPaths (parseFields ["file", "image"] ""
        [.object "content" [.leaf "featured_image" "image", .leaf "text" "text"]]
        createCollectors).mediaFields = ["content.featured_image"] ∧
    keyPaths (parseFields ["file", "image"] ""
        [.object "meta" [.object "settings" [.leaf "thumbnail" "image"]]]
        createCollectors).mediaFields = ["meta.settings.thumbnail"] ∧
    keyPaths (parseFields ["file", "image"] "" [.list "gallery" [.leaf "image" "image"]]
        createCollectors).mediaFields = ["gallery.*.image"] ∧
    keyPaths (parseFields ["file", "image"] "" [.listField "photos" (.leaf "photo" "image")]
        createCollectors).mediaFields = ["photos.*.photo"] ∧
    keyPaths (parseFields ["file", "image"] ""
        [.list "sections" [.object "details" [.leaf "media" "image"]]]
        createCollectors).mediaFields = ["sections.*.details.media"] ∧
    keyPaths (parseFields ["file", "image"] ""
        [.leaf "hero_image" "image", .object "content" [.leaf "image" "image"],
          .list "gallery" [.leaf "photo" "image"]]
        createCollectors).mediaFields = ["hero_image", "content.image", "gallery.*.photo"] ∧
    keyPaths (parseFields ["file", "image"] ""
        [.leaf "hero_image" "image", .object "content" [.leaf "image" "image"],
          .list "gallery" [.leaf "photo" "image"]]
        createCollectors).relationFields = [] ∧
    keyPaths (parseFields ["file", "image"] "" [.leaf "author" "relation"]
        createCollectors).relationFields = ["author"] ∧
    keyPaths (parseFields ["file", "image"] ""
        [.object "meta" [.leaf "related_post" "relation"]]
        createCollectors).relationFields = ["meta.related_post"] ∧
    keyPaths (parseFields ["file", "image"] ""
        [.listField "team_members" (.leaf "member" "relation")]
        createCollectors).relationFields = ["team_members.*.member"] ∧
    keyPaths (parseFields ["file", "image"] ""
        [.list "chapters" [.list "sections" [.leaf "author_reference" "relation"]]]
        createCollectors).relationFields = ["chapters.*.sections.*.author_reference"] ∧
    keyPaths (parseFields ["file", "image"] ""
        [.listTypes "blocks"
          [("image_block", [.leaf "image" "image"]), ("text_block", [.leaf "content" "text"])]]
        createCollectors).mediaFields = ["blocks.*<image_block>.image"] ∧
    keyPaths (parseFields ["file", "image"] ""
        [.objectTypes "components"
          [("featured_post", [.leaf "post_ref" "relation"]),
            ("text_section", [.leaf "title" "string"])]]
        createCollectors).relationFields = ["components<featured_post>.post_ref"] ∧
    keyPaths (parseFields ["file", "image"] ""
        [.listTypes "content_blocks"
          [("image_block", [.leaf "image" "image"]),
            ("related_posts", [.leaf "post" "relation"])]]
        createCollectors).relationFields = ["content_blocks.*<related_posts>.post"] ∧
    keyPaths (parseFields ["file", "image"] ""
        [.listTypes "sections"
          [("hero", [.leaf "background_image" "image", .leaf "featured_article" "relation"]),
            ("gallery", [.listField "images" (.leaf "image" "image")])]]
        createCollectors).mediaFields =
      ["sections.*<hero>.background_image", "sections.*<gallery>.images.*.image"] ∧
    keyPaths (parseFields ["file", "image"] ""
        [.listTypes "sections"
          [("hero", [.leaf "background_image" "image", .leaf "featured_article" "relation"]),
            ("gallery", [.listField "images" (.leaf "image" "image")])]]
        createCollectors).relationFields = ["sections.*<hero>.featured_article"] := by
  decide

end Sveltia
